import Mathlib

/-!
Bitmap indexes of VAST (`src/src/vast/bitmap.h`).

A shallow embedding of the storage policies, the three coders (equality,
binary, range) and the `bitmap` class template, followed by theorems about
what `lookup` returns after a sequence of `push_back` and `append` calls.

Conventions of the embedding:
* a C++ member function that mutates `*this` and returns `bool` becomes a
  function returning `Bool × state`;
* `optional<Bitstream>` becomes `Option bitstream`, a thrown
  `std::runtime_error` becomes `Except.error`;
* template parameters (`Coder`, `Binner`, `std::is_integral<T>`) become
  explicit arguments.
-/

namespace vast

/-! ## Bitstreams -/

/-- Modelled from the spec: `vast/bitstream.h` is not among the sources. A
bitstream is an appendable sequence of bits; the compressed (EWAH) layout is
not represented, only the sequence of bits it denotes. -/
abbrev bitstream := List Bool

namespace bitstream

/-- Modelled from the spec: the constructor `Bitstream{n, bit}`, a bitstream of
`n` copies of `bit`. -/
def make (n : Nat) (bit : Bool) : bitstream := List.replicate n bit

/-- Modelled from the spec: `push_back(bit)`; the capacity failure at
`2^64 - 1` bits is not represented, the call always succeeds. -/
def push_back (bs : bitstream) (bit : Bool) : bitstream := bs ++ [bit]

/-- Modelled from the spec: `append(n, bit)` advances the length by exactly
`n`; the call always succeeds. -/
def append (bs : bitstream) (n : Nat) (bit : Bool) : bitstream :=
  bs ++ List.replicate n bit

/-- Modelled from the spec: bitwise AND (`operator&`, `operator&=`) of two
bitstreams of identical length. -/
def and (a b : bitstream) : bitstream := List.zipWith (fun x y => x && y) a b

/-- Modelled from the spec: bitwise OR of two bitstreams of identical length. -/
def or (a b : bitstream) : bitstream := List.zipWith (fun x y => x || y) a b

/-- Modelled from the spec: complement (`operator~`, and in place `flip()`). -/
def flip (a : bitstream) : bitstream := a.map (fun x => !x)

/-- Modelled from the spec: `find_first()`, the lowest set position, `none`
standing for `npos`. -/
def find_first (a : bitstream) : Option Nat :=
  if a.indexOf true < a.length then some (a.indexOf true) else none

/-- Modelled from the spec: `size()`. -/
def size (a : bitstream) : Nat := a.length

/-- Modelled from the spec: the bit at position `i` (`false` past the end). -/
def test (a : bitstream) (i : Nat) : Bool := a.getD i false

end bitstream

/-- The bit at position `i` of a lookup result, an absent result being read as
"no bit set". -/
def result_bit (r : Option bitstream) (i : Nat) : Bool :=
  match r with
  | none => false
  | some bs => bs.test i

/-- Modelled from the spec: the enumeration `relational_operator` of
`vast/operator.h` (not among the sources). The six comparison operators are
the ones the coders switch on; `match_op` and `in_op` stand for the remaining
enumerators, which every coder sends to its `default:` branch. -/
inductive relational_operator where
  | match_op
  | in_op
  | equal
  | not_equal
  | less
  | less_equal
  | greater
  | greater_equal
  deriving DecidableEq, Repr

/-- The message of the exception thrown by the `default:` branches. -/
def unsupported : String := "unsupported relational operator"

/-! ## Storage policies -/

/-- The struct `detail::list_storage` with its base `storage_policy`: the
ordered list `list_` of (key, bitstream) pairs and the hash table `map_`
from a key to the list node holding it. A list node is identified by its
key, so `map_` is represented by the keys it holds. -/
structure list_storage (T : Type) where
  rows : Nat := 0
  list_ : List (T × bitstream) := []
  map_ : List T := []

namespace list_storage

variable {T : Type} [LinearOrder T]

/-- The call `std::lower_bound(list_.begin(), list_.end(), (x, {}), key_comp_)`
as an index into the list: the first element whose key is not less than `x`.
Here and in the members below the key type is one on which `<` is a strict
total order and `==` is equality (an integral type, a string); the members for
any key type, `double` with NaN included, are `lower_bound_by` and the like. -/
def lower_bound (l : List (T × bitstream)) (x : T) : Nat :=
  (l.takeWhile (fun p => decide (p.1 < x))).length

/-- The second component of `std::equal_range`, as an index into the list: the
first element whose key is greater than `x`. -/
def upper_bound (l : List (T × bitstream)) (x : T) : Nat :=
  (l.takeWhile (fun p => !decide (x < p.1))).length

/-- The member `list_storage::find`: the node `map_` holds for `x`, for a key
type on which `==` is equality (`find_by` for any key type). -/
def find (s : list_storage T) (x : T) : Option bitstream :=
  if x ∈ s.map_ then (s.list_.find? (fun p => decide (p.1 = x))).map Prod.snd
  else none

/-- The member `list_storage::find_bounds`, for a key type on which `<` is a
strict total order (`find_bounds_by` for any key type). -/
def find_bounds (s : list_storage T) (x : T) :
    Option bitstream × Option bitstream :=
  if s.map_.isEmpty then (none, none)
  else
    let first := lower_bound s.list_ x
    let second := upper_bound s.list_ x
    let upper := s.list_[second]?.map Prod.snd
    let lower :=
      if first ≠ 0 then
        match s.list_[first - 1]? with
        | some p => if p.1 < x then some p.2 else none
        | none => none
      else none
    (lower, upper)

/-- The member `list_storage::each` (the mutable overload): `f` is applied to
every (key, bitstream) pair in list order. -/
def each (s : list_storage T) (f : T → bitstream → bitstream) :
    list_storage T :=
  { s with list_ := s.list_.map (fun p => (p.1, f p.1 p.2)) }

/-- The member `list_storage::insert`, for a key type on which `<` is a strict
total order and `==` is equality (`insert_by` for any key type). -/
def insert (s : list_storage T) (x : T) (b : bitstream) :
    Bool × list_storage T :=
  let i := lower_bound s.list_ x
  let emplaced : Bool × list_storage T :=
    let l := s.list_.take i ++ (x, b) :: s.list_.drop i
    if x ∈ s.map_ then (false, { s with list_ := l })
    else (true, { s with list_ := l, map_ := x :: s.map_ })
  match s.list_[i]? with
  | none => emplaced
  | some p => if x < p.1 then emplaced else (false, s)

/-- The member `list_storage::cardinality`. -/
def cardinality (s : list_storage T) : Nat := s.list_.length

end list_storage


/-- The struct `detail::unordered_storage` with its base `storage_policy`. The
hash table `map_` is represented by its (key, bitstream) entries, in some
iteration order; no key occurs twice. -/
structure unordered_storage (T : Type) where
  rows : Nat := 0
  map_ : List (T × bitstream) := []

namespace unordered_storage

variable {T : Type} [DecidableEq T]

/-- The member `unordered_storage::find`, for a key type on which `==` is
equality (`find_by` for any key type). -/
def find (s : unordered_storage T) (x : T) : Option bitstream :=
  (s.map_.find? (fun p => decide (p.1 = x))).map Prod.snd

/-- The member `unordered_storage::each` (the mutable overload). -/
def each (s : unordered_storage T) (f : T → bitstream → bitstream) :
    unordered_storage T :=
  { s with map_ := s.map_.map (fun p => (p.1, f p.1 p.2)) }

/-- The member `unordered_storage::insert`: `map_.emplace(x, b).second`, for
a key type on which `==` is equality (`insert_by` for any key type). -/
def insert (s : unordered_storage T) (x : T) (b : bitstream) :
    Bool × unordered_storage T :=
  if (s.map_.find? (fun p => decide (p.1 = x))).isSome then (false, s)
  else (true, { s with map_ := s.map_ ++ [(x, b)] })

/-- The member `unordered_storage::cardinality`. -/
def cardinality (s : unordered_storage T) : Nat := s.map_.length

end unordered_storage

/-- The struct `detail::vector_storage<uint8_t, Bitstream>` with its base
`storage_policy`; a key is the index it is cast to. -/
structure vector_storage where
  rows : Nat := 0
  vector_ : List (Option bitstream) := []
  cardinality_ : Nat := 0

namespace vector_storage

/-- The member `vector_storage::find`. -/
def find (s : vector_storage) (x : Nat) : Option bitstream :=
  if x ≥ s.vector_.length then none
  else
    match s.vector_[x]? with
    | some (some b) => some b
    | _ => none

/-- The member `vector_storage::each` (the mutable overload): `f(i, *vector_[i])`
for every index `i`; an empty slot, which the source dereferences without a
check, is left as it is. -/
def each (s : vector_storage) (f : Nat → bitstream → bitstream) :
    vector_storage :=
  let indices := List.range s.vector_.length
  { s with vector_ := List.zipWith (fun i o => o.map (f i)) indices s.vector_ }

/-- The member `vector_storage::insert`. -/
def insert (s : vector_storage) (x : Nat) (b : bitstream) :
    Bool × vector_storage :=
  let assign (v : List (Option bitstream)) : Bool × vector_storage :=
    (true, { rows := s.rows, vector_ := v.set x (some b),
             cardinality_ := s.cardinality_ + 1 })
  if x ≥ s.vector_.length then
    assign (s.vector_ ++ List.replicate (x + 1 - s.vector_.length) none)
  else
    match s.vector_[x]? with
    | some (some _) => (false, s)
    | _ => assign s.vector_

/-- The member `vector_storage::cardinality`. -/
def cardinality (s : vector_storage) : Nat := s.cardinality_

end vector_storage

/-! ## Coders -/

/-- The interface a `Coder<T, Bitstream>` template argument offers to
`bitmap`: `encode`, `decode`, `append`, and `store().rows`. -/
structure coder_policy (C T : Type) where
  encode : C → T → Bool × C
  decode : C → T → relational_operator → Except String (Option bitstream)
  append : C → Nat → Bool → Bool × C
  rows : C → Nat

/-- What `std::is_integral<T>` and `std::numeric_limits<T>` provide to the range
coder for an integral `T`: the value `lowest()` and the operation `x - 1`. -/
structure integral_ops (T : Type) where
  lowest : T
  pred : T → T

namespace range_coder

variable {T : Type} [LinearOrder T]

/-- The member `coder::append` for the range coder (storage `list_storage`). -/
def append (s : list_storage T) (n : Nat) (bit : Bool) :
    Bool × list_storage T :=
  let s1 := s.each (fun _ bs => bs.append n bit)
  (true, { s1 with rows := s1.rows + n })

/-- The body of `if (! store_.find(x))` in `range_coder::encode`: the new key
is inserted with a bitstream chosen from its neighbours; the result is the
flag `success` and the store. -/
def insert_seeded (s : list_storage T) (x : T) : Bool × list_storage T :=
  match s.find_bounds x with
  | (some first, some _) => s.insert x first
  | (some _, none) => s.insert x (bitstream.make s.rows true)
  | (none, some _) => s.insert x (bitstream.make s.rows false)
  | (none, none) => s.insert x (bitstream.make s.rows true)

/-- The member `range_coder::encode`, for a key type on which `<` is a strict
total order and `==` is equality (`encode_by` for any key type). -/
def encode (s : list_storage T) (x : T) : Bool × list_storage T :=
  let r : Bool × list_storage T :=
    if (s.find x).isNone then insert_seeded s x else (true, s)
  if !r.1 then (false, r.2)
  else
    let s2 := r.2.each (fun k bs => bs.push_back (decide (x ≤ k)))
    (true, { s2 with rows := s2.rows + 1 })

/-- The `case less_equal` of `range_coder::decode`. -/
def decode_less_equal (s : list_storage T) (x : T) : Option bitstream :=
  match s.find x with
  | some result => some result
  | none =>
    match (s.find_bounds x).1 with
    | some lower => some lower
    | none => none

/-- The `case less` of `range_coder::decode`; `integral` is `none` when
`std::is_integral<T>::value` is false. -/
def decode_less (integral : Option (integral_ops T)) (s : list_storage T)
    (x : T) : Except String (Option bitstream) :=
  match integral with
  | none => .error "operator less requires integral type"
  | some ops =>
    if x = ops.lowest then .ok (decode_less_equal s x)
    else .ok (decode_less_equal s (ops.pred x))

/-- The `case equal` of `range_coder::decode`. -/
def decode_equal (s : list_storage T) (x : T) : Option bitstream :=
  match decode_less_equal s x with
  | none => none
  | some le =>
    match (s.find_bounds x).1 with
    | none => some le
    | some first => some (le.and first.flip)

/-- The member `range_coder::decode`; its recursive calls on another operator
are the calls to the functions above. The key type is one on which `<` is a
strict total order and `==` is equality (`decode_by` for any key type). -/
def decode (integral : Option (integral_ops T)) (s : list_storage T) (x : T) :
    relational_operator → Except String (Option bitstream)
  | .less => decode_less integral s x
  | .less_equal => .ok (decode_less_equal s x)
  | .greater =>
    match decode_less_equal s x with
    | some result => .ok (some result.flip)
    | none => .ok (some (bitstream.make s.rows true))
  | .greater_equal =>
    match decode_less integral s x with
    | .error e => .error e
    | .ok (some result) => .ok (some result.flip)
    | .ok none => .ok (some (bitstream.make s.rows true))
  | .equal => .ok (decode_equal s x)
  | .not_equal =>
    match decode_equal s x with
    | some result => .ok (some result.flip)
    | none => .ok (some (bitstream.make s.rows true))
  | _ => .error unsupported

/-- The range coder as a `Coder` template argument. -/
def policy (integral : Option (integral_ops T)) :
    coder_policy (list_storage T) T where
  encode := encode
  decode := decode integral
  append := append
  rows := fun s => s.rows

end range_coder

namespace equality_coder

variable {T : Type} [DecidableEq T]

/-- The member `coder::append` for the equality coder (storage
`unordered_storage`). -/
def append (s : unordered_storage T) (n : Nat) (bit : Bool) :
    Bool × unordered_storage T :=
  let s1 := s.each (fun _ bs => bs.append n bit)
  (true, { s1 with rows := s1.rows + n })

/-- The member `equality_coder::encode`, for a key type on which `==` is
equality (`encode_by` for any key type). -/
def encode (s : unordered_storage T) (x : T) : Bool × unordered_storage T :=
  let r : Bool × unordered_storage T :=
    if (s.find x).isNone then s.insert x (bitstream.make s.rows false)
    else (true, s)
  if !r.1 then (false, r.2)
  else
    let s2 := r.2.each (fun k bs => bs.push_back (decide (x = k)))
    (true, { s2 with rows := s2.rows + 1 })

/-- The member `equality_coder::decode`, for a key type on which `==` is
equality (`decode_by` for any key type). -/
def decode (s : unordered_storage T) (x : T) :
    relational_operator → Except String (Option bitstream)
  | .equal =>
    match s.find x with
    | some result => .ok (some result)
    | none => .ok none
  | .not_equal =>
    match s.find x with
    | some result => .ok (some result.flip)
    | none => .ok (some (bitstream.make s.rows true))
  | _ => .error unsupported

/-- The equality coder as a `Coder` template argument. -/
def policy : coder_policy (unordered_storage T) T where
  encode := encode
  decode := decode
  append := append
  rows := fun s => s.rows

end equality_coder

/-- An integral C++ type: its width in bits and its signedness. A value of the
type is an integer between `lowest` and `highest`. -/
structure integral_type where
  width : Nat
  is_signed : Bool
  deriving DecidableEq, Repr

namespace integral_type

/-- The constant `std::numeric_limits<T>::digits`: the number of bits of `T`
that are not the sign bit. -/
def digits (t : integral_type) : Nat :=
  if t.is_signed then t.width - 1 else t.width

/-- The value `std::numeric_limits<T>::lowest()`. -/
def lowest (t : integral_type) : Int :=
  if t.is_signed then -(2 ^ (t.width - 1)) else 0

/-- The value `std::numeric_limits<T>::max()`. -/
def highest (t : integral_type) : Int :=
  if t.is_signed then 2 ^ (t.width - 1) - 1 else 2 ^ t.width - 1

/-- The integer `x` is a value of the type. -/
def holds (t : integral_type) (x : Int) : Prop :=
  t.lowest ≤ x ∧ x ≤ t.highest

instance (t : integral_type) (x : Int) : Decidable (t.holds x) := by
  unfold holds; exact inferInstance

/-- The value of type `T` that the mathematical integer `z` is reduced to
(modulo `2^width`, into the range of the type). -/
def wrap (t : integral_type) (z : Int) : Int :=
  if t.is_signed then (z + 2 ^ (t.width - 1)) % 2 ^ t.width - 2 ^ (t.width - 1)
  else z % 2 ^ t.width

/-- What the range coder uses of an integral type: `lowest()` and `x - 1`. -/
def ops (t : integral_type) : integral_ops Int where
  lowest := t.lowest
  pred := fun x => t.wrap (x - 1)

end integral_type

/-- The type `uint8_t`. -/
def uint8_t : integral_type := { width := 8, is_signed := false }

/-- The type `int8_t`. -/
def int8_t : integral_type := { width := 8, is_signed := true }

namespace binary_coder

/-- The expression `(x >> i) & 1` as a condition: `>>` on a signed value is the
arithmetic shift, and `& 1` keeps the lowest bit of the two's complement
representation, which is the remainder modulo 2. -/
def bit (x : Int) (i : Nat) : Bool := decide ((x >>> i) % 2 ≠ 0)

/-- The constructor `binary_coder()`: one empty bitstream per index below
`bits`, where `bits = std::numeric_limits<T>::digits`. -/
def init (t : integral_type) : vector_storage :=
  (List.range t.digits).foldl (fun s i => (s.insert i []).2) {}

/-- The member `coder::append` for the binary coder (storage
`vector_storage`). -/
def append (s : vector_storage) (n : Nat) (bit : Bool) :
    Bool × vector_storage :=
  let s1 := s.each (fun _ bs => bs.append n bit)
  (true, { s1 with rows := s1.rows + n })

/-- The member `binary_coder::encode`. -/
def encode (s : vector_storage) (x : Int) : Bool × vector_storage :=
  let s1 := s.each (fun i bs => bs.push_back (bit x i))
  (true, { s1 with rows := s1.rows + 1 })

/-- One turn of the loop in the `case equal` of `binary_coder::decode`:
`result &= ((x >> i) & 1) ? *store_.find(i) : ~*store_.find(i)`. A null
`find(i)`, which the source dereferences without a check, is an error. -/
def decode_step (s : vector_storage) (x : Int) (result : bitstream) (i : Nat) :
    Except String bitstream :=
  match s.find i with
  | some b => .ok (result.and (if bit x i then b else b.flip))
  | none => .error "null bitstream"

/-- The `case equal` of `binary_coder::decode`. -/
def decode_equal (t : integral_type) (s : vector_storage) (x : Int) :
    Except String (Option bitstream) :=
  match (List.range t.digits).foldlM (decode_step s x)
      (bitstream.make s.rows true) with
  | .error e => .error e
  | .ok result =>
    if result.find_first = none then .ok none else .ok (some result)

/-- The member `binary_coder::decode`. -/
def decode (t : integral_type) (s : vector_storage) (x : Int) :
    relational_operator → Except String (Option bitstream)
  | .equal => decode_equal t s x
  | .not_equal =>
    match decode_equal t s x with
    | .error e => .error e
    | .ok (some result) => .ok (some result.flip)
    | .ok none => .ok (some (bitstream.make s.rows true))
  | _ => .error unsupported

/-- The binary coder over the integral type `t` as a `Coder` template
argument. -/
def policy (t : integral_type) : coder_policy vector_storage Int where
  encode := encode
  decode := decode t
  append := append
  rows := fun s => s.rows

end binary_coder

/-! ## Binners -/

/-- The call operator of `null_binner`: the identity. -/
def null_binner {T : Type} (x : T) : T := x

/-- The data members of `precision_binner<T>` for an integral `T`:
`integral_`, of type `T`, and `fractional_`, a `double` that only ever holds
`0.0` or the value of `integral_` and is represented by that integer. -/
structure precision_binner where
  integral_ : Int
  fractional_ : Int := 0
  deriving DecidableEq, Repr

namespace precision_binner

/-- The constructor `precision_binner(int precision)` for the integral type
`t`. The library call `std::pow(10, n)` is taken to return the exact power of
ten; its conversion to `T` is the reduction `t.wrap` (the identity whenever the
power is a value of `T`). -/
def make (t : integral_type) (precision : Int) : precision_binner :=
  let integral : Int :=
    t.wrap (10 ^ (if precision < 0 then -precision else precision).toNat)
  { integral_ := integral,
    fractional_ := if precision < 0 then integral else 0 }

/-- The overload `dispatch(T x, std::false_type)`: `x / integral_`, the integer
division of C++, which truncates toward zero; the quotient is converted back
to `T`. -/
def dispatch (t : integral_type) (b : precision_binner) (x : Int) : Int :=
  t.wrap (Int.tdiv x b.integral_)

/-- The call operator of `precision_binner<T>` for an integral `T`
(`is_double<T>` is `std::false_type`). -/
def call (t : integral_type) (b : precision_binner) (x : Int) : Int :=
  dispatch t b x

end precision_binner

/-! ## The bitmap -/

/-- The data members of the class template `bitmap`: the coder and the validity
bitstream (the binner is stateless here and passed as a function). -/
structure bitmap (C : Type) where
  coder_ : C
  valid_ : bitstream := []

namespace bitmap

variable {C T : Type}

/-- The member `bitmap::push_back`. -/
def push_back (cp : coder_policy C T) (binner : T → T) (bm : bitmap C) (x : T) :
    Bool × bitmap C :=
  let r := cp.encode bm.coder_ (binner x)
  if r.1 then (true, { coder_ := r.2, valid_ := bm.valid_.push_back true })
  else (false, { bm with coder_ := r.2 })

/-- The member `bitmap::append`. -/
def append (cp : coder_policy C T) (bm : bitmap C) (n : Nat) (bit : Bool) :
    Bool × bitmap C :=
  let r := cp.append bm.coder_ n bit
  (r.1, { coder_ := r.2, valid_ := bm.valid_.append n bit })

/-- The member `bitmap::lookup`. -/
def lookup (cp : coder_policy C T) (binner : T → T) (bm : bitmap C)
    (op : relational_operator) (x : T) : Except String (Option bitstream) :=
  match cp.decode bm.coder_ (binner x) op with
  | .error e => .error e
  | .ok (some result) => .ok (some (result.and bm.valid_))
  | .ok none => .ok none

/-- The member `bitmap::size`. -/
def size (cp : coder_policy C T) (bm : bitmap C) : Nat := cp.rows bm.coder_

end bitmap

/-! ## Call sequences -/

/-- One mutating call on a bitmap. -/
inductive bitmap_op (T : Type) where
  | push_back (x : T)
  | append (n : Nat) (bit : Bool)

/-- The bitmap after one call (the returned flag is dropped). -/
def apply_op {C T : Type} (cp : coder_policy C T) (binner : T → T)
    (bm : bitmap C) : bitmap_op T → bitmap C
  | .push_back x => (bm.push_back cp binner x).2
  | .append n bit => (bm.append cp n bit).2

/-- The bitmap after a sequence of calls, starting from `init`. -/
def run_ops {C T : Type} (cp : coder_policy C T) (binner : T → T)
    (init : bitmap C) (ops : List (bitmap_op T)) : bitmap C :=
  ops.foldl (apply_op cp binner) init

/-- What a sequence of calls wrote at each position: `some x` where
`push_back(x)` wrote, `none` at the positions of a gap. -/
def written {T : Type} : List (bitmap_op T) → List (Option T)
  | [] => []
  | .push_back x :: ops => some x :: written ops
  | .append n _ :: ops => List.replicate n none ++ written ops

/-- The call is a `push_back` or an `append` of `false` bits. -/
def bitmap_op.gap_false {T : Type} : bitmap_op T → Bool
  | .push_back _ => true
  | .append _ bit => !bit

/-- Every `append` of the sequence appends `false` bits. -/
def gaps_false {T : Type} (ops : List (bitmap_op T)) : Prop :=
  ∀ o ∈ ops, o.gap_false = true

instance {T : Type} (ops : List (bitmap_op T)) : Decidable (gaps_false ops) := by
  unfold gaps_false; exact inferInstance

/-- A lookup result as a bitstream, an absent result being read as the all-zero
bitstream of length `n`. -/
def result_or_zeros (n : Nat) (r : Option bitstream) : bitstream :=
  match r with
  | some b => b
  | none => bitstream.make n false

/-- The type `int64_t`. -/
def int64_t : integral_type := { width := 64, is_signed := true }

/-- The empty range-coded bitmap. -/
def range_bitmap (T : Type) : bitmap (list_storage T) := { coder_ := {} }

/-- The empty equality-coded bitmap. -/
def equality_bitmap (T : Type) : bitmap (unordered_storage T) :=
  { coder_ := {} }

/-- The empty binary-coded bitmap over the integral type `t`. -/
def binary_bitmap (t : integral_type) : bitmap vector_storage :=
  { coder_ := binary_coder.init t }

/-- The calls `push_back(0)`, `push_back(5)` on a `uint8_t` bitmap. -/
def uint8_ops : List (bitmap_op Int) := [.push_back 0, .push_back 5]

/-- The calls `push_back(-128)`, `push_back(5)` on an `int8_t` bitmap. -/
def int8_ops : List (bitmap_op Int) := [.push_back (-128), .push_back 5]

/-- Some calls on a `uint8_t` bitmap, with a gap. -/
def uint8_gap_ops : List (bitmap_op Int) :=
  [.push_back 128, .push_back 5, .append 2 false, .push_back 0]

/-- The call `push_back(10)` on an integer bitmap. -/
def single_ops : List (bitmap_op Int) := [.push_back 10]

/-- The store of the range-coded integer bitmap after `push_back(10)`. -/
def single_store : list_storage Int :=
  (run_ops (range_coder.policy (some int64_t.ops)) null_binner
    (range_bitmap Int) single_ops).coder_

/-- Some calls on an integer bitmap, with a gap of two positions. -/
def gap_ops : List (bitmap_op Int) :=
  [.push_back 3, .append 2 false, .push_back 7]

/-- The calls of scenario S1. -/
def s1_ops : List (bitmap_op Int) :=
  [.push_back 10, .push_back 20, .push_back 15, .push_back 10, .push_back 25]

/-- The calls of scenario S2. -/
def s2_ops : List (bitmap_op String) :=
  [.push_back "a", .push_back "b", .push_back "a"]

/-! ## The bitmap specialization for `bool` -/

/-- The data members of the specialization `bitmap<bool, Bitstream, Coder,
Binner>`: the bitstream of values and the validity bitstream. -/
structure bool_bitmap where
  bool_ : bitstream := []
  valid_ : bitstream := []

namespace bool_bitmap

/-- The member `bitmap<bool>::push_back`. -/
def push_back (bm : bool_bitmap) (x : Bool) : Bool × bool_bitmap :=
  (true, { bool_ := bm.bool_.push_back x, valid_ := bm.valid_.push_back true })

/-- The member `bitmap<bool>::append`. -/
def append (bm : bool_bitmap) (n : Nat) (bit : Bool) : Bool × bool_bitmap :=
  (true, { bool_ := bm.bool_.append n bit, valid_ := bm.valid_.append n bit })

/-- The member `bitmap<bool>::lookup`. -/
def lookup (bm : bool_bitmap) (op : relational_operator) (x : Bool) :
    Except String (Option bitstream) :=
  match op with
  | .not_equal =>
    .ok (some ((if x then bm.bool_.flip else bm.bool_).and bm.valid_))
  | .equal =>
    .ok (some ((if x then bm.bool_ else bm.bool_.flip).and bm.valid_))
  | _ => .error unsupported

/-- The member `bitmap<bool>::size`. -/
def size (bm : bool_bitmap) : Nat := bm.bool_.size

end bool_bitmap

/-- The `bool` bitmap after one call (the returned flag is dropped). -/
def bool_apply_op (bm : bool_bitmap) : bitmap_op Bool → bool_bitmap
  | .push_back x => (bm.push_back x).2
  | .append n bit => (bm.append n bit).2

/-- The `bool` bitmap after a sequence of calls, starting from `init`. -/
def bool_run_ops (init : bool_bitmap) (ops : List (bitmap_op Bool)) :
    bool_bitmap :=
  ops.foldl bool_apply_op init

/-- The state of a `bool` bitmap agrees with what was written. -/
structure bool_inv (bm : bool_bitmap) (w : List (Option Bool)) : Prop where
  len : bm.bool_.length = w.length
  valid_eq : bm.valid_ = w.map Option.isSome
  bits : ∀ (i : Nat) (y : Bool), w[i]? = some (some y) → bm.bool_.test i = y

/-! ## Sequences of inserts into a storage -/

/-- The ordered storage after a sequence of `insert(x, b)` calls on an empty
one (the returned flags are dropped). -/
def list_storage.build {T : Type} [LinearOrder T]
    (ins : List (T × bitstream)) : list_storage T :=
  ins.foldl (fun s p => (s.insert p.1 p.2).2) {}

/-- The hash storage after a sequence of `insert(x, b)` calls on an empty
one. -/
def unordered_storage.build {T : Type} [DecidableEq T]
    (ins : List (T × bitstream)) : unordered_storage T :=
  ins.foldl (fun s p => (s.insert p.1 p.2).2) {}

/-- The vector storage after a sequence of `insert(x, b)` calls on an empty
one. -/
def vector_storage.build (ins : List (Nat × bitstream)) : vector_storage :=
  ins.foldl (fun s p => (s.insert p.1 p.2).2) {}

/-- The ordered storage is well formed: the list is strictly ordered by key and
the hash table holds exactly the keys of the list. -/
def list_storage.wf {T : Type} [LinearOrder T] (s : list_storage T) : Prop :=
  s.list_.Pairwise (fun p q => p.1 < q.1) ∧
    ∀ x, x ∈ s.map_ ↔ ∃ b, (x, b) ∈ s.list_

/-- Every slot below `n` of the vector storage holds a bitstream. -/
def vector_storage.filled (s : vector_storage) (n : Nat) : Prop :=
  ∀ i, i < n → ∃ b, s.vector_[i]? = some (some b)

/-- The calls of a sequence with the binner applied to every pushed value. -/
def binned {T : Type} (binner : T → T) : List (bitmap_op T) → List (bitmap_op T)
  | [] => []
  | .push_back x :: ops => .push_back (binner x) :: binned binner ops
  | .append n bit :: ops => .append n bit :: binned binner ops

/-- The length accounting of `push_back` and `append` on the bitmap `bm`:
`push_back(x)` returns true, increases `size()` by 1 and appends one true bit
to the validity bitstream; `append(n, bit)` returns true and increases
`size()` and the length of the validity bitstream by `n`; no call decreases
`size()`. -/
def length_accounting {C T : Type} (cp : coder_policy C T) (binner : T → T)
    (bm : bitmap C) : Prop :=
  (∀ x, (bm.push_back cp binner x).1 = true ∧
    (bm.push_back cp binner x).2.size cp = bm.size cp + 1 ∧
    (bm.push_back cp binner x).2.valid_ = bm.valid_.push_back true) ∧
  (∀ n bit, (bm.append cp n bit).1 = true ∧
    (bm.append cp n bit).2.size cp = bm.size cp + n ∧
    (bm.append cp n bit).2.valid_.length = bm.valid_.length + n) ∧
  (∀ o, bm.size cp ≤ (apply_op cp binner bm o).size cp)

/-- The length accounting of `push_back` and `append` on the `bool` bitmap
`bm`, as in `length_accounting`. -/
def bool_length_accounting (bm : bool_bitmap) : Prop :=
  (∀ x, (bm.push_back x).1 = true ∧
    (bm.push_back x).2.size = bm.size + 1 ∧
    (bm.push_back x).2.valid_ = bm.valid_.push_back true) ∧
  (∀ n bit, (bm.append n bit).1 = true ∧
    (bm.append n bit).2.size = bm.size + n ∧
    (bm.append n bit).2.valid_.length = bm.valid_.length + n) ∧
  (∀ o, bm.size ≤ (bool_apply_op bm o).size)

/-- The seeding rule of the range coder as the specification words it, for a
value `v` that is not yet a key and `(L, U) = find_bounds(v)`: a copy of the
bitstream of `L` if both exist, all true of length `rows` if only `L` exists,
all false of length `rows` if only `U` exists, all true of length `rows` if
neither exists. -/
def range_coder.seed_rule {T : Type} [LinearOrder T] (s : list_storage T)
    (v : T) : bitstream :=
  match (s.find_bounds v).1, (s.find_bounds v).2 with
  | some l, some _ => l
  | some _, none => bitstream.make s.rows true
  | none, some _ => bitstream.make s.rows false
  | none, none => bitstream.make s.rows true

/-- The insert laws of a storage policy with members `find`, `insert` and
`cardinality`, for the storage `s` reached by inserting the pairs `ins` into
an empty one: `cardinality()` is the number of distinct values inserted, a
value is stored exactly when it was inserted, `insert(x, b)` returns true
exactly when `x` was not inserted before, and an insert that returns false
leaves the storage (hence the stored bitstream and the cardinality) as it
was. -/
def storage_laws {S K : Type} [DecidableEq K]
    (find : S → K → Option bitstream)
    (insert : S → K → bitstream → Bool × S) (cardinality : S → Nat)
    (ins : List (K × bitstream)) (s : S) : Prop :=
  cardinality s = (ins.map Prod.fst).dedup.length ∧
  (∀ x, (find s x).isSome = true ↔ x ∈ ins.map Prod.fst) ∧
  (∀ x b, (insert s x b).1 = true ↔ x ∉ ins.map Prod.fst) ∧
  (∀ x b, (insert s x b).1 = false →
    (insert s x b).2 = s ∧ find (insert s x b).2 x = find s x ∧
      cardinality (insert s x b).2 = cardinality s)

/-- The lookup result `res` is masked by validity: when it is present, its
length is `n` and no bit is set at a position that `w` records as a gap. -/
def validity_masked {T : Type} (w : List (Option T)) (n : Nat)
    (res : Except String (Option bitstream)) : Prop :=
  ∀ r, res = .ok (some r) →
    r.length = n ∧ ∀ (i : Nat), w[i]? = some none → r.test i = false

/-! ## Values, events and offsets -/

/-- Modelled from the spec: the type kinds of a value (the enumeration
`value_type`), restricted to the kinds that `index_record` tells apart and the
kinds of the values indexed in this development. -/
inductive value_type where
  | invalid_type
  | bool_type
  | int_type
  | time_point_type
  | string_type
  | table_type
  | record_type
  deriving DecidableEq, Repr

mutual
/-- Modelled from the spec: a value, tagged by its type kind. The invalid value
holds no data and every other value holds data of its kind; the content of a
table is left out, since no code of this development reads it. -/
inductive value where
  | invalid
  | bool (b : Bool)
  | int (z : Int)
  | time_point (t : Int)
  | string (s : String)
  | table
  | record (r : record)
/-- Modelled from the spec: a record, the ordered sequence of its field
values. -/
inductive record where
  | nil
  | cons (v : value) (rest : record)
end

namespace value

/-- The member `value::which`: the type kind of the value. -/
def which : value → value_type
  | .invalid => .invalid_type
  | .bool _ => .bool_type
  | .int _ => .int_type
  | .time_point _ => .time_point_type
  | .string _ => .string_type
  | .table => .table_type
  | .record _ => .record_type

/-- The member `value::invalid`: the value is the invalid one. -/
def is_invalid (v : value) : Bool := decide (v.which = .invalid_type)

/-- The conversion of a value to `bool`: the value holds data. -/
def to_bool (v : value) : Bool := !v.is_invalid

/-- The number held by a value of an arithmetic kind. -/
def arithmetic : value → Option Int
  | .int z => some z
  | .time_point t => some t
  | _ => none

end value

namespace record

/-- The member `record::empty`. -/
def empty : record → Bool
  | .nil => true
  | .cons _ _ => false

/-- The number of fields of a record. -/
def size : record → Nat
  | .nil => 0
  | .cons _ rest => rest.size + 1

/-- The field at position `i` of a record, counting from 0. -/
def get : record → Nat → Option value
  | .nil, _ => none
  | .cons v _, 0 => some v
  | .cons _ rest, i + 1 => rest.get i

/-- The record with the given field values. -/
def of_list : List value → record
  | [] => .nil
  | v :: vs => .cons v (of_list vs)

end record

/-- Modelled from the spec: an event, the tuple of its id, its timestamp, its
name and its record of field values (the class `event` derives from
`record`). -/
structure event where
  id : Nat := 0
  timestamp : Int := 0
  name : String := ""
  fields : record := .nil

/-- The member `event::empty`, inherited from `record`. -/
def event.empty (e : event) : Bool := e.fields.empty

/-- Modelled from the spec: an offset, a finite sequence of non-negative
integers (a `std::vector<size_t>`). -/
abbrev offset := List Nat

namespace offset

/-- The call `o.push_back(x)`. -/
def push_back (o : offset) (x : Nat) : offset := o ++ [x]

/-- The call `o.pop_back()`. -/
def pop_back (o : offset) : offset := o.dropLast

/-- The statement `++o.back()` on a non-empty offset. -/
def incr_back (o : offset) : offset :=
  match o.getLast? with
  | some x => o.dropLast ++ [x + 1]
  | none => o

end offset

/-- The field value at a positional path of a record: each component of the
path is the 0-based position of a field among all fields of its enclosing
record. -/
def record.at_path : record → List Nat → Option value
  | _, [] => none
  | r, [i] => r.get i
  | r, i :: j :: p =>
    match r.get i with
    | some (.record inner) => inner.at_path (j :: p)
    | _ => none

/-- Modelled from the spec: the C `assert` macro. With assertions enabled a
false condition aborts the program; with `NDEBUG` defined the macro expands to
nothing. -/
def assert (assertions : Bool) (cond : Bool) : Except String Unit :=
  if assertions && !cond then .error "assertion failed" else .ok ()

/-- The outcome of dereferencing a null pointer. -/
def null_dereference : String := "null pointer dereference"

/-- The outcome of reading a value as data of another kind. -/
def bad_value_access : String := "value of another kind"

/-! ## Bitmap indexes -/

/-- Modelled from the spec: a bitmap index, a bitmap over the values of one
type kind behind the interface `bitmap_index`. A boolean index holds the
`bool` bitmap, an arithmetic index a range-coded bitmap with an optional
precision binner, and a string index an equality-coded bitmap. -/
inductive bitmap_index where
  | boolean (bm : bool_bitmap)
  | arithmetic (k : value_type) (binner : Option precision_binner)
      (bm : bitmap (list_storage Int))
  | string (bm : bitmap (unordered_storage String))

namespace bitmap_index

/-- The coder of an arithmetic index: the range coder over `int64_t`. -/
def range_policy : coder_policy (list_storage Int) Int :=
  range_coder.policy (some int64_t.ops)

/-- The binner of an arithmetic index: the precision binner if there is one,
the identity otherwise. -/
def bin (binner : Option precision_binner) (x : Int) : Int :=
  match binner with
  | none => null_binner x
  | some b => b.call int64_t x

/-- The type kind of the values an index holds. -/
def kind : bitmap_index → value_type
  | .boolean _ => .bool_type
  | .arithmetic k _ _ => k
  | .string _ => .string_type

/-- Modelled from the spec: the factory `bitmap_index::create`, which makes an
empty index for values of the kind `k`; there is no index for the kinds
invalid, table and record (a null pointer). -/
def create : value_type → Option bitmap_index
  | .bool_type => some (.boolean {})
  | .int_type => some (.arithmetic .int_type none (range_bitmap Int))
  | .time_point_type =>
    some (.arithmetic .time_point_type none (range_bitmap Int))
  | .string_type => some (.string (equality_bitmap String))
  | _ => none

/-- The member `bitmap_index::size`: the size of the bitmap. -/
def size : bitmap_index → Nat
  | .boolean bm => bm.size
  | .arithmetic _ _ bm => bm.size range_policy
  | .string bm => bm.size equality_coder.policy

/-- The validity bitstream of the bitmap of an index. -/
def valid : bitmap_index → bitstream
  | .boolean bm => bm.valid_
  | .arithmetic _ _ bm => bm.valid_
  | .string bm => bm.valid_

/-- The member `bitmap_index::append`: `append(n, bit)` on the bitmap. -/
def append (b : bitmap_index) (n : Nat) (bit : Bool) : Bool × bitmap_index :=
  match b with
  | .boolean bm => ((bm.append n bit).1, .boolean (bm.append n bit).2)
  | .arithmetic k bn bm =>
    ((bm.append range_policy n bit).1,
      .arithmetic k bn (bm.append range_policy n bit).2)
  | .string bm =>
    ((bm.append equality_coder.policy n bit).1,
      .string (bm.append equality_coder.policy n bit).2)

/-- The push of a value onto the bitmap of an index, at the next position; a
value of another kind than the index holds is refused. -/
def push_back_impl (b : bitmap_index) (v : value) : Bool × bitmap_index :=
  match b, v with
  | .boolean bm, .bool x => ((bm.push_back x).1, .boolean (bm.push_back x).2)
  | .arithmetic k bn bm, v =>
    match v.arithmetic with
    | some z =>
      if v.which = k then
        ((bm.push_back range_policy (bin bn) z).1,
          .arithmetic k bn (bm.push_back range_policy (bin bn) z).2)
      else (false, .arithmetic k bn bm)
    | none => (false, .arithmetic k bn bm)
  | .string bm, .string s =>
    ((bm.push_back equality_coder.policy null_binner s).1,
      .string (bm.push_back equality_coder.policy null_binner s).2)
  | b, _ => (false, b)

/-- Modelled from the spec: the member `bitmap_index::push_back(v, id)` with
the positional append semantics: the value is written at position `id` by
appending `id - size()` gap bits first. A position below the current size
cannot be written: the call returns false and leaves the index as it is. -/
def push_back (b : bitmap_index) (v : value) (id : Nat) : Bool × bitmap_index :=
  if id < b.size then (false, b)
  else
    let gap := b.append (id - b.size) false
    if gap.1 then gap.2.push_back_impl v else (false, gap.2)

/-- Modelled from the spec: the member `bitmap_index::lookup(op, v)`, the
lookup on the bitmap with the value read as data of the kind of the index. -/
def lookup (b : bitmap_index) (op : relational_operator) (v : value) :
    Except String (Option bitstream) :=
  match b, v with
  | .boolean bm, .bool x => bm.lookup op x
  | .arithmetic k bn bm, v =>
    match v.arithmetic with
    | some z =>
      if v.which = k then bm.lookup range_policy (bin bn) op z
      else .error bad_value_access
    | none => .error bad_value_access
  | .string bm, .string s => bm.lookup equality_coder.policy null_binner op s
  | _, _ => .error bad_value_access

end bitmap_index

/-! ## The expression tree -/

/-- Modelled from the spec: the nodes of an expression tree that the queriers
of the event indexes visit. The operands of a relation are `operands[0]`, the
left one, and `operands[1]`, the right one. -/
inductive ast where
  | constant (val : value)
  | relation (op : relational_operator) (lhs rhs : ast)
  | name_extractor
  | timestamp_extractor
  | id_extractor
  | offset_extractor (off : offset)
  | type_extractor (type : value_type)

/-- The data members of a querier (`event_meta_index::querier` and
`event_arg_index::querier` declare the same ones): the result, a bitstream
that is empty (`none`) until one is assigned, and the pointers `val` and `op`,
null (`none`) at first. -/
structure querier where
  result : Option bitstream := none
  val : Option value := none
  op : Option relational_operator := none

/-- The statement `if (auto r = bmi.lookup(*op, *val)) result = std::move(*r);`
of a querier, after `assert(op); assert(val);`. -/
def querier.assign (assertions : Bool) (q : querier) (bmi : bitmap_index) :
    Except String querier :=
  match assert assertions q.op.isSome, assert assertions q.val.isSome with
  | .ok _, .ok _ =>
    match q.op, q.val with
    | some op, some val =>
      match bmi.lookup op val with
      | .error e => .error e
      | .ok (some r) => .ok { q with result := some r }
      | .ok none => .ok q
    | _, _ => .error null_dereference
  | .error e, _ => .error e
  | _, .error e => .error e

/-! ## The meta index -/

/-- The data members of `event_meta_index`: the bitmap indexes of the
timestamps and of the names. -/
structure event_meta_index where
  timestamp_ : bitmap_index
  name_ : bitmap_index

namespace event_meta_index

/-- The constructor of `event_meta_index`. Modelled from the spec: the
timestamp index is range-coded with the precision binner `binner`, the name
index is equality-coded. -/
def make (binner : Option precision_binner) : event_meta_index :=
  { timestamp_ :=
      ((bitmap_index.arithmetic .time_point_type binner
        (range_bitmap Int)).append 1 false).2,
    name_ := ((bitmap_index.string (equality_bitmap String)).append 1 false).2 }

/-- The member `event_meta_index::index`. -/
def index (idx : event_meta_index) (e : event) : Bool × event_meta_index :=
  let t := idx.timestamp_.push_back (.time_point e.timestamp) e.id
  if t.1 then
    let n := idx.name_.push_back (.string e.name) e.id
    (n.1, { timestamp_ := t.2, name_ := n.2 })
  else (false, { idx with timestamp_ := t.2 })

/-- The visit of a node by `event_meta_index::querier`; the nodes the querier
does not override are visited by `expr::default_const_visitor`, which does
nothing. -/
def visit (assertions : Bool) (idx : event_meta_index) :
    ast → querier → Except String querier
  | .constant c, q => .ok { q with val := some c }
  | .relation op lhs rhs, q =>
    match visit assertions idx rhs { q with op := some op } with
    | .ok q1 => visit assertions idx lhs q1
    | .error e => .error e
  | .name_extractor, q => q.assign assertions idx.name_
  | .timestamp_extractor, q => q.assign assertions idx.timestamp_
  | .id_extractor, q =>
    match assert assertions false with
    | .ok _ => .ok q
    | .error e => .error e
  | _, q => .ok q

/-- The member `event_meta_index::lookup`. -/
def lookup (assertions : Bool) (idx : event_meta_index) (a : ast) :
    Except String (Option bitstream) :=
  match visit assertions idx a {} with
  | .ok q => .ok q.result
  | .error e => .error e

end event_meta_index

/-! ## The argument index -/

/-- The data members of `event_arg_index`. The bitmap indexes are owned
through `std::shared_ptr`: `heap` holds the objects pointed to and a pointer is
the position of its object in `heap`, so that `args_` and `types_` share the
objects. The maps `args_` and `types_` are represented by their entries. -/
structure event_arg_index where
  heap : List bitmap_index := []
  args_ : List (offset × Nat) := []
  types_ : List (value_type × List Nat) := []

namespace event_arg_index

/-- The call `args_.find(o)`: the pointer stored for the offset `o`. -/
def find_arg (idx : event_arg_index) (o : offset) : Option Nat :=
  (idx.args_.find? (fun p => decide (p.1 = o))).map Prod.snd

/-- The call `types_.find(k)`: the pointers stored for the kind `k`. -/
def find_type (idx : event_arg_index) (k : value_type) : Option (List Nat) :=
  (idx.types_.find? (fun p => decide (p.1 = k))).map Prod.snd

/-- The call `args_.emplace(o, bmi)`, which leaves an existing entry alone. -/
def emplace_arg (args : List (offset × Nat)) (o : offset) (bmi : Nat) :
    List (offset × Nat) :=
  if (args.find? (fun p => decide (p.1 = o))).isSome then args
  else args ++ [(o, bmi)]

/-- The call `types_[k].push_back(bmi)`, which makes the entry of `k` if there
is none. -/
def push_type (types : List (value_type × List Nat)) (k : value_type)
    (bmi : Nat) : List (value_type × List Nat) :=
  if (types.find? (fun p => decide (p.1 = k))).isSome then
    types.map (fun p => if p.1 = k then (p.1, p.2 ++ [bmi]) else p)
  else types ++ [(k, [bmi])]

/-- The statement `if (! idx->push_back(v, id)) return false;` of
`index_record` on the object the pointer `h` points to. -/
def push_at (idx : event_arg_index) (h : Nat) (v : value) (id : Nat)
    (o : offset) : Bool × event_arg_index × offset :=
  match idx.heap[h]? with
  | some b =>
    ((b.push_back v id).1,
      { idx with heap := idx.heap.set h (b.push_back v id).2 }, o)
  | none => (false, idx, o)

/-- The branch of `index_record` for a valid value that is not a table: the
index of the offset is looked up in `args_` or created, seeded with one
invalid bit and entered into `args_` and `types_`; then the value is pushed at
position `id`. A null pointer from `create` ends the call. -/
def index_data (idx : event_arg_index) (v : value) (id : Nat) (o : offset) :
    Bool × event_arg_index × offset :=
  match idx.find_arg o with
  | some h => push_at idx h v id o
  | none =>
    match bitmap_index.create v.which with
    | some unique =>
      let bmi := idx.heap.length
      let created : event_arg_index :=
        { heap := idx.heap ++ [(unique.append 1 false).2],
          args_ := emplace_arg idx.args_ o bmi,
          types_ := push_type idx.types_ v.which bmi }
      push_at created bmi v id o
    | none => (false, idx, o)

mutual
/-- The body of the loop of `index_record` for the field value `v`, up to the
statement `++o.back()`. The recursive call `index_record(inner, id, o)` is
written out: the check `o.empty()` and then the loop over `inner`. -/
def index_value : value → event_arg_index → Nat → offset →
    Bool × event_arg_index × offset
  | .record inner, idx, id, o =>
    if (value.record inner).to_bool then
      if !inner.empty then
        let r : Bool × event_arg_index × offset :=
          if (o.push_back 0).isEmpty then (true, idx, o.push_back 0)
          else index_loop inner idx id (o.push_back 0)
        if r.1 then (true, r.2.1, offset.pop_back r.2.2)
        else (false, r.2.1, r.2.2)
      else (true, idx, o)
    else (true, idx, o)
  | .invalid, idx, _, o => (true, idx, o)
  | .table, idx, _, o => (true, idx, o)
  | .bool b, idx, id, o => index_data idx (.bool b) id o
  | .int z, idx, id, o => index_data idx (.int z) id o
  | .time_point t, idx, id, o => index_data idx (.time_point t) id o
  | .string s, idx, id, o => index_data idx (.string s) id o
/-- The loop `for (auto& v : r)` of `index_record`: the body for each field,
followed by `++o.back()`; a failing push returns false at once. -/
def index_loop : record → event_arg_index → Nat → offset →
    Bool × event_arg_index × offset
  | .nil, idx, _, o => (true, idx, o)
  | .cons v rest, idx, id, o =>
    let r := index_value v idx id o
    if r.1 then index_loop rest r.2.1 id (offset.incr_back r.2.2)
    else (false, r.2.1, r.2.2)
end

/-- The member `event_arg_index::index_record`; the offset is passed by
reference and returned with the state. -/
def index_record (idx : event_arg_index) (r : record) (id : Nat) (o : offset) :
    Bool × event_arg_index × offset :=
  if o.isEmpty then (true, idx, o) else index_loop r idx id o

/-- The member `event_arg_index::index`. -/
def index (idx : event_arg_index) (e : event) : Bool × event_arg_index :=
  if e.empty then (true, idx)
  else
    let r := index_record idx e.fields e.id [0]
    (r.1, r.2.1)

/-- The argument index after `index(e)` for every event of a sequence, the
returned flags being dropped. -/
def index_all (idx : event_arg_index) (es : List event) : event_arg_index :=
  es.foldl (fun s e => (s.index e).2) idx

/-- The loop of `visit(type_extractor)` over the pointers of `types_[k]`: a
lookup that returns a result is assigned to an empty `result` and combined
with `|=` into a `result` that holds a bitstream. Every round dereferences the
pointers `op` and `val`. -/
def visit_types (idx : event_arg_index) (op : Option relational_operator)
    (val : Option value) : List Nat → Option bitstream →
    Except String (Option bitstream)
  | [], result => .ok result
  | bmi :: rest, result =>
    match idx.heap[bmi]?, op, val with
    | some b, some o, some v =>
      match b.lookup o v with
      | .error e => .error e
      | .ok (some r) =>
        match result with
        | some acc => visit_types idx op val rest (some (acc.or r))
        | none => visit_types idx op val rest (some r)
      | .ok none => visit_types idx op val rest result
    | _, _, _ => .error null_dereference

/-- The visit of a node by `event_arg_index::querier`; the nodes the querier
does not override are visited by `expr::default_const_visitor`, which does
nothing. -/
def visit (assertions : Bool) (idx : event_arg_index) :
    ast → querier → Except String querier
  | .constant c, q => .ok { q with val := some c }
  | .relation op lhs rhs, q =>
    match visit assertions idx rhs { q with op := some op } with
    | .ok q1 => visit assertions idx lhs q1
    | .error e => .error e
  | .offset_extractor off, q =>
    match assert assertions q.op.isSome, assert assertions q.val.isSome with
    | .ok _, .ok _ =>
      match idx.find_arg off with
      | none => .ok q
      | some i =>
        match idx.heap[i]? with
        | some b => q.assign assertions b
        | none => .error null_dereference
    | .error e, _ => .error e
    | _, .error e => .error e
  | .type_extractor type, q =>
    match assert assertions q.op.isSome, assert assertions q.val.isSome with
    | .ok _, .ok _ =>
      match assert assertions
          (match q.val with
            | some val => decide (type = val.which)
            | none => true) with
      | .ok _ =>
        match idx.find_type type with
        | none => .ok q
        | some bmis =>
          match visit_types idx q.op q.val bmis q.result with
          | .ok result => .ok { q with result := result }
          | .error e => .error e
      | .error e => .error e
    | .error e, _ => .error e
    | _, .error e => .error e
  | _, q => .ok q

/-- The member `event_arg_index::lookup`. -/
def lookup (assertions : Bool) (idx : event_arg_index) (a : ast) :
    Except String (Option bitstream) :=
  match visit assertions idx a {} with
  | .ok q => .ok q.result
  | .error e => .error e

end event_arg_index

/-- Position 0 of the bitmap index is an invalid slot: the validity bitstream
starts with a false bit. -/
def bitmap_index.seeded (b : bitmap_index) : Prop := b.valid.head? = some false

/-- Every bitmap index the argument index owns has an invalid slot at
position 0. -/
def event_arg_index.seeded (idx : event_arg_index) : Prop :=
  ∀ b ∈ idx.heap, b.seeded

/-- The meta index after `index(e)` for every event of a sequence, the returned
flags being dropped. -/
def event_meta_index.index_all (idx : event_meta_index) (es : List event) :
    event_meta_index :=
  es.foldl (fun s e => (s.index e).2) idx

/-- The results of `lookup(op, v)` on the bitmap indexes the pointers `bmis`
point to, in order; an exception of a lookup ends the evaluation. -/
def event_arg_index.lookup_all (idx : event_arg_index)
    (op : relational_operator) (v : value) :
    List Nat → Except String (List (Option bitstream))
  | [] => .ok []
  | bmi :: rest =>
    match idx.heap[bmi]? with
    | none => .error null_dereference
    | some b =>
      match b.lookup op v with
      | .error e => .error e
      | .ok r =>
        match lookup_all idx op v rest with
        | .error e => .error e
        | .ok rs => .ok (r :: rs)

/-- The bitwise OR of a list of bitstreams; the empty bitstream (`none`) for
the empty list. -/
def or_all : List bitstream → Option bitstream
  | [] => none
  | r :: rs => some (rs.foldl bitstream.or r)

/-- The union over all columns of a kind, as the specification words it: the
bitwise OR of `lookup(op, v)` over every bitmap index registered in
`types[k]` that returns a result; the empty bitstream when `types` has no
entry for `k` or no lookup returns a result. -/
def event_arg_index.type_union (idx : event_arg_index)
    (op : relational_operator) (v : value) (k : value_type) :
    Except String (Option bitstream) :=
  match idx.find_type k with
  | none => .ok none
  | some bmis =>
    match idx.lookup_all op v bmis with
    | .error e => .error e
    | .ok rs => .ok (or_all (rs.filterMap id))

/-- The field value is one that `index_record` skips: a table, the invalid
value or an empty nested record. -/
def value.skipped : value → Bool
  | .table => true
  | .invalid => true
  | .record .nil => true
  | _ => false

/-- An event with a table, the invalid value, an empty nested record and the
integer 7 as its fields. -/
def skipping_event : event :=
  { id := 1,
    fields := record.of_list [.table, .invalid, .record .nil, .int 7] }

/-- An event of id 1 whose only field is the integer 42. -/
def int_column_event : event :=
  { id := 1, fields := record.of_list [.int 42] }

/-- An event of id 2 whose only field is the string "x". -/
def string_column_event : event :=
  { id := 2, fields := record.of_list [.string "x"] }

/-! ## Serialization -/

/-- Modelled from the spec: the items a `serializer` holds, one for each scalar
or bitstream written with `<<`; a `deserializer` reads them back in the same
order with `>>`. -/
inductive token (T : Type) where
  | count (n : Nat)
  | key (x : T)
  | bits (b : bitstream)
  | engaged (b : Bool)
  | number (z : Int)

/-- Modelled from the spec: the elements of a container of (key, bitstream)
pairs as `<<` writes them, after the number of elements. -/
def write_pairs {T : Type} : List (T × bitstream) → List (token T)
  | [] => []
  | p :: l => .key p.1 :: .bits p.2 :: write_pairs l

/-- Modelled from the spec: `n` (key, bitstream) pairs read with `>>`. -/
def read_pairs {T : Type} :
    Nat → List (token T) → Option (List (T × bitstream) × List (token T))
  | 0, ts => some ([], ts)
  | n + 1, .key x :: .bits b :: ts =>
    match read_pairs n ts with
    | some (l, rest) => some ((x, b) :: l, rest)
    | none => none
  | _ + 1, _ => none

/-- Modelled from the spec: the elements of a `std::vector<optional<Bitstream>>`
as `<<` writes them: for each element whether it is engaged and, if so, the
bitstream. -/
def write_optionals {T : Type} : List (Option bitstream) → List (token T)
  | [] => []
  | some b :: l => .engaged true :: .bits b :: write_optionals l
  | none :: l => .engaged false :: write_optionals l

/-- Modelled from the spec: `n` optional bitstreams read with `>>`. -/
def read_optionals {T : Type} :
    Nat → List (token T) → Option (List (Option bitstream) × List (token T))
  | 0, ts => some ([], ts)
  | n + 1, .engaged true :: .bits b :: ts =>
    match read_optionals n ts with
    | some (l, rest) => some (some b :: l, rest)
    | none => none
  | n + 1, .engaged false :: ts =>
    match read_optionals n ts with
    | some (l, rest) => some (none :: l, rest)
    | none => none
  | _ + 1, _ => none

namespace list_storage

variable {T : Type} [LinearOrder T]

/-- The operator `==` of `list_storage`: `x.list_ == y.list_`. -/
def eq (x y : list_storage T) : Bool := decide (x.list_ = y.list_)

/-- The member `list_storage::serialize`: the base `storage_policy` (`rows`),
then `list_`. -/
def serialize (s : list_storage T) : List (token T) :=
  .count s.rows :: .count s.list_.length :: write_pairs s.list_

/-- The loop `for (i = list_.begin(); i != list_.end(); ++i)
map_.emplace(i->first, i)` of `deserialize`, on the hash table `map`. -/
def emplace_all (l : List (T × bitstream)) (map : List T) : List T :=
  l.foldl (fun m p => if p.1 ∈ m then m else p.1 :: m) map

/-- The member `list_storage::deserialize` on the instance `s`: `rows` and
`list_` are read, then the hash table is filled from the list. -/
def deserialize (s : list_storage T) :
    List (token T) → Option (list_storage T × List (token T))
  | .count rows :: .count n :: ts =>
    match read_pairs n ts with
    | some (l, rest) =>
      some ({ rows := rows, list_ := l, map_ := emplace_all l s.map_ }, rest)
    | none => none
  | _ => none

end list_storage

namespace unordered_storage

variable {T : Type} [DecidableEq T]

/-- The operator `==` of `unordered_storage`, `x.map_ == y.map_` on hash
tables: the same number of entries, and every entry of `x` is an entry of
`y`. -/
def eq (x y : unordered_storage T) : Bool :=
  decide (x.map_.length = y.map_.length) &&
    x.map_.all (fun p => decide (y.find p.1 = some p.2))

/-- The member `unordered_storage::serialize`. -/
def serialize (s : unordered_storage T) : List (token T) :=
  .count s.rows :: .count s.map_.length :: write_pairs s.map_

/-- Modelled from the spec: the entries read with `>>` into a hash table, each
one emplaced in turn. -/
def emplace_all (l : List (T × bitstream)) : List (T × bitstream) :=
  l.foldl (fun m p =>
    if (m.find? (fun q => decide (q.1 = p.1))).isSome then m else m ++ [p]) []

/-- The member `unordered_storage::deserialize`. -/
def deserialize (_ : unordered_storage T) :
    List (token T) → Option (unordered_storage T × List (token T))
  | .count rows :: .count n :: ts =>
    match read_pairs n ts with
    | some (l, rest) => some ({ rows := rows, map_ := emplace_all l }, rest)
    | none => none
  | _ => none

end unordered_storage

namespace vector_storage

/-- The operator `==` of `vector_storage`: the cardinalities and the sizes are
equal and the vectors agree slot by slot. -/
def eq (x y : vector_storage) : Bool :=
  if x.cardinality_ ≠ y.cardinality_ then false
  else if x.vector_.length ≠ y.vector_.length then false
  else (List.zip x.vector_ y.vector_).all (fun p =>
    match p.1, p.2 with
    | some a, some b => decide (a = b)
    | none, none => true
    | _, _ => false)

/-- The member `vector_storage::serialize`. -/
def serialize {T : Type} (s : vector_storage) : List (token T) :=
  .count s.rows :: .count s.cardinality_ :: .count s.vector_.length ::
    write_optionals s.vector_

/-- The member `vector_storage::deserialize`. -/
def deserialize {T : Type} (_ : vector_storage) :
    List (token T) → Option (vector_storage × List (token T))
  | .count rows :: .count cardinality :: .count n :: ts =>
    match read_optionals n ts with
    | some (v, rest) =>
      some ({ rows := rows, vector_ := v, cardinality_ := cardinality }, rest)
    | none => none
  | _ => none

end vector_storage

namespace precision_binner

/-- The member `precision_binner::serialize`. -/
def serialize {T : Type} (b : precision_binner) : List (token T) :=
  [.number b.integral_, .number b.fractional_]

/-- The member `precision_binner::deserialize`. -/
def deserialize {T : Type} (_ : precision_binner) :
    List (token T) → Option (precision_binner × List (token T))
  | .number i :: .number f :: ts =>
    some ({ integral_ := i, fractional_ := f }, ts)
  | _ => none

end precision_binner

namespace bitmap

variable {B C T : Type}

/-- The member `bitmap::serialize`: `sink << binner_ << valid_ << coder_`,
where the coder writes its store; `binner_` is the binner member, not held by
the structure `bitmap`. -/
def serialize (binner : B → List (token T)) (store : C → List (token T))
    (binner_ : B) (bm : bitmap C) : List (token T) :=
  binner binner_ ++ .bits bm.valid_ :: store bm.coder_

/-- The member `bitmap::deserialize`:
`source >> binner_ >> valid_ >> coder_`. -/
def deserialize (binner : B → List (token T) → Option (B × List (token T)))
    (store : C → List (token T) → Option (C × List (token T)))
    (binner_ : B) (bm : bitmap C) (ts : List (token T)) :
    Option ((B × bitmap C) × List (token T)) :=
  match binner binner_ ts with
  | some (b, .bits valid :: ts1) =>
    match store bm.coder_ ts1 with
    | some (c, rest) => some ((b, { coder_ := c, valid_ := valid }), rest)
    | none => none
  | _ => none

end bitmap

namespace bool_bitmap

/-- The operator `==` of `bitmap<bool>`. -/
def eq (x y : bool_bitmap) : Bool :=
  decide (x.bool_ = y.bool_) && decide (x.valid_ = y.valid_)

/-- The member `bitmap<bool>::serialize`: `sink << valid_ << bool_`. -/
def serialize {T : Type} (bm : bool_bitmap) : List (token T) :=
  [.bits bm.valid_, .bits bm.bool_]

/-- The member `bitmap<bool>::deserialize`. -/
def deserialize {T : Type} (_ : bool_bitmap) :
    List (token T) → Option (bool_bitmap × List (token T))
  | .bits valid :: .bits b :: ts => some ({ bool_ := b, valid_ := valid }, ts)
  | _ => none

end bool_bitmap

/-- Modelled from the spec: a segment, an ordered container of events: the id
`base` of its first event and its chunks, each a batch of events in insertion
order. The serialization and compression of a chunk are taken to be lossless
and a chunk is represented by the events it holds; the schema, which nothing
in this development reads, is left out. -/
structure segment where
  base_ : Nat := 0
  chunks_ : List (List event) := []

namespace segment

/-- Modelled from the spec: the setter `segment::base(id)`. -/
def base (s : segment) (id : Nat) : segment := { s with base_ := id }

/-- Modelled from the spec: the member `segment::events`, the sum of the event
counts of the chunks (`events_total`). -/
def events (s : segment) : Nat := (s.chunks_.map List.length).sum

/-- The events a segment holds, in the order of its chunks. -/
def all_events (s : segment) : List event := s.chunks_.flatten

/-- Modelled from the spec: the event at linear position `pos` of the segment
as a reader returns it. On a segment that has a base the reader numbers the
events from it, position `pos` getting the id `base + pos` (the test "event
loading" writes events without ids, sets the base and reads the ids back); on
a segment whose base is 0, the reserved id, the event is returned as written
(the test "reading and writing"). -/
def numbered (s : segment) (pos : Nat) (e : event) : event :=
  if 0 < s.base_ then { e with id := s.base_ + pos } else e

/-- Modelled from the spec: the chunk holding linear position `pos` of a
sequence of chunks and the offset of that position in the chunk, as found in
the chunk offset table; the position after the last event is the start of the
chunk after the last. -/
def locate : List (List event) → Nat → Nat × Nat
  | [], pos => (0, pos)
  | chunk :: rest, pos =>
    if pos < chunk.length then (0, pos)
    else ((locate rest (pos - chunk.length)).1 + 1,
      (locate rest (pos - chunk.length)).2)

end segment

/-- Modelled from the spec: a segment writer, bound to one segment at a time
(the segment is held by the writer while it is bound), with its in-memory
chunk buffer and its events-per-chunk threshold; it has no size cap. -/
structure writer where
  segment_ : segment
  chunk_ : List event := []
  max_events_per_chunk_ : Nat

namespace writer

/-- Modelled from the spec: the constructor `writer(&s, max_events_per_chunk)`. -/
def make (s : segment) (max_events_per_chunk : Nat) : writer :=
  { segment_ := s, max_events_per_chunk_ := max_events_per_chunk }

/-- Modelled from the spec: `flush()`, which forces the emission of a partial
chunk: the buffered events, if any, are pushed to the segment as a chunk and
the buffer is reset. -/
def flush (w : writer) : Bool × writer :=
  if w.chunk_.isEmpty then (true, w)
  else
    (true, { w with
      segment_ := { w.segment_ with chunks_ := w.segment_.chunks_ ++ [w.chunk_] },
      chunk_ := [] })

/-- Modelled from the spec: `write(event)`, which appends the event to the
chunk buffer and, if the chunk is full, pushes it to the segment and resets
the buffer. -/
def write (w : writer) (e : event) : Bool × writer :=
  let w1 : writer := { w with chunk_ := w.chunk_ ++ [e] }
  if w1.chunk_.length ≥ w1.max_events_per_chunk_ then w1.flush else (true, w1)

/-- The writer after `write(e)` for every event of a sequence. -/
def write_all (w : writer) (es : List event) : writer :=
  es.foldl (fun w e => (w.write e).2) w

/-- Modelled from the spec: `attach_to(other)`, which re-targets the writer;
the pending events remain in the writer. The segment the writer was bound to
is returned with the writer. -/
def attach_to (w : writer) (other : segment) : segment × writer :=
  (w.segment_, { w with segment_ := other })

end writer

/-- Modelled from the spec: the cursor `(chunk_index, offset_in_chunk)` of a
segment reader; the segment it reads is passed to its members. -/
structure reader where
  chunk_idx_ : Nat := 0
  offset_ : Nat := 0

namespace reader

/-- The linear position of the cursor in the segment. -/
def position (s : segment) (r : reader) : Nat :=
  ((s.chunks_.take r.chunk_idx_).map List.length).sum + r.offset_

/-- Modelled from the spec: `read()`, which returns the next event
sequentially and advances the cursor, moving on to the next chunk after the
last event of a chunk; at the end of the segment nothing is returned. -/
def read (s : segment) (r : reader) : Option event × reader :=
  match s.chunks_[r.chunk_idx_]? with
  | none => (none, r)
  | some chunk =>
    match chunk[r.offset_]? with
    | none => (none, r)
    | some e =>
      (some (s.numbered (r.position s) e),
        if r.offset_ + 1 < chunk.length then { r with offset_ := r.offset_ + 1 }
        else { chunk_idx_ := r.chunk_idx_ + 1, offset_ := 0 })

/-- Modelled from the spec: `seek(id)`, which fails and leaves the cursor
unchanged if `id < base` or `id >= base + events_total`, and otherwise puts
the cursor on the chunk containing `id`, at `id - chunk_base`. -/
def seek (s : segment) (r : reader) (id : Nat) : Bool × reader :=
  if id < s.base_ ∨ id ≥ s.base_ + s.events then (false, r)
  else
    (true, { chunk_idx_ := (segment.locate s.chunks_ (id - s.base_)).1,
             offset_ := (segment.locate s.chunks_ (id - s.base_)).2 })

/-- Modelled from the spec: `read(id)`, which returns the event with exactly
that id or nothing. -/
def read_id (s : segment) (r : reader) (id : Nat) : Option event × reader :=
  if (r.seek s id).1 then (r.seek s id).2.read s else (none, r)

/-- The reader after `k` calls of `read()`. -/
def reads (s : segment) (r : reader) : Nat → reader
  | 0 => r
  | k + 1 => ((reads s r k).read s).2

end reader

/-- Modelled from the spec: `segment::load(id)`, a one-shot read of the event
with the given id through a fresh reader. -/
def segment.load (s : segment) (id : Nat) : Option event :=
  (reader.read_id s {} id).1

/-- The event `event{i}` of the segment tests: no id, the integer `i` as its
only field. -/
def value_event (i : Nat) : event :=
  { fields := record.of_list [.int i] }

/-- The cursor on linear position `pos` of the segment. -/
def reader.at_position (s : segment) (pos : Nat) : reader :=
  { chunk_idx_ := (segment.locate s.chunks_ pos).1,
    offset_ := (segment.locate s.chunks_ pos).2 }

/-- The writer bound to the segment `s` with the events-per-chunk threshold
`c`, after `write(e)` for every event of `es` and a final `flush()`. -/
def writer.written (s : segment) (c : Nat) (es : List event) : writer :=
  ((writer.make s c).write_all es).flush.2

/-- The events of the test "seeking": `event{1000 + i}` for `i` below 1024. -/
def seeking_events : List event :=
  (List.range 1024).map (fun i => value_event (1000 + i))

/-- The member `list_storage::each` (the `const` overload): `f` is called on
every (key, bitstream) pair in list order; the calls are threaded through the
state `σ` of the visitor. -/
def list_storage.each_const {T σ : Type} (s : list_storage T)
    (f : T → bitstream → σ → σ) (init : σ) : σ :=
  s.list_.foldl (fun a p => f p.1 p.2 a) init

/-- The calls the `const` overload of `list_storage::each` makes, in order:
the visitor records its arguments. -/
def list_storage.visits {T : Type} (s : list_storage T) :
    List (T × bitstream) :=
  s.each_const (fun k b acc => acc ++ [(k, b)]) []

/-- The outcome of dereferencing the past-the-end iterator `map_.end()`. -/
def end_dereference : String := "dereference of the past-the-end iterator"

/-- One round of the loop of `unordered_storage::find_bounds` at the entry `p`,
on the iterators `l` and `u` (`none` is `map_.end()`). The first statement may
move `u`; the second one compares `p->first` with `u->first` once `l` is set,
which dereferences `map_.end()` while `u` is not set. -/
def unordered_storage.find_bounds_step {T : Type} [LinearOrder T] (x : T)
    (st : Option (T × bitstream) × Option (T × bitstream))
    (p : T × bitstream) :
    Except String (Option (T × bitstream) × Option (T × bitstream)) :=
  let l := st.1
  let u :=
    if decide (x < p.1) && (match st.2 with
        | none => true
        | some q => decide (p.1 < q.1)) then some p
    else st.2
  if p.1 < x then
    match l with
    | none => .ok (some p, u)
    | some _ =>
      match u with
      | none => .error end_dereference
      | some q => if q.1 < p.1 then .ok (some p, u) else .ok (l, u)
  else .ok (l, u)

/-- The member `unordered_storage::find_bounds` when the hash table iterates
over its entries in the order `order`. -/
def unordered_storage.find_bounds_in {T : Type} [LinearOrder T]
    (order : List (T × bitstream)) (x : T) :
    Except String (Option bitstream × Option bitstream) :=
  if order.isEmpty then .ok (none, none)
  else
    match order.foldlM (unordered_storage.find_bounds_step x) (none, none) with
    | .error e => .error e
    | .ok (l, u) => .ok (l.map Prod.snd, u.map Prod.snd)

/-- The member `unordered_storage::find_bounds`, the hash table iterating in
the order of `map_`. -/
def unordered_storage.find_bounds {T : Type} [LinearOrder T]
    (s : unordered_storage T) (x : T) :
    Except String (Option bitstream × Option bitstream) :=
  unordered_storage.find_bounds_in s.map_ x

/-- The outcome of dereferencing an optional that holds no value. -/
def empty_dereference : String := "dereference of an empty optional"

/-- One round of the first loop of `vector_storage::find_bounds`, at index `i`,
on the state (`lower`, `found`); the loop stops once `found` is set. -/
def vector_storage.lower_step (v : List (Option bitstream)) (x : Nat)
    (st : Option bitstream × Bool) (i : Nat) : Option bitstream × Bool :=
  if st.2 then st
  else
    match v[i]? with
    | some (some b) =>
      if i < x then (some b, false)
      else if st.1.isSome && decide (i ≥ x) then (st.1, true) else st
    | _ => if st.1.isSome && decide (i ≥ x) then (st.1, true) else st

/-- One round of the second loop of `vector_storage::find_bounds`, at index
`j = i - 1`, on the state (`upper`, `found`). -/
def vector_storage.upper_step (v : List (Option bitstream)) (x : Nat)
    (st : Option bitstream × Bool) (j : Nat) : Option bitstream × Bool :=
  if st.2 then st
  else
    match v[j]? with
    | some (some b) =>
      if j > x then (some b, false)
      else if st.1.isSome && decide (j < x) then (st.1, true) else st
    | _ => if st.1.isSome && decide (j < x) then (st.1, true) else st

/-- The member `vector_storage::find_bounds`. The branch for `x` at or beyond
the size dereferences the last slot without a check. -/
def vector_storage.find_bounds (s : vector_storage) (x : Nat) :
    Except String (Option bitstream × Option bitstream) :=
  if s.vector_.isEmpty then .ok (none, none)
  else if x ≥ s.vector_.length then
    match s.vector_.getLast? with
    | some (some b) => .ok (some b, none)
    | _ => .error empty_dereference
  else
    let lower := ((List.range s.vector_.length).foldl
      (vector_storage.lower_step s.vector_ x) (none, false)).1
    let upper := ((List.range s.vector_.length).reverse.foldl
      (vector_storage.upper_step s.vector_ x) (none, false)).1
    .ok (lower, upper)

/-- The bitstream at the greatest occupied index below `n`, if there is one. -/
def vector_storage.last_below (v : List (Option bitstream)) :
    Nat → Option bitstream
  | 0 => none
  | n + 1 =>
    match v[n]? with
    | some (some b) => some b
    | _ => vector_storage.last_below v n

/-- The bitstream at the smallest occupied index from `j` on, if there is
one. -/
def vector_storage.first_from (v : List (Option bitstream)) (j : Nat) :
    Option bitstream :=
  (v.drop j).findSome? id

/-- The last slot of the vector holds a bitstream, unless the vector is
empty. -/
def vector_storage.last_occupied (s : vector_storage) : Prop :=
  s.vector_ = [] ∨ ∃ b, s.vector_.getLast? = some (some b)

/-- The member `vector_storage::each` (the `const` overload): the call
`f(i, *vector_[i])` for every index `i` below the size of the vector, in
ascending order, threaded through the state `σ` of the visitor. The slot is
dereferenced without a check. -/
def vector_storage.each_const {σ : Type} (s : vector_storage)
    (f : Nat → bitstream → σ → σ) (init : σ) : Except String σ :=
  (List.range s.vector_.length).foldlM (fun a i =>
    match s.vector_[i]? with
    | some (some b) => .ok (f i b a)
    | _ => .error empty_dereference) init

/-- The calls `vector_storage::each` makes, in order: the visitor records its
arguments. -/
def vector_storage.visits (s : vector_storage) :
    Except String (List (Nat × bitstream)) :=
  s.each_const (fun i b acc => acc ++ [(i, b)]) []

/-- An event of id 1 whose fields are the integers 1 and 2. -/
def two_column_event : event :=
  { id := 1, fields := record.of_list [.int 1, .int 2] }

/-- An event of id 2 whose only field is the integer 3. -/
def one_column_event : event :=
  { id := 2, fields := record.of_list [.int 3] }

namespace event_arg_index

/-- The table `inverse` that `store` builds from `types_`: every pointer that a
list of `types_` holds, with the kind of the first list it occurs in. -/
def inverse (types : List (value_type × List Nat)) : List (Nat × value_type) :=
  types.foldl (fun inv p =>
    p.2.foldl (fun inv bmi =>
      if (inv.find? (fun q => decide (q.1 = bmi))).isSome then inv
      else inv ++ [(bmi, p.1)]) inv) []

/-- The loop of `store` over the entries of `args_`: an index that is `empty()`
is skipped; for the others the assertion `inverse.count(p.second)` is checked
and the file is written, with the offset as its name and the kind
`inverse[p.second]` and the index as its payload. The member
`bitmap_index::empty` is the parameter `empty`; `inverse[p.second]` on a
missing key is the value-initialised kind. -/
def store_loop (assertions : Bool) (empty : bitmap_index → Bool)
    (heap : List bitmap_index) (inv : List (Nat × value_type)) :
    List (offset × Nat) →
    Except String (List (offset × value_type × bitmap_index))
  | [] => .ok []
  | p :: rest =>
    match heap[p.2]? with
    | none => .error null_dereference
    | some b =>
      if empty b then store_loop assertions empty heap inv rest
      else
        match assert assertions
            (inv.find? (fun q => decide (q.1 = p.2))).isSome with
        | .error e => .error e
        | .ok _ =>
          match store_loop assertions empty heap inv rest with
          | .error e => .error e
          | .ok files =>
            .ok ((p.1,
              (((inv.find? (fun q => decide (q.1 = p.2))).map Prod.snd).getD
                .invalid_type), b) :: files)

/-- The member `event_arg_index::store`: the files it writes to the
directory. -/
def store (assertions : Bool) (empty : bitmap_index → Bool)
    (idx : event_arg_index) :
    Except String (List (offset × value_type × bitmap_index)) :=
  store_loop assertions empty idx.heap (inverse idx.types_) idx.args_

/-- The member `event_arg_index::load` on the files of the directory, each one
with the offset parsed from its name and the kind and the index of its
payload: the index is unarchived into a new object, which is entered into
`args_` and `types_`. -/
def load (idx : event_arg_index)
    (files : List (offset × value_type × bitmap_index)) : event_arg_index :=
  files.foldl (fun s f =>
    { heap := s.heap ++ [f.2.2],
      args_ := emplace_arg s.args_ f.1 s.heap.length,
      types_ := push_type s.types_ f.2.1 s.heap.length }) idx

/-- The tables `args_` and `types_` are consistent: the offsets of `args_` are
distinct, the pointers of `args_` are the objects of the heap, each stored
once, the kinds of `types_` are distinct, and every object of the heap occurs
exactly once in the lists of `types_` taken together, which hold no other
pointer. -/
def consistent (idx : event_arg_index) : Prop :=
  (idx.args_.map Prod.fst).Nodup ∧
  idx.args_.map Prod.snd = List.range idx.heap.length ∧
  (idx.types_.map Prod.fst).Nodup ∧
  ∀ h, (idx.types_.map Prod.snd).flatten.count h =
    if h < idx.heap.length then 1 else 0

end event_arg_index

/-- Every bitmap index stored in `args_` occurs exactly once in the lists of
`types_` taken together, hence once in exactly one list, and every element of
a list of `types_` is stored in `args_`. -/
def event_arg_index.tables_agree (idx : event_arg_index) : Prop :=
  (∀ p ∈ idx.args_, (idx.types_.map Prod.snd).flatten.count p.2 = 1) ∧
  (∀ t ∈ idx.types_, ∀ h ∈ t.2, ∃ o, (o, h) ∈ idx.args_)

/-- A directory with the single file `@0.idx`, which holds an index of the
kind `int_type` seeded with one gap bit. -/
def one_file_directory : List (offset × value_type × bitmap_index) :=
  [([0], .int_type,
    ((bitmap_index.arithmetic .int_type none (range_bitmap Int)).append 1
      false).2)]

/-- One call on the argument index: `index(e)`, or `load()` on a directory
that holds the given files. -/
inductive arg_call where
  | index (e : event)
  | load (files : List (offset × value_type × bitmap_index))

/-- The argument index after one call (the flag of `index` is dropped). -/
def event_arg_index.call (idx : event_arg_index) :
    arg_call → event_arg_index
  | .index e => (idx.index e).2
  | .load files => idx.load files

/-- The argument index after a sequence of calls. -/
def event_arg_index.run_calls (idx : event_arg_index)
    (calls : List arg_call) : event_arg_index :=
  calls.foldl event_arg_index.call idx

/-- Every `load` of the sequence reads a directory whose files have distinct
names, none of them the offset of an entry that `args_` holds when `load` is
called (as is the case for a `load` on an index that holds nothing yet). -/
def event_arg_index.loads_fresh :
    event_arg_index → List arg_call → Prop
  | _, [] => True
  | idx, .index e :: calls =>
    event_arg_index.loads_fresh (idx.index e).2 calls
  | idx, .load files :: calls =>
    (files.map Prod.fst).Nodup ∧
    (∀ f ∈ files, f.1 ∉ idx.args_.map Prod.fst) ∧
    event_arg_index.loads_fresh (idx.load files) calls

/-- The argument index has an entry for the offset `o` whose bitmap index has
the size `n`. -/
def event_arg_index.sized (idx : event_arg_index) (o : offset) (n : Nat) :
    Prop :=
  ∃ h b, idx.find_arg o = some h ∧ idx.heap[h]? = some b ∧ b.size = n

/-! ## Key types and their operators -/

/-- The operators of a key type `T` that the storage policies and the coders
call: `operator<`, `operator<=` and `operator==` (the latter also through
`std::unordered_map`, which finds a key with `std::equal_to`). For an integral
type and for a string they are a strict total order and equality; for `double`
every one of them is false as soon as an operand is NaN. -/
structure key_ops (T : Type) where
  lt : T → T → Bool
  le : T → T → Bool
  eq : T → T → Bool

/-- The operators of a key type on which `<` is a strict total order and `==`
is equality. -/
def key_ops.of_order (T : Type) [LinearOrder T] : key_ops T where
  lt := fun a b => decide (a < b)
  le := fun a b => decide (a ≤ b)
  eq := fun a b => decide (a = b)

/-- A value of the type `double`, as far as its comparisons tell: a number or
NaN. -/
inductive double where
  | num (q : ℚ)
  | nan

/-- The operators `<`, `<=` and `==` of `double`: the comparison of the
numbers, and false whenever an operand is NaN. -/
def double.ops : key_ops double where
  lt := fun a b =>
    match a, b with
    | .num p, .num q => decide (p < q)
    | _, _ => false
  le := fun a b =>
    match a, b with
    | .num p, .num q => decide (p ≤ q)
    | _, _ => false
  eq := fun a b =>
    match a, b with
    | .num p, .num q => decide (p = q)
    | _, _ => false

namespace list_storage

variable {T : Type}

/-- The call `std::lower_bound(list_.begin(), list_.end(), (x, {}), key_comp_)`
for a key type with the operators `ops`, as an index into the list: the first
element for which `p.first < x` is false. -/
def lower_bound_by (ops : key_ops T) (l : List (T × bitstream)) (x : T) : Nat :=
  (l.takeWhile (fun p => ops.lt p.1 x)).length

/-- The second component of `std::equal_range` for a key type with the
operators `ops`, as an index into the list: the first element for which
`x < p.first` is true. -/
def upper_bound_by (ops : key_ops T) (l : List (T × bitstream)) (x : T) : Nat :=
  (l.takeWhile (fun p => !ops.lt x p.1)).length

/-- The member `list_storage::find` for a key type with the operators `ops`:
`map_.find(x)` compares the keys with `==`. -/
def find_by (ops : key_ops T) (s : list_storage T) (x : T) :
    Option bitstream :=
  if s.map_.any (fun k => ops.eq k x) then
    (s.list_.find? (fun p => ops.eq p.1 x)).map Prod.snd
  else none

/-- The member `list_storage::find_bounds` for a key type with the operators
`ops`. -/
def find_bounds_by (ops : key_ops T) (s : list_storage T) (x : T) :
    Option bitstream × Option bitstream :=
  if s.map_.isEmpty then (none, none)
  else
    let first := lower_bound_by ops s.list_ x
    let second := upper_bound_by ops s.list_ x
    let upper := s.list_[second]?.map Prod.snd
    let lower :=
      if first ≠ 0 then
        match s.list_[first - 1]? with
        | some p => if ops.lt p.1 x then some p.2 else none
        | none => none
      else none
    (lower, upper)

/-- The member `list_storage::insert` for a key type with the operators `ops`:
the node is emplaced when `lower_bound` returns the end of the list or an
element with `x < i->first`, and the call returns what `map_.emplace` returns;
otherwise it returns false. -/
def insert_by (ops : key_ops T) (s : list_storage T) (x : T) (b : bitstream) :
    Bool × list_storage T :=
  let i := lower_bound_by ops s.list_ x
  let emplaced : Bool × list_storage T :=
    let l := s.list_.take i ++ (x, b) :: s.list_.drop i
    if s.map_.any (fun k => ops.eq k x) then (false, { s with list_ := l })
    else (true, { s with list_ := l, map_ := x :: s.map_ })
  match s.list_[i]? with
  | none => emplaced
  | some p => if ops.lt x p.1 then emplaced else (false, s)

end list_storage

namespace unordered_storage

variable {T : Type}

/-- The member `unordered_storage::find` for a key type with the operator `==`
given by `eq`. -/
def find_by (eq : T → T → Bool) (s : unordered_storage T) (x : T) :
    Option bitstream :=
  (s.map_.find? (fun p => eq p.1 x)).map Prod.snd

/-- The member `unordered_storage::insert` for a key type with the operator
`==` given by `eq`. -/
def insert_by (eq : T → T → Bool) (s : unordered_storage T) (x : T)
    (b : bitstream) : Bool × unordered_storage T :=
  if (s.map_.find? (fun p => eq p.1 x)).isSome then (false, s)
  else (true, { s with map_ := s.map_ ++ [(x, b)] })

end unordered_storage

namespace range_coder

variable {T : Type}

/-- The body of `if (! store_.find(x))` in `range_coder::encode` for a key type
with the operators `ops`. -/
def insert_seeded_by (ops : key_ops T) (s : list_storage T) (x : T) :
    Bool × list_storage T :=
  match s.find_bounds_by ops x with
  | (some first, some _) => s.insert_by ops x first
  | (some _, none) => s.insert_by ops x (bitstream.make s.rows true)
  | (none, some _) => s.insert_by ops x (bitstream.make s.rows false)
  | (none, none) => s.insert_by ops x (bitstream.make s.rows true)

/-- The member `range_coder::encode` for a key type with the operators
`ops`. -/
def encode_by (ops : key_ops T) (s : list_storage T) (x : T) :
    Bool × list_storage T :=
  let r : Bool × list_storage T :=
    if (s.find_by ops x).isNone then insert_seeded_by ops s x else (true, s)
  if !r.1 then (false, r.2)
  else
    let s2 := r.2.each (fun k bs => bs.push_back (ops.le x k))
    (true, { s2 with rows := s2.rows + 1 })

/-- The `case less_equal` of `range_coder::decode` for a key type with the
operators `ops`. -/
def decode_less_equal_by (ops : key_ops T) (s : list_storage T) (x : T) :
    Option bitstream :=
  match s.find_by ops x with
  | some result => some result
  | none =>
    match (s.find_bounds_by ops x).1 with
    | some lower => some lower
    | none => none

/-- The `case less` of `range_coder::decode` for a key type with the operators
`ops`. -/
def decode_less_by (ops : key_ops T) (integral : Option (integral_ops T))
    (s : list_storage T) (x : T) : Except String (Option bitstream) :=
  match integral with
  | none => .error "operator less requires integral type"
  | some iops =>
    if ops.eq x iops.lowest then .ok (decode_less_equal_by ops s x)
    else .ok (decode_less_equal_by ops s (iops.pred x))

/-- The `case equal` of `range_coder::decode` for a key type with the
operators `ops`. -/
def decode_equal_by (ops : key_ops T) (s : list_storage T) (x : T) :
    Option bitstream :=
  match decode_less_equal_by ops s x with
  | none => none
  | some le =>
    match (s.find_bounds_by ops x).1 with
    | none => some le
    | some first => some (le.and first.flip)

/-- The member `range_coder::decode` for a key type with the operators
`ops`. -/
def decode_by (ops : key_ops T) (integral : Option (integral_ops T))
    (s : list_storage T) (x : T) :
    relational_operator → Except String (Option bitstream)
  | .less => decode_less_by ops integral s x
  | .less_equal => .ok (decode_less_equal_by ops s x)
  | .greater =>
    match decode_less_equal_by ops s x with
    | some result => .ok (some result.flip)
    | none => .ok (some (bitstream.make s.rows true))
  | .greater_equal =>
    match decode_less_by ops integral s x with
    | .error e => .error e
    | .ok (some result) => .ok (some result.flip)
    | .ok none => .ok (some (bitstream.make s.rows true))
  | .equal => .ok (decode_equal_by ops s x)
  | .not_equal =>
    match decode_equal_by ops s x with
    | some result => .ok (some result.flip)
    | none => .ok (some (bitstream.make s.rows true))
  | _ => .error unsupported

/-- The range coder over a key type with the operators `ops` as a `Coder`
template argument. -/
def policy_by (ops : key_ops T) (integral : Option (integral_ops T)) :
    coder_policy (list_storage T) T where
  encode := encode_by ops
  decode := decode_by ops integral
  append := append
  rows := fun s => s.rows

end range_coder

namespace equality_coder

variable {T : Type}

/-- The member `equality_coder::encode` for a key type with the operator `==`
given by `eq`. -/
def encode_by (eq : T → T → Bool) (s : unordered_storage T) (x : T) :
    Bool × unordered_storage T :=
  let r : Bool × unordered_storage T :=
    if (s.find_by eq x).isNone then
      s.insert_by eq x (bitstream.make s.rows false)
    else (true, s)
  if !r.1 then (false, r.2)
  else
    let s2 := r.2.each (fun k bs => bs.push_back (eq x k))
    (true, { s2 with rows := s2.rows + 1 })

/-- The member `equality_coder::decode` for a key type with the operator `==`
given by `eq`. -/
def decode_by (eq : T → T → Bool) (s : unordered_storage T) (x : T) :
    relational_operator → Except String (Option bitstream)
  | .equal =>
    match s.find_by eq x with
    | some result => .ok (some result)
    | none => .ok none
  | .not_equal =>
    match s.find_by eq x with
    | some result => .ok (some result.flip)
    | none => .ok (some (bitstream.make s.rows true))
  | _ => .error unsupported

/-- The equality coder over a key type with the operator `==` given by `eq`,
as a `Coder` template argument. -/
def policy_by (eq : T → T → Bool) : coder_policy (unordered_storage T) T where
  encode := encode_by eq
  decode := decode_by eq
  append := append
  rows := fun s => s.rows

end equality_coder

/-- The range-coded bitmap over `double` (`bitmap<double, Bitstream,
range_coder, null_binner>`) after `push_back(1.0)`. -/
def double_one_bitmap : bitmap (list_storage double) :=
  run_ops (range_coder.policy_by double.ops none) null_binner
    (range_bitmap double) [.push_back (.num 1)]

/-- The ordered storage over `double` after `insert(1.0, b)` on an empty
one. -/
def double_one_store (b : bitstream) : list_storage double :=
  (list_storage.insert_by double.ops {} (.num 1) b).2

/-! ## Invariants of the coders -/

/-- The state of a range-coded bitmap agrees with what was written: `w` lists,
position by position, the value pushed there (`none` at a gap). -/
structure range_inv {T : Type} [LinearOrder T] (bm : bitmap (list_storage T))
    (w : List (Option T)) : Prop where
  sorted : bm.coder_.list_.Pairwise (fun p q => p.1 < q.1)
  map_keys : ∀ x, x ∈ bm.coder_.map_ ↔ ∃ b, (x, b) ∈ bm.coder_.list_
  rows_eq : bm.coder_.rows = w.length
  valid_eq : bm.valid_ = w.map Option.isSome
  len : ∀ p ∈ bm.coder_.list_, p.2.length = w.length
  bits : ∀ p ∈ bm.coder_.list_, ∀ (i : Nat) (x : T), w[i]? = some (some x) →
    p.2.test i = decide (x ≤ p.1)
  keys : ∀ (i : Nat) (x : T), w[i]? = some (some x) →
    ∃ b, (x, b) ∈ bm.coder_.list_

/-- The state of an equality-coded bitmap agrees with what was written: `w`
lists, position by position, the value pushed there (`none` at a gap). -/
structure equality_inv {T : Type} [DecidableEq T]
    (bm : bitmap (unordered_storage T)) (w : List (Option T)) : Prop where
  nodup : bm.coder_.map_.Pairwise (fun p q => p.1 ≠ q.1)
  rows_eq : bm.coder_.rows = w.length
  valid_eq : bm.valid_ = w.map Option.isSome
  len : ∀ p ∈ bm.coder_.map_, p.2.length = w.length
  bits : ∀ p ∈ bm.coder_.map_, ∀ (i : Nat) (y : T), w[i]? = some (some y) →
    p.2.test i = decide (y = p.1)
  keys : ∀ (i : Nat) (y : T), w[i]? = some (some y) →
    ∃ b, (y, b) ∈ bm.coder_.map_
  pushed : ∀ p ∈ bm.coder_.map_, some p.1 ∈ w

/-- The state of a binary-coded bitmap over the integral type `t` agrees with
what was written: slot `i` holds bit `i` of every value pushed. -/
structure binary_inv (t : integral_type) (bm : bitmap vector_storage)
    (w : List (Option Int)) : Prop where
  slots : bm.coder_.vector_.length = t.digits
  rows_eq : bm.coder_.rows = w.length
  valid_eq : bm.valid_ = w.map Option.isSome
  filled : ∀ i, i < t.digits → ∃ b, bm.coder_.vector_[i]? = some (some b) ∧
    b.length = w.length ∧
    ∀ (pos : Nat) (y : Int), w[pos]? = some (some y) →
      b.test pos = binary_coder.bit y i

/-- The field value is one that `index_record` indexes at its own offset: it
is valid, not a table and not a record. -/
def value.is_leaf : value → Bool
  | .bool _ => true
  | .int _ => true
  | .time_point _ => true
  | .string _ => true
  | _ => false

/-- The state of the bitmap of a bitmap index agrees with some sequence of
writes (a push or a gap at every position). -/
def bitmap_index.sound : bitmap_index → Prop
  | .boolean bm => ∃ w, bool_inv bm w
  | .arithmetic _ _ bm => ∃ w, range_inv bm w
  | .string bm => ∃ w, equality_inv bm w

/-- The state of the bitmap of a bitmap index agrees with a sequence of writes
in which position `id` was written by a push of the value `v`. -/
def bitmap_index.records (b : bitmap_index) (id : Nat) (v : value) : Prop :=
  match b, v with
  | .boolean bm, .bool x => ∃ w, bool_inv bm w ∧ w[id]? = some (some x)
  | .arithmetic k bn bm, v =>
    v.which = k ∧ ∃ z, v.arithmetic = some z ∧
      ∃ w, range_inv bm w ∧ w[id]? = some (some (bitmap_index.bin bn z))
  | .string bm, .string s => ∃ w, equality_inv bm w ∧ w[id]? = some (some s)
  | _, _ => False

/-- Every bitmap index the argument index owns is sound. -/
def event_arg_index.sound (idx : event_arg_index) : Prop :=
  ∀ b ∈ idx.heap, b.sound

/-- The argument index has an entry for the offset `o` whose bitmap index
records the value `v` at position `id`. -/
def event_arg_index.recorded (idx : event_arg_index) (o : offset) (id : Nat)
    (v : value) : Prop :=
  ∃ h b, idx.find_arg o = some h ∧ idx.heap[h]? = some b ∧ b.records id v

/-- The event of scenario S6: the record `{a = 42, b = {c = true, d = "x"}}`
at id 5. -/
def s6_event : event :=
  { id := 5,
    fields := record.of_list
      [.int 42, .record (record.of_list [.bool true, .string "x"])] }

/-- The hash storage is well formed: no key occurs twice in the hash table. -/
def unordered_storage.wf {T : Type} (s : unordered_storage T) : Prop :=
  s.map_.Pairwise (fun p q => p.1 ≠ q.1)

/-- The round trip of a storage policy with members `serialize`, `deserialize`,
`find` and the operator `==`, for the instance `s`: deserializing what
`serialize` wrote, into the fresh instance `fresh`, consumes exactly that and
yields an instance that is `==` to `s`, has the same `rows` and finds the same
bitstream for every key. -/
def storage_round_trip {S K T : Type} (serialize : S → List (token T))
    (deserialize : S → List (token T) → Option (S × List (token T)))
    (eq : S → S → Bool) (rows : S → Nat) (find : S → K → Option bitstream)
    (fresh s : S) : Prop :=
  ∀ rest, ∃ s1, deserialize fresh (serialize s ++ rest) = some (s1, rest) ∧
    eq s1 s = true ∧ rows s1 = rows s ∧ ∀ k, find s1 k = find s k

/-- The stored bitstreams of an equality-coded bitmap have no bit set at the
positions that `w` records as gaps. -/
def equality_gaps_clear {T : Type} (bm : bitmap (unordered_storage T))
    (w : List (Option T)) : Prop :=
  ∀ p ∈ bm.coder_.map_, ∀ (i : Nat), w[i]? = some none → p.2.test i = false

/-- Every bitstream the ordered storage holds has length `rows`. -/
def list_storage.uniform {T : Type} (s : list_storage T) : Prop :=
  ∀ p ∈ s.list_, p.2.length = s.rows

/-- Every bitstream the hash storage holds has length `rows`. -/
def unordered_storage.uniform {T : Type} (s : unordered_storage T) : Prop :=
  ∀ p ∈ s.map_, p.2.length = s.rows

/-- Every bitstream the vector storage holds has length `rows`. -/
def vector_storage.uniform (s : vector_storage) : Prop :=
  ∀ b, some b ∈ s.vector_ → b.length = s.rows

/-! ## Bitstream lemmas -/

namespace bitstream

theorem test_eq (a : bitstream) (i : Nat) : a.test i = (a[i]?).getD false := by
  simp [test, List.getD_eq_getElem?_getD]

theorem test_of_length_le (a : bitstream) (i : Nat) (h : a.length ≤ i) :
    a.test i = false := by
  simp [test_eq, List.getElem?_eq_none h]

theorem test_and (a b : bitstream) (i : Nat) :
    (a.and b).test i = (a.test i && b.test i) := by
  simp only [test_eq, bitstream.and, List.getElem?_zipWith]
  cases a[i]? <;> cases b[i]? <;> simp

theorem test_or (a b : bitstream) (i : Nat) (h : a.length = b.length) :
    (a.or b).test i = (a.test i || b.test i) := by
  simp only [test_eq, bitstream.or, List.getElem?_zipWith]
  by_cases hi : i < a.length
  · have hb : i < b.length := h ▸ hi
    simp [List.getElem?_eq_getElem hi, List.getElem?_eq_getElem hb]
  · have hb : ¬ i < b.length := h ▸ hi
    simp [List.getElem?_eq_none (Nat.le_of_not_lt hi),
      List.getElem?_eq_none (Nat.le_of_not_lt hb)]

theorem test_flip (a : bitstream) (i : Nat) :
    a.flip.test i = (decide (i < a.length) && !a.test i) := by
  simp only [test_eq, bitstream.flip, List.getElem?_map]
  by_cases hi : i < a.length
  · simp [List.getElem?_eq_getElem hi, hi]
  · simp [List.getElem?_eq_none (Nat.le_of_not_lt hi), hi]

theorem test_make (n : Nat) (b : Bool) (i : Nat) :
    (make n b).test i = (decide (i < n) && b) := by
  simp only [test_eq, make, List.getElem?_replicate]
  by_cases hi : i < n <;> simp [hi]

theorem test_push_back (a : bitstream) (b : Bool) (i : Nat) :
    (a.push_back b).test i =
      if i < a.length then a.test i else (decide (i = a.length) && b) := by
  simp only [test_eq, push_back, List.getElem?_append]
  by_cases hi : i < a.length
  · simp [hi]
  · by_cases he : i = a.length
    · simp [he]
    · have : [b].length ≤ i - a.length := by simp; omega
      simp [hi, he, List.getElem?_eq_none this]

theorem test_append (a : bitstream) (n : Nat) (b : Bool) (i : Nat) :
    (a.append n b).test i =
      if i < a.length then a.test i else (decide (i < a.length + n) && b) := by
  simp only [test_eq, append, List.getElem?_append, List.getElem?_replicate]
  by_cases hi : i < a.length
  · simp [hi]
  · by_cases hn : i - a.length < n
    · have : i < a.length + n := by omega
      simp [hi, hn, this]
    · have : ¬ i < a.length + n := by omega
      simp [hi, hn, this]

theorem length_and (a b : bitstream) (h : a.length = b.length) :
    (a.and b).length = a.length := by
  simp [bitstream.and, h]

theorem length_or (a b : bitstream) (h : a.length = b.length) :
    (a.or b).length = a.length := by
  simp [bitstream.or, h]

theorem length_flip (a : bitstream) : a.flip.length = a.length := by
  simp [bitstream.flip]

theorem length_make (n : Nat) (b : Bool) : (make n b).length = n := by
  simp [make]

theorem length_push_back (a : bitstream) (b : Bool) :
    (a.push_back b).length = a.length + 1 := by
  simp [push_back]

theorem length_append (a : bitstream) (n : Nat) (b : Bool) :
    (a.append n b).length = a.length + n := by
  simp [append]

theorem ext_test (a b : bitstream) (h : a.length = b.length)
    (ht : ∀ i, a.test i = b.test i) : a = b := by
  apply List.ext_getElem?
  intro i
  by_cases hi : i < a.length
  · have hb : i < b.length := h ▸ hi
    have := ht i
    simp only [test_eq, List.getElem?_eq_getElem hi,
      List.getElem?_eq_getElem hb, Option.getD_some] at this
    simp [List.getElem?_eq_getElem hi, List.getElem?_eq_getElem hb, this]
  · have hb : ¬ i < b.length := h ▸ hi
    simp [List.getElem?_eq_none (Nat.le_of_not_lt hi),
      List.getElem?_eq_none (Nat.le_of_not_lt hb)]

end bitstream

/-! ## The ordered storage -/

namespace list_storage

variable {T : Type} [LinearOrder T]

theorem lower_bound_cons (a : T × bitstream) (t : List (T × bitstream)) (x : T) :
    lower_bound (a :: t) x = if a.1 < x then lower_bound t x + 1 else 0 := by
  unfold lower_bound
  by_cases h : a.1 < x <;> simp [List.takeWhile_cons, h]

theorem upper_bound_cons (a : T × bitstream) (t : List (T × bitstream)) (x : T) :
    upper_bound (a :: t) x = if x < a.1 then 0 else upper_bound t x + 1 := by
  unfold upper_bound
  by_cases h : x < a.1 <;> simp [List.takeWhile_cons, h]

theorem lower_bound_le_length (l : List (T × bitstream)) (x : T) :
    lower_bound l x ≤ l.length := by
  induction l with
  | nil => simp [lower_bound]
  | cons a t ih =>
    rw [lower_bound_cons]
    by_cases h : a.1 < x <;> simp [h, ih]

theorem lt_of_lt_lower_bound (l : List (T × bitstream)) (x : T) :
    ∀ (i : Nat) (p : T × bitstream), l[i]? = some p → i < lower_bound l x →
      p.1 < x := by
  induction l with
  | nil => intro i p h; simp at h
  | cons a t ih =>
    intro i p h hi
    rw [lower_bound_cons] at hi
    by_cases ha : a.1 < x
    · cases i with
      | zero =>
        simp at h
        exact h ▸ ha
      | succ j =>
        simp only [ha, if_true] at hi
        rw [List.getElem?_cons_succ] at h
        exact ih j p h (by omega)
    · simp [ha] at hi

theorem not_lt_of_lower_bound_le (l : List (T × bitstream)) (x : T)
    (hs : l.Pairwise (fun p q => p.1 < q.1)) :
    ∀ (i : Nat) (p : T × bitstream), l[i]? = some p → lower_bound l x ≤ i →
      ¬ p.1 < x := by
  induction l with
  | nil => intro i p h; simp at h
  | cons a t ih =>
    intro i p h hi
    rw [List.pairwise_cons] at hs
    rw [lower_bound_cons] at hi
    by_cases ha : a.1 < x
    · simp only [ha, if_true] at hi
      cases i with
      | zero => omega
      | succ j =>
        rw [List.getElem?_cons_succ] at h
        exact ih hs.2 j p h (by omega)
    · have hp : p ∈ a :: t := List.mem_iff_getElem?.2 ⟨i, h⟩
      rcases List.mem_cons.1 hp with rfl | hp
      · exact ha
      · intro hlt
        exact ha (lt_trans (hs.1 p hp) hlt)

theorem not_lt_of_lt_upper_bound (l : List (T × bitstream)) (x : T) :
    ∀ (i : Nat) (p : T × bitstream), l[i]? = some p → i < upper_bound l x →
      ¬ x < p.1 := by
  induction l with
  | nil => intro i p h; simp at h
  | cons a t ih =>
    intro i p h hi
    rw [upper_bound_cons] at hi
    by_cases ha : x < a.1
    · simp [ha] at hi
    · cases i with
      | zero =>
        simp at h
        exact h ▸ ha
      | succ j =>
        simp only [ha, if_false] at hi
        rw [List.getElem?_cons_succ] at h
        exact ih j p h (by omega)

theorem lt_of_upper_bound_le (l : List (T × bitstream)) (x : T)
    (hs : l.Pairwise (fun p q => p.1 < q.1)) :
    ∀ (i : Nat) (p : T × bitstream), l[i]? = some p → upper_bound l x ≤ i →
      x < p.1 := by
  induction l with
  | nil => intro i p h; simp at h
  | cons a t ih =>
    intro i p h hi
    rw [List.pairwise_cons] at hs
    rw [upper_bound_cons] at hi
    by_cases ha : x < a.1
    · have hp : p ∈ a :: t := List.mem_iff_getElem?.2 ⟨i, h⟩
      rcases List.mem_cons.1 hp with rfl | hp
      · exact ha
      · exact lt_trans ha (hs.1 p hp)
    · simp only [ha, if_false] at hi
      cases i with
      | zero => omega
      | succ j =>
        rw [List.getElem?_cons_succ] at h
        exact ih hs.2 j p h (by omega)

theorem sorted_getElem? (l : List (T × bitstream))
    (hs : l.Pairwise (fun p q => p.1 < q.1)) (i j : Nat) (p q : T × bitstream)
    (hp : l[i]? = some p) (hq : l[j]? = some q) (hij : i < j) : p.1 < q.1 := by
  obtain ⟨hi, rfl⟩ := List.getElem?_eq_some.1 hp
  obtain ⟨hj, rfl⟩ := List.getElem?_eq_some.1 hq
  exact List.pairwise_iff_getElem.1 hs i j hi hj hij

theorem sorted_index_le (l : List (T × bitstream))
    (hs : l.Pairwise (fun p q => p.1 < q.1)) (i j : Nat) (p q : T × bitstream)
    (hp : l[i]? = some p) (hq : l[j]? = some q) (hij : i ≤ j) : p.1 ≤ q.1 := by
  rcases Nat.lt_or_eq_of_le hij with h | h
  · exact le_of_lt (sorted_getElem? l hs i j p q hp hq h)
  · subst h
    rw [hp] at hq
    cases hq
    exact le_refl _

theorem find?_key (l : List (T × bitstream))
    (hs : l.Pairwise (fun p q => p.1 < q.1)) (x : T) (b : bitstream) :
    (l.find? (fun p => decide (p.1 = x))).map Prod.snd = some b ↔
      (x, b) ∈ l := by
  induction l with
  | nil => simp
  | cons a t ih =>
    rw [List.pairwise_cons] at hs
    by_cases ha : a.1 = x
    · have hnot : (x, b) ∉ t := fun hm => by
        have := hs.1 (x, b) hm
        simp [ha] at this
      simp only [List.find?_cons, ha, decide_True, Option.map_some',
        List.mem_cons, hnot, or_false, Option.some.injEq]
      constructor
      · intro h
        rw [← h, ← ha]
      · intro h
        rw [← h]
    · have hne : (x, b) ≠ a := fun h => ha (by rw [← h])
      simp only [List.find?_cons, ha, decide_False, List.mem_cons, hne,
        false_or]
      exact ih hs.2

theorem find_eq_some_iff (s : list_storage T)
    (hs : s.list_.Pairwise (fun p q => p.1 < q.1))
    (hm : ∀ x, x ∈ s.map_ ↔ ∃ b, (x, b) ∈ s.list_) (x : T) (b : bitstream) :
    s.find x = some b ↔ (x, b) ∈ s.list_ := by
  unfold find
  by_cases hx : x ∈ s.map_
  · simp only [hx, if_true]
    exact find?_key s.list_ hs x b
  · simp only [hx, if_false]
    constructor
    · intro h; cases h
    · intro h; exact absurd ((hm x).2 ⟨b, h⟩) hx

theorem find_eq_none_iff (s : list_storage T)
    (hs : s.list_.Pairwise (fun p q => p.1 < q.1))
    (hm : ∀ x, x ∈ s.map_ ↔ ∃ b, (x, b) ∈ s.list_) (x : T) :
    s.find x = none ↔ ∀ b, (x, b) ∉ s.list_ := by
  constructor
  · intro h b hb
    rw [(find_eq_some_iff s hs hm x b).2 hb] at h
    cases h
  · intro h
    cases hf : s.find x with
    | none => rfl
    | some b => exact absurd ((find_eq_some_iff s hs hm x b).1 hf) (h b)

theorem find_bounds_fst_some (s : list_storage T)
    (hs : s.list_.Pairwise (fun p q => p.1 < q.1)) (x : T) (b : bitstream)
    (h : (s.find_bounds x).1 = some b) :
    ∃ L, (L, b) ∈ s.list_ ∧ L < x ∧ ∀ q ∈ s.list_, q.1 < x → q.1 ≤ L := by
  unfold find_bounds at h
  by_cases he : s.map_.isEmpty = true
  · simp [he] at h
  · simp only [he, Bool.false_eq_true, if_false] at h
    by_cases h0 : lower_bound s.list_ x ≠ 0
    · simp only [h0, ne_eq, not_false_eq_true, if_true] at h
      cases hg : s.list_[lower_bound s.list_ x - 1]? with
      | none => simp [hg] at h
      | some p =>
        simp only [hg] at h
        by_cases hp : p.1 < x
        · simp only [ne_eq, not_false_eq_true, hp, if_true, Option.some.injEq] at h
          refine ⟨p.1, ?_, hp, ?_⟩
          · rw [← h]
            exact List.mem_iff_getElem?.2 ⟨_, hg⟩
          · intro q hq hqx
            obtain ⟨j, hj⟩ := List.mem_iff_getElem?.1 hq
            have hjlt : j < lower_bound s.list_ x := by
              by_contra hcon
              exact not_lt_of_lower_bound_le s.list_ x hs j q hj
                (Nat.le_of_not_lt hcon) hqx
            exact sorted_index_le s.list_ hs j _ q p hj hg (by omega)
        · simp [hp] at h
    · simp [h0] at h

theorem find_bounds_fst_none (s : list_storage T)
    (hs : s.list_.Pairwise (fun p q => p.1 < q.1))
    (hm : ∀ x, x ∈ s.map_ ↔ ∃ b, (x, b) ∈ s.list_) (x : T)
    (h : (s.find_bounds x).1 = none) : ∀ q ∈ s.list_, ¬ q.1 < x := by
  intro q hq
  unfold find_bounds at h
  by_cases he : s.map_.isEmpty = true
  · have hmem : q.1 ∈ s.map_ := (hm q.1).2 ⟨q.2, hq⟩
    rw [List.isEmpty_iff] at he
    rw [he] at hmem
    cases hmem
  · simp only [he, Bool.false_eq_true, if_false] at h
    obtain ⟨j, hj⟩ := List.mem_iff_getElem?.1 hq
    by_cases h0 : lower_bound s.list_ x = 0
    · exact not_lt_of_lower_bound_le s.list_ x hs j q hj (by omega)
    · exfalso
      have hlen := lower_bound_le_length s.list_ x
      have hlt : lower_bound s.list_ x - 1 < s.list_.length := by omega
      have hg := List.getElem?_eq_getElem hlt
      have hp := lt_of_lt_lower_bound s.list_ x _ _ hg (by omega)
      simp [h0, hg, hp] at h

theorem find_bounds_snd_some (s : list_storage T)
    (hs : s.list_.Pairwise (fun p q => p.1 < q.1)) (x : T) (b : bitstream)
    (h : (s.find_bounds x).2 = some b) :
    ∃ U, (U, b) ∈ s.list_ ∧ x < U ∧ ∀ q ∈ s.list_, x < q.1 → U ≤ q.1 := by
  unfold find_bounds at h
  by_cases he : s.map_.isEmpty = true
  · simp [he] at h
  · simp only [he, Bool.false_eq_true, if_false] at h
    cases hg : s.list_[upper_bound s.list_ x]? with
    | none => simp [hg] at h
    | some p =>
      simp only [hg, Option.map_some', Option.some.injEq] at h
      refine ⟨p.1, ?_, lt_of_upper_bound_le s.list_ x hs _ p hg (le_refl _), ?_⟩
      · rw [← h]
        exact List.mem_iff_getElem?.2 ⟨_, hg⟩
      · intro q hq hxq
        obtain ⟨j, hj⟩ := List.mem_iff_getElem?.1 hq
        have hjge : upper_bound s.list_ x ≤ j := by
          by_contra hcon
          exact not_lt_of_lt_upper_bound s.list_ x j q hj
            (Nat.lt_of_not_le hcon) hxq
        exact sorted_index_le s.list_ hs _ j p q hg hj hjge

theorem find_bounds_snd_none (s : list_storage T)
    (hm : ∀ x, x ∈ s.map_ ↔ ∃ b, (x, b) ∈ s.list_) (x : T)
    (h : (s.find_bounds x).2 = none) : ∀ q ∈ s.list_, ¬ x < q.1 := by
  intro q hq
  unfold find_bounds at h
  by_cases he : s.map_.isEmpty = true
  · have hmem : q.1 ∈ s.map_ := (hm q.1).2 ⟨q.2, hq⟩
    rw [List.isEmpty_iff] at he
    rw [he] at hmem
    cases hmem
  · simp only [he, Bool.false_eq_true, if_false, Option.map_eq_none'] at h
    obtain ⟨j, hj⟩ := List.mem_iff_getElem?.1 hq
    have hlen : s.list_.length ≤ upper_bound s.list_ x :=
      List.getElem?_eq_none_iff.1 h
    have hjlt : j < s.list_.length := (List.getElem?_eq_some.1 hj).1
    exact not_lt_of_lt_upper_bound s.list_ x j q hj (by omega)

theorem insert_new (s : list_storage T)
    (hs : s.list_.Pairwise (fun p q => p.1 < q.1))
    (hm : ∀ x, x ∈ s.map_ ↔ ∃ b, (x, b) ∈ s.list_) (x : T) (b : bitstream)
    (hx : ∀ c, (x, c) ∉ s.list_) :
    ∃ s1, s.insert x b = (true, s1) ∧ s1.rows = s.rows ∧
      (∀ y, y ∈ s1.map_ ↔ y = x ∨ y ∈ s.map_) ∧
      (∀ q, q ∈ s1.list_ ↔ q = (x, b) ∨ q ∈ s.list_) ∧
      s1.list_.Pairwise (fun p q => p.1 < q.1) := by
  have hxm : x ∉ s.map_ := fun h => by
    obtain ⟨c, hc⟩ := (hm x).1 h
    exact hx c hc
  have hne : ∀ q ∈ s.list_, q.1 ≠ x := fun q hq h =>
    hx q.2 (by rw [← h]; exact hq)
  have hval : s.insert x b = (true,
      { s with list_ := s.list_.take (lower_bound s.list_ x) ++
                  (x, b) :: s.list_.drop (lower_bound s.list_ x),
               map_ := x :: s.map_ }) := by
    cases hg : s.list_[lower_bound s.list_ x]? with
    | none => simp [insert, hxm, hg]
    | some p =>
      have h1 := not_lt_of_lower_bound_le s.list_ x hs _ p hg (le_refl _)
      have h2 : p.1 ≠ x := hne p (List.mem_iff_getElem?.2 ⟨_, hg⟩)
      have h3 : x < p.1 := lt_of_le_of_ne (not_lt.1 h1) (Ne.symm h2)
      simp [insert, hxm, hg, h3]
  refine ⟨_, hval, rfl, ?_, ?_, ?_⟩
  · intro y; simp
  · intro q
    have hsplit : q ∈ s.list_ ↔ q ∈ s.list_.take (lower_bound s.list_ x) ∨
        q ∈ s.list_.drop (lower_bound s.list_ x) := by
      rw [← List.mem_append, List.take_append_drop]
    simp only [List.mem_append, List.mem_cons, hsplit]
    tauto
  · have htake : ∀ q ∈ s.list_.take (lower_bound s.list_ x), q.1 < x := by
      intro q hq
      obtain ⟨j, hj⟩ := List.mem_iff_getElem?.1 hq
      rw [List.getElem?_take] at hj
      by_cases hjl : j < lower_bound s.list_ x
      · simp only [hjl, if_true] at hj
        exact lt_of_lt_lower_bound s.list_ x j q hj hjl
      · simp [hjl] at hj
    have hdrop : ∀ q ∈ s.list_.drop (lower_bound s.list_ x), x < q.1 := by
      intro q hq
      obtain ⟨j, hj⟩ := List.mem_iff_getElem?.1 hq
      rw [List.getElem?_drop] at hj
      have h1 := not_lt_of_lower_bound_le s.list_ x hs _ q hj (by omega)
      have h2 : q.1 ≠ x := hne q (List.mem_iff_getElem?.2 ⟨_, hj⟩)
      exact lt_of_le_of_ne (not_lt.1 h1) (Ne.symm h2)
    show List.Pairwise _ (s.list_.take (lower_bound s.list_ x) ++
      (x, b) :: s.list_.drop (lower_bound s.list_ x))
    rw [List.pairwise_append, List.pairwise_cons]
    refine ⟨hs.sublist (List.take_sublist _ _),
      ⟨hdrop, hs.sublist (List.drop_sublist _ _)⟩, ?_⟩
    intro a ha c hc
    rcases List.mem_cons.1 hc with rfl | hc
    · exact htake a ha
    · exact lt_trans (htake a ha) (hdrop c hc)

end list_storage

/-! ## The range coder keeps its invariant -/

namespace range_coder

variable {T : Type} [LinearOrder T]

theorem inv_init : range_inv (range_bitmap T) [] := by
  constructor <;> simp [range_bitmap]

theorem inv_insert (s : list_storage T) (valid : bitstream)
    (w : List (Option T)) (h : range_inv { coder_ := s, valid_ := valid } w)
    (x : T) (sd : bitstream) (hx : ∀ c, (x, c) ∉ s.list_)
    (hlen : sd.length = w.length)
    (hsd : ∀ (i : Nat) (y : T), w[i]? = some (some y) →
      sd.test i = decide (y ≤ x)) :
    ∃ s1, s.insert x sd = (true, s1) ∧
      range_inv { coder_ := s1, valid_ := valid } w ∧
      ∃ b, (x, b) ∈ s1.list_ := by
  obtain ⟨s1, h1, hrows, hmap, hmem, hsorted⟩ :=
    list_storage.insert_new s h.sorted h.map_keys x sd hx
  refine ⟨s1, h1, ?_, sd, (hmem _).2 (Or.inl rfl)⟩
  constructor
  · exact hsorted
  · intro y
    show y ∈ s1.map_ ↔ ∃ b, (y, b) ∈ s1.list_
    rw [hmap y]
    constructor
    · rintro (rfl | hy)
      · exact ⟨sd, (hmem _).2 (Or.inl rfl)⟩
      · obtain ⟨b, hb⟩ := (h.map_keys y).1 hy
        exact ⟨b, (hmem _).2 (Or.inr hb)⟩
    · rintro ⟨b, hb⟩
      rcases (hmem _).1 hb with heq | hold
      · left
        exact congrArg Prod.fst heq
      · right
        exact (h.map_keys y).2 ⟨b, hold⟩
  · show s1.rows = w.length
    rw [hrows]
    exact h.rows_eq
  · exact h.valid_eq
  · intro p hp
    rcases (hmem _).1 hp with rfl | hold
    · exact hlen
    · exact h.len p hold
  · intro p hp i y hy
    rcases (hmem _).1 hp with rfl | hold
    · exact hsd i y hy
    · exact h.bits p hold i y hy
  · intro i y hy
    obtain ⟨b, hb⟩ := h.keys i y hy
    exact ⟨b, (hmem _).2 (Or.inr hb)⟩

theorem inv_insert_seeded (s : list_storage T) (valid : bitstream)
    (w : List (Option T)) (h : range_inv { coder_ := s, valid_ := valid } w)
    (x : T) (hx : ∀ c, (x, c) ∉ s.list_) :
    ∃ s1, insert_seeded s x = (true, s1) ∧
      range_inv { coder_ := s1, valid_ := valid } w ∧
      ∃ b, (x, b) ∈ s1.list_ := by
  have hrows : s.rows = w.length := h.rows_eq
  have hkey : ∀ (i : Nat) (y : T), w[i]? = some (some y) →
      ∃ b, (y, b) ∈ s.list_ ∧ y ≠ x := by
    intro i y hy
    obtain ⟨b, hb⟩ := h.keys i y hy
    refine ⟨b, hb, ?_⟩
    rintro rfl
    exact hx b hb
  have htrue : ∀ (i : Nat) (y : T), (∀ q ∈ s.list_, ¬ x < q.1) →
      w[i]? = some (some y) →
      (bitstream.make s.rows true).test i = decide (y ≤ x) := by
    intro i y hall hy
    obtain ⟨b, hb, _⟩ := hkey i y hy
    have hle : y ≤ x := not_lt.1 (hall (y, b) hb)
    have hi : i < w.length := (List.getElem?_eq_some.1 hy).1
    simp [bitstream.test_make, hrows, hi, hle]
  unfold insert_seeded
  cases hlo : (s.find_bounds x).1 with
  | some first =>
    obtain ⟨L, hL, hLx, hmax⟩ :=
      list_storage.find_bounds_fst_some s h.sorted x first hlo
    have hfirst : ∀ (i : Nat) (y : T), w[i]? = some (some y) →
        first.test i = decide (y ≤ x) := by
      intro i y hy
      obtain ⟨b, hb, hne⟩ := hkey i y hy
      rw [h.bits (L, first) hL i y hy]
      by_cases hyx : y ≤ x
      · have : y ≤ L := hmax (y, b) hb (lt_of_le_of_ne hyx hne)
        simp [hyx, this]
      · have : ¬ y ≤ L := fun hyl => hyx (le_trans hyl (le_of_lt hLx))
        simp [hyx, this]
    cases hup : (s.find_bounds x).2 with
    | some second =>
      have hfb : s.find_bounds x = (some first, some second) :=
        Prod.ext hlo hup
      rw [hfb]
      exact inv_insert s valid w h x first hx (h.len (L, first) hL) hfirst
    | none =>
      have hfb : s.find_bounds x = (some first, none) :=
        Prod.ext hlo hup
      rw [hfb]
      exact inv_insert s valid w h x _ hx
        (by rw [bitstream.length_make, hrows])
        (fun i y hy => htrue i y
          (list_storage.find_bounds_snd_none s h.map_keys x hup) hy)
  | none =>
    have hmin := list_storage.find_bounds_fst_none s h.sorted h.map_keys x hlo
    cases hup : (s.find_bounds x).2 with
    | some second =>
      have hfb : s.find_bounds x = (none, some second) :=
        Prod.ext hlo hup
      rw [hfb]
      refine inv_insert s valid w h x _ hx
        (by rw [bitstream.length_make, hrows]) ?_
      intro i y hy
      obtain ⟨b, hb, hne⟩ := hkey i y hy
      have hnle : ¬ y ≤ x := fun hyx =>
        hmin (y, b) hb (lt_of_le_of_ne hyx hne)
      simp [bitstream.test_make, hnle]
    | none =>
      have hfb : s.find_bounds x = (none, none) :=
        Prod.ext hlo hup
      rw [hfb]
      exact inv_insert s valid w h x _ hx
        (by rw [bitstream.length_make, hrows])
        (fun i y hy => htrue i y
          (list_storage.find_bounds_snd_none s h.map_keys x hup) hy)

theorem getElem?_snoc_some {α : Type} (w : List α) (a b : α) (i : Nat)
    (h : (w ++ [a])[i]? = some b) :
    (i < w.length ∧ w[i]? = some b) ∨ (i = w.length ∧ a = b) := by
  rw [List.getElem?_append] at h
  by_cases hi : i < w.length
  · simp only [hi, if_true] at h
    exact Or.inl ⟨hi, h⟩
  · simp only [hi, if_false] at h
    have hlt : i - w.length < [a].length := (List.getElem?_eq_some.1 h).1
    have h0 : i - w.length = 0 := by simpa using hlt
    rw [h0] at h
    simp at h
    exact Or.inr ⟨by omega, h⟩

theorem getElem?_gap_some {α : Type} (w : List (Option α)) (n : Nat) (b : α)
    (i : Nat) (h : (w ++ List.replicate n none)[i]? = some (some b)) :
    i < w.length ∧ w[i]? = some (some b) := by
  rw [List.getElem?_append] at h
  by_cases hi : i < w.length
  · simp only [hi, if_true] at h
    exact ⟨hi, h⟩
  · simp only [hi, if_false, List.getElem?_replicate] at h
    by_cases hn : i - w.length < n <;> simp [hn] at h

theorem inv_each (s : list_storage T) (valid : bitstream) (w : List (Option T))
    (h : range_inv { coder_ := s, valid_ := valid } w)
    (f : T → bitstream → bitstream) (n : Nat) (valid1 : bitstream)
    (w1 : List (Option T)) (hw : w1.length = w.length + n)
    (hvalid : valid1 = w1.map Option.isSome)
    (hlen : ∀ p ∈ s.list_, (f p.1 p.2).length = p.2.length + n)
    (hbits : ∀ p ∈ s.list_, ∀ (i : Nat) (y : T), w1[i]? = some (some y) →
      (f p.1 p.2).test i = decide (y ≤ p.1))
    (hkeys : ∀ (i : Nat) (y : T), w1[i]? = some (some y) →
      ∃ b, (y, b) ∈ s.list_) :
    range_inv { coder_ := { s.each f with rows := (s.each f).rows + n },
                valid_ := valid1 } w1 := by
  have hmem : ∀ q, q ∈ (s.each f).list_ ↔
      ∃ p ∈ s.list_, (p.1, f p.1 p.2) = q := by
    intro q
    simp [list_storage.each]
  constructor
  · show List.Pairwise _ (s.each f).list_
    simp only [list_storage.each, List.pairwise_map]
    exact h.sorted
  · intro y
    show y ∈ s.map_ ↔ ∃ b, (y, b) ∈ (s.each f).list_
    rw [h.map_keys y]
    constructor
    · rintro ⟨b, hb⟩
      exact ⟨f y b, (hmem _).2 ⟨(y, b), hb, rfl⟩⟩
    · rintro ⟨b, hb⟩
      obtain ⟨p, hp, heq⟩ := (hmem _).1 hb
      have hk : p.1 = y := congrArg Prod.fst heq
      exact ⟨p.2, by rw [← hk]; exact hp⟩
  · show s.rows + n = w1.length
    rw [hw]
    have := h.rows_eq
    simp only at this
    omega
  · exact hvalid
  · intro q hq
    obtain ⟨p, hp, rfl⟩ := (hmem _).1 hq
    show (f p.1 p.2).length = w1.length
    rw [hlen p hp, h.len p hp, hw]
  · intro q hq i y hy
    obtain ⟨p, hp, rfl⟩ := (hmem _).1 hq
    exact hbits p hp i y hy
  · intro i y hy
    obtain ⟨b, hb⟩ := hkeys i y hy
    exact ⟨f y b, (hmem _).2 ⟨(y, b), hb, rfl⟩⟩

theorem inv_encode (s : list_storage T) (valid : bitstream)
    (w : List (Option T)) (h : range_inv { coder_ := s, valid_ := valid } w)
    (x : T) :
    ∃ s1, encode s x = (true, s1) ∧
      range_inv { coder_ := s1, valid_ := valid.push_back true }
        (w ++ [some x]) := by
  have hstep : ∀ s0 : list_storage T,
      range_inv { coder_ := s0, valid_ := valid } w →
      (∃ b, (x, b) ∈ s0.list_) →
      range_inv
        { coder_ :=
            { s0.each (fun k bs => bs.push_back (decide (x ≤ k))) with
              rows := (s0.each
                (fun k bs => bs.push_back (decide (x ≤ k)))).rows + 1 },
          valid_ := valid.push_back true } (w ++ [some x]) := by
    intro s0 h0 hx0
    have hv : valid = w.map Option.isSome := h0.valid_eq
    refine inv_each s0 valid w h0 _ 1 _ _ (by simp) (by simp [hv, bitstream.push_back])
      (fun p _ => bitstream.length_push_back _ _) ?_ ?_
    · intro p hp i y hy
      rw [bitstream.test_push_back, h0.len p hp]
      rcases getElem?_snoc_some w _ _ i hy with ⟨hi, hwi⟩ | ⟨hi, hxy⟩
      · simp only [hi, if_true]
        exact h0.bits p hp i y hwi
      · cases hxy
        simp [hi]
    · intro i y hy
      rcases getElem?_snoc_some w _ _ i hy with ⟨_, hwi⟩ | ⟨_, hxy⟩
      · exact h0.keys i y hwi
      · cases hxy
        exact hx0
  unfold encode
  cases hf : s.find x with
  | some b =>
    have hb := (list_storage.find_eq_some_iff s h.sorted h.map_keys x b).1 hf
    exact ⟨_, by simp, hstep s h ⟨b, hb⟩⟩
  | none =>
    have hx := (list_storage.find_eq_none_iff s h.sorted h.map_keys x).1 hf
    obtain ⟨s1, h1, hinv, hkey⟩ := inv_insert_seeded s valid w h x hx
    exact ⟨_, by simp [h1], hstep s1 hinv hkey⟩

theorem inv_append (s : list_storage T) (valid : bitstream)
    (w : List (Option T)) (h : range_inv { coder_ := s, valid_ := valid } w)
    (n : Nat) :
    ∃ s1, append s n false = (true, s1) ∧
      range_inv { coder_ := s1, valid_ := valid.append n false }
        (w ++ List.replicate n none) := by
  have hv : valid = w.map Option.isSome := h.valid_eq
  refine ⟨_, rfl, ?_⟩
  refine inv_each s valid w h _ n _ _ (by simp) (by simp [hv, bitstream.append])
    (fun p _ => bitstream.length_append _ _ _) ?_ ?_
  · intro p hp i y hy
    obtain ⟨hi, hwi⟩ := getElem?_gap_some w n y i hy
    rw [bitstream.test_append, h.len p hp]
    simp only [hi, if_true]
    exact h.bits p hp i y hwi
  · intro i y hy
    exact h.keys i y (getElem?_gap_some w n y i hy).2

end range_coder

/-! ## Lookups on a bitmap -/

theorem written_cons {T : Type} (o : bitmap_op T) (ops : List (bitmap_op T)) :
    written (o :: ops) = written [o] ++ written ops := by
  cases o <;> simp [written]

theorem run_ops_induct {C T : Type} (cp : coder_policy C T) (binner : T → T)
    (I : bitmap C → List (Option T) → Prop)
    (hpush : ∀ bm w x, I bm w → I (bm.push_back cp binner x).2 (w ++ [some x]))
    (happ : ∀ bm w n, I bm w →
      I (bm.append cp n false).2 (w ++ List.replicate n none)) :
    ∀ (ops : List (bitmap_op T)) (bm : bitmap C) (w : List (Option T)),
      gaps_false ops → I bm w →
      I (run_ops cp binner bm ops) (w ++ written ops) := by
  intro ops
  induction ops with
  | nil =>
    intro bm w _ h
    simpa [run_ops, written] using h
  | cons o ops ih =>
    intro bm w hg h
    have hg1 : gaps_false ops := fun o1 hm =>
      hg o1 (List.mem_cons_of_mem _ hm)
    rw [written_cons, ← List.append_assoc]
    have hrun : run_ops cp binner bm (o :: ops) =
        run_ops cp binner (apply_op cp binner bm o) ops := rfl
    rw [hrun]
    apply ih _ _ hg1
    cases o with
    | push_back x => simpa [apply_op, written] using hpush bm w x h
    | append n bit =>
      have hbit : bit = false := by
        simpa [bitmap_op.gap_false] using hg _ (List.mem_cons_self _ _)
      subst hbit
      simpa [apply_op, written] using happ bm w n h

theorem valid_test {T : Type} (w : List (Option T)) (i : Nat) :
    bitstream.test (w.map Option.isSome) i = true ↔
      ∃ y, w[i]? = some (some y) := by
  rw [bitstream.test_eq, List.getElem?_map]
  cases hw : w[i]? with
  | none => simp
  | some o => cases o <;> simp

theorem result_bit_mask (r : Option bitstream) (valid : bitstream) (i : Nat) :
    result_bit (r.map (fun b => b.and valid)) i =
      (result_bit r i && valid.test i) := by
  cases r with
  | none => simp [result_bit]
  | some b => simp [result_bit, bitstream.test_and]

theorem lookup_of_decode {C T : Type} (cp : coder_policy C T) (binner : T → T)
    (bm : bitmap C) (op : relational_operator) (x : T) (r : Option bitstream)
    (h : cp.decode bm.coder_ (binner x) op = .ok r) :
    bm.lookup cp binner op x = .ok (r.map (fun b => b.and bm.valid_)) := by
  unfold bitmap.lookup
  rw [h]
  cases r <;> rfl

theorem lookup_sound {C T : Type} (cp : coder_policy C T) (binner : T → T)
    (bm : bitmap C) (w : List (Option T))
    (hv : bm.valid_ = w.map Option.isSome) (op : relational_operator) (x : T)
    (r : Option bitstream) (h : cp.decode bm.coder_ (binner x) op = .ok r)
    (P : T → Prop) [DecidablePred P]
    (hbits : ∀ (i : Nat) (y : T), w[i]? = some (some y) →
      result_bit r i = decide (P y)) :
    ∃ r1, bm.lookup cp binner op x = .ok r1 ∧
      ∀ i, result_bit r1 i = true ↔ ∃ y, w[i]? = some (some y) ∧ P y := by
  refine ⟨_, lookup_of_decode cp binner bm op x r h, ?_⟩
  intro i
  rw [result_bit_mask, Bool.and_eq_true, hv, valid_test]
  constructor
  · rintro ⟨hr, y, hy⟩
    rw [hbits i y hy] at hr
    exact ⟨y, hy, of_decide_eq_true hr⟩
  · rintro ⟨y, hy, hp⟩
    exact ⟨by rw [hbits i y hy]; exact decide_eq_true hp, y, hy⟩

namespace range_coder

variable {T : Type} [LinearOrder T]

theorem inv_run (integral : Option (integral_ops T))
    (ops : List (bitmap_op T)) (hg : gaps_false ops) :
    range_inv (run_ops (policy integral) null_binner (range_bitmap T) ops)
      (written ops) := by
  have h := run_ops_induct (policy integral) null_binner
    (fun bm w => range_inv bm w)
    (fun bm w x hI => by
      obtain ⟨s1, h1, h2⟩ := inv_encode bm.coder_ bm.valid_ w hI x
      have : (bm.push_back (policy integral) null_binner x).2 =
          { coder_ := s1, valid_ := bm.valid_.push_back true } := by
        simp [bitmap.push_back, policy, null_binner, h1]
      rw [this]
      exact h2)
    (fun bm w n hI => by
      obtain ⟨s1, h1, h2⟩ := inv_append bm.coder_ bm.valid_ w hI n
      have : (bm.append (policy integral) n false).2 =
          { coder_ := s1, valid_ := bm.valid_.append n false } := by
        simp [bitmap.append, policy, h1]
      rw [this]
      exact h2)
    ops (range_bitmap T) [] hg inv_init
  simpa using h

theorem decode_less_equal_sound (bm : bitmap (list_storage T))
    (w : List (Option T)) (h : range_inv bm w) (v : T) (i : Nat) (y : T)
    (hy : w[i]? = some (some y)) :
    result_bit (decode_less_equal bm.coder_ v) i = decide (y ≤ v) := by
  obtain ⟨c, hc⟩ := h.keys i y hy
  unfold decode_less_equal
  cases hf : bm.coder_.find v with
  | some b =>
    have hb := (list_storage.find_eq_some_iff _ h.sorted h.map_keys v b).1 hf
    exact h.bits (v, b) hb i y hy
  | none =>
    have hv := (list_storage.find_eq_none_iff _ h.sorted h.map_keys v).1 hf
    have hne : y ≠ v := fun e => hv c (e ▸ hc)
    cases hlo : (bm.coder_.find_bounds v).1 with
    | some lower =>
      obtain ⟨L, hL, hLv, hmax⟩ :=
        list_storage.find_bounds_fst_some _ h.sorted v lower hlo
      show lower.test i = decide (y ≤ v)
      rw [h.bits (L, lower) hL i y hy]
      by_cases hyv : y ≤ v
      · have : y ≤ L := hmax (y, c) hc (lt_of_le_of_ne hyv hne)
        simp [hyv, this]
      · have : ¬ y ≤ L := fun hyl => hyv (le_trans hyl (le_of_lt hLv))
        simp [hyv, this]
    | none =>
      have hmin :=
        list_storage.find_bounds_fst_none _ h.sorted h.map_keys v hlo
      have : ¬ y ≤ v := fun hyv => hmin (y, c) hc (lt_of_le_of_ne hyv hne)
      simp [result_bit, this]

theorem decode_less_equal_length (bm : bitmap (list_storage T))
    (w : List (Option T)) (h : range_inv bm w) (v : T) (r : bitstream)
    (hr : decode_less_equal bm.coder_ v = some r) : r.length = w.length := by
  unfold decode_less_equal at hr
  cases hf : bm.coder_.find v with
  | some b =>
    have hb := (list_storage.find_eq_some_iff _ h.sorted h.map_keys v b).1 hf
    simp only [hf, Option.some.injEq] at hr
    exact hr ▸ h.len (v, b) hb
  | none =>
    cases hlo : (bm.coder_.find_bounds v).1 with
    | some lower =>
      obtain ⟨L, hL, _, _⟩ :=
        list_storage.find_bounds_fst_some _ h.sorted v lower hlo
      simp only [hf, hlo, Option.some.injEq] at hr
      exact hr ▸ h.len (L, lower) hL
    | none => simp [hf, hlo] at hr

theorem decode_equal_sound (bm : bitmap (list_storage T))
    (w : List (Option T)) (h : range_inv bm w) (v : T) (i : Nat) (y : T)
    (hy : w[i]? = some (some y)) :
    result_bit (decode_equal bm.coder_ v) i = decide (y = v) := by
  obtain ⟨c, hc⟩ := h.keys i y hy
  have hle := decode_less_equal_sound bm w h v i y hy
  have hi : i < w.length := (List.getElem?_eq_some.1 hy).1
  unfold decode_equal
  cases hd : decode_less_equal bm.coder_ v with
  | none =>
    rw [hd] at hle
    have hnle : ¬ y ≤ v := by simpa [result_bit] using hle.symm
    have : ¬ y = v := fun e => hnle (le_of_eq e)
    simp [result_bit, this]
  | some le =>
    rw [hd] at hle
    have hle1 : le.test i = decide (y ≤ v) := hle
    cases hlo : (bm.coder_.find_bounds v).1 with
    | none =>
      have hmin :=
        list_storage.find_bounds_fst_none _ h.sorted h.map_keys v hlo
      show le.test i = decide (y = v)
      rw [hle1]
      have hnlt : ¬ y < v := hmin (y, c) hc
      by_cases hyv : y = v
      · simp [hyv]
      · have : ¬ y ≤ v := fun hl => hnlt (lt_of_le_of_ne hl hyv)
        simp [hyv, this]
    | some first =>
      obtain ⟨L, hL, hLv, hmax⟩ :=
        list_storage.find_bounds_fst_some _ h.sorted v first hlo
      show (le.and first.flip).test i = decide (y = v)
      rw [bitstream.test_and, bitstream.test_flip, hle1,
        h.bits (L, first) hL i y hy, h.len (L, first) hL]
      by_cases hyv : y = v
      · subst hyv
        have : ¬ y ≤ L := not_le.2 hLv
        simp [hi, this]
      · by_cases hl : y ≤ v
        · have : y ≤ L := hmax (y, c) hc (lt_of_le_of_ne hl hyv)
          simp [hyv, this]
        · simp [hyv, hl]

theorem decode_equal_length (bm : bitmap (list_storage T))
    (w : List (Option T)) (h : range_inv bm w) (v : T) (r : bitstream)
    (hr : decode_equal bm.coder_ v = some r) : r.length = w.length := by
  unfold decode_equal at hr
  cases hd : decode_less_equal bm.coder_ v with
  | none => simp [hd] at hr
  | some le =>
    have hlen := decode_less_equal_length bm w h v le hd
    cases hlo : (bm.coder_.find_bounds v).1 with
    | none =>
      simp only [hd, hlo, Option.some.injEq] at hr
      exact hr ▸ hlen
    | some first =>
      obtain ⟨L, hL, _, _⟩ :=
        list_storage.find_bounds_fst_some _ h.sorted v first hlo
      simp only [hd, hlo, Option.some.injEq] at hr
      rw [← hr, bitstream.length_and, hlen]
      rw [bitstream.length_flip, hlen, h.len (L, first) hL]

end range_coder

/-! ## Properties of the range coder -/

theorem test_lt_length (a : bitstream) (i : Nat) (h : a.test i = true) :
    i < a.length := by
  by_contra hcon
  rw [bitstream.test_of_length_le a i (Nat.le_of_not_lt hcon)] at h
  cases h

/-- C1: on a range-coded bitmap with the identity binner built by `push_back`
and `append(n, false)` calls, `lookup(less_equal, v)` returns a result whose
bit `i` (an absent result having no bit) is set exactly when position `i` was
written by a `push_back` of a value `x` with `x ≤ v`. -/
theorem range_lookup_less_equal_sound {T : Type} [LinearOrder T]
    (integral : Option (integral_ops T)) (ops : List (bitmap_op T))
    (hg : gaps_false ops) (v : T) :
    ∃ r, (run_ops (range_coder.policy integral) null_binner (range_bitmap T)
          ops).lookup (range_coder.policy integral) null_binner
          .less_equal v = .ok r ∧
      ∀ i, result_bit r i = true ↔
        ∃ x, (written ops)[i]? = some (some x) ∧ x ≤ v := by
  have hinv := range_coder.inv_run integral ops hg
  exact lookup_sound _ _ _ (written ops) hinv.valid_eq .less_equal v _ rfl
    (fun x => x ≤ v)
    (fun i y hy => range_coder.decode_less_equal_sound _ _ hinv v i y hy)

theorem range_lookup_less_equal_sound_witness :
    gaps_false [bitmap_op.push_back (3 : Int), .append 2 false, .push_back 7] ∧
    ∃ r, (run_ops (range_coder.policy (some int64_t.ops)) null_binner
          (range_bitmap Int)
          [.push_back 3, .append 2 false, .push_back 7]).lookup
          (range_coder.policy (some int64_t.ops)) null_binner
          .less_equal 5 = .ok r ∧
      ∀ i, result_bit r i = true ↔
        ∃ x, (written [bitmap_op.push_back (3 : Int), .append 2 false,
          .push_back 7])[i]? = some (some x) ∧ x ≤ 5 :=
  ⟨by decide, range_lookup_less_equal_sound (some int64_t.ops)
    [.push_back 3, .append 2 false, .push_back 7] (by decide) 5⟩

/-- C3: on a range-coded bitmap with the identity binner built by `push_back`
and `append(n, false)` calls, for every `v`, pushed or not, `lookup(equal, v)`
returns a result whose bit `i` is set exactly when position `i` was written by
a `push_back` of `v`; for a `v` that was never pushed no bit is set. -/
theorem range_lookup_equal_sound {T : Type} [LinearOrder T]
    (integral : Option (integral_ops T)) (ops : List (bitmap_op T))
    (hg : gaps_false ops) (v : T) :
    ∃ r, (run_ops (range_coder.policy integral) null_binner (range_bitmap T)
          ops).lookup (range_coder.policy integral) null_binner
          .equal v = .ok r ∧
      (∀ i, result_bit r i = true ↔ (written ops)[i]? = some (some v)) ∧
      (some v ∉ written ops → ∀ i, result_bit r i = false) := by
  have hinv := range_coder.inv_run integral ops hg
  obtain ⟨r, hr, hbits⟩ :=
    lookup_sound (range_coder.policy integral) null_binner _ (written ops)
      hinv.valid_eq .equal v _ rfl (fun x => x = v)
      (fun i y hy => range_coder.decode_equal_sound _ _ hinv v i y hy)
  have hiff : ∀ i, result_bit r i = true ↔
      (written ops)[i]? = some (some v) := by
    intro i
    rw [hbits i]
    constructor
    · rintro ⟨y, hy, rfl⟩
      exact hy
    · intro h
      exact ⟨v, h, rfl⟩
  refine ⟨r, hr, hiff, ?_⟩
  intro hnot i
  cases hb : result_bit r i with
  | false => rfl
  | true => exact absurd (List.mem_iff_getElem?.2 ⟨i, (hiff i).1 hb⟩) hnot

theorem range_lookup_equal_sound_witness :
    gaps_false [bitmap_op.push_back (3 : Int), .append 1 false, .push_back 9,
      .push_back 3] ∧
    ∃ r, (run_ops (range_coder.policy (some int64_t.ops)) null_binner
          (range_bitmap Int)
          [.push_back 3, .append 1 false, .push_back 9, .push_back 3]).lookup
          (range_coder.policy (some int64_t.ops)) null_binner
          .equal 5 = .ok r ∧
      (∀ i, result_bit r i = true ↔
        (written [bitmap_op.push_back (3 : Int), .append 1 false,
          .push_back 9, .push_back 3])[i]? = some (some 5)) ∧
      (some 5 ∉ written [bitmap_op.push_back (3 : Int), .append 1 false,
          .push_back 9, .push_back 3] → ∀ i, result_bit r i = false) :=
  ⟨by decide, range_lookup_equal_sound (some int64_t.ops)
    [.push_back 3, .append 1 false, .push_back 9, .push_back 3] (by decide) 5⟩

theorem or_mask (b valid : bitstream) (n : Nat) (hb : b.length = n)
    (hv : valid.length = n) :
    (b.and valid).or (b.flip.and valid) = valid := by
  have h1 : (b.and valid).length = n := by
    rw [bitstream.length_and _ _ (hb.trans hv.symm), hb]
  have h2 : (b.flip.and valid).length = n := by
    rw [bitstream.length_and _ _ (by rw [bitstream.length_flip, hb, hv]),
      bitstream.length_flip, hb]
  apply bitstream.ext_test
  · rw [bitstream.length_or _ _ (h1.trans h2.symm), h1, hv]
  · intro i
    rw [bitstream.test_or _ _ i (h1.trans h2.symm), bitstream.test_and,
      bitstream.test_and, bitstream.test_flip, hb]
    cases hvi : valid.test i with
    | false => simp
    | true =>
      have hi : i < n := hv ▸ test_lt_length valid i hvi
      cases hbi : b.test i <;> simp [hi]

theorem and_mask (b valid : bitstream) (n : Nat) (hb : b.length = n)
    (hv : valid.length = n) :
    (b.and valid).and (b.flip.and valid) = bitstream.make n false := by
  have h1 : (b.and valid).length = n := by
    rw [bitstream.length_and _ _ (hb.trans hv.symm), hb]
  have h2 : (b.flip.and valid).length = n := by
    rw [bitstream.length_and _ _ (by rw [bitstream.length_flip, hb, hv]),
      bitstream.length_flip, hb]
  apply bitstream.ext_test
  · rw [bitstream.length_and _ _ (h1.trans h2.symm), h1,
      bitstream.length_make]
  · intro i
    rw [bitstream.test_and, bitstream.test_and, bitstream.test_and,
      bitstream.test_flip, bitstream.test_make]
    cases hbi : b.test i <;> simp

theorem or_mask_absent (valid : bitstream) (n : Nat) (hv : valid.length = n) :
    (bitstream.make n false).or ((bitstream.make n true).and valid) =
      valid := by
  have h2 : ((bitstream.make n true).and valid).length = n := by
    rw [bitstream.length_and _ _ (by rw [bitstream.length_make, hv]),
      bitstream.length_make]
  have h1 : (bitstream.make n false).length = n := bitstream.length_make _ _
  apply bitstream.ext_test
  · rw [bitstream.length_or _ _ (h1.trans h2.symm), h1, hv]
  · intro i
    rw [bitstream.test_or _ _ i (h1.trans h2.symm), bitstream.test_and,
      bitstream.test_make, bitstream.test_make]
    cases hvi : valid.test i with
    | false => simp
    | true =>
      have hi : i < n := hv ▸ test_lt_length valid i hvi
      simp [hi]

theorem and_mask_absent (valid : bitstream) (n : Nat) (hv : valid.length = n) :
    (bitstream.make n false).and ((bitstream.make n true).and valid) =
      bitstream.make n false := by
  have h2 : ((bitstream.make n true).and valid).length = n := by
    rw [bitstream.length_and _ _ (by rw [bitstream.length_make, hv]),
      bitstream.length_make]
  have h1 : (bitstream.make n false).length = n := bitstream.length_make _ _
  apply bitstream.ext_test
  · rw [bitstream.length_and _ _ (h1.trans h2.symm), h1]
  · intro i
    rw [bitstream.test_and, bitstream.test_make]
    simp

/-- C6: on a range-coded bitmap built by `push_back` and `append(n, false)`
calls, for every `v`, `lookup(equal, v) OR lookup(not_equal, v)` is the
validity bitstream and `lookup(equal, v) AND lookup(not_equal, v)` is all
zero, an absent result being read as the all-zero bitstream of length
`size()`. -/
theorem range_equal_not_equal_identity {T : Type} [LinearOrder T]
    (integral : Option (integral_ops T)) (ops : List (bitmap_op T))
    (hg : gaps_false ops) (v : T) :
    ∃ e ne,
      (run_ops (range_coder.policy integral) null_binner (range_bitmap T)
        ops).lookup (range_coder.policy integral) null_binner .equal v
        = .ok e ∧
      (run_ops (range_coder.policy integral) null_binner (range_bitmap T)
        ops).lookup (range_coder.policy integral) null_binner .not_equal v
        = .ok ne ∧
      (result_or_zeros ((run_ops (range_coder.policy integral) null_binner
          (range_bitmap T) ops).size (range_coder.policy integral)) e).or
        (result_or_zeros ((run_ops (range_coder.policy integral) null_binner
          (range_bitmap T) ops).size (range_coder.policy integral)) ne)
        = (run_ops (range_coder.policy integral) null_binner (range_bitmap T)
            ops).valid_ ∧
      (result_or_zeros ((run_ops (range_coder.policy integral) null_binner
          (range_bitmap T) ops).size (range_coder.policy integral)) e).and
        (result_or_zeros ((run_ops (range_coder.policy integral) null_binner
          (range_bitmap T) ops).size (range_coder.policy integral)) ne)
        = bitstream.make ((run_ops (range_coder.policy integral) null_binner
            (range_bitmap T) ops).size (range_coder.policy integral))
            false := by
  have hinv := range_coder.inv_run integral ops hg
  generalize run_ops (range_coder.policy integral) null_binner
    (range_bitmap T) ops = bm at hinv ⊢
  have hsize : bm.size (range_coder.policy integral) = (written ops).length :=
    hinv.rows_eq
  have hv : bm.valid_.length = (written ops).length := by
    rw [hinv.valid_eq, List.length_map]
  have hrows : bm.coder_.rows = (written ops).length := hinv.rows_eq
  rw [hsize]
  cases hd : range_coder.decode_equal bm.coder_ v with
  | none =>
    have he : (range_coder.policy integral).decode bm.coder_ (null_binner v)
        .equal = .ok none := by
      simp [range_coder.policy, range_coder.decode, null_binner, hd]
    have hne : (range_coder.policy integral).decode bm.coder_ (null_binner v)
        .not_equal = .ok (some (bitstream.make bm.coder_.rows true)) := by
      simp [range_coder.policy, range_coder.decode, null_binner, hd]
    refine ⟨_, _, lookup_of_decode _ _ bm _ v _ he,
      lookup_of_decode _ _ bm _ v _ hne, ?_, ?_⟩
    · simp only [Option.map, result_or_zeros, hrows]
      exact or_mask_absent _ _ hv
    · simp only [Option.map, result_or_zeros, hrows]
      exact and_mask_absent _ _ hv
  | some b =>
    have hb := range_coder.decode_equal_length bm _ hinv v b hd
    have he : (range_coder.policy integral).decode bm.coder_ (null_binner v)
        .equal = .ok (some b) := by
      simp [range_coder.policy, range_coder.decode, null_binner, hd]
    have hne : (range_coder.policy integral).decode bm.coder_ (null_binner v)
        .not_equal = .ok (some b.flip) := by
      simp [range_coder.policy, range_coder.decode, null_binner, hd]
    refine ⟨_, _, lookup_of_decode _ _ bm _ v _ he,
      lookup_of_decode _ _ bm _ v _ hne, ?_, ?_⟩
    · simp only [Option.map, result_or_zeros]
      exact or_mask b _ _ hb hv
    · simp only [Option.map, result_or_zeros]
      exact and_mask b _ _ hb hv

theorem range_equal_not_equal_identity_witness :
    gaps_false s1_ops ∧
    ∃ e ne,
      (run_ops (range_coder.policy (some int64_t.ops)) null_binner
        (range_bitmap Int) s1_ops).lookup
        (range_coder.policy (some int64_t.ops)) null_binner .equal 10
        = .ok e ∧
      (run_ops (range_coder.policy (some int64_t.ops)) null_binner
        (range_bitmap Int) s1_ops).lookup
        (range_coder.policy (some int64_t.ops)) null_binner .not_equal 10
        = .ok ne ∧
      (result_or_zeros ((run_ops (range_coder.policy (some int64_t.ops))
          null_binner (range_bitmap Int) s1_ops).size
          (range_coder.policy (some int64_t.ops))) e).or
        (result_or_zeros ((run_ops (range_coder.policy (some int64_t.ops))
          null_binner (range_bitmap Int) s1_ops).size
          (range_coder.policy (some int64_t.ops))) ne)
        = (run_ops (range_coder.policy (some int64_t.ops)) null_binner
            (range_bitmap Int) s1_ops).valid_ ∧
      (result_or_zeros ((run_ops (range_coder.policy (some int64_t.ops))
          null_binner (range_bitmap Int) s1_ops).size
          (range_coder.policy (some int64_t.ops))) e).and
        (result_or_zeros ((run_ops (range_coder.policy (some int64_t.ops))
          null_binner (range_bitmap Int) s1_ops).size
          (range_coder.policy (some int64_t.ops))) ne)
        = bitstream.make ((run_ops (range_coder.policy (some int64_t.ops))
            null_binner (range_bitmap Int) s1_ops).size
            (range_coder.policy (some int64_t.ops))) false :=
  ⟨by decide,
    range_equal_not_equal_identity (some int64_t.ops) s1_ops (by decide) 10⟩

/-- C4 (failing input): on a range-coded `uint8_t` bitmap holding 0 and 5,
`lookup(greater_equal, 0)` returns `{0,1}`: the position holding 0, the
smallest value of the type, is not reported although `0 >= 0`. -/
theorem range_greater_equal_lowest_eval :
    (run_ops (range_coder.policy (some uint8_t.ops)) null_binner
      (range_bitmap Int) uint8_ops).lookup
      (range_coder.policy (some uint8_t.ops)) null_binner .greater_equal 0
      = .ok (some [false, true]) := by
  rfl

theorem wrap_pred (t : integral_type) (hw : 0 < t.width) (x : Int)
    (hx : t.holds x) (hne : x ≠ t.lowest) : t.wrap (x - 1) = x - 1 := by
  obtain ⟨hlo, hhi⟩ := hx
  have hlt : t.lowest < x := lt_of_le_of_ne hlo (Ne.symm hne)
  have hpow : (2 : Int) ^ t.width = 2 ^ (t.width - 1) + 2 ^ (t.width - 1) := by
    have : t.width = (t.width - 1) + 1 := by omega
    rw [this, pow_succ]
    simp
    ring
  unfold integral_type.wrap
  unfold integral_type.lowest at hlt
  unfold integral_type.highest at hhi
  cases hs : t.is_signed with
  | true =>
    simp only [hs, if_true] at hlt hhi ⊢
    rw [Int.emod_eq_of_lt (by omega) (by omega)]
    ring
  | false =>
    simp only [hs, Bool.false_eq_true, if_false] at hlt hhi ⊢
    exact Int.emod_eq_of_lt (by omega) (by omega)

/-- Away from the smallest value of the type the range coder answers
`greater_equal` exactly: on a bitmap over the integral type `t` built by
`push_back` and `append(n, false)` calls, for every `v` of the type other than
`lowest()`, `lookup(greater_equal, v)` has bit `i` set exactly when position
`i` was written by a `push_back` of a value `x` with `x ≥ v`. -/
theorem range_lookup_greater_equal_above_lowest (t : integral_type)
    (hw : 0 < t.width) (ops : List (bitmap_op Int)) (hg : gaps_false ops)
    (v : Int) (hv : t.holds v) (hne : v ≠ t.lowest) :
    ∃ r, (run_ops (range_coder.policy (some t.ops)) null_binner
          (range_bitmap Int) ops).lookup (range_coder.policy (some t.ops))
          null_binner .greater_equal v = .ok r ∧
      ∀ i, result_bit r i = true ↔
        ∃ x, (written ops)[i]? = some (some x) ∧ x ≥ v := by
  have hinv := range_coder.inv_run (some t.ops) ops hg
  generalize run_ops (range_coder.policy (some t.ops)) null_binner
    (range_bitmap Int) ops = bm at hinv ⊢
  have hp : t.ops.pred v = v - 1 := wrap_pred t hw v hv hne
  have hl : ¬ v = t.ops.lowest := hne
  have hrows : bm.coder_.rows = (written ops).length := hinv.rows_eq
  have hless : range_coder.decode_less (some t.ops) bm.coder_ v =
      .ok (range_coder.decode_less_equal bm.coder_ (v - 1)) := by
    simp [range_coder.decode_less, hl, hp]
  cases hd : range_coder.decode_less_equal bm.coder_ (v - 1) with
  | none =>
    have hdec : (range_coder.policy (some t.ops)).decode bm.coder_
        (null_binner v) .greater_equal =
        .ok (some (bitstream.make bm.coder_.rows true)) := by
      simp [range_coder.policy, range_coder.decode, null_binner, hless, hd]
    refine lookup_sound _ null_binner bm (written ops) hinv.valid_eq
      .greater_equal v _ hdec (fun x => x ≥ v) ?_
    intro i y hy
    have hi : i < (written ops).length := (List.getElem?_eq_some.1 hy).1
    have h1 := range_coder.decode_less_equal_sound bm _ hinv (v - 1) i y hy
    rw [hd] at h1
    have hnle : ¬ y ≤ v - 1 := by simpa [result_bit] using h1.symm
    have hge : y ≥ v := by omega
    simp [result_bit, bitstream.test_make, hrows, hi, hge]
  | some R =>
    have hdec : (range_coder.policy (some t.ops)).decode bm.coder_
        (null_binner v) .greater_equal = .ok (some R.flip) := by
      simp [range_coder.policy, range_coder.decode, null_binner, hless, hd]
    refine lookup_sound _ null_binner bm (written ops) hinv.valid_eq
      .greater_equal v _ hdec (fun x => x ≥ v) ?_
    intro i y hy
    have hi : i < (written ops).length := (List.getElem?_eq_some.1 hy).1
    have h1 := range_coder.decode_less_equal_sound bm _ hinv (v - 1) i y hy
    rw [hd] at h1
    have h2 : R.test i = decide (y ≤ v - 1) := h1
    have hlen := range_coder.decode_less_equal_length bm _ hinv (v - 1) R hd
    show R.flip.test i = decide (y ≥ v)
    rw [bitstream.test_flip, h2, hlen]
    by_cases hyv : y ≤ v - 1
    · have : ¬ y ≥ v := by omega
      simp [hi, hyv, this]
    · have : y ≥ v := by omega
      simp [hi, hyv, this]

theorem range_lookup_greater_equal_above_lowest_witness :
    0 < uint8_t.width ∧ gaps_false uint8_ops ∧ uint8_t.holds 5 ∧
    (5 : Int) ≠ uint8_t.lowest ∧
    ∃ r, (run_ops (range_coder.policy (some uint8_t.ops)) null_binner
          (range_bitmap Int) uint8_ops).lookup
          (range_coder.policy (some uint8_t.ops)) null_binner
          .greater_equal 5 = .ok r ∧
      ∀ i, result_bit r i = true ↔
        ∃ x, (written uint8_ops)[i]? = some (some x) ∧ x ≥ 5 :=
  ⟨by decide, by decide, by decide, by decide,
    range_lookup_greater_equal_above_lowest uint8_t (by decide) uint8_ops
      (by decide) 5 (by decide) (by decide)⟩

/-- C5 (amended): for a range coder over an integral type and every value `x`
of the type other than its smallest value, `decode(x, less)` returns exactly
what `decode(x - 1, less_equal)` returns. -/
theorem range_decode_less_eq_pred (t : integral_type) (hw : 0 < t.width)
    (s : list_storage Int) (x : Int) (hx : t.holds x) (hne : x ≠ t.lowest) :
    range_coder.decode (some t.ops) s x .less =
      range_coder.decode (some t.ops) s (x - 1) .less_equal := by
  have hp : t.ops.pred x = x - 1 := wrap_pred t hw x hx hne
  have hl : ¬ x = t.ops.lowest := hne
  simp [range_coder.decode, range_coder.decode_less, hl, hp]

theorem range_decode_less_eq_pred_witness :
    0 < uint8_t.width ∧ uint8_t.holds 5 ∧ (5 : Int) ≠ uint8_t.lowest ∧
    range_coder.decode (some uint8_t.ops)
        (run_ops (range_coder.policy (some uint8_t.ops)) null_binner
          (range_bitmap Int) uint8_ops).coder_ 5 .less =
      range_coder.decode (some uint8_t.ops)
        (run_ops (range_coder.policy (some uint8_t.ops)) null_binner
          (range_bitmap Int) uint8_ops).coder_ (5 - 1) .less_equal :=
  ⟨by decide, by decide, by decide,
    range_decode_less_eq_pred uint8_t (by decide) _ 5 (by decide) (by decide)⟩

/-- C5 (counterexample): on a range-coded `uint8_t` bitmap holding 0 and 5,
`decode(0, less)` is `{1,0}` while `decode(0 - 1, less_equal)`, with
`0 - 1 = 255` in `uint8_t`, is `{1,1}`. -/
theorem range_decode_less_lowest_differs :
    range_coder.decode (some uint8_t.ops)
        (run_ops (range_coder.policy (some uint8_t.ops)) null_binner
          (range_bitmap Int) uint8_ops).coder_ 0 .less = .ok (some [true, false])
    ∧ range_coder.decode (some uint8_t.ops)
        (run_ops (range_coder.policy (some uint8_t.ops)) null_binner
          (range_bitmap Int) uint8_ops).coder_ (uint8_t.wrap (0 - 1))
          .less_equal = .ok (some [true, true])
    ∧ range_coder.decode (some uint8_t.ops)
        (run_ops (range_coder.policy (some uint8_t.ops)) null_binner
          (range_bitmap Int) uint8_ops).coder_ 0 .less ≠
      range_coder.decode (some uint8_t.ops)
        (run_ops (range_coder.policy (some uint8_t.ops)) null_binner
          (range_bitmap Int) uint8_ops).coder_ (uint8_t.wrap (0 - 1))
          .less_equal := by
  refine ⟨rfl, rfl, ?_⟩
  rw [show range_coder.decode (some uint8_t.ops)
        (run_ops (range_coder.policy (some uint8_t.ops)) null_binner
          (range_bitmap Int) uint8_ops).coder_ 0 .less
        = .ok (some [true, false]) from rfl,
    show range_coder.decode (some uint8_t.ops)
        (run_ops (range_coder.policy (some uint8_t.ops)) null_binner
          (range_bitmap Int) uint8_ops).coder_ (uint8_t.wrap (0 - 1))
          .less_equal = .ok (some [true, true]) from rfl]
  simp

/-- C7 (counterexample): after `push_back` of 10, 20, 15, 10, 25 into an empty
range-coded integer bitmap, `lookup(less_equal, 15)` is not `{1,1,1,1,0}`. -/
theorem s1_less_equal_not_as_stated :
    (run_ops (range_coder.policy (some int64_t.ops)) null_binner
      (range_bitmap Int) s1_ops).lookup
      (range_coder.policy (some int64_t.ops)) null_binner .less_equal 15
      ≠ .ok (some [true, true, true, true, false]) := by
  rw [show (run_ops (range_coder.policy (some int64_t.ops)) null_binner
      (range_bitmap Int) s1_ops).lookup
      (range_coder.policy (some int64_t.ops)) null_binner .less_equal 15
      = .ok (some [true, false, true, true, false]) from rfl]
  simp

/-- C7 (amended): after `push_back` of 10, 20, 15, 10, 25 into an empty
range-coded integer bitmap with identity binner, `lookup(less_equal, 15)` is
the bitstream `{1,0,1,1,0}`. -/
theorem s1_less_equal :
    (run_ops (range_coder.policy (some int64_t.ops)) null_binner
      (range_bitmap Int) s1_ops).lookup
      (range_coder.policy (some int64_t.ops)) null_binner .less_equal 15
      = .ok (some [true, false, true, true, false]) := by
  rfl

/-- C8: after `push_back` of 10, 20, 15, 10, 25 into an empty range-coded
integer bitmap with identity binner, `lookup(equal, 10)` is `{1,0,0,1,0}` and
`lookup(greater, 20)` is `{0,0,0,0,1}`. -/
theorem s1_equal_and_greater :
    (run_ops (range_coder.policy (some int64_t.ops)) null_binner
      (range_bitmap Int) s1_ops).lookup
      (range_coder.policy (some int64_t.ops)) null_binner .equal 10
      = .ok (some [true, false, false, true, false]) ∧
    (run_ops (range_coder.policy (some int64_t.ops)) null_binner
      (range_bitmap Int) s1_ops).lookup
      (range_coder.policy (some int64_t.ops)) null_binner .greater 20
      = .ok (some [false, false, false, false, true]) := by
  exact ⟨rfl, rfl⟩

/-! ## The equality coder keeps its invariant -/

namespace equality_coder

variable {T : Type} [DecidableEq T]

theorem eq_find_eq_some_iff (s : unordered_storage T)
    (hn : s.map_.Pairwise (fun p q => p.1 ≠ q.1)) (x : T) (b : bitstream) :
    s.find x = some b ↔ (x, b) ∈ s.map_ := by
  unfold unordered_storage.find
  generalize s.map_ = l at hn
  induction l with
  | nil => simp
  | cons a t ih =>
    rw [List.pairwise_cons] at hn
    by_cases ha : a.1 = x
    · have hnot : (x, b) ∉ t := fun hm => hn.1 (x, b) hm ha
      simp only [List.find?_cons, ha, decide_True, Option.map_some',
        List.mem_cons, hnot, or_false, Option.some.injEq]
      constructor
      · intro h
        rw [← h, ← ha]
      · intro h
        rw [← h]
    · have hne : (x, b) ≠ a := fun h => ha (by rw [← h])
      simp only [List.find?_cons, ha, decide_False, List.mem_cons, hne,
        false_or]
      exact ih hn.2

theorem eq_find_eq_none_iff (s : unordered_storage T)
    (hn : s.map_.Pairwise (fun p q => p.1 ≠ q.1)) (x : T) :
    s.find x = none ↔ ∀ b, (x, b) ∉ s.map_ := by
  constructor
  · intro h b hb
    rw [(eq_find_eq_some_iff s hn x b).2 hb] at h
    cases h
  · intro h
    cases hf : s.find x with
    | none => rfl
    | some b => exact absurd ((eq_find_eq_some_iff s hn x b).1 hf) (h b)

theorem eq_inv_init : equality_inv (equality_bitmap T) [] := by
  constructor <;> simp [equality_bitmap]

theorem eq_inv_insert (s : unordered_storage T) (valid : bitstream)
    (w : List (Option T))
    (h : equality_inv { coder_ := s, valid_ := valid } w) (x : T)
    (hx : s.find x = none) :
    ∃ s1, s.insert x (bitstream.make s.rows false) = (true, s1) ∧
      s1.rows = s.rows ∧
      (∀ q, q ∈ s1.map_ ↔ q ∈ s.map_ ∨ q = (x, bitstream.make s.rows false)) ∧
      s1.map_.Pairwise (fun p q => p.1 ≠ q.1) := by
  have hx1 := (eq_find_eq_none_iff s h.nodup x).1 hx
  have hnone : s.map_.find? (fun p => decide (p.1 = x)) = none := by
    unfold unordered_storage.find at hx
    simpa using hx
  refine ⟨{ s with map_ := s.map_ ++ [(x, bitstream.make s.rows false)] },
    by simp [unordered_storage.insert, hnone], rfl, by intro q; simp, ?_⟩
  show List.Pairwise _ (s.map_ ++ [(x, bitstream.make s.rows false)])
  rw [List.pairwise_append]
  refine ⟨h.nodup, List.pairwise_singleton _ _, ?_⟩
  intro a ha c hc
  rw [List.mem_singleton] at hc
  subst hc
  intro heq
  have heq1 : a.1 = x := heq
  exact hx1 a.2 (by rw [← heq1]; exact ha)

theorem eq_inv_each (s : unordered_storage T) (w : List (Option T))
    (hnodup : s.map_.Pairwise (fun p q => p.1 ≠ q.1))
    (hrows : s.rows = w.length)
    (hlen0 : ∀ p ∈ s.map_, p.2.length = w.length)
    (f : T → bitstream → bitstream) (n : Nat) (valid1 : bitstream)
    (w1 : List (Option T)) (hw : w1.length = w.length + n)
    (hvalid : valid1 = w1.map Option.isSome)
    (hlen : ∀ p ∈ s.map_, (f p.1 p.2).length = p.2.length + n)
    (hbits : ∀ p ∈ s.map_, ∀ (i : Nat) (y : T), w1[i]? = some (some y) →
      (f p.1 p.2).test i = decide (y = p.1))
    (hkeys : ∀ (i : Nat) (y : T), w1[i]? = some (some y) →
      ∃ b, (y, b) ∈ s.map_)
    (hpushed : ∀ p ∈ s.map_, some p.1 ∈ w1) :
    equality_inv { coder_ := { s.each f with rows := (s.each f).rows + n },
                   valid_ := valid1 } w1 := by
  have hmem : ∀ q, q ∈ (s.each f).map_ ↔
      ∃ p ∈ s.map_, (p.1, f p.1 p.2) = q := by
    intro q
    simp [unordered_storage.each]
  constructor
  · show List.Pairwise _ (s.each f).map_
    simp only [unordered_storage.each, List.pairwise_map]
    exact hnodup
  · show s.rows + n = w1.length
    rw [hw, hrows]
  · exact hvalid
  · intro q hq
    obtain ⟨p, hp, rfl⟩ := (hmem _).1 hq
    show (f p.1 p.2).length = w1.length
    rw [hlen p hp, hlen0 p hp, hw]
  · intro q hq i y hy
    obtain ⟨p, hp, rfl⟩ := (hmem _).1 hq
    exact hbits p hp i y hy
  · intro i y hy
    obtain ⟨b, hb⟩ := hkeys i y hy
    exact ⟨f y b, (hmem _).2 ⟨(y, b), hb, rfl⟩⟩
  · intro q hq
    obtain ⟨p, hp, rfl⟩ := (hmem _).1 hq
    exact hpushed p hp

theorem eq_inv_push (s0 : unordered_storage T) (valid : bitstream)
    (w : List (Option T)) (x : T)
    (hv : valid = w.map Option.isSome)
    (hnodup : s0.map_.Pairwise (fun p q => p.1 ≠ q.1))
    (hrows : s0.rows = w.length)
    (hlen : ∀ p ∈ s0.map_, p.2.length = w.length)
    (hbits : ∀ p ∈ s0.map_, ∀ (i : Nat) (y : T), w[i]? = some (some y) →
      p.2.test i = decide (y = p.1))
    (hkeys : ∀ (i : Nat) (y : T), w[i]? = some (some y) →
      ∃ b, (y, b) ∈ s0.map_)
    (hpushed : ∀ p ∈ s0.map_, p.1 = x ∨ some p.1 ∈ w)
    (hx : ∃ b, (x, b) ∈ s0.map_) :
    equality_inv
      { coder_ :=
          { s0.each (fun k bs => bs.push_back (decide (x = k))) with
            rows := (s0.each
              (fun k bs => bs.push_back (decide (x = k)))).rows + 1 },
        valid_ := valid.push_back true } (w ++ [some x]) := by
  refine eq_inv_each s0 w hnodup hrows hlen _ 1 _ _ (by simp)
    (by simp [hv, bitstream.push_back])
    (fun p _ => bitstream.length_push_back _ _) ?_ ?_ ?_
  · intro p hp i y hy
    rw [bitstream.test_push_back, hlen p hp]
    rcases range_coder.getElem?_snoc_some w _ _ i hy with ⟨hi, hwi⟩ | ⟨hi, hxy⟩
    · simp only [hi, if_true]
      exact hbits p hp i y hwi
    · cases hxy
      simp [hi]
  · intro i y hy
    rcases range_coder.getElem?_snoc_some w _ _ i hy with ⟨_, hwi⟩ | ⟨_, hxy⟩
    · exact hkeys i y hwi
    · cases hxy
      exact hx
  · intro p hp
    rcases hpushed p hp with h1 | h1
    · rw [h1]
      simp
    · exact List.mem_append_left _ h1

theorem eq_inv_encode (s : unordered_storage T) (valid : bitstream)
    (w : List (Option T))
    (h : equality_inv { coder_ := s, valid_ := valid } w) (x : T) :
    ∃ s1, encode s x = (true, s1) ∧
      equality_inv { coder_ := s1, valid_ := valid.push_back true }
        (w ++ [some x]) := by
  have hrows : s.rows = w.length := h.rows_eq
  unfold encode
  cases hf : s.find x with
  | some b =>
    have hb := (eq_find_eq_some_iff s h.nodup x b).1 hf
    exact ⟨_, by simp, eq_inv_push s valid w x h.valid_eq h.nodup h.rows_eq h.len
      h.bits h.keys (fun p hp => Or.inr (h.pushed p hp)) ⟨b, hb⟩⟩
  | none =>
    have hx := (eq_find_eq_none_iff s h.nodup x).1 hf
    obtain ⟨s1, h1, hr1, hmem, hnd⟩ := eq_inv_insert s valid w h x hf
    refine ⟨_, by simp [h1], eq_inv_push s1 valid w x h.valid_eq hnd
      (hr1.trans h.rows_eq) ?_ ?_ ?_ ?_ ⟨_, (hmem _).2 (Or.inr rfl)⟩⟩
    · intro p hp
      rcases (hmem _).1 hp with hold | rfl
      · exact h.len p hold
      · rw [bitstream.length_make, hrows]
    · intro p hp i y hy
      rcases (hmem _).1 hp with hold | rfl
      · exact h.bits p hold i y hy
      · obtain ⟨b, hb⟩ := h.keys i y hy
        have hne : ¬ y = x := fun e => hx b (e ▸ hb)
        simp [bitstream.test_make, hne]
    · intro i y hy
      obtain ⟨b, hb⟩ := h.keys i y hy
      exact ⟨b, (hmem _).2 (Or.inl hb)⟩
    · intro p hp
      rcases (hmem _).1 hp with hold | rfl
      · exact Or.inr (h.pushed p hold)
      · exact Or.inl rfl

theorem eq_inv_append (s : unordered_storage T) (valid : bitstream)
    (w : List (Option T))
    (h : equality_inv { coder_ := s, valid_ := valid } w) (n : Nat) :
    ∃ s1, append s n false = (true, s1) ∧
      equality_inv { coder_ := s1, valid_ := valid.append n false }
        (w ++ List.replicate n none) := by
  have hv : valid = w.map Option.isSome := h.valid_eq
  refine ⟨_, rfl, ?_⟩
  refine eq_inv_each s w h.nodup h.rows_eq h.len _ n _ _ (by simp)
    (by simp [hv, bitstream.append])
    (fun p _ => bitstream.length_append _ _ _) ?_ ?_ ?_
  · intro p hp i y hy
    obtain ⟨hi, hwi⟩ := range_coder.getElem?_gap_some w n y i hy
    rw [bitstream.test_append, h.len p hp]
    simp only [hi, if_true]
    exact h.bits p hp i y hwi
  · intro i y hy
    exact h.keys i y (range_coder.getElem?_gap_some w n y i hy).2
  · intro p hp
    exact List.mem_append_left _ (h.pushed p hp)

theorem eq_inv_run (ops : List (bitmap_op T)) (hg : gaps_false ops) :
    equality_inv (run_ops policy null_binner (equality_bitmap T) ops)
      (written ops) := by
  have h := run_ops_induct (policy (T := T)) null_binner
    (fun bm w => equality_inv bm w)
    (fun bm w x hI => by
      obtain ⟨s1, h1, h2⟩ := eq_inv_encode bm.coder_ bm.valid_ w hI x
      have : (bm.push_back policy null_binner x).2 =
          { coder_ := s1, valid_ := bm.valid_.push_back true } := by
        simp [bitmap.push_back, policy, null_binner, h1]
      rw [this]
      exact h2)
    (fun bm w n hI => by
      obtain ⟨s1, h1, h2⟩ := eq_inv_append bm.coder_ bm.valid_ w hI n
      have : (bm.append policy n false).2 =
          { coder_ := s1, valid_ := bm.valid_.append n false } := by
        simp [bitmap.append, policy, h1]
      rw [this]
      exact h2)
    ops (equality_bitmap T) [] hg eq_inv_init
  simpa using h

theorem eq_decode_equal_sound (bm : bitmap (unordered_storage T))
    (w : List (Option T)) (h : equality_inv bm w) (v : T) :
    ∃ r, decode bm.coder_ v .equal = .ok r ∧
      ∀ (i : Nat) (y : T), w[i]? = some (some y) →
        result_bit r i = decide (y = v) := by
  unfold decode
  cases hf : bm.coder_.find v with
  | some b =>
    have hb := (eq_find_eq_some_iff _ h.nodup v b).1 hf
    exact ⟨_, rfl, fun i y hy => h.bits (v, b) hb i y hy⟩
  | none =>
    have hv := (eq_find_eq_none_iff _ h.nodup v).1 hf
    refine ⟨_, rfl, fun i y hy => ?_⟩
    obtain ⟨c, hc⟩ := h.keys i y hy
    have hne : ¬ y = v := fun e => hv c (e ▸ hc)
    simp [result_bit, hne]

theorem eq_decode_not_equal_sound (bm : bitmap (unordered_storage T))
    (w : List (Option T)) (h : equality_inv bm w) (v : T) :
    ∃ r, decode bm.coder_ v .not_equal = .ok r ∧
      ∀ (i : Nat) (y : T), w[i]? = some (some y) →
        result_bit r i = decide (y ≠ v) := by
  have hrows : bm.coder_.rows = w.length := h.rows_eq
  unfold decode
  cases hf : bm.coder_.find v with
  | some b =>
    have hb := (eq_find_eq_some_iff _ h.nodup v b).1 hf
    refine ⟨_, rfl, fun i y hy => ?_⟩
    have hi : i < w.length := (List.getElem?_eq_some.1 hy).1
    show b.flip.test i = decide (y ≠ v)
    rw [bitstream.test_flip, h.bits (v, b) hb i y hy, h.len (v, b) hb]
    by_cases hyv : y = v <;> simp [hi, hyv]
  | none =>
    have hv := (eq_find_eq_none_iff _ h.nodup v).1 hf
    refine ⟨_, rfl, fun i y hy => ?_⟩
    have hi : i < w.length := (List.getElem?_eq_some.1 hy).1
    obtain ⟨c, hc⟩ := h.keys i y hy
    have hne : ¬ y = v := fun e => hv c (e ▸ hc)
    show (bitstream.make bm.coder_.rows true).test i = decide (y ≠ v)
    simp [bitstream.test_make, hrows, hi, hne]

end equality_coder

/-! ## Properties of the equality coder -/

theorem ones_and (valid : bitstream) (n : Nat) (hv : valid.length = n) :
    (bitstream.make n true).and valid = valid := by
  apply bitstream.ext_test
  · rw [bitstream.length_and _ _ (by rw [bitstream.length_make, hv]),
      bitstream.length_make, hv]
  · intro i
    rw [bitstream.test_and, bitstream.test_make]
    cases hvi : valid.test i with
    | false => simp
    | true =>
      have hi : i < n := hv ▸ test_lt_length valid i hvi
      simp [hi]

theorem valid_all_ones {T : Type} (w : List (Option T))
    (h : ∀ o ∈ w, o ≠ none) :
    (w.map Option.isSome : bitstream) = bitstream.make w.length true := by
  apply bitstream.ext_test
  · rw [List.length_map, bitstream.length_make]
  · intro i
    rw [Bool.eq_iff_iff, valid_test, bitstream.test_make]
    constructor
    · rintro ⟨y, hy⟩
      have hi : i < w.length := (List.getElem?_eq_some.1 hy).1
      simp [hi]
    · intro hi
      have hi1 : i < w.length := by simpa using hi
      cases ho : w[i] with
      | none =>
        exact absurd ho (h _ (List.getElem_mem hi1))
      | some y => exact ⟨y, by rw [List.getElem?_eq_getElem hi1, ho]⟩

/-- C2: on an equality-coded bitmap with the identity binner built by
`push_back` and `append(n, false)` calls, for every `v`, `lookup(equal, v)`
has bit `i` set exactly when position `i` was written by a `push_back` of a
value equal to `v`, and `lookup(not_equal, v)` has bit `i` set exactly when
position `i` was written by a `push_back` of a value different from `v` (an
absent result having no bit). -/
theorem equality_lookup_sound {T : Type} [DecidableEq T]
    (ops : List (bitmap_op T)) (hg : gaps_false ops) (v : T) :
    (∃ r, (run_ops equality_coder.policy null_binner (equality_bitmap T)
          ops).lookup equality_coder.policy null_binner .equal v = .ok r ∧
      ∀ i, result_bit r i = true ↔
        ∃ x, (written ops)[i]? = some (some x) ∧ x = v) ∧
    (∃ r, (run_ops equality_coder.policy null_binner (equality_bitmap T)
          ops).lookup equality_coder.policy null_binner .not_equal v = .ok r ∧
      ∀ i, result_bit r i = true ↔
        ∃ x, (written ops)[i]? = some (some x) ∧ x ≠ v) := by
  have hinv := equality_coder.eq_inv_run ops hg
  obtain ⟨r1, hr1, hb1⟩ := equality_coder.eq_decode_equal_sound _ _ hinv v
  obtain ⟨r2, hr2, hb2⟩ := equality_coder.eq_decode_not_equal_sound _ _ hinv v
  exact ⟨lookup_sound equality_coder.policy null_binner _ (written ops)
      hinv.valid_eq .equal v r1 hr1 (fun x => x = v) hb1,
    lookup_sound equality_coder.policy null_binner _ (written ops)
      hinv.valid_eq .not_equal v r2 hr2 (fun x => x ≠ v) hb2⟩

theorem equality_lookup_sound_witness :
    gaps_false [bitmap_op.push_back "a", .append 2 false, .push_back "b",
      .push_back "a"] ∧
    (∃ r, (run_ops equality_coder.policy null_binner (equality_bitmap String)
          [.push_back "a", .append 2 false, .push_back "b",
            .push_back "a"]).lookup equality_coder.policy null_binner
          .equal "a" = .ok r ∧
      ∀ i, result_bit r i = true ↔
        ∃ x, (written [bitmap_op.push_back "a", .append 2 false,
          .push_back "b", .push_back "a"])[i]? = some (some x) ∧ x = "a") ∧
    (∃ r, (run_ops equality_coder.policy null_binner (equality_bitmap String)
          [.push_back "a", .append 2 false, .push_back "b",
            .push_back "a"]).lookup equality_coder.policy null_binner
          .not_equal "a" = .ok r ∧
      ∀ i, result_bit r i = true ↔
        ∃ x, (written [bitmap_op.push_back "a", .append 2 false,
          .push_back "b", .push_back "a"])[i]? = some (some x) ∧ x ≠ "a") :=
  ⟨by decide, equality_lookup_sound
    [.push_back "a", .append 2 false, .push_back "b", .push_back "a"]
    (by decide) "a"⟩

/-- C9: on an equality-coded bitmap built by `push_back` and
`append(n, false)` calls, for every `v` that was never pushed,
`lookup(equal, v)` returns no result and `lookup(not_equal, v)` returns the
validity bitstream, whose length is `size()` and which is all ones when no
gap was appended. -/
theorem equality_lookup_unseen {T : Type} [DecidableEq T]
    (ops : List (bitmap_op T)) (hg : gaps_false ops) (v : T)
    (hv : some v ∉ written ops) :
    (run_ops equality_coder.policy null_binner (equality_bitmap T)
      ops).lookup equality_coder.policy null_binner .equal v = .ok none ∧
    (run_ops equality_coder.policy null_binner (equality_bitmap T)
      ops).lookup equality_coder.policy null_binner .not_equal v =
      .ok (some (run_ops equality_coder.policy null_binner
        (equality_bitmap T) ops).valid_) ∧
    (run_ops equality_coder.policy null_binner (equality_bitmap T)
      ops).valid_.length =
      (run_ops equality_coder.policy null_binner (equality_bitmap T)
        ops).size equality_coder.policy ∧
    ((∀ o ∈ written ops, o ≠ none) →
      (run_ops equality_coder.policy null_binner (equality_bitmap T)
        ops).valid_ =
      bitstream.make ((run_ops equality_coder.policy null_binner
        (equality_bitmap T) ops).size equality_coder.policy) true) := by
  have hinv := equality_coder.eq_inv_run ops hg
  generalize run_ops equality_coder.policy null_binner
    (equality_bitmap T) ops = bm at hinv ⊢
  have hsize : bm.size equality_coder.policy = (written ops).length :=
    hinv.rows_eq
  have hrows : bm.coder_.rows = (written ops).length := hinv.rows_eq
  have hlen : bm.valid_.length = (written ops).length := by
    rw [hinv.valid_eq, List.length_map]
  have hf : bm.coder_.find v = none :=
    (equality_coder.eq_find_eq_none_iff _ hinv.nodup v).2
      (fun b hb => hv (hinv.pushed (v, b) hb))
  have he : equality_coder.policy.decode bm.coder_ (null_binner v) .equal
      = .ok none := by
    simp [equality_coder.policy, equality_coder.decode, null_binner, hf]
  have hne : equality_coder.policy.decode bm.coder_ (null_binner v)
      .not_equal = .ok (some (bitstream.make bm.coder_.rows true)) := by
    simp [equality_coder.policy, equality_coder.decode, null_binner, hf]
  refine ⟨lookup_of_decode _ _ bm _ v _ he, ?_, by rw [hlen, hsize], ?_⟩
  · rw [lookup_of_decode _ _ bm _ v _ hne]
    simp only [Option.map, hrows]
    rw [ones_and _ _ hlen]
  · intro hall
    rw [hsize, hinv.valid_eq]
    exact valid_all_ones _ hall

theorem equality_lookup_unseen_witness :
    gaps_false s2_ops ∧ some "c" ∉ written s2_ops ∧
    ((run_ops equality_coder.policy null_binner (equality_bitmap String)
      s2_ops).lookup equality_coder.policy null_binner .equal "c"
      = .ok none ∧
    (run_ops equality_coder.policy null_binner (equality_bitmap String)
      s2_ops).lookup equality_coder.policy null_binner .not_equal "c" =
      .ok (some (run_ops equality_coder.policy null_binner
        (equality_bitmap String) s2_ops).valid_) ∧
    (run_ops equality_coder.policy null_binner (equality_bitmap String)
      s2_ops).valid_.length =
      (run_ops equality_coder.policy null_binner (equality_bitmap String)
        s2_ops).size equality_coder.policy ∧
    ((∀ o ∈ written s2_ops, o ≠ none) →
      (run_ops equality_coder.policy null_binner (equality_bitmap String)
        s2_ops).valid_ =
      bitstream.make ((run_ops equality_coder.policy null_binner
        (equality_bitmap String) s2_ops).size equality_coder.policy) true)) ∧
    (run_ops equality_coder.policy null_binner (equality_bitmap String)
      s2_ops).lookup equality_coder.policy null_binner .not_equal "c" =
      .ok (some [true, true, true]) :=
  ⟨by decide, by decide,
    equality_lookup_unseen s2_ops (by decide) "c" (by decide), rfl⟩

/-! ## Properties of the binary coder -/

/-- C10 (failing input): on a binary-coded `int8_t` bitmap holding -128 and 5,
`lookup(equal, 0)` returns `{1,0}` and `lookup(not_equal, 0)` returns `{0,1}`:
the coder keeps `digits = 7` bitstreams, the sign bit is not encoded, and the
position holding -128 is reported as equal to 0. -/
theorem binary_signed_equal_eval :
    int8_t.holds (-128) ∧ int8_t.holds 0 ∧
    (binary_coder.init int8_t).cardinality = 7 ∧
    (run_ops (binary_coder.policy int8_t) null_binner (binary_bitmap int8_t)
      int8_ops).lookup (binary_coder.policy int8_t) null_binner .equal 0
      = .ok (some [true, false]) ∧
    (run_ops (binary_coder.policy int8_t) null_binner (binary_bitmap int8_t)
      int8_ops).lookup (binary_coder.policy int8_t) null_binner .not_equal 0
      = .ok (some [false, true]) := by
  exact ⟨by decide, by decide, rfl, rfl, rfl⟩

namespace binary_coder

theorem init_fold (n : Nat) :
    (List.range n).foldl (fun s i => (vector_storage.insert s i []).2) {} =
      { rows := 0, vector_ := List.replicate n (some []),
        cardinality_ := n } := by
  induction n with
  | zero => rfl
  | succ n ih =>
    rw [List.range_succ, List.foldl_append, ih]
    have hset : (List.replicate n (some ([] : bitstream)) ++ [none]).set n
        (some []) = List.replicate (n + 1) (some []) := by
      apply List.ext_getElem?
      intro i
      rw [List.getElem?_set, List.getElem?_replicate, List.getElem?_append]
      by_cases hi : i < n
      · have hne : ¬ n = i := by omega
        have hlt : i < n + 1 := by omega
        simp [hi, hne, hlt, List.getElem?_replicate]
      · by_cases he : n = i
        · subst he
          simp
        · have hlt : ¬ i < n + 1 := by omega
          have h1 : [(none : Option bitstream)].length ≤ i - n := by
            simp; omega
          simp [hi, he, hlt, List.getElem?_eq_none h1]
    simp [vector_storage.insert, hset]

theorem each_getElem? (s : vector_storage) (f : Nat → bitstream → bitstream)
    (i : Nat) :
    (s.each f).vector_[i]? = (s.vector_[i]?).map (Option.map (f i)) := by
  simp only [vector_storage.each, List.getElem?_zipWith]
  by_cases hi : i < s.vector_.length
  · rw [List.getElem?_range hi, List.getElem?_eq_getElem hi]
    rfl
  · rw [List.getElem?_eq_none (Nat.le_of_not_lt hi)]
    cases (List.range s.vector_.length)[i]? <;> rfl

theorem each_length (s : vector_storage) (f : Nat → bitstream → bitstream) :
    (s.each f).vector_.length = s.vector_.length := by
  simp [vector_storage.each]

theorem bin_inv_init (t : integral_type) : binary_inv t (binary_bitmap t) [] := by
  have h : binary_coder.init t =
      { rows := 0, vector_ := List.replicate t.digits (some []),
        cardinality_ := t.digits } := init_fold t.digits
  constructor
  · simp [binary_bitmap, h]
  · simp [binary_bitmap, h]
  · simp [binary_bitmap]
  · intro i hi
    refine ⟨[], ?_, rfl, ?_⟩
    · simp [binary_bitmap, h, List.getElem?_replicate, hi]
    · intro pos y hy
      simp at hy

theorem bin_inv_each (t : integral_type) (s : vector_storage) (valid : bitstream)
    (w : List (Option Int))
    (h : binary_inv t { coder_ := s, valid_ := valid } w)
    (f : Nat → bitstream → bitstream) (n : Nat) (valid1 : bitstream)
    (w1 : List (Option Int)) (hw : w1.length = w.length + n)
    (hvalid : valid1 = w1.map Option.isSome)
    (hlen : ∀ i b, (f i b).length = b.length + n)
    (hbits : ∀ i b, i < t.digits → s.vector_[i]? = some (some b) →
      ∀ (pos : Nat) (y : Int), w1[pos]? = some (some y) →
        (f i b).test pos = bit y i) :
    binary_inv t { coder_ := { s.each f with rows := (s.each f).rows + n },
                   valid_ := valid1 } w1 := by
  constructor
  · show (s.each f).vector_.length = t.digits
    rw [each_length]
    exact h.slots
  · show s.rows + n = w1.length
    have := h.rows_eq
    simp only at this
    omega
  · exact hvalid
  · intro i hi
    obtain ⟨b, hb, hbl, _⟩ := h.filled i hi
    refine ⟨f i b, ?_, ?_, hbits i b hi hb⟩
    · show (s.each f).vector_[i]? = some (some (f i b))
      rw [each_getElem?]
      simp only at hb
      rw [hb]
      rfl
    · rw [hlen, hbl, hw]

theorem bin_inv_encode (t : integral_type) (s : vector_storage)
    (valid : bitstream) (w : List (Option Int))
    (h : binary_inv t { coder_ := s, valid_ := valid } w) (x : Int) :
    ∃ s1, encode s x = (true, s1) ∧
      binary_inv t { coder_ := s1, valid_ := valid.push_back true }
        (w ++ [some x]) := by
  have hv : valid = w.map Option.isSome := h.valid_eq
  refine ⟨_, rfl, ?_⟩
  refine bin_inv_each t s valid w h _ 1 _ _ (by simp)
    (by simp [hv, bitstream.push_back])
    (fun i b => bitstream.length_push_back _ _) ?_
  intro i b hi hb pos y hy
  obtain ⟨b1, hb1, hbl, hbb⟩ := h.filled i hi
  simp only at hb1
  rw [hb] at hb1
  cases hb1
  rw [bitstream.test_push_back, hbl]
  rcases range_coder.getElem?_snoc_some w _ _ pos hy with ⟨hp, hwp⟩ | ⟨hp, hxy⟩
  · simp only [hp, if_true]
    exact hbb pos y hwp
  · cases hxy
    simp [hp]

theorem bin_inv_append (t : integral_type) (s : vector_storage)
    (valid : bitstream) (w : List (Option Int))
    (h : binary_inv t { coder_ := s, valid_ := valid } w) (n : Nat) :
    ∃ s1, append s n false = (true, s1) ∧
      binary_inv t { coder_ := s1, valid_ := valid.append n false }
        (w ++ List.replicate n none) := by
  have hv : valid = w.map Option.isSome := h.valid_eq
  refine ⟨_, rfl, ?_⟩
  refine bin_inv_each t s valid w h _ n _ _ (by simp)
    (by simp [hv, bitstream.append])
    (fun i b => bitstream.length_append _ _ _) ?_
  intro i b hi hb pos y hy
  obtain ⟨b1, hb1, hbl, hbb⟩ := h.filled i hi
  simp only at hb1
  rw [hb] at hb1
  cases hb1
  obtain ⟨hp, hwp⟩ := range_coder.getElem?_gap_some w n y pos hy
  rw [bitstream.test_append, hbl]
  simp only [hp, if_true]
  exact hbb pos y hwp

theorem bin_inv_run (t : integral_type) (ops : List (bitmap_op Int))
    (hg : gaps_false ops) :
    binary_inv t (run_ops (policy t) null_binner (binary_bitmap t) ops)
      (written ops) := by
  have h := run_ops_induct (policy t) null_binner
    (fun bm w => binary_inv t bm w)
    (fun bm w x hI => by
      obtain ⟨s1, h1, h2⟩ := bin_inv_encode t bm.coder_ bm.valid_ w hI x
      have : (bm.push_back (policy t) null_binner x).2 =
          { coder_ := s1, valid_ := bm.valid_.push_back true } := by
        simp [bitmap.push_back, policy, null_binner, h1]
      rw [this]
      exact h2)
    (fun bm w n hI => by
      obtain ⟨s1, h1, h2⟩ := bin_inv_append t bm.coder_ bm.valid_ w hI n
      have : (bm.append (policy t) n false).2 =
          { coder_ := s1, valid_ := bm.valid_.append n false } := by
        simp [bitmap.append, policy, h1]
      rw [this]
      exact h2)
    ops (binary_bitmap t) [] hg (bin_inv_init t)
  simpa using h

theorem bit_natCast (n i : Nat) : bit (n : Int) i = n.testBit i := by
  have h : ((n : Int) >>> i) = ((n >>> i : Nat) : Int) := rfl
  unfold bit
  rw [h, Nat.testBit_to_div_mod, Nat.shiftRight_eq_div_pow]
  have h2 : (((n / 2 ^ i : Nat) : Int) % 2 ≠ 0) ↔ (n / 2 ^ i % 2 = 1) := by
    omega
  simp only [h2]

theorem bits_eq_iff (d : Nat) (x y : Int) (hx0 : 0 ≤ x) (hx1 : x < 2 ^ d)
    (hy0 : 0 ≤ y) (hy1 : y < 2 ^ d) :
    (∀ i, i < d → bit x i = bit y i) ↔ x = y := by
  constructor
  · intro h
    obtain ⟨n, rfl⟩ := Int.eq_ofNat_of_zero_le hx0
    obtain ⟨m, rfl⟩ := Int.eq_ofNat_of_zero_le hy0
    have hn : n < 2 ^ d := by exact_mod_cast hx1
    have hm : m < 2 ^ d := by exact_mod_cast hy1
    have : n = m := by
      apply Nat.eq_of_testBit_eq
      intro i
      by_cases hi : i < d
      · have := h i hi
        rwa [bit_natCast, bit_natCast] at this
      · have hpow : 2 ^ d ≤ 2 ^ i :=
          Nat.pow_le_pow_right (by decide) (Nat.le_of_not_lt hi)
        rw [Nat.testBit_lt_two_pow (lt_of_lt_of_le hn hpow),
          Nat.testBit_lt_two_pow (lt_of_lt_of_le hm hpow)]
    rw [this]
  · rintro rfl i _
    rfl

theorem find_of_filled (s : vector_storage) (i : Nat) (b : bitstream)
    (h : s.vector_[i]? = some (some b)) : s.find i = some b := by
  have hi : i < s.vector_.length := (List.getElem?_eq_some.1 h).1
  have hge : ¬ i ≥ s.vector_.length := by omega
  simp [vector_storage.find, hge, h]

theorem decode_fold (t : integral_type) (s : vector_storage)
    (valid : bitstream) (w : List (Option Int))
    (h : binary_inv t { coder_ := s, valid_ := valid } w) (x : Int) :
    ∀ n, n ≤ t.digits →
      ∃ R, (List.range n).foldlM (decode_step s x)
          (bitstream.make s.rows true) = .ok R ∧
        R.length = w.length ∧
        ∀ (pos : Nat) (y : Int), w[pos]? = some (some y) →
          (R.test pos = true ↔ ∀ i, i < n → bit x i = bit y i) := by
  have hrows : s.rows = w.length := h.rows_eq
  intro n
  induction n with
  | zero =>
    intro _
    refine ⟨_, rfl, by rw [bitstream.length_make, hrows], ?_⟩
    intro pos y hy
    have hp : pos < w.length := (List.getElem?_eq_some.1 hy).1
    simp [bitstream.test_make, hrows, hp]
  | succ n ih =>
    intro hn
    obtain ⟨R, hR, hlen, hbits⟩ := ih (by omega)
    obtain ⟨b, hb, hbl, hbb⟩ := h.filled n (by omega)
    have hf : s.find n = some b := find_of_filled s n b hb
    have hstep : (List.range (n + 1)).foldlM (decode_step s x)
        (bitstream.make s.rows true) =
        .ok (R.and (if bit x n then b else b.flip)) := by
      rw [List.range_succ, List.foldlM_append, hR]
      simp [decode_step, hf]
      rfl
    refine ⟨_, hstep, ?_, ?_⟩
    · rw [bitstream.length_and, hlen]
      rw [hlen]
      by_cases hx : bit x n = true
      · simp [hx, hbl]
      · simp [hx, bitstream.length_flip, hbl]
    · intro pos y hy
      have hp : pos < w.length := (List.getElem?_eq_some.1 hy).1
      rw [bitstream.test_and, Bool.and_eq_true, hbits pos y hy]
      have hlast : (if bit x n = true then b else b.flip).test pos = true ↔
          bit x n = bit y n := by
        by_cases hx : bit x n = true
        · simp only [hx, if_true, hbb pos y hy]
          constructor
          · intro h1; rw [h1]
          · intro h1; rw [← h1]
        · simp only [hx, Bool.false_eq_true, if_false, bitstream.test_flip,
            hbl, hbb pos y hy]
          have hx0 : bit x n = false := by simpa using hx
          simp [hp, hx0]
      rw [hlast]
      constructor
      · rintro ⟨h1, h2⟩ i hi
        rcases Nat.lt_succ_iff_lt_or_eq.1 hi with hlt | rfl
        · exact h1 i hlt
        · exact h2
      · intro h1
        exact ⟨fun i hi => h1 i (by omega), h1 n (by omega)⟩

theorem find_first_none (R : bitstream) (h : R.find_first = none) (pos : Nat) :
    R.test pos = false := by
  unfold bitstream.find_first at h
  by_cases hlt : List.indexOf true R < R.length
  · simp [hlt] at h
  · have hnot : true ∉ R := fun hm => hlt (List.indexOf_lt_length.2 hm)
    cases ht : R.test pos with
    | false => rfl
    | true =>
      exfalso
      apply hnot
      have hp : pos < R.length := test_lt_length R pos ht
      rw [bitstream.test_eq, List.getElem?_eq_getElem hp] at ht
      simp only [Option.getD_some] at ht
      rw [← ht]
      exact List.getElem_mem hp

theorem bin_decode_equal_sound (t : integral_type)
    (bm : bitmap vector_storage) (w : List (Option Int))
    (h : binary_inv t bm w) (x : Int) :
    ∃ r, decode_equal t bm.coder_ x = .ok r ∧
      (∀ b, r = some b → b.length = w.length) ∧
      ∀ (pos : Nat) (y : Int), w[pos]? = some (some y) →
        (result_bit r pos = true ↔ ∀ i, i < t.digits → bit x i = bit y i) := by
  obtain ⟨R, hR, hlen, hbits⟩ :=
    decode_fold t bm.coder_ bm.valid_ w h x t.digits (le_refl _)
  unfold decode_equal
  rw [hR]
  by_cases hff : R.find_first = none
  · refine ⟨none, by simp [hff], (fun b hb => by cases hb), ?_⟩
    intro pos y hy
    rw [← hbits pos y hy, find_first_none R hff pos]
    simp [result_bit]
  · refine ⟨some R, by simp [hff], ?_, ?_⟩
    · intro b hb
      cases hb
      exact hlen
    · intro pos y hy
      exact hbits pos y hy

end binary_coder

theorem unsigned_holds (t : integral_type) (hu : t.is_signed = false)
    (x : Int) (hx : t.holds x) : 0 ≤ x ∧ x < 2 ^ t.digits := by
  obtain ⟨h0, h1⟩ := hx
  unfold integral_type.lowest at h0
  unfold integral_type.highest at h1
  unfold integral_type.digits
  simp only [hu, Bool.false_eq_true, if_false] at h0 h1 ⊢
  exact ⟨h0, by omega⟩

/-- The binary coder over an unsigned integral type is sound: the coder holds
one bitstream per bit of the type, and on a bitmap built by `push_back` and
`append(n, false)` calls, `lookup(equal, v)` has bit `i` set exactly when
position `i` was written by a `push_back` of `v`, and `lookup(not_equal, v)`
exactly when it was written by a `push_back` of another value. -/
theorem binary_unsigned_lookup_sound (t : integral_type)
    (hu : t.is_signed = false) (ops : List (bitmap_op Int))
    (hg : gaps_false ops) (hx : ∀ x, some x ∈ written ops → t.holds x)
    (v : Int) (hv : t.holds v) :
    (binary_coder.init t).cardinality = t.width ∧
    (∃ r, (run_ops (binary_coder.policy t) null_binner (binary_bitmap t)
          ops).lookup (binary_coder.policy t) null_binner .equal v = .ok r ∧
      ∀ i, result_bit r i = true ↔
        ∃ x, (written ops)[i]? = some (some x) ∧ x = v) ∧
    (∃ r, (run_ops (binary_coder.policy t) null_binner (binary_bitmap t)
          ops).lookup (binary_coder.policy t) null_binner .not_equal v
          = .ok r ∧
      ∀ i, result_bit r i = true ↔
        ∃ x, (written ops)[i]? = some (some x) ∧ x ≠ v) := by
  have hinv := binary_coder.bin_inv_run t ops hg
  generalize run_ops (binary_coder.policy t) null_binner
    (binary_bitmap t) ops = bm at hinv ⊢
  obtain ⟨hv0, hv1⟩ := unsigned_holds t hu v hv
  obtain ⟨r, hr, hlen, hb⟩ :=
    binary_coder.bin_decode_equal_sound t bm (written ops) hinv v
  have hbit : ∀ (pos : Nat) (y : Int), (written ops)[pos]? = some (some y) →
      result_bit r pos = decide (y = v) := by
    intro pos y hy
    obtain ⟨hy0, hy1⟩ := unsigned_holds t hu y
      (hx y (List.mem_iff_getElem?.2 ⟨pos, hy⟩))
    have h1 := (hb pos y hy).trans
      (binary_coder.bits_eq_iff t.digits v y hv0 hv1 hy0 hy1)
    by_cases hyv : y = v
    · simp only [hyv, decide_True]
      exact h1.2 hyv.symm
    · have hne : ¬ v = y := fun e => hyv e.symm
      simp only [hyv, decide_False]
      cases hrb : result_bit r pos with
      | false => rfl
      | true => exact absurd (h1.1 hrb) hne
  have hcard : (binary_coder.init t).cardinality = t.width := by
    have h := binary_coder.init_fold t.digits
    unfold binary_coder.init
    rw [h]
    simp [vector_storage.cardinality, integral_type.digits, hu]
  refine ⟨hcard, lookup_sound (binary_coder.policy t) null_binner bm
    (written ops) hinv.valid_eq .equal v r hr (fun x => x = v) hbit, ?_⟩
  have hrows : bm.coder_.rows = (written ops).length := hinv.rows_eq
  cases r with
  | none =>
    have hne : (binary_coder.policy t).decode bm.coder_ (null_binner v)
        .not_equal = .ok (some (bitstream.make bm.coder_.rows true)) := by
      have hr1 : binary_coder.decode_equal t bm.coder_ v = .ok none := hr
      simp [binary_coder.policy, binary_coder.decode, null_binner, hr1]
    refine lookup_sound (binary_coder.policy t) null_binner bm (written ops)
      hinv.valid_eq .not_equal v _ hne (fun x => x ≠ v) ?_
    intro pos y hy
    have hp : pos < (written ops).length := (List.getElem?_eq_some.1 hy).1
    have h1 := hbit pos y hy
    have hyv : ¬ y = v := by simpa [result_bit] using h1.symm
    simp [result_bit, bitstream.test_make, hrows, hp, hyv]
  | some R =>
    have hne : (binary_coder.policy t).decode bm.coder_ (null_binner v)
        .not_equal = .ok (some R.flip) := by
      have hr1 : binary_coder.decode_equal t bm.coder_ v = .ok (some R) := hr
      simp [binary_coder.policy, binary_coder.decode, null_binner, hr1]
    refine lookup_sound (binary_coder.policy t) null_binner bm (written ops)
      hinv.valid_eq .not_equal v _ hne (fun x => x ≠ v) ?_
    intro pos y hy
    have hp : pos < (written ops).length := (List.getElem?_eq_some.1 hy).1
    have h1 : R.test pos = decide (y = v) := hbit pos y hy
    show R.flip.test pos = decide (y ≠ v)
    rw [bitstream.test_flip, h1, hlen R rfl]
    by_cases hyv : y = v <;> simp [hp, hyv]

theorem binary_unsigned_lookup_sound_witness :
    uint8_t.is_signed = false ∧ gaps_false uint8_gap_ops ∧
    (∀ x, some x ∈ written uint8_gap_ops → uint8_t.holds x) ∧
    uint8_t.holds 0 ∧
    ((binary_coder.init uint8_t).cardinality = uint8_t.width ∧
    (∃ r, (run_ops (binary_coder.policy uint8_t) null_binner
          (binary_bitmap uint8_t) uint8_gap_ops).lookup
          (binary_coder.policy uint8_t) null_binner .equal 0 = .ok r ∧
      ∀ i, result_bit r i = true ↔
        ∃ x, (written uint8_gap_ops)[i]? = some (some x) ∧ x = 0) ∧
    (∃ r, (run_ops (binary_coder.policy uint8_t) null_binner
          (binary_bitmap uint8_t) uint8_gap_ops).lookup
          (binary_coder.policy uint8_t) null_binner .not_equal 0 = .ok r ∧
      ∀ i, result_bit r i = true ↔
        ∃ x, (written uint8_gap_ops)[i]? = some (some x) ∧ x ≠ 0)) := by
  have hall : ∀ x, some x ∈ written uint8_gap_ops → uint8_t.holds x := by
    intro x hx
    simp [uint8_gap_ops, written] at hx
    rcases hx with rfl | rfl | rfl <;> decide
  exact ⟨rfl, by decide, hall, by decide,
    binary_unsigned_lookup_sound uint8_t rfl uint8_gap_ops (by decide) hall 0
      (by decide)⟩

/-! ## The `bool` bitmap -/

theorem bool_inv_step (bm : bool_bitmap) (w : List (Option Bool))
    (h : bool_inv bm w) (o : bitmap_op Bool) (ho : o.gap_false = true) :
    bool_inv (bool_apply_op bm o) (w ++ written [o]) := by
  cases o with
  | push_back x =>
    constructor
    · simp [bool_apply_op, bool_bitmap.push_back, bitstream.push_back, written,
        h.len]
    · simp [bool_apply_op, bool_bitmap.push_back, bitstream.push_back, written,
        h.valid_eq]
    · intro i y hy
      show (bm.bool_.push_back x).test i = y
      rw [bitstream.test_push_back, h.len]
      rcases range_coder.getElem?_snoc_some w _ _ i
        (by simpa [written] using hy) with ⟨hi, hwi⟩ | ⟨hi, hxy⟩
      · simp only [hi, if_true]
        exact h.bits i y hwi
      · cases hxy
        simp [hi]
  | append n bit =>
    have hbit : bit = false := by simpa [bitmap_op.gap_false] using ho
    subst hbit
    constructor
    · simp [bool_apply_op, bool_bitmap.append, bitstream.append, written,
        h.len]
    · simp [bool_apply_op, bool_bitmap.append, bitstream.append, written,
        h.valid_eq]
    · intro i y hy
      show (bm.bool_.append n false).test i = y
      obtain ⟨hi, hwi⟩ := range_coder.getElem?_gap_some w n y i
        (by simpa [written] using hy)
      rw [bitstream.test_append, h.len]
      simp only [hi, if_true]
      exact h.bits i y hwi

theorem bool_inv_run (ops : List (bitmap_op Bool)) :
    ∀ (bm : bool_bitmap) (w : List (Option Bool)), gaps_false ops →
      bool_inv bm w → bool_inv (bool_run_ops bm ops) (w ++ written ops) := by
  induction ops with
  | nil =>
    intro bm w _ h
    simpa [bool_run_ops, written] using h
  | cons o ops ih =>
    intro bm w hg h
    have hg1 : gaps_false ops := fun o1 hm =>
      hg o1 (List.mem_cons_of_mem _ hm)
    rw [written_cons, ← List.append_assoc]
    exact ih _ _ hg1 (bool_inv_step bm w h o (hg o (List.mem_cons_self _ _)))

theorem bool_inv_init : bool_inv {} [] := by
  constructor <;> simp

/-- C11: on the `bool` bitmap built by `push_back` and `append(n, false)`
calls, for every `x`, `lookup(equal, x)` has bit `i` set exactly when position
`i` was written by a `push_back` of `x`, `lookup(not_equal, x)` exactly when it
was written by a `push_back` of the other value, and `lookup(equal, x)` is
`lookup(not_equal, not x)`. -/
theorem bool_lookup_sound (ops : List (bitmap_op Bool)) (hg : gaps_false ops)
    (x : Bool) :
    (∃ r, (bool_run_ops {} ops).lookup .equal x = .ok (some r) ∧
      ∀ i, r.test i = true ↔ (written ops)[i]? = some (some x)) ∧
    (∃ r, (bool_run_ops {} ops).lookup .not_equal x = .ok (some r) ∧
      ∀ i, r.test i = true ↔
        ∃ y, (written ops)[i]? = some (some y) ∧ y ≠ x) ∧
    (bool_run_ops {} ops).lookup .equal x =
      (bool_run_ops {} ops).lookup .not_equal (!x) := by
  have hinv : bool_inv (bool_run_ops {} ops) (written ops) := by
    simpa using bool_inv_run ops {} [] hg bool_inv_init
  generalize bool_run_ops {} ops = bm at hinv ⊢
  refine ⟨⟨_, rfl, ?_⟩, ⟨_, rfl, ?_⟩, ?_⟩
  · intro i
    rw [bitstream.test_and, Bool.and_eq_true, hinv.valid_eq, valid_test]
    constructor
    · rintro ⟨h1, y, hy⟩
      have hb := hinv.bits i y hy
      have hi : i < bm.bool_.length := by
        rw [hinv.len]
        exact (List.getElem?_eq_some.1 hy).1
      cases x <;> cases y <;>
        simp [bitstream.test_flip, hb, hi] at h1 <;> exact hy
    · intro hy
      have hb := hinv.bits i x hy
      have hi : i < bm.bool_.length := by
        rw [hinv.len]
        exact (List.getElem?_eq_some.1 hy).1
      refine ⟨?_, x, hy⟩
      cases x <;> simp [bitstream.test_flip, hb, hi]
  · intro i
    rw [bitstream.test_and, Bool.and_eq_true, hinv.valid_eq, valid_test]
    constructor
    · rintro ⟨h1, y, hy⟩
      have hb := hinv.bits i y hy
      have hi : i < bm.bool_.length := by
        rw [hinv.len]
        exact (List.getElem?_eq_some.1 hy).1
      refine ⟨y, hy, ?_⟩
      cases x <;> cases y <;> simp [bitstream.test_flip, hb, hi] at h1 ⊢
    · rintro ⟨y, hy, hne⟩
      have hb := hinv.bits i y hy
      have hi : i < bm.bool_.length := by
        rw [hinv.len]
        exact (List.getElem?_eq_some.1 hy).1
      refine ⟨?_, y, hy⟩
      cases x <;> cases y <;> simp [bitstream.test_flip, hb, hi] at hne ⊢
  · cases x <;> rfl

theorem bool_lookup_sound_witness :
    gaps_false [bitmap_op.push_back true, .append 2 false, .push_back false,
      .push_back true] ∧
    ((∃ r, (bool_run_ops {} [.push_back true, .append 2 false,
          .push_back false, .push_back true]).lookup .equal true
          = .ok (some r) ∧
      ∀ i, r.test i = true ↔ (written [bitmap_op.push_back true,
        .append 2 false, .push_back false, .push_back true])[i]?
          = some (some true)) ∧
    (∃ r, (bool_run_ops {} [.push_back true, .append 2 false,
          .push_back false, .push_back true]).lookup .not_equal true
          = .ok (some r) ∧
      ∀ i, r.test i = true ↔
        ∃ y, (written [bitmap_op.push_back true, .append 2 false,
          .push_back false, .push_back true])[i]? = some (some y) ∧
          y ≠ true) ∧
    (bool_run_ops {} [.push_back true, .append 2 false, .push_back false,
        .push_back true]).lookup .equal true =
      (bool_run_ops {} [.push_back true, .append 2 false, .push_back false,
        .push_back true]).lookup .not_equal (!true)) :=
  ⟨by decide, bool_lookup_sound
    [.push_back true, .append 2 false, .push_back false, .push_back true]
    (by decide) true⟩

/-! ## Length accounting -/

theorem run_ops_induct_all {C T : Type} (cp : coder_policy C T)
    (binner : T → T) (I : bitmap C → Prop)
    (hpush : ∀ bm x, I bm → I (bm.push_back cp binner x).2)
    (happ : ∀ bm n bit, I bm → I (bm.append cp n bit).2) :
    ∀ (ops : List (bitmap_op T)) (bm : bitmap C), I bm →
      I (run_ops cp binner bm ops) := by
  intro ops
  induction ops with
  | nil => intro bm h; exact h
  | cons o ops ih =>
    intro bm h
    have hrun : run_ops cp binner bm (o :: ops) =
        run_ops cp binner (apply_op cp binner bm o) ops := rfl
    rw [hrun]
    apply ih
    cases o with
    | push_back x => exact hpush bm x h
    | append n bit => exact happ bm n bit h

theorem length_accounting_of {C T : Type} (cp : coder_policy C T)
    (J : C → Prop)
    (henc : ∀ c x, J c → (cp.encode c x).1 = true ∧ J (cp.encode c x).2 ∧
      cp.rows (cp.encode c x).2 = cp.rows c + 1)
    (happ : ∀ c n bit, J c → (cp.append c n bit).1 = true ∧
      J (cp.append c n bit).2 ∧
      cp.rows (cp.append c n bit).2 = cp.rows c + n)
    (binner : T → T) (init : bitmap C) (h0 : J init.coder_)
    (ops : List (bitmap_op T)) :
    length_accounting cp binner (run_ops cp binner init ops) := by
  have hJ : J (run_ops cp binner init ops).coder_ :=
    run_ops_induct_all cp binner (fun bm => J bm.coder_)
      (fun bm x h => by
        obtain ⟨h1, h2, _⟩ := henc bm.coder_ (binner x) h
        simpa [bitmap.push_back, h1] using h2)
      (fun bm n bit h => by
        obtain ⟨_, h2, _⟩ := happ bm.coder_ n bit h
        simpa [bitmap.append] using h2)
      ops init h0
  generalize run_ops cp binner init ops = bm at hJ ⊢
  have hpush : ∀ x, (bm.push_back cp binner x).1 = true ∧
      (bm.push_back cp binner x).2.size cp = bm.size cp + 1 ∧
      (bm.push_back cp binner x).2.valid_ = bm.valid_.push_back true := by
    intro x
    obtain ⟨h1, _, h3⟩ := henc bm.coder_ (binner x) hJ
    simp [bitmap.push_back, bitmap.size, h1, h3]
  have happ1 : ∀ n bit, (bm.append cp n bit).1 = true ∧
      (bm.append cp n bit).2.size cp = bm.size cp + n ∧
      (bm.append cp n bit).2.valid_.length = bm.valid_.length + n := by
    intro n bit
    obtain ⟨h1, _, h3⟩ := happ bm.coder_ n bit hJ
    simp [bitmap.append, bitmap.size, h1, h3, bitstream.append]
  refine ⟨hpush, happ1, ?_⟩
  intro o
  cases o with
  | push_back x =>
    show bm.size cp ≤ (bm.push_back cp binner x).2.size cp
    rw [(hpush x).2.1]
    omega
  | append n bit =>
    show bm.size cp ≤ (bm.append cp n bit).2.size cp
    rw [(happ1 n bit).2.1]
    omega

namespace list_storage

variable {T : Type} [LinearOrder T]

theorem wf_each (s : list_storage T) (h : s.wf)
    (f : T → bitstream → bitstream) (n : Nat) :
    wf { s.each f with rows := n } := by
  have hmem : ∀ q, q ∈ (s.each f).list_ ↔
      ∃ p ∈ s.list_, (p.1, f p.1 p.2) = q := by
    intro q
    simp [list_storage.each]
  constructor
  · show List.Pairwise _ (s.each f).list_
    simp only [list_storage.each, List.pairwise_map]
    exact h.1
  · intro y
    show y ∈ s.map_ ↔ ∃ b, (y, b) ∈ (s.each f).list_
    rw [h.2 y]
    constructor
    · rintro ⟨b, hb⟩
      exact ⟨f y b, (hmem _).2 ⟨(y, b), hb, rfl⟩⟩
    · rintro ⟨b, hb⟩
      obtain ⟨p, hp, heq⟩ := (hmem _).1 hb
      have hk : p.1 = y := congrArg Prod.fst heq
      exact ⟨p.2, by rw [← hk]; exact hp⟩

theorem wf_insert_new (s : list_storage T) (h : s.wf) (x : T) (b : bitstream)
    (hx : s.find x = none) :
    ∃ s1, s.insert x b = (true, s1) ∧ s1.wf ∧ s1.rows = s.rows ∧
      ∀ q, q ∈ s1.list_ ↔ q = (x, b) ∨ q ∈ s.list_ := by
  have hx1 := (find_eq_none_iff s h.1 h.2 x).1 hx
  obtain ⟨s1, h1, hrows, hmap, hmem, hsorted⟩ := insert_new s h.1 h.2 x b hx1
  refine ⟨s1, h1, ⟨hsorted, ?_⟩, hrows, hmem⟩
  intro y
  rw [hmap y]
  constructor
  · rintro (rfl | hy)
    · exact ⟨b, (hmem _).2 (Or.inl rfl)⟩
    · obtain ⟨c, hc⟩ := (h.2 y).1 hy
      exact ⟨c, (hmem _).2 (Or.inr hc)⟩
  · rintro ⟨c, hc⟩
    rcases (hmem _).1 hc with heq | hold
    · left
      exact congrArg Prod.fst heq
    · right
      exact (h.2 y).2 ⟨c, hold⟩

theorem wf_empty : (({} : list_storage T)).wf := by
  constructor <;> simp

end list_storage

namespace range_coder

variable {T : Type} [LinearOrder T]

theorem insert_seeded_eq (s : list_storage T) (x : T) :
    insert_seeded s x = s.insert x (seed_rule s x) := by
  unfold insert_seeded seed_rule
  cases h1 : (s.find_bounds x).1 <;> cases h2 : (s.find_bounds x).2 <;>
    rw [show s.find_bounds x = ((s.find_bounds x).1, (s.find_bounds x).2)
      from rfl, h1, h2]

theorem encode_wf (s : list_storage T) (h : s.wf) (x : T) :
    (encode s x).1 = true ∧ (encode s x).2.wf ∧
      (encode s x).2.rows = s.rows + 1 := by
  cases hf : s.find x with
  | some b =>
    have he : encode s x = (true,
        { s.each (fun k bs => bs.push_back (decide (x ≤ k))) with
          rows := s.rows + 1 }) := by
      simp [encode, hf, list_storage.each]
    rw [he]
    exact ⟨rfl, list_storage.wf_each s h _ _, rfl⟩
  | none =>
    obtain ⟨s1, h1, hwf, hrows, _⟩ :=
      list_storage.wf_insert_new s h x (seed_rule s x) hf
    have he : encode s x = (true,
        { s1.each (fun k bs => bs.push_back (decide (x ≤ k))) with
          rows := s.rows + 1 }) := by
      simp [encode, hf, insert_seeded_eq, h1, list_storage.each, hrows]
    rw [he]
    exact ⟨rfl, list_storage.wf_each s1 hwf _ _, rfl⟩

theorem append_wf (s : list_storage T) (h : s.wf) (n : Nat) (bit : Bool) :
    (append s n bit).1 = true ∧ (append s n bit).2.wf ∧
      (append s n bit).2.rows = s.rows + n :=
  ⟨rfl, list_storage.wf_each s h _ _, rfl⟩

end range_coder

theorem equality_encode_rows {T : Type} [DecidableEq T]
    (s : unordered_storage T) (x : T) :
    (equality_coder.encode s x).1 = true ∧
      (equality_coder.encode s x).2.rows = s.rows + 1 := by
  unfold equality_coder.encode
  cases hf : s.find x with
  | some b => exact ⟨rfl, rfl⟩
  | none =>
    have hnone : s.map_.find? (fun p => decide (p.1 = x)) = none := by
      unfold unordered_storage.find at hf
      simpa using hf
    simp [unordered_storage.insert, hnone, unordered_storage.each]

theorem bool_length_accounting_all (bm : bool_bitmap) :
    bool_length_accounting bm := by
  refine ⟨fun x => ⟨rfl, ?_, rfl⟩, fun n bit => ⟨rfl, ?_, ?_⟩, ?_⟩
  · simp [bool_bitmap.push_back, bool_bitmap.size, bitstream.size,
      bitstream.push_back]
  · simp [bool_bitmap.append, bool_bitmap.size, bitstream.size,
      bitstream.append]
  · simp [bool_bitmap.append, bitstream.append]
  · intro o
    cases o <;>
      simp [bool_apply_op, bool_bitmap.push_back, bool_bitmap.append,
        bool_bitmap.size, bitstream.size, bitstream.push_back,
        bitstream.append]

theorem equality_encode_by_rows {T : Type} (eq : T → T → Bool)
    (s : unordered_storage T) (x : T) :
    (equality_coder.encode_by eq s x).1 = true ∧
      (equality_coder.encode_by eq s x).2.rows = s.rows + 1 := by
  unfold equality_coder.encode_by
  cases hf : s.find_by eq x with
  | some b => exact ⟨rfl, rfl⟩
  | none =>
    have hnone : s.map_.find? (fun p => eq p.1 x) = none := by
      unfold unordered_storage.find_by at hf
      simpa using hf
    simp [unordered_storage.insert_by, hnone, unordered_storage.each]

/-- C13, amended: on every bitmap reached by `push_back` and `append` calls,
where for the range coder the value type is one on which `<` is a strict total
order and `==` is equality (every value type but `double` with NaN; the
equality coder over any value type, the binary coder and the `bool`
specialization are as claimed), with any binner, `push_back(x)` returns true,
increases `size()` by exactly 1 and appends one true bit to the validity
bitstream; `append(n, bit)` returns true and increases `size()` and the
validity length by exactly `n`; no call decreases `size()`. -/
theorem bitmap_length_accounting :
    (∀ (T : Type) [LinearOrder T] (integral : Option (integral_ops T))
      (binner : T → T) (ops : List (bitmap_op T)),
      length_accounting (range_coder.policy integral) binner
        (run_ops (range_coder.policy integral) binner (range_bitmap T) ops)) ∧
    (∀ (T : Type) (eq : T → T → Bool) (binner : T → T)
      (ops : List (bitmap_op T)),
      length_accounting (equality_coder.policy_by eq) binner
        (run_ops (equality_coder.policy_by eq) binner (equality_bitmap T)
          ops)) ∧
    (∀ (T : Type) [DecidableEq T] (binner : T → T) (ops : List (bitmap_op T)),
      length_accounting equality_coder.policy binner
        (run_ops equality_coder.policy binner (equality_bitmap T) ops)) ∧
    (∀ (t : integral_type) (binner : Int → Int) (ops : List (bitmap_op Int)),
      length_accounting (binary_coder.policy t) binner
        (run_ops (binary_coder.policy t) binner (binary_bitmap t) ops)) ∧
    (∀ (ops : List (bitmap_op Bool)),
      bool_length_accounting (bool_run_ops {} ops)) := by
  refine ⟨?_, ?_, ?_, ?_, ?_⟩
  · intro T _ integral binner ops
    exact length_accounting_of (range_coder.policy integral)
      (fun s => s.wf)
      (fun c x h => range_coder.encode_wf c h x)
      (fun c n bit h => range_coder.append_wf c h n bit)
      binner (range_bitmap T) list_storage.wf_empty ops
  · intro T eq binner ops
    exact length_accounting_of (equality_coder.policy_by eq) (fun _ => True)
      (fun c x _ => ⟨(equality_encode_by_rows eq c x).1, trivial,
        (equality_encode_by_rows eq c x).2⟩)
      (fun c n bit _ => ⟨rfl, trivial, rfl⟩)
      binner (equality_bitmap T) trivial ops
  · intro T _ binner ops
    exact length_accounting_of equality_coder.policy (fun _ => True)
      (fun c x _ => ⟨(equality_encode_rows c x).1, trivial,
        (equality_encode_rows c x).2⟩)
      (fun c n bit _ => ⟨rfl, trivial, rfl⟩)
      binner (equality_bitmap T) trivial ops
  · intro t binner ops
    exact length_accounting_of (binary_coder.policy t) (fun _ => True)
      (fun c x _ => ⟨rfl, trivial, rfl⟩)
      (fun c n bit _ => ⟨rfl, trivial, rfl⟩)
      binner (binary_bitmap t) trivial ops
  · intro ops
    exact bool_length_accounting_all _

/-! ## Storage policies under sequences of inserts -/

namespace list_storage

variable {T : Type} [LinearOrder T]

theorem insert_dup (s : list_storage T) (h : s.wf) (x : T) (b : bitstream)
    (hx : (s.find x).isSome = true) : s.insert x b = (false, s) := by
  obtain ⟨c, hc⟩ := Option.isSome_iff_exists.1 hx
  have hmem := (find_eq_some_iff s h.1 h.2 x c).1 hc
  obtain ⟨j, hj⟩ := List.mem_iff_getElem?.1 hmem
  have hjlen : j < s.list_.length := (List.getElem?_eq_some.1 hj).1
  have hge : lower_bound s.list_ x ≤ j := by
    by_contra hcon
    exact lt_irrefl x
      (lt_of_lt_lower_bound s.list_ x j (x, c) hj (Nat.lt_of_not_le hcon))
  have hlt : lower_bound s.list_ x < s.list_.length := by omega
  have hg := List.getElem?_eq_getElem hlt
  have h1 := not_lt_of_lower_bound_le s.list_ x h.1 _ _ hg (le_refl _)
  have h2 := sorted_index_le s.list_ h.1 _ j _ (x, c) hg hj hge
  have h3 : ¬ x < (s.list_[lower_bound s.list_ x]).1 := not_lt.2 h2
  simp [insert, hg, h3]

theorem wf_insert (s : list_storage T) (h : s.wf) (x : T) (b : bitstream) :
    (s.insert x b).2.wf := by
  cases hf : s.find x with
  | none =>
    obtain ⟨s1, h1, hwf, _, _⟩ := wf_insert_new s h x b hf
    rw [h1]
    exact hwf
  | some c =>
    rw [insert_dup s h x b (by rw [hf]; rfl)]
    exact h

theorem wf_fold (ins : List (T × bitstream)) :
    ∀ s : list_storage T, s.wf →
      (ins.foldl (fun s p => (s.insert p.1 p.2).2) s).wf := by
  induction ins with
  | nil => intro s h; exact h
  | cons p ins ih =>
    intro s h
    exact ih _ (wf_insert s h p.1 p.2)

theorem wf_build (ins : List (T × bitstream)) : (build ins).wf :=
  wf_fold ins {} wf_empty

theorem mem_iff_find (s : list_storage T) (h : s.wf) (q : T × bitstream) :
    q ∈ s.list_ ↔ s.find q.1 = some q.2 :=
  (find_eq_some_iff s h.1 h.2 q.1 q.2).symm

theorem find_bounds_lower_iff (s : list_storage T) (h : s.wf) (v : T) :
    (∀ b, (s.find_bounds v).1 = some b ↔
      ∃ L, s.find L = some b ∧ L < v ∧
        ∀ k, (s.find k).isSome = true → k < v → k ≤ L) ∧
    ((s.find_bounds v).1 = none ↔
      ∀ k, (s.find k).isSome = true → ¬ k < v) := by
  have hsome : ∀ b, (s.find_bounds v).1 = some b →
      ∃ L, s.find L = some b ∧ L < v ∧
        ∀ k, (s.find k).isSome = true → k < v → k ≤ L := by
    intro b hb
    obtain ⟨L, hL, hLv, hmax⟩ := find_bounds_fst_some s h.1 v b hb
    refine ⟨L, (find_eq_some_iff s h.1 h.2 L b).2 hL, hLv, ?_⟩
    intro k hk hkv
    obtain ⟨c, hc⟩ := Option.isSome_iff_exists.1 hk
    exact hmax (k, c) ((find_eq_some_iff s h.1 h.2 k c).1 hc) hkv
  have hnone : (s.find_bounds v).1 = none →
      ∀ k, (s.find k).isSome = true → ¬ k < v := by
    intro hn k hk
    obtain ⟨c, hc⟩ := Option.isSome_iff_exists.1 hk
    exact find_bounds_fst_none s h.1 h.2 v hn (k, c)
      ((find_eq_some_iff s h.1 h.2 k c).1 hc)
  refine ⟨fun b => ⟨hsome b, ?_⟩, ⟨hnone, ?_⟩⟩
  · rintro ⟨L, hL, hLv, hmax⟩
    cases hfb : (s.find_bounds v).1 with
    | none =>
      exact absurd hLv (hnone hfb L (by rw [hL]; rfl))
    | some b1 =>
      obtain ⟨L1, hL1, hL1v, hmax1⟩ := hsome b1 hfb
      have e : L1 = L := le_antisymm (hmax L1 (by rw [hL1]; rfl) hL1v)
        (hmax1 L (by rw [hL]; rfl) hLv)
      rw [e, hL] at hL1
      exact hL1.symm
  · intro hall
    cases hfb : (s.find_bounds v).1 with
    | none => rfl
    | some b1 =>
      obtain ⟨L1, hL1, hL1v, _⟩ := hsome b1 hfb
      exact absurd hL1v (hall L1 (by rw [hL1]; rfl))

theorem find_bounds_upper_iff (s : list_storage T) (h : s.wf) (v : T) :
    (∀ b, (s.find_bounds v).2 = some b ↔
      ∃ U, s.find U = some b ∧ v < U ∧
        ∀ k, (s.find k).isSome = true → v < k → U ≤ k) ∧
    ((s.find_bounds v).2 = none ↔
      ∀ k, (s.find k).isSome = true → ¬ v < k) := by
  have hsome : ∀ b, (s.find_bounds v).2 = some b →
      ∃ U, s.find U = some b ∧ v < U ∧
        ∀ k, (s.find k).isSome = true → v < k → U ≤ k := by
    intro b hb
    obtain ⟨U, hU, hvU, hmin⟩ := find_bounds_snd_some s h.1 v b hb
    refine ⟨U, (find_eq_some_iff s h.1 h.2 U b).2 hU, hvU, ?_⟩
    intro k hk hkv
    obtain ⟨c, hc⟩ := Option.isSome_iff_exists.1 hk
    exact hmin (k, c) ((find_eq_some_iff s h.1 h.2 k c).1 hc) hkv
  have hnone : (s.find_bounds v).2 = none →
      ∀ k, (s.find k).isSome = true → ¬ v < k := by
    intro hn k hk
    obtain ⟨c, hc⟩ := Option.isSome_iff_exists.1 hk
    exact find_bounds_snd_none s h.2 v hn (k, c)
      ((find_eq_some_iff s h.1 h.2 k c).1 hc)
  refine ⟨fun b => ⟨hsome b, ?_⟩, ⟨hnone, ?_⟩⟩
  · rintro ⟨U, hU, hvU, hmin⟩
    cases hfb : (s.find_bounds v).2 with
    | none =>
      exact absurd hvU (hnone hfb U (by rw [hU]; rfl))
    | some b1 =>
      obtain ⟨U1, hU1, hvU1, hmin1⟩ := hsome b1 hfb
      have e : U1 = U := le_antisymm (hmin1 U (by rw [hU]; rfl) hvU)
        (hmin U1 (by rw [hU1]; rfl) hvU1)
      rw [e, hU] at hU1
      exact hU1.symm
  · intro hall
    cases hfb : (s.find_bounds v).2 with
    | none => rfl
    | some b1 =>
      obtain ⟨U1, hU1, hvU1, _⟩ := hsome b1 hfb
      exact absurd hvU1 (hall U1 (by rw [hU1]; rfl))

end list_storage

/-- C14: on every ordered storage built by inserts and for every query key
`v`, the lower result of `find_bounds(v)` is the bitstream of the greatest
stored key strictly less than `v`, null exactly when there is no such key, and
the upper result is the bitstream of the smallest stored key strictly greater
than `v`, null exactly when there is no such key. -/
theorem list_find_bounds_nearest {T : Type} [LinearOrder T]
    (ins : List (T × bitstream)) (v : T) :
    (∀ b, ((list_storage.build ins).find_bounds v).1 = some b ↔
      ∃ L, (list_storage.build ins).find L = some b ∧ L < v ∧
        ∀ k, ((list_storage.build ins).find k).isSome = true → k < v →
          k ≤ L) ∧
    (((list_storage.build ins).find_bounds v).1 = none ↔
      ∀ k, ((list_storage.build ins).find k).isSome = true → ¬ k < v) ∧
    (∀ b, ((list_storage.build ins).find_bounds v).2 = some b ↔
      ∃ U, (list_storage.build ins).find U = some b ∧ v < U ∧
        ∀ k, ((list_storage.build ins).find k).isSome = true → v < k →
          U ≤ k) ∧
    (((list_storage.build ins).find_bounds v).2 = none ↔
      ∀ k, ((list_storage.build ins).find k).isSome = true → ¬ v < k) := by
  have hwf := list_storage.wf_build ins
  obtain ⟨h1, h2⟩ := list_storage.find_bounds_lower_iff _ hwf v
  obtain ⟨h3, h4⟩ := list_storage.find_bounds_upper_iff _ hwf v
  exact ⟨h1, h2, h3, h4⟩

theorem dedup_snoc_mem {K : Type} [DecidableEq K] (ks : List K) (x : K)
    (h : x ∈ ks) : (ks ++ [x]).dedup.length = ks.dedup.length := by
  rw [← List.card_toFinset, ← List.card_toFinset]
  congr 1
  ext y
  simp
  rintro rfl
  exact h

theorem dedup_snoc_not_mem {K : Type} [DecidableEq K] (ks : List K) (x : K)
    (h : x ∉ ks) : (ks ++ [x]).dedup.length = ks.dedup.length + 1 := by
  rw [← List.card_toFinset, ← List.card_toFinset]
  have : (ks ++ [x]).toFinset = insert x ks.toFinset := by
    ext y
    simp
    tauto
  rw [this, Finset.card_insert_of_not_mem (by simpa using h)]

theorem storage_laws_of {S K : Type} [DecidableEq K] (J : S → Prop)
    (find : S → K → Option bitstream)
    (insert : S → K → bitstream → Bool × S) (cardinality : S → Nat)
    (empty : S) (hJ0 : J empty) (hf0 : ∀ k, find empty k = none)
    (hc0 : cardinality empty = 0)
    (hdup : ∀ s x b, J s → (find s x).isSome = true →
      insert s x b = (false, s))
    (hnew : ∀ s x b, J s → find s x = none →
      (insert s x b).1 = true ∧ J (insert s x b).2 ∧
      cardinality (insert s x b).2 = cardinality s + 1 ∧
      ∀ y, find (insert s x b).2 y = if y = x then some b else find s y)
    (ins : List (K × bitstream)) :
    storage_laws find insert cardinality ins
      (ins.foldl (fun s p => (insert s p.1 p.2).2) empty) := by
  have key : J (ins.foldl (fun s p => (insert s p.1 p.2).2) empty) ∧
      cardinality (ins.foldl (fun s p => (insert s p.1 p.2).2) empty) =
        (ins.map Prod.fst).dedup.length ∧
      ∀ x, (find (ins.foldl (fun s p => (insert s p.1 p.2).2) empty) x).isSome
        = true ↔ x ∈ ins.map Prod.fst := by
    induction ins using List.reverseRecOn with
    | nil =>
      refine ⟨hJ0, by simpa using hc0, ?_⟩
      intro x
      simp [hf0]
    | append_singleton l p ih =>
      obtain ⟨hJ, hc, hf⟩ := ih
      rw [List.foldl_append, List.map_append]
      generalize l.foldl (fun s p => (insert s p.1 p.2).2) empty = s at hJ hc hf
      show J (insert s p.1 p.2).2 ∧
        cardinality (insert s p.1 p.2).2 =
          (l.map Prod.fst ++ [p.1]).dedup.length ∧
        ∀ x, (find (insert s p.1 p.2).2 x).isSome = true ↔
          x ∈ l.map Prod.fst ++ [p.1]
      cases hfx : find s p.1 with
      | some c =>
        have hsome : (find s p.1).isSome = true := by rw [hfx]; rfl
        have hmem : p.1 ∈ l.map Prod.fst := (hf p.1).1 hsome
        rw [hdup s p.1 p.2 hJ hsome, dedup_snoc_mem _ _ hmem]
        refine ⟨hJ, hc, ?_⟩
        intro x
        rw [hf x]
        constructor
        · intro h
          exact List.mem_append_left _ h
        · intro h
          rcases List.mem_append.1 h with h | h
          · exact h
          · rw [List.mem_singleton] at h
            rw [h]
            exact hmem
      | none =>
        have hnot : p.1 ∉ l.map Prod.fst := fun hm => by
          have := (hf p.1).2 hm
          rw [hfx] at this
          cases this
        obtain ⟨_, hJ1, hc1, hf1⟩ := hnew s p.1 p.2 hJ hfx
        rw [dedup_snoc_not_mem _ _ hnot]
        refine ⟨hJ1, by rw [hc1, hc], ?_⟩
        intro x
        rw [hf1 x]
        by_cases hx : x = p.1
        · simp [hx]
        · simp only [hx, if_false, List.mem_append, List.mem_singleton,
            or_false]
          exact hf x
  obtain ⟨hJ, hc, hf⟩ := key
  generalize ins.foldl (fun s p => (insert s p.1 p.2).2) empty = s at hJ hc hf
  refine ⟨hc, hf, ?_, ?_⟩
  · intro x b
    cases hfx : find s x with
    | some c =>
      have hsome : (find s x).isSome = true := by rw [hfx]; rfl
      rw [hdup s x b hJ hsome]
      simp only [Bool.false_eq_true, false_iff, not_not]
      exact (hf x).1 hsome
    | none =>
      have hnot : x ∉ ins.map Prod.fst := fun hm => by
        have := (hf x).2 hm
        rw [hfx] at this
        cases this
      simp only [(hnew s x b hJ hfx).1, true_iff]
      exact hnot
  · intro x b hfalse
    cases hfx : find s x with
    | some c =>
      have hsome : (find s x).isSome = true := by rw [hfx]; rfl
      rw [hdup s x b hJ hsome]
      exact ⟨rfl, hfx, rfl⟩
    | none =>
      rw [(hnew s x b hJ hfx).1] at hfalse
      cases hfalse

namespace list_storage

variable {T : Type} [LinearOrder T]

theorem insert_length (s : list_storage T) (x : T) (b : bitstream)
    (h : (s.insert x b).1 = true) :
    (s.insert x b).2.list_.length = s.list_.length + 1 := by
  have hlen : (s.list_.take (lower_bound s.list_ x) ++
      (x, b) :: s.list_.drop (lower_bound s.list_ x)).length =
      s.list_.length + 1 := by
    have := lower_bound_le_length s.list_ x
    simp only [List.length_append, List.length_cons, List.length_take,
      List.length_drop]
    omega
  unfold insert at h ⊢
  cases hg : s.list_[lower_bound s.list_ x]? with
  | none =>
    simp only [hg] at h ⊢
    by_cases hx : x ∈ s.map_
    · simp [hx] at h
    · simp only [hx, if_false]
      exact hlen
  | some p =>
    simp only [hg] at h ⊢
    by_cases hp : x < p.1
    · simp only [hp, if_true] at h ⊢
      by_cases hx : x ∈ s.map_
      · simp [hx] at h
      · simp only [hx, if_false]
        exact hlen
    · simp [hp] at h

theorem list_insert_laws_new (s : list_storage T) (x : T) (b : bitstream)
    (h : s.wf) (hx : s.find x = none) :
    (s.insert x b).1 = true ∧ (s.insert x b).2.wf ∧
      (s.insert x b).2.cardinality = s.cardinality + 1 ∧
      ∀ y, (s.insert x b).2.find y = if y = x then some b else s.find y := by
  obtain ⟨s1, h1, hwf, _, hmem⟩ := wf_insert_new s h x b hx
  have hx1 := (find_eq_none_iff s h.1 h.2 x).1 hx
  have hlen := insert_length s x b (by rw [h1])
  rw [h1] at hlen ⊢
  refine ⟨rfl, hwf, hlen, ?_⟩
  intro y
  show s1.find y = if y = x then some b else s.find y
  by_cases hy : y = x
  · simp only [hy, if_true]
    exact (find_eq_some_iff s1 hwf.1 hwf.2 x b).2 ((hmem _).2 (Or.inl rfl))
  · simp only [hy, if_false]
    apply Option.ext
    intro c
    show s1.find y = some c ↔ s.find y = some c
    rw [find_eq_some_iff s1 hwf.1 hwf.2, find_eq_some_iff s h.1 h.2, hmem]
    constructor
    · rintro (heq | hold)
      · exact absurd (congrArg Prod.fst heq) hy
      · exact hold
    · intro hold
      exact Or.inr hold

theorem find_empty (k : T) : ({} : list_storage T).find k = none := by
  simp [find]

end list_storage

namespace unordered_storage

variable {T : Type} [DecidableEq T]

theorem unordered_insert_laws_dup (s : unordered_storage T) (x : T) (b : bitstream)
    (hx : (s.find x).isSome = true) : s.insert x b = (false, s) := by
  have : (s.map_.find? (fun p => decide (p.1 = x))).isSome = true := by
    unfold find at hx
    simpa using hx
  simp [insert, this]

theorem unordered_insert_laws_new (s : unordered_storage T) (x : T) (b : bitstream)
    (hx : s.find x = none) :
    (s.insert x b).1 = true ∧
      (s.insert x b).2.cardinality = s.cardinality + 1 ∧
      ∀ y, (s.insert x b).2.find y = if y = x then some b else s.find y := by
  have hnone : s.map_.find? (fun p => decide (p.1 = x)) = none := by
    unfold find at hx
    simpa using hx
  have hval : s.insert x b = (true, { s with map_ := s.map_ ++ [(x, b)] }) := by
    simp [insert, hnone]
  rw [hval]
  refine ⟨rfl, by simp [cardinality], ?_⟩
  intro y
  show ((s.map_ ++ [(x, b)]).find? (fun p => decide (p.1 = y))).map Prod.snd =
    if y = x then some b else s.find y
  rw [List.find?_append]
  by_cases hy : y = x
  · subst hy
    simp [hnone]
  · have hxy : ¬ x = y := fun e => hy e.symm
    simp [hy, hxy, find]

end unordered_storage

namespace vector_storage

theorem find_eq_join (s : vector_storage) (y : Nat) :
    s.find y = (s.vector_[y]?).join := by
  unfold find
  by_cases hy : y ≥ s.vector_.length
  · simp [hy, List.getElem?_eq_none hy]
  · simp only [hy, if_false]
    cases h : s.vector_[y]? with
    | none => rfl
    | some o => cases o <;> rfl

theorem join_pad (v : List (Option bitstream)) (k y : Nat) :
    ((v ++ List.replicate k none)[y]?).join = (v[y]?).join := by
  rw [List.getElem?_append]
  by_cases hy : y < v.length
  · simp [hy]
  · rw [List.getElem?_eq_none (Nat.le_of_not_lt hy)]
    simp only [hy, if_false, List.getElem?_replicate]
    by_cases hk : y - v.length < k <;> simp [hk]

theorem vector_insert_laws_dup (s : vector_storage) (x : Nat) (b : bitstream)
    (hx : (s.find x).isSome = true) : s.insert x b = (false, s) := by
  unfold find at hx
  by_cases hge : x ≥ s.vector_.length
  · simp [hge] at hx
  · simp only [hge, if_false] at hx
    cases h : s.vector_[x]? with
    | none => simp [h] at hx
    | some o =>
      cases o with
      | none => simp [h] at hx
      | some c => simp [insert, hge, h]

theorem vector_insert_laws_new (s : vector_storage) (x : Nat) (b : bitstream)
    (hx : s.find x = none) :
    (s.insert x b).1 = true ∧
      (s.insert x b).2.cardinality = s.cardinality + 1 ∧
      ∀ y, (s.insert x b).2.find y = if y = x then some b else s.find y := by
  have hgen : ∀ V : List (Option bitstream), x < V.length →
      (∀ y : Nat, (V[y]?).join = (s.vector_[y]?).join) →
      ∀ y, (({ rows := s.rows, vector_ := V.set x (some b),
               cardinality_ := s.cardinality_ + 1 } : vector_storage).find y)
        = if y = x then some b else s.find y := by
    intro V hV hVy y
    rw [find_eq_join, find_eq_join]
    show ((V.set x (some b))[y]?).join = _
    rw [List.getElem?_set]
    by_cases hy : y = x
    · subst hy
      simp [hV]
    · have hxy : ¬ x = y := fun e => hy e.symm
      simp only [hxy, hy, if_false]
      exact hVy y
  by_cases hge : x ≥ s.vector_.length
  · have hval : s.insert x b = (true,
        { rows := s.rows,
          vector_ := (s.vector_ ++
            List.replicate (x + 1 - s.vector_.length) none).set x (some b),
          cardinality_ := s.cardinality_ + 1 }) := by
      simp [insert, hge]
    rw [hval]
    refine ⟨rfl, rfl, hgen _ ?_ (fun y => join_pad _ _ y)⟩
    simp only [List.length_append, List.length_replicate]
    omega
  · have hlt : x < s.vector_.length := Nat.lt_of_not_le hge
    have hnone : s.vector_[x]? = some none := by
      rw [find_eq_join, List.getElem?_eq_getElem hlt] at hx
      rw [List.getElem?_eq_getElem hlt]
      cases h : s.vector_[x] with
      | none => rfl
      | some c => simp [h] at hx
    have hval : s.insert x b = (true,
        { rows := s.rows, vector_ := s.vector_.set x (some b),
          cardinality_ := s.cardinality_ + 1 }) := by
      simp [insert, hge, hnone]
    rw [hval]
    exact ⟨rfl, rfl, hgen _ hlt (fun _ => rfl)⟩

end vector_storage

/-- C15, amended: for each of the three storage policies (ordered list, hash
table, vector) over a key type on which `<` is a strict total order and `==`
is equality (every key type but `double` with NaN) and every sequence of
`insert` calls on an empty storage, `cardinality()` is the number of distinct
values inserted, `insert(v, b)` returns true exactly when `v` was not inserted
before, and an insert that returns false leaves the storage, the stored
bitstream of `v` and the cardinality unchanged. -/
theorem storage_insert_cardinality :
    (∀ (T : Type) [LinearOrder T] (ins : List (T × bitstream)),
      storage_laws list_storage.find list_storage.insert
        list_storage.cardinality ins (list_storage.build ins)) ∧
    (∀ (T : Type) [DecidableEq T] (ins : List (T × bitstream)),
      storage_laws unordered_storage.find unordered_storage.insert
        unordered_storage.cardinality ins (unordered_storage.build ins)) ∧
    (∀ (ins : List (Nat × bitstream)),
      storage_laws vector_storage.find vector_storage.insert
        vector_storage.cardinality ins (vector_storage.build ins)) := by
  refine ⟨?_, ?_, ?_⟩
  · intro T _ ins
    exact storage_laws_of (fun s : list_storage T => s.wf) list_storage.find
      list_storage.insert list_storage.cardinality {} list_storage.wf_empty
      list_storage.find_empty rfl
      (fun s x b h hx => list_storage.insert_dup s h x b hx)
      (fun s x b h hx => list_storage.list_insert_laws_new s x b h hx) ins
  · intro T _ ins
    exact storage_laws_of (fun _ : unordered_storage T => True)
      unordered_storage.find unordered_storage.insert
      unordered_storage.cardinality {} trivial (fun k => rfl) rfl
      (fun s x b _ hx => unordered_storage.unordered_insert_laws_dup s x b hx)
      (fun s x b _ hx =>
        ⟨(unordered_storage.unordered_insert_laws_new s x b hx).1, trivial,
          (unordered_storage.unordered_insert_laws_new s x b hx).2⟩) ins
  · intro ins
    exact storage_laws_of (fun _ : vector_storage => True)
      vector_storage.find vector_storage.insert
      vector_storage.cardinality {} trivial
      (fun k => by simp [vector_storage.find]) rfl
      (fun s x b _ hx => vector_storage.vector_insert_laws_dup s x b hx)
      (fun s x b _ hx =>
        ⟨(vector_storage.vector_insert_laws_new s x b hx).1, trivial,
          (vector_storage.vector_insert_laws_new s x b hx).2⟩) ins

/-! ## The insertion rule of the range coder -/

namespace range_coder

variable {T : Type} [LinearOrder T]

theorem wf_run (integral : Option (integral_ops T)) (binner : T → T)
    (ops : List (bitmap_op T)) :
    (run_ops (policy integral) binner (range_bitmap T) ops).coder_.wf :=
  run_ops_induct_all (policy integral) binner (fun bm => bm.coder_.wf)
    (fun bm x h => by
      obtain ⟨h1, h2, _⟩ := encode_wf bm.coder_ h (binner x)
      have h1a : ((policy integral).encode bm.coder_ (binner x)).1 = true := h1
      simpa [bitmap.push_back, h1a] using h2)
    (fun bm n bit h => (append_wf bm.coder_ h n bit).2.1)
    ops (range_bitmap T) list_storage.wf_empty

theorem encode_new (s : list_storage T) (h : s.wf) (v : T)
    (hv : s.find v = none) :
    (encode s v).1 = true ∧ (encode s v).2.rows = s.rows + 1 ∧
    (encode s v).2.find v =
      some ((seed_rule s v).push_back (decide (v ≤ v))) ∧
    (∀ k b, s.find k = some b →
      (encode s v).2.find k = some (b.push_back (decide (v ≤ k)))) ∧
    (∀ k, ((encode s v).2.find k).isSome = true →
      k = v ∨ (s.find k).isSome = true) := by
  obtain ⟨s1, h1, hwf, hrows, hmem⟩ :=
    list_storage.wf_insert_new s h v (seed_rule s v) hv
  have he : encode s v = (true,
      { s1.each (fun k bs => bs.push_back (decide (v ≤ k))) with
        rows := s.rows + 1 }) := by
    simp [encode, hv, insert_seeded_eq, h1, list_storage.each, hrows]
  have hwf2 := list_storage.wf_each s1 hwf
    (fun k bs => bs.push_back (decide (v ≤ k))) (s.rows + 1)
  have hmem2 : ∀ q, q ∈ (s1.each
      (fun k bs => bs.push_back (decide (v ≤ k)))).list_ ↔
      ∃ p ∈ s1.list_, (p.1, p.2.push_back (decide (v ≤ p.1))) = q := by
    intro q
    simp [list_storage.each]
  rw [he]
  refine ⟨rfl, rfl, ?_, ?_, ?_⟩
  · exact (list_storage.find_eq_some_iff _ hwf2.1 hwf2.2 v _).2
      ((hmem2 _).2 ⟨(v, seed_rule s v), (hmem _).2 (Or.inl rfl), rfl⟩)
  · intro k b hk
    have hkb := (list_storage.find_eq_some_iff s h.1 h.2 k b).1 hk
    exact (list_storage.find_eq_some_iff _ hwf2.1 hwf2.2 k _).2
      ((hmem2 _).2 ⟨(k, b), (hmem _).2 (Or.inr hkb), rfl⟩)
  · intro k hk
    obtain ⟨c, hc⟩ := Option.isSome_iff_exists.1 hk
    have hkc := (list_storage.find_eq_some_iff _ hwf2.1 hwf2.2 k c).1 hc
    obtain ⟨p, hp, heq⟩ := (hmem2 _).1 hkc
    have hpk : p.1 = k := congrArg Prod.fst heq
    rcases (hmem _).1 hp with rfl | hold
    · exact Or.inl hpk.symm
    · right
      have := (list_storage.find_eq_some_iff s h.1 h.2 p.1 p.2).2 hold
      rw [← hpk, this]
      rfl

end range_coder

/-- C16, amended: on a range coder over a value type on which `<` is a strict
total order and `==` is equality (every value type but `double` with NaN),
reached by `push_back` and `append` calls, when `encode(v)` meets a value `v`
that is not yet a key, it returns true, `rows` grows by 1, the bitstream of `v` is the seed of the rule (a copy of the
bitstream of `L` if both neighbours exist, all true of length `rows` if only
`L`, all false if only `U`, all true if neither) followed by the bit
`v <= v`, every key `k` stored before receives the bit `v <= k`, and there is
no other key. -/
theorem range_encode_insertion_rule {T : Type} [LinearOrder T]
    (integral : Option (integral_ops T)) (binner : T → T)
    (ops : List (bitmap_op T)) (v : T)
    (hv : (run_ops (range_coder.policy integral) binner (range_bitmap T)
      ops).coder_.find v = none) :
    (range_coder.encode (run_ops (range_coder.policy integral) binner
      (range_bitmap T) ops).coder_ v).1 = true ∧
    (range_coder.encode (run_ops (range_coder.policy integral) binner
      (range_bitmap T) ops).coder_ v).2.rows =
      (run_ops (range_coder.policy integral) binner (range_bitmap T)
        ops).coder_.rows + 1 ∧
    (range_coder.encode (run_ops (range_coder.policy integral) binner
      (range_bitmap T) ops).coder_ v).2.find v =
      some ((range_coder.seed_rule (run_ops (range_coder.policy integral)
        binner (range_bitmap T) ops).coder_ v).push_back (decide (v ≤ v))) ∧
    (∀ k b, (run_ops (range_coder.policy integral) binner (range_bitmap T)
        ops).coder_.find k = some b →
      (range_coder.encode (run_ops (range_coder.policy integral) binner
        (range_bitmap T) ops).coder_ v).2.find k =
        some (b.push_back (decide (v ≤ k)))) ∧
    (∀ k, ((range_coder.encode (run_ops (range_coder.policy integral) binner
        (range_bitmap T) ops).coder_ v).2.find k).isSome = true →
      k = v ∨ ((run_ops (range_coder.policy integral) binner (range_bitmap T)
        ops).coder_.find k).isSome = true) :=
  range_coder.encode_new _ (range_coder.wf_run integral binner ops) v hv

theorem range_encode_insertion_rule_witness :
    (run_ops (range_coder.policy (some int64_t.ops)) null_binner
      (range_bitmap Int) s1_ops).coder_.find 12 = none ∧
    (range_coder.encode (run_ops (range_coder.policy (some int64_t.ops))
      null_binner (range_bitmap Int) s1_ops).coder_ 12).1 = true ∧
    (range_coder.encode (run_ops (range_coder.policy (some int64_t.ops))
      null_binner (range_bitmap Int) s1_ops).coder_ 12).2.rows =
      (run_ops (range_coder.policy (some int64_t.ops)) null_binner
        (range_bitmap Int) s1_ops).coder_.rows + 1 ∧
    (range_coder.encode (run_ops (range_coder.policy (some int64_t.ops))
      null_binner (range_bitmap Int) s1_ops).coder_ 12).2.find 12 =
      some ((range_coder.seed_rule (run_ops
        (range_coder.policy (some int64_t.ops)) null_binner (range_bitmap Int)
        s1_ops).coder_ 12).push_back (decide ((12 : Int) ≤ 12))) ∧
    (∀ k b, (run_ops (range_coder.policy (some int64_t.ops)) null_binner
        (range_bitmap Int) s1_ops).coder_.find k = some b →
      (range_coder.encode (run_ops (range_coder.policy (some int64_t.ops))
        null_binner (range_bitmap Int) s1_ops).coder_ 12).2.find k =
        some (b.push_back (decide (12 ≤ k)))) ∧
    (∀ k, ((range_coder.encode (run_ops
        (range_coder.policy (some int64_t.ops)) null_binner (range_bitmap Int)
        s1_ops).coder_ 12).2.find k).isSome = true →
      k = 12 ∨ ((run_ops (range_coder.policy (some int64_t.ops)) null_binner
        (range_bitmap Int) s1_ops).coder_.find k).isSome = true) :=
  ⟨rfl, range_encode_insertion_rule (some int64_t.ops) null_binner s1_ops 12
    rfl⟩

/-- C17 (counterexample): on the range-coded integer bitmap holding only 10,
the new key 5 has no key below it and is seeded all zeros, not all ones, and
the new key 20 has no key above it and is seeded all ones, not all zeros. -/
theorem range_seed_not_as_stated :
    single_store.find 5 = none ∧
    single_store.find_bounds 5 = (none, some [true]) ∧
    (range_coder.insert_seeded single_store 5).2.find 5 = some [false] ∧
    (range_coder.insert_seeded single_store 5).2.find 5 ≠
      some (bitstream.make single_store.rows true) ∧
    single_store.find 20 = none ∧
    single_store.find_bounds 20 = (some [true], none) ∧
    (range_coder.insert_seeded single_store 20).2.find 20 = some [true] ∧
    (range_coder.insert_seeded single_store 20).2.find 20 ≠
      some (bitstream.make single_store.rows false) := by
  refine ⟨rfl, rfl, rfl, ?_, rfl, rfl, rfl, ?_⟩
  · rw [show (range_coder.insert_seeded single_store 5).2.find 5 = some [false]
      from rfl, show bitstream.make single_store.rows true = [true] from rfl]
    simp
  · rw [show (range_coder.insert_seeded single_store 20).2.find 20
      = some [true] from rfl,
      show bitstream.make single_store.rows false = [false] from rfl]
    simp

/-- C17 (amended): on a range coder reached by `push_back` and `append`
calls, when `encode(x)` meets a new key `x` that has only one ordered
neighbour, the new bitstream is seeded all zeros of length `rows` if there is
no key below `x` and all ones of length `rows` if there is no key above
`x`. -/
theorem range_seed_single_neighbour {T : Type} [LinearOrder T]
    (integral : Option (integral_ops T)) (binner : T → T)
    (ops : List (bitmap_op T)) (x : T)
    (hx : (run_ops (range_coder.policy integral) binner (range_bitmap T)
      ops).coder_.find x = none) :
    ((∀ k, ((run_ops (range_coder.policy integral) binner (range_bitmap T)
        ops).coder_.find k).isSome = true → ¬ k < x) →
     (∃ k, ((run_ops (range_coder.policy integral) binner (range_bitmap T)
        ops).coder_.find k).isSome = true ∧ x < k) →
     (range_coder.insert_seeded (run_ops (range_coder.policy integral) binner
        (range_bitmap T) ops).coder_ x).2.find x =
      some (bitstream.make (run_ops (range_coder.policy integral) binner
        (range_bitmap T) ops).coder_.rows false)) ∧
    ((∃ k, ((run_ops (range_coder.policy integral) binner (range_bitmap T)
        ops).coder_.find k).isSome = true ∧ k < x) →
     (∀ k, ((run_ops (range_coder.policy integral) binner (range_bitmap T)
        ops).coder_.find k).isSome = true → ¬ x < k) →
     (range_coder.insert_seeded (run_ops (range_coder.policy integral) binner
        (range_bitmap T) ops).coder_ x).2.find x =
      some (bitstream.make (run_ops (range_coder.policy integral) binner
        (range_bitmap T) ops).coder_.rows true)) := by
  have hwf := range_coder.wf_run integral binner ops
  generalize (run_ops (range_coder.policy integral) binner (range_bitmap T)
    ops).coder_ = s at hx hwf ⊢
  obtain ⟨hlsome, hlnone⟩ := list_storage.find_bounds_lower_iff s hwf x
  obtain ⟨husome, hunone⟩ := list_storage.find_bounds_upper_iff s hwf x
  obtain ⟨s1, h1, hwf1, _, hmem⟩ :=
    list_storage.wf_insert_new s hwf x (range_coder.seed_rule s x) hx
  have hfind : (range_coder.insert_seeded s x).2.find x =
      some (range_coder.seed_rule s x) := by
    rw [range_coder.insert_seeded_eq, h1]
    exact (list_storage.find_eq_some_iff s1 hwf1.1 hwf1.2 x _).2
      ((hmem _).2 (Or.inl rfl))
  rw [hfind]
  constructor
  · intro hbelow habove
    have hlo : (s.find_bounds x).1 = none := hlnone.2 hbelow
    cases hup : (s.find_bounds x).2 with
    | none =>
      obtain ⟨k, hk, hxk⟩ := habove
      exact absurd hxk (hunone.1 hup k hk)
    | some u => simp [range_coder.seed_rule, hlo, hup]
  · intro hbelow habove
    have hup : (s.find_bounds x).2 = none := hunone.2 habove
    cases hlo : (s.find_bounds x).1 with
    | none =>
      obtain ⟨k, hk, hkx⟩ := hbelow
      exact absurd hkx (hlnone.1 hlo k hk)
    | some l => simp [range_coder.seed_rule, hlo, hup]

theorem range_seed_single_neighbour_witness :
    (run_ops (range_coder.policy (some int64_t.ops)) null_binner
      (range_bitmap Int) single_ops).coder_.find 5 = none ∧
    ((∀ k, ((run_ops (range_coder.policy (some int64_t.ops)) null_binner
        (range_bitmap Int) single_ops).coder_.find k).isSome = true →
        ¬ k < 5) →
     (∃ k, ((run_ops (range_coder.policy (some int64_t.ops)) null_binner
        (range_bitmap Int) single_ops).coder_.find k).isSome = true ∧ 5 < k) →
     (range_coder.insert_seeded (run_ops
        (range_coder.policy (some int64_t.ops)) null_binner
        (range_bitmap Int) single_ops).coder_ 5).2.find 5 =
      some (bitstream.make (run_ops (range_coder.policy (some int64_t.ops))
        null_binner (range_bitmap Int) single_ops).coder_.rows false)) ∧
    ((∃ k, ((run_ops (range_coder.policy (some int64_t.ops)) null_binner
        (range_bitmap Int) single_ops).coder_.find k).isSome = true ∧ k < 5) →
     (∀ k, ((run_ops (range_coder.policy (some int64_t.ops)) null_binner
        (range_bitmap Int) single_ops).coder_.find k).isSome = true →
        ¬ 5 < k) →
     (range_coder.insert_seeded (run_ops
        (range_coder.policy (some int64_t.ops)) null_binner
        (range_bitmap Int) single_ops).coder_ 5).2.find 5 =
      some (bitstream.make (run_ops (range_coder.policy (some int64_t.ops))
        null_binner (range_bitmap Int) single_ops).coder_.rows true)) :=
  ⟨rfl, range_seed_single_neighbour (some int64_t.ops) null_binner single_ops 5
    rfl⟩

/-! ## Operators the coders support -/

namespace binary_coder

theorem filled_each (s : vector_storage) (n : Nat) (h : s.filled n)
    (f : Nat → bitstream → bitstream) (r : Nat) :
    vector_storage.filled { s.each f with rows := r } n := by
  intro i hi
  obtain ⟨b, hb⟩ := h i hi
  refine ⟨f i b, ?_⟩
  show (s.each f).vector_[i]? = some (some (f i b))
  rw [each_getElem?, hb]
  rfl

theorem filled_init (t : integral_type) : (init t).filled t.digits := by
  intro i hi
  refine ⟨[], ?_⟩
  have h := init_fold t.digits
  unfold init
  rw [h]
  simp [List.getElem?_replicate, hi]

theorem filled_run (t : integral_type) (binner : Int → Int)
    (ops : List (bitmap_op Int)) :
    (run_ops (policy t) binner (binary_bitmap t) ops).coder_.filled
      t.digits :=
  run_ops_induct_all (policy t) binner (fun bm => bm.coder_.filled t.digits)
    (fun bm _ h => filled_each bm.coder_ _ h _ _)
    (fun bm _ _ h => filled_each bm.coder_ _ h _ _)
    ops (binary_bitmap t) (filled_init t)

theorem decode_fold_ok (s : vector_storage) (x : Int) :
    ∀ n, s.filled n → ∀ init : bitstream,
      ∃ R, (List.range n).foldlM (decode_step s x) init = .ok R := by
  intro n
  induction n with
  | zero => intro _ init; exact ⟨init, rfl⟩
  | succ n ih =>
    intro h init
    obtain ⟨R, hR⟩ := ih (fun i hi => h i (by omega)) init
    obtain ⟨b, hb⟩ := h n (by omega)
    have hf : s.find n = some b := find_of_filled s n b hb
    refine ⟨R.and (if bit x n then b else b.flip), ?_⟩
    rw [List.range_succ, List.foldlM_append, hR]
    simp [decode_step, hf]
    rfl

theorem decode_equal_ok (t : integral_type) (s : vector_storage)
    (h : s.filled t.digits) (x : Int) :
    ∃ r, decode_equal t s x = .ok r := by
  obtain ⟨R, hR⟩ := decode_fold_ok s x t.digits h (bitstream.make s.rows true)
  unfold decode_equal
  rw [hR]
  by_cases hff : R.find_first = none
  · exact ⟨none, by simp [hff]⟩
  · exact ⟨some R, by simp [hff]⟩

end binary_coder

/-- C18: `equality_coder::decode` (in every state), `binary_coder::decode` (in
every state reached from the constructor by `push_back` and `append` calls)
and the lookup of the `bool` bitmap raise the error `unsupported relational
operator` exactly when the operator is neither `equal` nor `not_equal`, and
return normally exactly when it is one of the two. -/
theorem equality_binary_supported_operators :
    (∀ (T : Type) [DecidableEq T] (s : unordered_storage T) (x : T)
      (op : relational_operator),
      (equality_coder.decode s x op = .error unsupported ↔
        (op ≠ .equal ∧ op ≠ .not_equal)) ∧
      ((∃ r, equality_coder.decode s x op = .ok r) ↔
        (op = .equal ∨ op = .not_equal))) ∧
    (∀ (t : integral_type) (binner : Int → Int) (ops : List (bitmap_op Int))
      (x : Int) (op : relational_operator),
      (binary_coder.decode t (run_ops (binary_coder.policy t) binner
        (binary_bitmap t) ops).coder_ x op = .error unsupported ↔
        (op ≠ .equal ∧ op ≠ .not_equal)) ∧
      ((∃ r, binary_coder.decode t (run_ops (binary_coder.policy t) binner
        (binary_bitmap t) ops).coder_ x op = .ok r) ↔
        (op = .equal ∨ op = .not_equal))) ∧
    (∀ (bm : bool_bitmap) (x : Bool) (op : relational_operator),
      (bm.lookup op x = .error unsupported ↔
        (op ≠ .equal ∧ op ≠ .not_equal)) ∧
      ((∃ r, bm.lookup op x = .ok r) ↔ (op = .equal ∨ op = .not_equal))) := by
  refine ⟨?_, ?_, ?_⟩
  · intro T _ s x op
    cases op <;> cases hf : s.find x <;> simp [equality_coder.decode, hf]
  · intro t binner ops x op
    obtain ⟨r, hr⟩ := binary_coder.decode_equal_ok t _
      (binary_coder.filled_run t binner ops) x
    generalize (run_ops (binary_coder.policy t) binner (binary_bitmap t)
      ops).coder_ = s at hr ⊢
    cases op <;> cases r <;> simp [binary_coder.decode, hr]
  · intro bm x op
    cases op <;> simp [bool_bitmap.lookup]

/-- C19 (counterexample): on a range coder over the rationals, which are not
an integral type, `decode(0, greater_equal)` raises the error of operator
`less`. -/
theorem range_non_integral_greater_equal_raises :
    range_coder.decode none ({} : list_storage ℚ) 0 .greater_equal =
      .error "operator less requires integral type" ∧
    ¬ ∃ r, range_coder.decode none ({} : list_storage ℚ) 0 .greater_equal =
      .ok r := by
  refine ⟨rfl, ?_⟩
  rintro ⟨r, hr⟩
  rw [show range_coder.decode none ({} : list_storage ℚ) 0 .greater_equal =
      .error "operator less requires integral type" from rfl] at hr
  cases hr

/-- C19 (amended): on a range coder over a non-integral value type, in every
state and for every value, `decode` raises the error `operator less requires
integral type` for `less` and for `greater_equal` (which is computed from
`less`), and returns normally exactly for `less_equal`, `greater`, `equal` and
`not_equal`. -/
theorem range_non_integral_operators {T : Type} [LinearOrder T]
    (s : list_storage T) (x : T) (op : relational_operator) :
    ((op = .less ∨ op = .greater_equal) →
      range_coder.decode none s x op =
        .error "operator less requires integral type") ∧
    ((∃ r, range_coder.decode none s x op = .ok r) ↔
      (op = .less_equal ∨ op = .greater ∨ op = .equal ∨ op = .not_equal)) := by
  cases op <;>
    simp [range_coder.decode, range_coder.decode_less]
  · cases h : range_coder.decode_equal s x <;> simp
  · cases h : range_coder.decode_less_equal s x <;> simp

/-! ## The precision binner on integral types -/

theorem tdiv_trunc (x D : Int) (hD : 0 < D) :
    x = Int.tdiv x D * D + Int.tmod x D ∧ -D < Int.tmod x D ∧
      Int.tmod x D < D ∧
      (0 ≤ x → 0 ≤ Int.tmod x D) ∧ (x ≤ 0 → Int.tmod x D ≤ 0) ∧
      (0 ≤ x → 0 ≤ Int.tdiv x D ∧ Int.tdiv x D ≤ x) ∧
      (x ≤ 0 → x ≤ Int.tdiv x D ∧ Int.tdiv x D ≤ 0) := by
  have h1 : x = Int.tdiv x D * D + Int.tmod x D :=
    (Int.tdiv_add_tmod' x D).symm
  have hlt : Int.tmod x D < D := Int.tmod_lt_of_pos x hD
  have hpos : ∀ y : Int, 0 ≤ y →
      0 ≤ Int.tmod y D ∧ 0 ≤ Int.tdiv y D ∧ Int.tdiv y D ≤ y := by
    intro y hy
    refine ⟨Int.tmod_nonneg D hy, Int.tdiv_nonneg hy (le_of_lt hD), ?_⟩
    rw [Int.tdiv_eq_ediv hy (le_of_lt hD)]
    exact Int.ediv_le_self D hy
  by_cases hx : 0 ≤ x
  · obtain ⟨a, b, c⟩ := hpos x hx
    refine ⟨h1, by omega, hlt, fun _ => a, fun h => ?_, fun _ => ⟨b, c⟩,
      fun h => ?_⟩
    · have : x = 0 := by omega
      subst this
      simp
    · have : x = 0 := by omega
      subst this
      simp
  · have hy : 0 ≤ -x := by omega
    obtain ⟨a, b, c⟩ := hpos (-x) hy
    have hd : Int.tdiv x D = -(Int.tdiv (-x) D) := by
      rw [Int.neg_tdiv]; simp
    have hm : Int.tmod x D = -(Int.tmod (-x) D) := by
      rw [Int.tmod_def, Int.tmod_def, hd]
      ring
    have hlt2 : Int.tmod (-x) D < D := Int.tmod_lt_of_pos (-x) hD
    exact ⟨h1, by omega, hlt, fun h => absurd h hx, fun _ => by omega,
      fun h => absurd h hx, fun _ => ⟨by omega, by omega⟩⟩

theorem wrap_of_holds (t : integral_type) (hw : 0 < t.width) (z : Int)
    (hz : t.holds z) : t.wrap z = z := by
  obtain ⟨hlo, hhi⟩ := hz
  have hpow : (2 : Int) ^ t.width = 2 ^ (t.width - 1) + 2 ^ (t.width - 1) := by
    have : t.width = (t.width - 1) + 1 := by omega
    rw [this, pow_succ]
    simp
    ring
  unfold integral_type.wrap
  unfold integral_type.lowest at hlo
  unfold integral_type.highest at hhi
  cases hs : t.is_signed with
  | true =>
    simp only [hs, if_true] at hlo hhi ⊢
    rw [Int.emod_eq_of_lt (by omega) (by omega)]
    ring
  | false =>
    simp only [hs, Bool.false_eq_true, if_false] at hlo hhi ⊢
    exact Int.emod_eq_of_lt (by omega) (by omega)

theorem holds_zero (t : integral_type) : t.holds 0 := by
  have hp : ∀ n : Nat, (0 : Int) < 2 ^ n := fun n => by positivity
  unfold integral_type.holds integral_type.lowest integral_type.highest
  cases t.is_signed
  · have := hp t.width
    simp only [Bool.false_eq_true, if_false]
    omega
  · have := hp (t.width - 1)
    simp only [if_true]
    omega

theorem make_integral (t : integral_type) (hw : 0 < t.width) (p : Int)
    (hp : t.holds (10 ^ p.natAbs)) :
    (precision_binner.make t p).integral_ = 10 ^ p.natAbs := by
  have he : (if p < 0 then -p else p).toNat = p.natAbs := by
    split <;> omega
  show t.wrap (10 ^ (if p < 0 then -p else p).toNat) = 10 ^ p.natAbs
  rw [he]
  exact wrap_of_holds t hw _ hp

/-- C20: for every integral type, every precision `p` whose power `10^|p|` is
a value of the type and every value `x` of the type, the precision binner
returns the quotient of `x` by `10^|p|` truncated toward zero (a value of the
type again), and the binners built from `p` and from `-p` return the same
bin. -/
theorem precision_binner_integral (t : integral_type) (hw : 0 < t.width)
    (p x : Int) (hp : t.holds (10 ^ p.natAbs)) (hx : t.holds x) :
    (precision_binner.make t p).call t x = Int.tdiv x (10 ^ p.natAbs) ∧
    t.holds ((precision_binner.make t p).call t x) ∧
    (∃ r, x = (precision_binner.make t p).call t x * 10 ^ p.natAbs + r ∧
      -(10 ^ p.natAbs) < r ∧ r < 10 ^ p.natAbs ∧
      (0 ≤ x → 0 ≤ r) ∧ (x ≤ 0 → r ≤ 0)) ∧
    (precision_binner.make t (-p)).call t x =
      (precision_binner.make t p).call t x := by
  have hD : (0 : Int) < 10 ^ p.natAbs := by positivity
  obtain ⟨h1, h2, h3, h4, h5, h6, h7⟩ := tdiv_trunc x (10 ^ p.natAbs) hD
  have hq : t.holds (Int.tdiv x (10 ^ p.natAbs)) := by
    obtain ⟨hlo, hhi⟩ := hx
    obtain ⟨hlo0, hhi0⟩ := holds_zero t
    by_cases hx0 : 0 ≤ x
    · obtain ⟨a, b⟩ := h6 hx0
      exact ⟨by omega, by omega⟩
    · obtain ⟨a, b⟩ := h7 (by omega)
      exact ⟨by omega, by omega⟩
  have hcall : ∀ q : Int, t.holds (10 ^ q.natAbs) → q.natAbs = p.natAbs →
      (precision_binner.make t q).call t x = Int.tdiv x (10 ^ p.natAbs) := by
    intro q hq1 hq2
    show t.wrap (Int.tdiv x (precision_binner.make t q).integral_) = _
    rw [make_integral t hw q hq1, hq2]
    exact wrap_of_holds t hw _ hq
  have hcp := hcall p hp rfl
  have hcn := hcall (-p) (by rw [Int.natAbs_neg]; exact hp) (Int.natAbs_neg p)
  rw [hcp, hcn]
  exact ⟨rfl, hq, ⟨_, h1, h2, h3, h4, h5⟩, rfl⟩

theorem precision_binner_integral_witness :
    0 < int64_t.width ∧ int64_t.holds (10 ^ (3 : Int).natAbs) ∧
    int64_t.holds 1300 ∧
    ((precision_binner.make int64_t 3).call int64_t 1300 =
        Int.tdiv 1300 (10 ^ (3 : Int).natAbs) ∧
    int64_t.holds ((precision_binner.make int64_t 3).call int64_t 1300) ∧
    (∃ r, 1300 = (precision_binner.make int64_t 3).call int64_t 1300 *
        10 ^ (3 : Int).natAbs + r ∧
      -(10 ^ (3 : Int).natAbs) < r ∧ r < 10 ^ (3 : Int).natAbs ∧
      ((0 : Int) ≤ 1300 → 0 ≤ r) ∧ ((1300 : Int) ≤ 0 → r ≤ 0)) ∧
    (precision_binner.make int64_t (-3)).call int64_t 1300 =
      (precision_binner.make int64_t 3).call int64_t 1300) ∧
    (precision_binner.make int64_t 3).call int64_t 1000 = 1 ∧
    (precision_binner.make int64_t 3).call int64_t 1300 = 1 :=
  ⟨by decide, by decide, by decide,
    precision_binner_integral int64_t (by decide) 3 1300 (by decide)
      (by decide), by decide, by decide⟩

/-! ## Validity masking -/

theorem run_ops_binned {C T : Type} (cp : coder_policy C T) (binner : T → T)
    (ops : List (bitmap_op T)) :
    ∀ init : bitmap C, run_ops cp binner init ops =
      run_ops cp null_binner init (binned binner ops) := by
  induction ops with
  | nil => intro init; rfl
  | cons o ops ih =>
    intro init
    cases o with
    | push_back x => exact ih _
    | append n bit => exact ih _

theorem written_binned {T : Type} (binner : T → T) (ops : List (bitmap_op T)) :
    written (binned binner ops) = (written ops).map (Option.map binner) := by
  induction ops with
  | nil => rfl
  | cons o ops ih =>
    cases o with
    | push_back x => simp [binned, written, ih]
    | append n bit => simp [binned, written, ih]

theorem gaps_false_binned {T : Type} (binner : T → T)
    (ops : List (bitmap_op T)) (hg : gaps_false ops) :
    gaps_false (binned binner ops) := by
  induction ops with
  | nil => intro o ho; cases ho
  | cons o ops ih =>
    have hg1 : gaps_false ops := fun o1 hm =>
      hg o1 (List.mem_cons_of_mem _ hm)
    have h0 := hg o (List.mem_cons_self _ _)
    intro o1 ho1
    cases o with
    | push_back x =>
      rcases List.mem_cons.1 ho1 with rfl | hm
      · rfl
      · exact ih hg1 o1 hm
    | append n bit =>
      rcases List.mem_cons.1 ho1 with rfl | hm
      · exact h0
      · exact ih hg1 o1 hm

theorem gap_binned {T : Type} (binner : T → T) (ops : List (bitmap_op T))
    (i : Nat) (h : (written ops)[i]? = some none) :
    (written (binned binner ops))[i]? = some none := by
  rw [written_binned, List.getElem?_map, h]
  rfl

theorem lookup_masked {C T : Type} (cp : coder_policy C T) (binner : T → T)
    (bm : bitmap C) (w : List (Option T))
    (hv : bm.valid_ = w.map Option.isSome)
    (hsize : cp.rows bm.coder_ = w.length)
    (hlen : ∀ op x r, cp.decode bm.coder_ x op = .ok (some r) →
      r.length = w.length)
    (op : relational_operator) (x : T) :
    validity_masked w (bm.size cp) (bm.lookup cp binner op x) := by
  intro r hr
  unfold bitmap.lookup at hr
  cases hd : cp.decode bm.coder_ (binner x) op with
  | error e => simp [hd] at hr
  | ok o =>
    cases o with
    | none => simp [hd] at hr
    | some d =>
      have hdl := hlen op (binner x) d hd
      simp only [hd, Except.ok.injEq, Option.some.injEq] at hr
      subst hr
      have hvl : bm.valid_.length = w.length := by
        rw [hv, List.length_map]
      refine ⟨?_, ?_⟩
      · rw [bitstream.length_and _ _ (hdl.trans hvl.symm), hdl]
        exact hsize.symm
      · intro i hi
        rw [bitstream.test_and]
        have hvi : bm.valid_.test i = false := by
          cases hb : bm.valid_.test i with
          | false => rfl
          | true =>
            rw [hv] at hb
            obtain ⟨y, hy⟩ := (valid_test w i).1 hb
            rw [hi] at hy
            cases hy
        simp [hvi]

theorem range_decode_length {T : Type} [LinearOrder T]
    (integral : Option (integral_ops T)) (bm : bitmap (list_storage T))
    (w : List (Option T)) (h : range_inv bm w) (op : relational_operator)
    (x : T) (r : bitstream)
    (hr : range_coder.decode integral bm.coder_ x op = .ok (some r)) :
    r.length = w.length := by
  have hrows : bm.coder_.rows = w.length := h.rows_eq
  have hle := range_coder.decode_less_equal_length bm w h
  have heq := range_coder.decode_equal_length bm w h
  have hless : ∀ o, range_coder.decode_less integral bm.coder_ x = .ok o →
      ∀ d, o = some d → d.length = w.length := by
    intro o ho d hd
    subst hd
    unfold range_coder.decode_less at ho
    cases integral with
    | none => simp at ho
    | some ops =>
      by_cases hx : x = ops.lowest
      · simp only [hx, if_true, Except.ok.injEq] at ho
        exact hle _ d (by rw [← hx] at ho; exact ho)
      · simp only [hx, if_false, Except.ok.injEq] at ho
        exact hle _ d ho
  cases op with
  | match_op => simp [range_coder.decode] at hr
  | in_op => simp [range_coder.decode] at hr
  | less =>
    exact hless _ hr r rfl
  | less_equal =>
    simp only [range_coder.decode, Except.ok.injEq] at hr
    exact hle x r hr
  | greater =>
    simp only [range_coder.decode] at hr
    cases hd : range_coder.decode_less_equal bm.coder_ x with
    | none =>
      simp only [hd, Except.ok.injEq, Option.some.injEq] at hr
      rw [← hr, bitstream.length_make, hrows]
    | some d =>
      simp only [hd, Except.ok.injEq, Option.some.injEq] at hr
      rw [← hr, bitstream.length_flip]
      exact hle x d hd
  | greater_equal =>
    simp only [range_coder.decode] at hr
    cases hd : range_coder.decode_less integral bm.coder_ x with
    | error e => simp [hd] at hr
    | ok o =>
      cases o with
      | none =>
        simp only [hd, Except.ok.injEq, Option.some.injEq] at hr
        rw [← hr, bitstream.length_make, hrows]
      | some d =>
        simp only [hd, Except.ok.injEq, Option.some.injEq] at hr
        rw [← hr, bitstream.length_flip]
        exact hless _ hd d rfl
  | equal =>
    simp only [range_coder.decode, Except.ok.injEq] at hr
    exact heq x r hr
  | not_equal =>
    simp only [range_coder.decode] at hr
    cases hd : range_coder.decode_equal bm.coder_ x with
    | none =>
      simp only [hd, Except.ok.injEq, Option.some.injEq] at hr
      rw [← hr, bitstream.length_make, hrows]
    | some d =>
      simp only [hd, Except.ok.injEq, Option.some.injEq] at hr
      rw [← hr, bitstream.length_flip]
      exact heq x d hd

theorem equality_decode_length {T : Type} [DecidableEq T]
    (bm : bitmap (unordered_storage T)) (w : List (Option T))
    (h : equality_inv bm w) (op : relational_operator) (x : T) (r : bitstream)
    (hr : equality_coder.decode bm.coder_ x op = .ok (some r)) :
    r.length = w.length := by
  have hrows : bm.coder_.rows = w.length := h.rows_eq
  have hfind : ∀ d, bm.coder_.find x = some d → d.length = w.length :=
    fun d hd => h.len (x, d)
      ((equality_coder.eq_find_eq_some_iff _ h.nodup x d).1 hd)
  cases op <;> simp only [equality_coder.decode] at hr
  · simp at hr
  · simp at hr
  · cases hd : bm.coder_.find x with
    | none => simp [hd] at hr
    | some d =>
      simp only [hd, Except.ok.injEq, Option.some.injEq] at hr
      exact hr ▸ hfind d hd
  · cases hd : bm.coder_.find x with
    | none =>
      simp only [hd, Except.ok.injEq, Option.some.injEq] at hr
      rw [← hr, bitstream.length_make, hrows]
    | some d =>
      simp only [hd, Except.ok.injEq, Option.some.injEq] at hr
      rw [← hr, bitstream.length_flip]
      exact hfind d hd
  · simp at hr
  · simp at hr
  · simp at hr
  · simp at hr

theorem binary_decode_length (t : integral_type) (bm : bitmap vector_storage)
    (w : List (Option Int)) (h : binary_inv t bm w) (op : relational_operator)
    (x : Int) (r : bitstream)
    (hr : binary_coder.decode t bm.coder_ x op = .ok (some r)) :
    r.length = w.length := by
  have hrows : bm.coder_.rows = w.length := h.rows_eq
  obtain ⟨o, ho, hol, _⟩ := binary_coder.bin_decode_equal_sound t bm w h x
  cases op <;> simp only [binary_coder.decode] at hr
  · simp at hr
  · simp at hr
  · rw [ho] at hr
    simp only [Except.ok.injEq] at hr
    exact hol r hr
  · rw [ho] at hr
    cases o with
    | none =>
      simp only [Except.ok.injEq, Option.some.injEq] at hr
      rw [← hr, bitstream.length_make, hrows]
    | some d =>
      simp only [Except.ok.injEq, Option.some.injEq] at hr
      rw [← hr, bitstream.length_flip]
      exact hol d rfl
  · simp at hr
  · simp at hr
  · simp at hr
  · simp at hr

theorem masked_of_binned {T : Type} (binner : T → T)
    (ops : List (bitmap_op T)) (n : Nat)
    (res : Except String (Option bitstream))
    (h : validity_masked (written (binned binner ops)) n res) :
    validity_masked (written ops) n res := by
  intro r hr
  obtain ⟨h1, h2⟩ := h r hr
  exact ⟨h1, fun i hi => h2 i (gap_binned binner ops i hi)⟩

theorem bool_lookup_masked (bm : bool_bitmap) (w : List (Option Bool))
    (h : bool_inv bm w) (op : relational_operator) (x : Bool) :
    validity_masked w bm.size (bm.lookup op x) := by
  have hvl : bm.valid_.length = w.length := by
    rw [h.valid_eq, List.length_map]
  have hgap : ∀ (d : bitstream) (i : Nat), w[i]? = some none →
      (d.and bm.valid_).test i = false := by
    intro d i hi
    rw [bitstream.test_and]
    have hvi : bm.valid_.test i = false := by
      cases hb : bm.valid_.test i with
      | false => rfl
      | true =>
        rw [h.valid_eq] at hb
        obtain ⟨y, hy⟩ := (valid_test w i).1 hb
        rw [hi] at hy
        cases hy
    simp [hvi]
  have hlen : ∀ d : bitstream, d.length = bm.bool_.length →
      (d.and bm.valid_).length = bm.size := by
    intro d hd
    rw [bitstream.length_and _ _ (by rw [hd, h.len, hvl]), hd]
    rfl
  intro r hr
  cases op <;> simp only [bool_bitmap.lookup] at hr
  · simp at hr
  · simp at hr
  · simp only [Except.ok.injEq, Option.some.injEq] at hr
    subst hr
    refine ⟨hlen _ ?_, fun i hi => hgap _ i hi⟩
    cases x <;> simp [bitstream.length_flip]
  · simp only [Except.ok.injEq, Option.some.injEq] at hr
    subst hr
    refine ⟨hlen _ ?_, fun i hi => hgap _ i hi⟩
    cases x <;> simp [bitstream.length_flip]
  · simp at hr
  · simp at hr
  · simp at hr
  · simp at hr

/-- C12: on every bitmap (range, equality or binary coder with any binner, and
the `bool` specialization) built by `push_back` and `append(n, false)` calls,
for every operator and every value, a present `lookup` result has length
`size()` and no bit set at a position that was appended as a gap. -/
theorem lookup_validity_masked :
    (∀ (T : Type) [LinearOrder T] (integral : Option (integral_ops T))
      (binner : T → T) (ops : List (bitmap_op T)), gaps_false ops →
      ∀ (op : relational_operator) (x : T),
      validity_masked (written ops)
        ((run_ops (range_coder.policy integral) binner (range_bitmap T)
          ops).size (range_coder.policy integral))
        ((run_ops (range_coder.policy integral) binner (range_bitmap T)
          ops).lookup (range_coder.policy integral) binner op x)) ∧
    (∀ (T : Type) [DecidableEq T] (binner : T → T)
      (ops : List (bitmap_op T)), gaps_false ops →
      ∀ (op : relational_operator) (x : T),
      validity_masked (written ops)
        ((run_ops equality_coder.policy binner (equality_bitmap T)
          ops).size equality_coder.policy)
        ((run_ops equality_coder.policy binner (equality_bitmap T)
          ops).lookup equality_coder.policy binner op x)) ∧
    (∀ (t : integral_type) (binner : Int → Int)
      (ops : List (bitmap_op Int)), gaps_false ops →
      ∀ (op : relational_operator) (x : Int),
      validity_masked (written ops)
        ((run_ops (binary_coder.policy t) binner (binary_bitmap t)
          ops).size (binary_coder.policy t))
        ((run_ops (binary_coder.policy t) binner (binary_bitmap t)
          ops).lookup (binary_coder.policy t) binner op x)) ∧
    (∀ (ops : List (bitmap_op Bool)), gaps_false ops →
      ∀ (op : relational_operator) (x : Bool),
      validity_masked (written ops) (bool_run_ops {} ops).size
        ((bool_run_ops {} ops).lookup op x)) := by
  refine ⟨?_, ?_, ?_, ?_⟩
  · intro T _ integral binner ops hg op x
    have hinv := range_coder.inv_run integral (binned binner ops)
      (gaps_false_binned binner ops hg)
    rw [← run_ops_binned] at hinv
    exact masked_of_binned binner ops _ _
      (lookup_masked (range_coder.policy integral) binner _ _ hinv.valid_eq
        hinv.rows_eq
        (fun op x r hr => range_decode_length integral _ _ hinv op x r hr)
        op x)
  · intro T _ binner ops hg op x
    have hinv := equality_coder.eq_inv_run (binned binner ops)
      (gaps_false_binned binner ops hg)
    rw [← run_ops_binned] at hinv
    exact masked_of_binned binner ops _ _
      (lookup_masked equality_coder.policy binner _ _ hinv.valid_eq
        hinv.rows_eq
        (fun op x r hr => equality_decode_length _ _ hinv op x r hr) op x)
  · intro t binner ops hg op x
    have hinv := binary_coder.bin_inv_run t (binned binner ops)
      (gaps_false_binned binner ops hg)
    rw [← run_ops_binned] at hinv
    exact masked_of_binned binner ops _ _
      (lookup_masked (binary_coder.policy t) binner _ _ hinv.valid_eq
        hinv.rows_eq
        (fun op x r hr => binary_decode_length t _ _ hinv op x r hr) op x)
  · intro ops hg op x
    have hinv : bool_inv (bool_run_ops {} ops) (written ops) := by
      simpa using bool_inv_run ops {} [] hg bool_inv_init
    exact bool_lookup_masked _ _ hinv op x

theorem lookup_validity_masked_witness :
    gaps_false gap_ops ∧
    (run_ops (range_coder.policy (some int64_t.ops)) null_binner
      (range_bitmap Int) gap_ops).lookup
      (range_coder.policy (some int64_t.ops)) null_binner .not_equal 5
      = .ok (some [true, false, false, true]) ∧
    validity_masked (written gap_ops)
      ((run_ops (range_coder.policy (some int64_t.ops)) null_binner
        (range_bitmap Int) gap_ops).size
        (range_coder.policy (some int64_t.ops)))
      ((run_ops (range_coder.policy (some int64_t.ops)) null_binner
        (range_bitmap Int) gap_ops).lookup
        (range_coder.policy (some int64_t.ops)) null_binner .not_equal 5) :=
  ⟨by decide, rfl,
    lookup_validity_masked.1 Int (some int64_t.ops) null_binner gap_ops
      (by decide) .not_equal 5⟩

/-! ## The meta index: `id_extractor` -/

/-- C26 (counterexample): with assertions enabled, evaluating the relation
`id_extractor == 42` on a freshly constructed meta index does not yield the
empty bitstream: the evaluation aborts at the assertion of
`visit(id_extractor)`. -/
theorem id_extractor_aborts :
    event_meta_index.lookup true (event_meta_index.make none)
        (.relation .equal .id_extractor (.constant (.int 42)))
      = .error "assertion failed" ∧
    event_meta_index.lookup true (event_meta_index.make none)
        (.relation .equal .id_extractor (.constant (.int 42)))
      ≠ .ok none := by
  refine ⟨rfl, ?_⟩
  rw [show event_meta_index.lookup true (event_meta_index.make none)
        (.relation .equal .id_extractor (.constant (.int 42)))
      = .error "assertion failed" from rfl]
  simp

/-- C26 (amended): for every meta index state, operator and constant, the
evaluation of a relation whose left operand is `id_extractor` completes and
yields the empty bitstream when assertions are compiled out (`NDEBUG`), and
aborts at the assertion of `visit(id_extractor)` when they are enabled. -/
theorem id_extractor_lookup (idx : event_meta_index)
    (op : relational_operator) (v : value) :
    event_meta_index.lookup false idx
        (.relation op .id_extractor (.constant v)) = .ok none ∧
    event_meta_index.lookup true idx
        (.relation op .id_extractor (.constant v))
      = .error "assertion failed" :=
  ⟨rfl, rfl⟩

/-! ## ID 0 is not a valid event -/

theorem bitmap_lookup_and {C T : Type} (cp : coder_policy C T) (binner : T → T)
    (bm : bitmap C) (op : relational_operator) (x : T) (r : bitstream)
    (h : bm.lookup cp binner op x = .ok (some r)) :
    ∃ d, r = bitstream.and d bm.valid_ := by
  unfold bitmap.lookup at h
  cases hd : cp.decode bm.coder_ (binner x) op with
  | error e => simp [hd] at h
  | ok o =>
    cases o with
    | none => simp [hd] at h
    | some d =>
      simp only [hd, Except.ok.injEq, Option.some.injEq] at h
      exact ⟨d, h.symm⟩

theorem bool_lookup_and (bm : bool_bitmap) (op : relational_operator)
    (x : Bool) (r : bitstream) (h : bm.lookup op x = .ok (some r)) :
    ∃ d, r = bitstream.and d bm.valid_ := by
  unfold bool_bitmap.lookup at h
  cases op <;> simp at h <;> exact ⟨_, h.symm⟩

namespace bitmap_index

theorem lookup_and (b : bitmap_index) (op : relational_operator) (v : value)
    (r : bitstream) (h : b.lookup op v = .ok (some r)) :
    ∃ d, r = bitstream.and d b.valid := by
  cases b with
  | boolean bm =>
    cases v <;> simp [lookup] at h
    exact bool_lookup_and bm op _ r h
  | arithmetic k bn bm =>
    unfold lookup at h
    cases ha : v.arithmetic with
    | none => simp [ha] at h
    | some z =>
      by_cases hk : v.which = k
      · simp only [ha, hk, if_true] at h
        exact bitmap_lookup_and _ _ bm op z r h
      · simp [ha, hk] at h
  | string bm =>
    cases v <;> simp [lookup] at h
    exact bitmap_lookup_and _ _ bm op _ r h

theorem seeded_test (b : bitmap_index) (h : b.seeded) :
    bitstream.test b.valid 0 = false := by
  unfold seeded at h
  rw [bitstream.test_eq]
  cases hv : b.valid with
  | nil => rfl
  | cons x t =>
    rw [hv] at h
    simp at h
    simp [h]

theorem lookup_zero (b : bitmap_index) (h : b.seeded)
    (op : relational_operator) (v : value) (r : bitstream)
    (hr : b.lookup op v = .ok (some r)) : r.test 0 = false := by
  obtain ⟨d, rfl⟩ := lookup_and b op v r hr
  rw [bitstream.test_and, seeded_test b h, Bool.and_false]

theorem seeded_of_prefix (b c : bitmap_index) (t : bitstream) (h : b.seeded)
    (hc : c.valid = b.valid ++ t) : c.seeded := by
  unfold seeded at h ⊢
  rw [hc]
  cases hv : b.valid with
  | nil => simp [hv] at h
  | cons x l =>
    rw [hv] at h
    simpa using h

theorem valid_append (b : bitmap_index) (n : Nat) (bit : Bool) :
    (b.append n bit).2.valid = b.valid ++ List.replicate n bit := by
  cases b <;> simp [append, valid, bitmap.append, bool_bitmap.append,
    bitstream.append]

theorem push_back_impl_cases (b : bitmap_index) (v : value) :
    b.push_back_impl v = (false, b) ∨
    (∃ bm x, b = .boolean bm ∧ v = .bool x ∧
      b.push_back_impl v = ((bm.push_back x).1, .boolean (bm.push_back x).2)) ∨
    (∃ k bn bm z, b = .arithmetic k bn bm ∧ v.arithmetic = some z ∧
      v.which = k ∧
      b.push_back_impl v = ((bm.push_back range_policy (bin bn) z).1,
        .arithmetic k bn (bm.push_back range_policy (bin bn) z).2)) ∨
    (∃ bm s, b = .string bm ∧ v = .string s ∧
      b.push_back_impl v =
        ((bm.push_back equality_coder.policy null_binner s).1,
          .string (bm.push_back equality_coder.policy null_binner s).2)) := by
  cases b with
  | boolean bm =>
    cases v with
    | bool x => exact Or.inr (Or.inl ⟨bm, x, rfl, rfl, rfl⟩)
    | _ => exact Or.inl rfl
  | arithmetic k bn bm =>
    rcases Option.eq_none_or_eq_some v.arithmetic with ha | ⟨z, ha⟩
    · left
      simp [push_back_impl, ha]
    · by_cases hk : v.which = k
      · right; right; left
        exact ⟨k, bn, bm, z, rfl, ha, hk, by simp [push_back_impl, ha, hk]⟩
      · left
        simp [push_back_impl, ha, hk]
  | string bm =>
    cases v with
    | string s => exact Or.inr (Or.inr (Or.inr ⟨bm, s, rfl, rfl, rfl⟩))
    | _ => exact Or.inl rfl

theorem bitmap_push_back_valid {C T : Type} (cp : coder_policy C T)
    (binner : T → T) (bm : bitmap C) (x : T) :
    ∃ t, (bm.push_back cp binner x).2.valid_ = bm.valid_ ++ t := by
  unfold bitmap.push_back
  by_cases he : (cp.encode bm.coder_ (binner x)).1 = true
  · refine ⟨[true], ?_⟩
    simp [he, bitstream.push_back]
  · refine ⟨[], ?_⟩
    simp [he]

theorem valid_push_back_impl (b : bitmap_index) (v : value) :
    ∃ t, (b.push_back_impl v).2.valid = b.valid ++ t := by
  rcases push_back_impl_cases b v with h | ⟨bm, x, rfl, rfl, h⟩ |
    ⟨k, bn, bm, z, rfl, _, _, h⟩ | ⟨bm, s, rfl, rfl, h⟩
  · refine ⟨[], ?_⟩
    rw [h]
    simp
  · refine ⟨[true], ?_⟩
    rw [h]
    simp [valid, bool_bitmap.push_back, bitstream.push_back]
  · rw [h]
    exact bitmap_push_back_valid _ _ bm z
  · rw [h]
    exact bitmap_push_back_valid _ _ bm s

theorem valid_push_back (b : bitmap_index) (v : value) (id : Nat) :
    ∃ t, (b.push_back v id).2.valid = b.valid ++ t := by
  unfold push_back
  by_cases hid : id < b.size
  · exact ⟨[], by simp [hid]⟩
  · simp only [hid, if_false]
    by_cases hg : (b.append (id - b.size) false).1 = true
    · simp only [hg, if_true]
      obtain ⟨t, ht⟩ := valid_push_back_impl (b.append (id - b.size) false).2 v
      exact ⟨_, by rw [ht, valid_append, List.append_assoc]⟩
    · simp only [hg]
      exact ⟨_, valid_append b _ _⟩

theorem seeded_push_back (b : bitmap_index) (h : b.seeded) (v : value)
    (id : Nat) : (b.push_back v id).2.seeded := by
  obtain ⟨t, ht⟩ := valid_push_back b v id
  exact seeded_of_prefix b _ t h ht

theorem seeded_create (k : value_type) (b : bitmap_index)
    (h : create k = some b) :
    (b.append 1 false).2.valid = [false] ∧ (b.append 1 false).2.size = 1 := by
  cases k <;> simp [create] at h <;> subst h <;> exact ⟨rfl, rfl⟩

end bitmap_index

namespace event_arg_index

mutual
theorem index_value_preserves (P : event_arg_index → Prop)
    (hdata : ∀ idx v id o, P idx → P (index_data idx v id o).2.1) :
    ∀ (v : value) (idx : event_arg_index) (id : Nat) (o : offset),
      P idx → P (index_value v idx id o).2.1
  | .record inner, idx, id, o, h => by
    have ih := index_loop_preserves P hdata inner idx id (o.push_back 0) h
    unfold index_value
    by_cases he : inner.empty = true
    · simp [he, h]
    · have hne : (offset.push_back o 0).isEmpty = false := by
        simp [offset.push_back]
      simp only [he, hne]
      by_cases hr : (index_loop inner idx id (offset.push_back o 0)).1 = true
      · simpa [value.to_bool, value.is_invalid, value.which, hr] using ih
      · simpa [value.to_bool, value.is_invalid, value.which, hr] using ih
  | .invalid, idx, id, o, h => by simpa [index_value] using h
  | .table, idx, id, o, h => by simpa [index_value] using h
  | .bool b, idx, id, o, h => by simpa [index_value] using hdata idx _ id o h
  | .int z, idx, id, o, h => by simpa [index_value] using hdata idx _ id o h
  | .time_point t, idx, id, o, h => by
    simpa [index_value] using hdata idx _ id o h
  | .string s, idx, id, o, h => by simpa [index_value] using hdata idx _ id o h
theorem index_loop_preserves (P : event_arg_index → Prop)
    (hdata : ∀ idx v id o, P idx → P (index_data idx v id o).2.1) :
    ∀ (r : record) (idx : event_arg_index) (id : Nat) (o : offset),
      P idx → P (index_loop r idx id o).2.1
  | .nil, idx, id, o, h => by simpa [index_loop] using h
  | .cons v rest, idx, id, o, h => by
    have h1 := index_value_preserves P hdata v idx id o h
    unfold index_loop
    by_cases hr : (index_value v idx id o).1 = true
    · simp only [hr, if_true]
      exact index_loop_preserves P hdata rest _ id _ h1
    · simpa [hr] using h1
end

end event_arg_index

namespace event_arg_index

theorem push_at_seeded (idx : event_arg_index) (h : Nat) (v : value) (id : Nat)
    (o : offset) (hs : idx.seeded) : (push_at idx h v id o).2.1.seeded := by
  unfold push_at
  cases hb : idx.heap[h]? with
  | none => simpa using hs
  | some b =>
    intro c hc
    rcases List.mem_or_eq_of_mem_set hc with hc | rfl
    · exact hs c hc
    · exact bitmap_index.seeded_push_back b
        (hs b (List.getElem?_mem hb)) v id

theorem index_data_seeded (idx : event_arg_index) (v : value) (id : Nat)
    (o : offset) (hs : idx.seeded) : (index_data idx v id o).2.1.seeded := by
  unfold index_data
  cases hf : idx.find_arg o with
  | some h => exact push_at_seeded idx h v id o hs
  | none =>
    cases hc : bitmap_index.create v.which with
    | none => simpa using hs
    | some unique =>
      apply push_at_seeded
      intro c hc1
      rcases List.mem_append.1 hc1 with hc1 | hc1
      · exact hs c hc1
      · have hc2 : c = (unique.append 1 false).2 := by simpa using hc1
        subst hc2
        unfold bitmap_index.seeded
        rw [(bitmap_index.seeded_create _ _ hc).1]
        rfl

theorem index_seeded (idx : event_arg_index) (e : event) (hs : idx.seeded) :
    (idx.index e).2.seeded := by
  unfold index
  by_cases he : e.empty = true
  · simpa [he] using hs
  · simp only [he]
    unfold index_record
    exact index_loop_preserves seeded index_data_seeded _ _ _ _ hs

theorem index_all_seeded (es : List event) :
    ∀ idx : event_arg_index, idx.seeded → (index_all idx es).seeded := by
  induction es with
  | nil => intro idx hs; exact hs
  | cons e es ih =>
    intro idx hs
    exact ih _ (index_seeded idx e hs)

theorem visit_types_zero (idx : event_arg_index) (hs : idx.seeded)
    (op : Option relational_operator) (val : Option value) :
    ∀ (bmis : List Nat) (result : Option bitstream),
      (∀ r, result = some r → r.test 0 = false) →
      ∀ res r, visit_types idx op val bmis result = .ok res →
        res = some r → r.test 0 = false := by
  intro bmis
  induction bmis with
  | nil =>
    intro result hres res r h hr
    simp only [visit_types, Except.ok.injEq] at h
    exact hres r (h ▸ hr)
  | cons bmi rest ih =>
    intro result hres res r h hr
    unfold visit_types at h
    cases hb : idx.heap[bmi]? with
    | none => simp [hb] at h
    | some b =>
      cases op with
      | none => simp [hb] at h
      | some o =>
        cases val with
        | none => simp [hb] at h
        | some v =>
          simp only [hb] at h
          have hbs := hs b (List.getElem?_mem hb)
          cases hl : b.lookup o v with
          | error e => simp [hl] at h
          | ok lr =>
            cases lr with
            | none =>
              simp only [hl] at h
              exact ih result hres res r h hr
            | some d =>
              have hd := bitmap_index.lookup_zero b hbs o v d hl
              cases result with
              | none =>
                simp only [hl] at h
                exact ih (some d) (fun r1 h1 => by cases h1; exact hd) res r h hr
              | some acc =>
                simp only [hl] at h
                refine ih (some (acc.or d)) ?_ res r h hr
                intro r1 h1
                cases h1
                have hacc := hres acc rfl
                rw [bitstream.test_eq] at hacc hd ⊢
                unfold bitstream.or
                cases acc <;> cases d <;> simp_all

end event_arg_index

theorem querier_assign_zero (assertions : Bool) (q q1 : querier)
    (b : bitmap_index) (hb : b.seeded)
    (hq : ∀ r, q.result = some r → r.test 0 = false)
    (h : q.assign assertions b = .ok q1) :
    ∀ r, q1.result = some r → r.test 0 = false := by
  unfold querier.assign at h
  cases h1 : assert assertions q.op.isSome with
  | error e => simp [h1] at h
  | ok u1 =>
    cases h2 : assert assertions q.val.isSome with
    | error e => simp [h1, h2] at h
    | ok u2 =>
      simp only [h1, h2] at h
      cases hop : q.op with
      | none => simp [hop] at h
      | some op =>
        cases hval : q.val with
        | none => simp [hop, hval] at h
        | some val =>
          simp only [hop, hval] at h
          cases hl : b.lookup op val with
          | error e => simp [hl] at h
          | ok lr =>
            cases lr with
            | none =>
              simp only [hl, Except.ok.injEq] at h
              subst h
              exact hq
            | some d =>
              simp only [hl, Except.ok.injEq] at h
              subst h
              intro r hr
              simp only [Option.some.injEq] at hr
              subst hr
              exact bitmap_index.lookup_zero b hb op val d hl

namespace event_meta_index

theorem meta_visit_zero (assertions : Bool) (idx : event_meta_index)
    (ht : idx.timestamp_.seeded) (hn : idx.name_.seeded) :
    ∀ (a : ast) (q q1 : querier),
      (∀ r, q.result = some r → r.test 0 = false) →
      visit assertions idx a q = .ok q1 →
      ∀ r, q1.result = some r → r.test 0 = false := by
  intro a
  induction a with
  | constant c =>
    intro q q1 hq h
    simp only [visit, Except.ok.injEq] at h
    subst h
    exact hq
  | relation op lhs rhs ihl ihr =>
    intro q q1 hq h
    unfold visit at h
    cases hv : visit assertions idx rhs { q with op := some op } with
    | error e => simp [hv] at h
    | ok q2 =>
      simp only [hv] at h
      exact ihl q2 q1 (ihr { q with op := some op } q2 hq hv) h
  | name_extractor =>
    intro q q1 hq h
    exact querier_assign_zero assertions q q1 _ hn hq h
  | timestamp_extractor =>
    intro q q1 hq h
    exact querier_assign_zero assertions q q1 _ ht hq h
  | id_extractor =>
    intro q q1 hq h
    unfold visit at h
    cases ha : assert assertions false with
    | error e => simp [ha] at h
    | ok u =>
      simp only [ha, Except.ok.injEq] at h
      subst h
      exact hq
  | offset_extractor off =>
    intro q q1 hq h
    simp only [visit, Except.ok.injEq] at h
    subst h
    exact hq
  | type_extractor type =>
    intro q q1 hq h
    simp only [visit, Except.ok.injEq] at h
    subst h
    exact hq

theorem meta_index_seeded (idx : event_meta_index) (e : event)
    (h : idx.timestamp_.seeded ∧ idx.name_.seeded) :
    (idx.index e).2.timestamp_.seeded ∧ (idx.index e).2.name_.seeded := by
  unfold index
  by_cases ht : (idx.timestamp_.push_back (.time_point e.timestamp) e.id).1
      = true
  · simp only [ht, if_true]
    exact ⟨bitmap_index.seeded_push_back _ h.1 _ _,
      bitmap_index.seeded_push_back _ h.2 _ _⟩
  · simp only [ht]
    exact ⟨bitmap_index.seeded_push_back _ h.1 _ _, h.2⟩

theorem meta_index_all_seeded (es : List event) :
    ∀ idx : event_meta_index, idx.timestamp_.seeded ∧ idx.name_.seeded →
      (index_all idx es).timestamp_.seeded ∧
        (index_all idx es).name_.seeded := by
  induction es with
  | nil => intro idx h; exact h
  | cons e es ih =>
    intro idx h
    exact ih _ (meta_index_seeded idx e h)

end event_meta_index

namespace event_arg_index

theorem visit_zero (assertions : Bool) (idx : event_arg_index)
    (hs : idx.seeded) :
    ∀ (a : ast) (q q1 : querier),
      (∀ r, q.result = some r → r.test 0 = false) →
      visit assertions idx a q = .ok q1 →
      ∀ r, q1.result = some r → r.test 0 = false := by
  intro a
  induction a with
  | constant c =>
    intro q q1 hq h
    simp only [visit, Except.ok.injEq] at h
    subst h
    exact hq
  | relation op lhs rhs ihl ihr =>
    intro q q1 hq h
    unfold visit at h
    cases hv : visit assertions idx rhs { q with op := some op } with
    | error e => simp [hv] at h
    | ok q2 =>
      simp only [hv] at h
      exact ihl q2 q1 (ihr { q with op := some op } q2 hq hv) h
  | name_extractor =>
    intro q q1 hq h
    simp only [visit, Except.ok.injEq] at h
    subst h
    exact hq
  | timestamp_extractor =>
    intro q q1 hq h
    simp only [visit, Except.ok.injEq] at h
    subst h
    exact hq
  | id_extractor =>
    intro q q1 hq h
    simp only [visit, Except.ok.injEq] at h
    subst h
    exact hq
  | offset_extractor off =>
    intro q q1 hq h
    unfold visit at h
    cases h1 : assert assertions q.op.isSome with
    | error e => simp [h1] at h
    | ok u1 =>
      cases h2 : assert assertions q.val.isSome with
      | error e => simp [h1, h2] at h
      | ok u2 =>
        simp only [h1, h2] at h
        cases hf : idx.find_arg off with
        | none =>
          simp only [hf, Except.ok.injEq] at h
          subst h
          exact hq
        | some i =>
          simp only [hf] at h
          cases hb : idx.heap[i]? with
          | none => simp [hb] at h
          | some b =>
            simp only [hb] at h
            exact querier_assign_zero assertions q q1 b
              (hs b (List.getElem?_mem hb)) hq h
  | type_extractor type =>
    intro q q1 hq h
    unfold visit at h
    cases h1 : assert assertions q.op.isSome with
    | error e => simp [h1] at h
    | ok u1 =>
      cases h2 : assert assertions q.val.isSome with
      | error e => simp [h1, h2] at h
      | ok u2 =>
        simp only [h1, h2] at h
        split at h
        · cases hf : idx.find_type type with
          | none =>
            simp only [hf, Except.ok.injEq] at h
            subst h
            exact hq
          | some bmis =>
            simp only [hf] at h
            cases hv : visit_types idx q.op q.val bmis q.result with
            | error e => simp [hv] at h
            | ok res =>
              simp only [hv, Except.ok.injEq] at h
              subst h
              intro r hr
              exact visit_types_zero idx hs q.op q.val bmis q.result hq res r
                hv hr
        · simp at h

end event_arg_index

/-- C22: a freshly constructed meta index has timestamp and name bitmaps of
size 1 whose position 0 is invalid; a bitmap index that `index_record` creates
for an offset without an entry starts with one invalid slot (size 1, validity
`{0}`) before the value is pushed; and after any sequence of `index(event)`
calls, whatever the ids, no lookup on the meta index or on the argument index
returns a bitstream with bit 0 set. -/
theorem id_zero_never_valid :
    (∀ binner, (event_meta_index.make binner).timestamp_.size = 1 ∧
      (event_meta_index.make binner).name_.size = 1 ∧
      (event_meta_index.make binner).timestamp_.valid = [false] ∧
      (event_meta_index.make binner).name_.valid = [false]) ∧
    (∀ (idx : event_arg_index) (v : value) (id : Nat) (o : offset)
        (unique : bitmap_index), idx.find_arg o = none →
      bitmap_index.create v.which = some unique →
      (unique.append 1 false).2.size = 1 ∧
      (unique.append 1 false).2.valid = [false] ∧
      idx.index_data v id o = event_arg_index.push_at
        { heap := idx.heap ++ [(unique.append 1 false).2],
          args_ := event_arg_index.emplace_arg idx.args_ o idx.heap.length,
          types_ := event_arg_index.push_type idx.types_ v.which
            idx.heap.length }
        idx.heap.length v id o) ∧
    (∀ binner (es : List event) (assertions : Bool) (a : ast) (r : bitstream),
      ((event_meta_index.make binner).index_all es).lookup assertions a
        = .ok (some r) → r.test 0 = false) ∧
    (∀ (es : List event) (assertions : Bool) (a : ast) (r : bitstream),
      (event_arg_index.index_all {} es).lookup assertions a = .ok (some r) →
        r.test 0 = false) := by
  refine ⟨fun binner => ⟨rfl, rfl, rfl, rfl⟩, ?_, ?_, ?_⟩
  · intro idx v id o unique hf hc
    refine ⟨(bitmap_index.seeded_create _ _ hc).2,
      (bitmap_index.seeded_create _ _ hc).1, ?_⟩
    simp [event_arg_index.index_data, hf, hc]
  · intro binner es assertions a r h
    have hs := event_meta_index.meta_index_all_seeded es
      (event_meta_index.make binner) ⟨rfl, rfl⟩
    unfold event_meta_index.lookup at h
    cases hv : event_meta_index.visit assertions
        ((event_meta_index.make binner).index_all es) a {} with
    | error e => simp [hv] at h
    | ok q =>
      simp only [hv, Except.ok.injEq] at h
      exact event_meta_index.meta_visit_zero assertions _ hs.1 hs.2 a {} q
        (fun r hr => by simp at hr) hv r h
  · intro es assertions a r h
    have hs := event_arg_index.index_all_seeded es {}
      (fun b hb => by simp at hb)
    unfold event_arg_index.lookup at h
    cases hv : event_arg_index.visit assertions
        (event_arg_index.index_all {} es) a {} with
    | error e => simp [hv] at h
    | ok q =>
      simp only [hv, Except.ok.injEq] at h
      exact event_arg_index.visit_zero assertions _ hs a {} q
        (fun r hr => by simp at hr) hv r h

/-! ## The union over the columns of a kind -/

namespace event_arg_index

theorem foldl_or_some (rs : List bitstream) :
    ∀ x : bitstream,
      rs.foldl (fun (a : Option bitstream) r =>
        some (match a with
          | some acc => bitstream.or acc r
          | none => r)) (some x) = some (rs.foldl bitstream.or x) := by
  induction rs with
  | nil => intro x; rfl
  | cons r rs ih => intro x; exact ih (x.or r)

theorem visit_types_eq (idx : event_arg_index) (op : relational_operator)
    (v : value) :
    ∀ (bmis : List Nat) (result : Option bitstream),
      visit_types idx (some op) (some v) bmis result =
        match idx.lookup_all op v bmis with
        | .error e => .error e
        | .ok rs => .ok ((rs.filterMap id).foldl
            (fun (a : Option bitstream) r =>
              some (match a with
                | some acc => bitstream.or acc r
                | none => r)) result) := by
  intro bmis
  induction bmis with
  | nil => intro result; rfl
  | cons bmi rest ih =>
    intro result
    unfold visit_types lookup_all
    cases hb : idx.heap[bmi]? with
    | none => rfl
    | some b =>
      simp only []
      cases hl : b.lookup op v with
      | error e => rfl
      | ok r =>
        cases r with
        | none =>
          simp only []
          rw [ih result]
          cases lookup_all idx op v rest <;> rfl
        | some d =>
          cases result with
          | none =>
            simp only []
            rw [ih (some d)]
            cases lookup_all idx op v rest <;> rfl
          | some acc =>
            simp only []
            rw [ih (some (acc.or d))]
            cases lookup_all idx op v rest <;> rfl

theorem fold_eq_or_all (rs : List bitstream) :
    rs.foldl (fun (a : Option bitstream) r =>
        some (match a with
          | some acc => bitstream.or acc r
          | none => r)) none = or_all rs := by
  cases rs with
  | nil => rfl
  | cons r rs => exact foldl_or_some rs r

end event_arg_index

/-- C24: for every argument index state, operator and value `v` of kind `k`,
with assertions enabled or not, evaluating
`relation(op, type_extractor(k), constant(v))` gives the bitwise OR of
`lookup(op, v)` over every bitmap index registered in `types[k]` that returns
a result, in the order of registration, and the empty bitstream when `types`
has no entry for `k` or no lookup returns a result; an exception of one of
the lookups ends the evaluation. -/
theorem type_extractor_union (assertions : Bool) (idx : event_arg_index)
    (op : relational_operator) (v : value) :
    idx.lookup assertions
        (.relation op (.type_extractor v.which) (.constant v))
      = idx.type_union op v v.which ∧
    (idx.find_type v.which = none →
      idx.lookup assertions
        (.relation op (.type_extractor v.which) (.constant v)) = .ok none) ∧
    (∀ bmis rs, idx.find_type v.which = some bmis →
      idx.lookup_all op v bmis = .ok rs → (∀ r ∈ rs, r = none) →
      idx.lookup assertions
        (.relation op (.type_extractor v.which) (.constant v)) = .ok none) := by
  have hmain : idx.lookup assertions
        (.relation op (.type_extractor v.which) (.constant v))
      = idx.type_union op v v.which := by
    unfold event_arg_index.lookup event_arg_index.type_union
    simp only [event_arg_index.visit, assert, Option.isSome_some,
      Bool.not_true, Bool.and_false, decide_True, if_false, Bool.false_eq_true]
    cases hf : idx.find_type v.which with
    | none => rfl
    | some bmis =>
      simp only []
      rw [event_arg_index.visit_types_eq]
      cases hl : idx.lookup_all op v bmis with
      | error e => rfl
      | ok rs =>
        simp only []
        rw [event_arg_index.fold_eq_or_all]
  refine ⟨hmain, ?_, ?_⟩
  · intro hf
    rw [hmain]
    simp [event_arg_index.type_union, hf]
  · intro bmis rs hf hl hnone
    rw [hmain]
    have : rs.filterMap id = [] := by
      rw [List.filterMap_eq_nil_iff]
      intro r hr
      rw [hnone r hr]
      rfl
    simp [event_arg_index.type_union, hf, hl, this, or_all]

/-! ## Fields that are not indexed -/

theorem offset_incr_back_snoc (o : offset) (i : Nat) :
    offset.incr_back (o ++ [i]) = o ++ [i + 1] := by
  simp [offset.incr_back]

/-- C25: in `index_record` the loop body leaves the whole argument index (and
so every `args` and `types` entry) and the offset as they are for a field
that is a table, the invalid value or an empty nested record, and does not
fail; the statement `++o.back()` still runs, so the fields after it are
indexed as from the offset advanced by one; `index` of an event whose record
is empty returns true and leaves the argument index unchanged. On a fresh
index the event `{table, invalid, {}, 7}` creates the single entry
`args[[3]]`. -/
theorem skipped_fields :
    (∀ (v : value) (idx : event_arg_index) (id : Nat) (o : offset),
      v.skipped = true →
      event_arg_index.index_value v idx id o = (true, idx, o)) ∧
    (∀ (v : value) (rest : record) (idx : event_arg_index) (id : Nat)
        (o : offset) (i : Nat), v.skipped = true →
      event_arg_index.index_loop (.cons v rest) idx id (o ++ [i]) =
        event_arg_index.index_loop rest idx id (o ++ [i + 1])) ∧
    (∀ (idx : event_arg_index) (e : event), e.fields = .nil →
      idx.index e = (true, idx)) ∧
    (event_arg_index.index {} skipping_event).1 = true ∧
    (event_arg_index.index {} skipping_event).2.args_ = [([3], 0)] ∧
    (event_arg_index.index {} skipping_event).2.types_ =
      [(.int_type, [0])] := by
  have h1 : ∀ (v : value) (idx : event_arg_index) (id : Nat) (o : offset),
      v.skipped = true →
      event_arg_index.index_value v idx id o = (true, idx, o) := by
    intro v idx id o hv
    cases v with
    | record r =>
      cases r with
      | nil => simp [event_arg_index.index_value, record.empty]
      | cons x rest => simp [value.skipped] at hv
    | invalid => rfl
    | table => rfl
    | bool b => simp [value.skipped] at hv
    | int z => simp [value.skipped] at hv
    | time_point t => simp [value.skipped] at hv
    | string s => simp [value.skipped] at hv
  refine ⟨h1, ?_, ?_, rfl, rfl, rfl⟩
  · intro v rest idx id o i hv
    rw [event_arg_index.index_loop, h1 v idx id (o ++ [i]) hv]
    simp only [if_true]
    rw [offset_incr_back_snoc]
  · intro idx e he
    simp [event_arg_index.index, event.empty, he, record.empty]

/-! ## The kind of the index of an offset -/

/-- C27 (evaluation of the code): after `index` of an event that has an
integer at offset `[0]`, `args[[0]]` points to an index created for the kind
`int_type`. For a second event with a string at offset `[0]` the loop body of
`index_record` finds that entry by the offset alone and pushes the string
onto the same object: afterwards `args[[0]]` still is the index of kind
`int_type`, registered in `types[int_type]` only, and `types` has no entry
for `string_type`. -/
theorem column_kind_mismatch_eval :
    (event_arg_index.index {} int_column_event).1 = true ∧
    (event_arg_index.index {} int_column_event).2.find_arg [0] = some 0 ∧
    ((event_arg_index.index {} int_column_event).2.heap[0]?).map
      bitmap_index.kind = some .int_type ∧
    event_arg_index.index_value (.string "x")
        (event_arg_index.index {} int_column_event).2 2 [0] =
      event_arg_index.push_at (event_arg_index.index {} int_column_event).2 0
        (.string "x") 2 [0] ∧
    (event_arg_index.index_all {}
      [int_column_event, string_column_event]).find_arg [0] = some 0 ∧
    ((event_arg_index.index_all {}
      [int_column_event, string_column_event]).heap[0]?).map
      bitmap_index.kind = some .int_type ∧
    (event_arg_index.index_all {}
      [int_column_event, string_column_event]).find_type .int_type
        = some [0] ∧
    (event_arg_index.index_all {}
      [int_column_event, string_column_event]).find_type .string_type
        = none :=
  ⟨rfl, rfl, rfl, rfl, rfl, rfl, rfl, rfl⟩

/-! ## Positional pushes on a bitmap index -/

theorem getElem?_positional {T : Type} (w : List (Option T)) (id : Nat)
    (x : T) (h : w.length ≤ id) :
    (w ++ (List.replicate (id - w.length) none ++ [some x]))[id]?
      = some (some x) := by
  rw [List.getElem?_append_right h, List.getElem?_append_right (by simp)]
  simp

theorem positional_push {C T : Type} (cp : coder_policy C T) (binner : T → T)
    (I : bitmap C → List (Option T) → Prop)
    (hrows : ∀ bm w, I bm w → bm.size cp = w.length)
    (hpush : ∀ bm w x, I bm w → (bm.push_back cp binner x).1 = true ∧
      I (bm.push_back cp binner x).2 (w ++ [some (binner x)]))
    (happ : ∀ bm w n, I bm w → (bm.append cp n false).1 = true ∧
      I (bm.append cp n false).2 (w ++ List.replicate n none))
    (bm : bitmap C) (w : List (Option T)) (h : I bm w) (x : T) (id : Nat)
    (hid : ¬ id < bm.size cp) :
    (bm.append cp (id - bm.size cp) false).1 = true ∧
    ((bm.append cp (id - bm.size cp) false).2.push_back cp binner x).1
      = true ∧
    ∃ t, I ((bm.append cp (id - bm.size cp) false).2.push_back cp binner x).2
        (w ++ t) ∧
      (w ++ t)[id]? = some (some (binner x)) := by
  have hsz := hrows bm w h
  obtain ⟨ha1, ha2⟩ := happ bm w (id - bm.size cp) h
  obtain ⟨hp1, hp2⟩ := hpush _ _ x ha2
  refine ⟨ha1, hp1, List.replicate (id - w.length) none ++ [some (binner x)],
    ?_, ?_⟩
  · rw [← List.append_assoc, ← hsz]
    exact hp2
  · exact getElem?_positional w id (binner x) (by omega)

theorem getElem?_append_some {T : Type} (w t : List T) (i : Nat) (x : T)
    (h : w[i]? = some x) : (w ++ t)[i]? = some x := by
  rw [List.getElem?_append_left (List.getElem?_eq_some.1 h).1]
  exact h

theorem range_push_step (binner : Int → Int) (bm : bitmap (list_storage Int))
    (w : List (Option Int)) (x : Int) (h : range_inv bm w) :
    (bm.push_back bitmap_index.range_policy binner x).1 = true ∧
      range_inv (bm.push_back bitmap_index.range_policy binner x).2
        (w ++ [some (binner x)]) := by
  obtain ⟨s1, h1, h2⟩ := range_coder.inv_encode bm.coder_ bm.valid_ w h
    (binner x)
  have e : bm.push_back bitmap_index.range_policy binner x =
      (true, { coder_ := s1, valid_ := bm.valid_.push_back true }) := by
    simp [bitmap.push_back, bitmap_index.range_policy, range_coder.policy, h1]
  rw [e]
  exact ⟨rfl, h2⟩

theorem range_append_step (bm : bitmap (list_storage Int))
    (w : List (Option Int)) (n : Nat) (h : range_inv bm w) :
    (bm.append bitmap_index.range_policy n false).1 = true ∧
      range_inv (bm.append bitmap_index.range_policy n false).2
        (w ++ List.replicate n none) := by
  obtain ⟨s1, h1, h2⟩ := range_coder.inv_append bm.coder_ bm.valid_ w h n
  have e : bm.append bitmap_index.range_policy n false =
      (true, { coder_ := s1, valid_ := bm.valid_.append n false }) := by
    simp [bitmap.append, bitmap_index.range_policy, range_coder.policy, h1]
  rw [e]
  exact ⟨rfl, h2⟩

theorem equality_push_step (bm : bitmap (unordered_storage String))
    (w : List (Option String)) (x : String) (h : equality_inv bm w) :
    (bm.push_back equality_coder.policy null_binner x).1 = true ∧
      equality_inv (bm.push_back equality_coder.policy null_binner x).2
        (w ++ [some (null_binner x)]) := by
  obtain ⟨s1, h1, h2⟩ := equality_coder.eq_inv_encode bm.coder_ bm.valid_ w h x
  have e : bm.push_back equality_coder.policy null_binner x =
      (true, { coder_ := s1, valid_ := bm.valid_.push_back true }) := by
    simp [bitmap.push_back, equality_coder.policy, null_binner, h1]
  rw [e]
  exact ⟨rfl, h2⟩

theorem equality_append_step (bm : bitmap (unordered_storage String))
    (w : List (Option String)) (n : Nat) (h : equality_inv bm w) :
    (bm.append equality_coder.policy n false).1 = true ∧
      equality_inv (bm.append equality_coder.policy n false).2
        (w ++ List.replicate n none) := by
  obtain ⟨s1, h1, h2⟩ := equality_coder.eq_inv_append bm.coder_ bm.valid_ w h n
  have e : bm.append equality_coder.policy n false =
      (true, { coder_ := s1, valid_ := bm.valid_.append n false }) := by
    simp [bitmap.append, equality_coder.policy, h1]
  rw [e]
  exact ⟨rfl, h2⟩

namespace bitmap_index

theorem push_back_lt (b : bitmap_index) (v : value) (id : Nat)
    (h : id < b.size) : b.push_back v id = (false, b) := by
  simp [push_back, h]

theorem push_back_ge (b : bitmap_index) (v : value) (id : Nat)
    (h : ¬ id < b.size) (hg : (b.append (id - b.size) false).1 = true) :
    b.push_back v id = (b.append (id - b.size) false).2.push_back_impl v := by
  simp [push_back, h, hg]

theorem range_rows (bm : bitmap (list_storage Int)) (w : List (Option Int))
    (h : range_inv bm w) : bm.size range_policy = w.length := h.rows_eq

theorem equality_rows (bm : bitmap (unordered_storage String))
    (w : List (Option String)) (h : equality_inv bm w) :
    bm.size equality_coder.policy = w.length := h.rows_eq

theorem arithmetic_push (k : value_type) (bn : Option precision_binner)
    (bm : bitmap (list_storage Int)) (v : value) (id : Nat)
    (w : List (Option Int)) (h : range_inv bm w) :
    ∃ bm1 t, ((arithmetic k bn bm).push_back v id).2 = arithmetic k bn bm1 ∧
      range_inv bm1 (w ++ t) ∧
      (((arithmetic k bn bm).push_back v id).1 = true →
        v.which = k ∧ ∃ z, v.arithmetic = some z ∧
          (w ++ t)[id]? = some (some (bin bn z))) := by
  by_cases hid : id < (arithmetic k bn bm).size
  · rw [push_back_lt _ _ _ hid]
    exact ⟨bm, [], rfl, by simpa using h, by simp⟩
  · have hid1 : ¬ id < bm.size range_policy := hid
    obtain ⟨hg1, hg2⟩ := range_append_step bm w (id - bm.size range_policy) h
    have hg : ((arithmetic k bn bm).append
        (id - (arithmetic k bn bm).size) false).1 = true := hg1
    rw [push_back_ge _ _ _ hid hg]
    have hgap : ((arithmetic k bn bm).append
        (id - (arithmetic k bn bm).size) false).2 =
        arithmetic k bn
          (bm.append range_policy (id - bm.size range_policy) false).2 := rfl
    rw [hgap]
    rcases Option.eq_none_or_eq_some v.arithmetic with ha | ⟨z, ha⟩
    · refine ⟨_, _, ?_, hg2, ?_⟩ <;> simp [push_back_impl, ha]
    · by_cases hk : v.which = k
      · obtain ⟨_, hp1, t, hI, hget⟩ := positional_push range_policy (bin bn)
          range_inv range_rows (range_push_step (bin bn)) range_append_step
          bm w h z id hid1
        refine ⟨_, t, ?_, hI, ?_⟩
        · simp [push_back_impl, ha, hk]
        · intro _
          exact ⟨hk, z, ha, hget⟩
      · refine ⟨_, _, ?_, hg2, ?_⟩ <;> simp [push_back_impl, ha, hk]

theorem string_push (bm : bitmap (unordered_storage String)) (v : value)
    (id : Nat) (w : List (Option String)) (h : equality_inv bm w) :
    ∃ bm1 t, ((string bm).push_back v id).2 = string bm1 ∧
      equality_inv bm1 (w ++ t) ∧
      (((string bm).push_back v id).1 = true →
        ∃ s, v = .string s ∧ (w ++ t)[id]? = some (some s)) := by
  by_cases hid : id < (string bm).size
  · rw [push_back_lt _ _ _ hid]
    exact ⟨bm, [], rfl, by simpa using h, by simp⟩
  · have hid1 : ¬ id < bm.size equality_coder.policy := hid
    obtain ⟨hg1, hg2⟩ :=
      equality_append_step bm w (id - bm.size equality_coder.policy) h
    have hg : ((string bm).append (id - (string bm).size) false).1 = true :=
      hg1
    rw [push_back_ge _ _ _ hid hg]
    have hgap : ((string bm).append (id - (string bm).size) false).2 =
        string (bm.append equality_coder.policy
          (id - bm.size equality_coder.policy) false).2 := rfl
    rw [hgap]
    cases v with
    | string s =>
      obtain ⟨_, hp1, t, hI, hget⟩ := positional_push equality_coder.policy
        null_binner equality_inv equality_rows equality_push_step
        equality_append_step bm w h s id hid1
      exact ⟨_, t, rfl, hI, fun _ => ⟨s, rfl, hget⟩⟩
    | _ => exact ⟨_, _, rfl, hg2, by simp [push_back_impl]⟩

theorem boolean_push (bm : bool_bitmap) (v : value) (id : Nat)
    (w : List (Option Bool)) (h : bool_inv bm w) :
    ∃ bm1 t, ((boolean bm).push_back v id).2 = boolean bm1 ∧
      bool_inv bm1 (w ++ t) ∧
      (((boolean bm).push_back v id).1 = true →
        ∃ x, v = .bool x ∧ (w ++ t)[id]? = some (some x)) := by
  by_cases hid : id < (boolean bm).size
  · rw [push_back_lt _ _ _ hid]
    exact ⟨bm, [], rfl, by simpa using h, by simp⟩
  · have hsz : bm.size = w.length := h.len
    have hid1 : ¬ id < bm.size := hid
    have hg2 := bool_inv_step bm w h (.append (id - bm.size) false) rfl
    have hg : ((boolean bm).append (id - (boolean bm).size) false).1 = true :=
      rfl
    rw [push_back_ge _ _ _ hid hg]
    have hgap : ((boolean bm).append (id - (boolean bm).size) false).2 =
        boolean (bm.append (id - bm.size) false).2 := rfl
    rw [hgap]
    cases v with
    | bool x =>
      have hp := bool_inv_step _ _ hg2 (.push_back x) rfl
      refine ⟨_, List.replicate (id - bm.size) none ++ [some x], rfl, ?_,
        fun _ => ⟨x, rfl, ?_⟩⟩
      · rw [List.append_assoc] at hp
        simpa [written] using hp
      · rw [hsz]
        exact getElem?_positional w id x (by omega)
    | _ => exact ⟨_, _, rfl, hg2, by simp [push_back_impl]⟩

theorem push_back_sound (b : bitmap_index) (hs : b.sound) (v : value)
    (id : Nat) : (b.push_back v id).2.sound := by
  cases b with
  | boolean bm =>
    obtain ⟨w, hw⟩ := hs
    obtain ⟨bm1, t, e, hI, _⟩ := boolean_push bm v id w hw
    rw [e]
    exact ⟨_, hI⟩
  | arithmetic k bn bm =>
    obtain ⟨w, hw⟩ := hs
    obtain ⟨bm1, t, e, hI, _⟩ := arithmetic_push k bn bm v id w hw
    rw [e]
    exact ⟨_, hI⟩
  | string bm =>
    obtain ⟨w, hw⟩ := hs
    obtain ⟨bm1, t, e, hI, _⟩ := string_push bm v id w hw
    rw [e]
    exact ⟨_, hI⟩

theorem push_back_records (b : bitmap_index) (hs : b.sound) (v : value)
    (id : Nat) (h : (b.push_back v id).1 = true) :
    (b.push_back v id).2.records id v := by
  cases b with
  | boolean bm =>
    obtain ⟨w, hw⟩ := hs
    obtain ⟨bm1, t, e, hI, hr⟩ := boolean_push bm v id w hw
    obtain ⟨x, rfl, hx⟩ := hr h
    rw [e]
    exact ⟨_, hI, hx⟩
  | arithmetic k bn bm =>
    obtain ⟨w, hw⟩ := hs
    obtain ⟨bm1, t, e, hI, hr⟩ := arithmetic_push k bn bm v id w hw
    obtain ⟨hk, z, hz, hx⟩ := hr h
    rw [e]
    exact ⟨hk, z, hz, _, hI, hx⟩
  | string bm =>
    obtain ⟨w, hw⟩ := hs
    obtain ⟨bm1, t, e, hI, hr⟩ := string_push bm v id w hw
    obtain ⟨x, rfl, hx⟩ := hr h
    rw [e]
    exact ⟨_, hI, hx⟩

theorem push_back_keeps (b : bitmap_index) (v : value) (id : Nat) (id0 : Nat)
    (v0 : value) (h : b.records id0 v0) :
    (b.push_back v id).2.records id0 v0 := by
  cases b with
  | boolean bm =>
    cases v0 with
    | bool x =>
      obtain ⟨w, hw, hx⟩ := h
      obtain ⟨bm1, t, e, hI, _⟩ := boolean_push bm v id w hw
      rw [e]
      exact ⟨_, hI, getElem?_append_some w t id0 _ hx⟩
    | _ => exact absurd h (by simp [records])
  | arithmetic k bn bm =>
    obtain ⟨hk, z, hz, w, hw, hx⟩ := h
    obtain ⟨bm1, t, e, hI, _⟩ := arithmetic_push k bn bm v id w hw
    rw [e]
    exact ⟨hk, z, hz, _, hI, getElem?_append_some w t id0 _ hx⟩
  | string bm =>
    cases v0 with
    | string x =>
      obtain ⟨w, hw, hx⟩ := h
      obtain ⟨bm1, t, e, hI, _⟩ := string_push bm v id w hw
      rw [e]
      exact ⟨_, hI, getElem?_append_some w t id0 _ hx⟩
    | _ => exact absurd h (by simp [records])

theorem create_sound (k : value_type) (b : bitmap_index)
    (h : create k = some b) : (b.append 1 false).2.sound := by
  cases k <;> simp [create] at h <;> subst h
  · exact ⟨_, bool_inv_step _ _ bool_inv_init (.append 1 false) rfl⟩
  · exact ⟨_, (range_append_step _ _ 1 range_coder.inv_init).2⟩
  · exact ⟨_, (range_append_step _ _ 1 range_coder.inv_init).2⟩
  · exact ⟨_, (equality_append_step _ _ 1 equality_coder.eq_inv_init).2⟩

end bitmap_index

theorem result_bit_some (r : Option bitstream) (i : Nat)
    (h : result_bit r i = true) : ∃ b, r = some b ∧ b.test i = true := by
  cases r with
  | none => simp [result_bit] at h
  | some b => exact ⟨b, rfl, h⟩

namespace bitmap_index

theorem lookup_records (b : bitmap_index) (id : Nat) (v : value)
    (h : b.records id v) :
    ∃ r, b.lookup .equal v = .ok (some r) ∧ r.test id = true := by
  cases b with
  | boolean bm =>
    cases v with
    | bool x =>
      obtain ⟨w, hw, hx⟩ := h
      refine ⟨_, rfl, ?_⟩
      have hb := hw.bits id x hx
      have hi : id < bm.bool_.length := by
        rw [hw.len]
        exact (List.getElem?_eq_some.1 hx).1
      rw [bitstream.test_and, Bool.and_eq_true, hw.valid_eq, valid_test]
      refine ⟨?_, x, hx⟩
      cases x <;> simp [bitstream.test_flip, hb, hi]
    | _ => exact absurd h (by simp [records])
  | arithmetic k bn bm =>
    obtain ⟨hk, z, hz, w, hw, hx⟩ := h
    obtain ⟨r1, hr1, hbits⟩ := lookup_sound range_policy (bin bn) bm w
      hw.valid_eq .equal z _ rfl (fun y => y = bin bn z)
      (fun i y hy => range_coder.decode_equal_sound bm w hw (bin bn z) i y hy)
    obtain ⟨r, rfl, hr⟩ := result_bit_some r1 id
      ((hbits id).2 ⟨_, hx, rfl⟩)
    refine ⟨r, ?_, hr⟩
    simp [lookup, hz, hk, hr1]
  | string bm =>
    cases v with
    | string s =>
      obtain ⟨w, hw, hx⟩ := h
      obtain ⟨d, hd, hb⟩ := equality_coder.eq_decode_equal_sound bm w hw s
      obtain ⟨r1, hr1, hbits⟩ := lookup_sound equality_coder.policy null_binner
        bm w hw.valid_eq .equal s d hd (fun y => y = s) hb
      obtain ⟨r, rfl, hr⟩ := result_bit_some r1 id
        ((hbits id).2 ⟨_, hx, rfl⟩)
      exact ⟨r, hr1, hr⟩
    | _ => exact absurd h (by simp [records])

end bitmap_index

namespace event_arg_index

theorem lookup_offset (assertions : Bool) (idx : event_arg_index)
    (o : offset) (op : relational_operator) (v : value) (h : Nat)
    (b : bitmap_index) (r : bitstream) (hf : idx.find_arg o = some h)
    (hb : idx.heap[h]? = some b) (hl : b.lookup op v = .ok (some r)) :
    idx.lookup assertions (.relation op (.offset_extractor o) (.constant v))
      = .ok (some r) := by
  simp [lookup, visit, assert, querier.assign, hf, hb, hl]

theorem recorded_lookup (assertions : Bool) (idx : event_arg_index)
    (o : offset) (id : Nat) (v : value) (h : idx.recorded o id v) :
    ∃ h, idx.find_arg o = some h ∧
      ∃ r, idx.lookup assertions
          (.relation .equal (.offset_extractor o) (.constant v))
            = .ok (some r) ∧ r.test id = true := by
  obtain ⟨h, b, hf, hb, hr⟩ := h
  obtain ⟨r, hl, ht⟩ := bitmap_index.lookup_records b id v hr
  exact ⟨h, hf, r, lookup_offset assertions idx o .equal v h b r hf hb hl, ht⟩

end event_arg_index

/-! ## Offsets of the argument index -/

namespace record

theorem at_path_nil (p : List Nat) : record.nil.at_path p = none := by
  cases p with
  | nil => rfl
  | cons i p => cases p <;> simp [at_path, get]

theorem at_path_succ (v : value) (rest : record) (j : Nat) (p : List Nat) :
    (record.cons v rest).at_path ((j + 1) :: p) = rest.at_path (j :: p) := by
  cases p <;> simp [at_path, get]

theorem at_path_zero (v : value) (rest : record) :
    (record.cons v rest).at_path [0] = some v := by
  simp [at_path, get]

theorem at_path_zero_cons (v : value) (rest : record) (j : Nat)
    (p : List Nat) (w : value)
    (h : (record.cons v rest).at_path (0 :: j :: p) = some w) :
    ∃ inner, v = .record inner ∧ inner.at_path (j :: p) = some w := by
  cases v <;> simp [at_path, get] at h
  exact ⟨_, rfl, h⟩

theorem empty_eq_true (r : record) (h : r.empty = true) : r = .nil := by
  cases r with
  | nil => rfl
  | cons v rest => simp [empty] at h

end record

namespace event_arg_index

theorem push_at_offset (idx : event_arg_index) (h : Nat) (v : value) (id : Nat)
    (o : offset) : (push_at idx h v id o).2.2 = o := by
  unfold push_at
  cases idx.heap[h]? <;> rfl

theorem push_at_find_arg (idx : event_arg_index) (h : Nat) (v : value)
    (id : Nat) (o o0 : offset) :
    (push_at idx h v id o).2.1.find_arg o0 = idx.find_arg o0 := by
  unfold push_at
  cases idx.heap[h]? <;> rfl

theorem push_at_sound (idx : event_arg_index) (h : Nat) (v : value) (id : Nat)
    (o : offset) (hs : idx.sound) : (push_at idx h v id o).2.1.sound := by
  unfold push_at
  cases hb : idx.heap[h]? with
  | none => simpa using hs
  | some b =>
    intro c hc
    rcases List.mem_or_eq_of_mem_set hc with hc | rfl
    · exact hs c hc
    · exact bitmap_index.push_back_sound b (hs b (List.getElem?_mem hb)) v id

theorem push_at_keeps (idx : event_arg_index) (h : Nat) (v : value) (id : Nat)
    (o o0 : offset) (id0 : Nat) (v0 : value) (hr : idx.recorded o0 id0 v0) :
    (push_at idx h v id o).2.1.recorded o0 id0 v0 := by
  obtain ⟨h0, b0, hf, hb0, hrec⟩ := hr
  have hfa := push_at_find_arg idx h v id o o0
  unfold push_at at hfa ⊢
  cases hb : idx.heap[h]? with
  | none => exact ⟨h0, b0, hf, hb0, hrec⟩
  | some b =>
    simp only [hb] at hfa ⊢
    by_cases hh : h = h0
    · subst hh
      have e : b0 = b := by
        rw [hb] at hb0
        exact (Option.some.inj hb0).symm
      subst e
      refine ⟨h, (b0.push_back v id).2, hfa.trans hf, ?_,
        bitmap_index.push_back_keeps b0 v id id0 v0 hrec⟩
      rw [List.getElem?_set]
      simp [(List.getElem?_eq_some.1 hb).1]
    · refine ⟨h0, b0, hfa.trans hf, ?_, hrec⟩
      rw [List.getElem?_set_ne hh]
      exact hb0

theorem push_at_records (idx : event_arg_index) (h : Nat) (v : value)
    (id : Nat) (o : offset) (hs : idx.sound) (hf : idx.find_arg o = some h)
    (hok : (push_at idx h v id o).1 = true) :
    (push_at idx h v id o).2.1.recorded o id v := by
  have hfa := push_at_find_arg idx h v id o o
  unfold push_at at hfa hok ⊢
  cases hb : idx.heap[h]? with
  | none => simp [hb] at hok
  | some b =>
    simp only [hb] at hfa hok ⊢
    refine ⟨h, (b.push_back v id).2, hfa.trans hf, ?_,
      bitmap_index.push_back_records b (hs b (List.getElem?_mem hb)) v id hok⟩
    rw [List.getElem?_set]
    simp [(List.getElem?_eq_some.1 hb).1]

theorem find_arg_emplace_keep (idx : event_arg_index) (o o0 : offset)
    (bmi h0 : Nat) (heap : List bitmap_index)
    (types : List (value_type × List Nat))
    (hf : idx.find_arg o0 = some h0) :
    find_arg { heap := heap, args_ := emplace_arg idx.args_ o bmi,
               types_ := types } o0 = some h0 := by
  unfold find_arg emplace_arg at *
  split
  · exact hf
  · rw [List.find?_append]
    cases hx : List.find? (fun p => decide (p.1 = o0)) idx.args_ with
    | none => simp [hx] at hf
    | some p => simpa [hx] using hf

theorem find_arg_emplace_new (idx : event_arg_index) (o : offset)
    (bmi : Nat) (heap : List bitmap_index)
    (types : List (value_type × List Nat))
    (hf : idx.find_arg o = none) :
    find_arg { heap := heap, args_ := emplace_arg idx.args_ o bmi,
               types_ := types } o = some bmi := by
  unfold find_arg at hf
  have hx : List.find? (fun p => decide (p.1 = o)) idx.args_ = none := by
    simpa using hf
  unfold find_arg emplace_arg
  simp [hx, List.find?_append]

end event_arg_index

namespace event_arg_index

theorem index_data_offset (idx : event_arg_index) (v : value) (id : Nat)
    (o : offset) : (index_data idx v id o).2.2 = o := by
  unfold index_data
  cases idx.find_arg o with
  | some h => exact push_at_offset idx h v id o
  | none =>
    cases bitmap_index.create v.which with
    | none => rfl
    | some unique => exact push_at_offset _ _ v id o

theorem index_data_sound (idx : event_arg_index) (v : value) (id : Nat)
    (o : offset) (hs : idx.sound) : (index_data idx v id o).2.1.sound := by
  unfold index_data
  cases hf : idx.find_arg o with
  | some h => exact push_at_sound idx h v id o hs
  | none =>
    cases hc : bitmap_index.create v.which with
    | none => simpa using hs
    | some unique =>
      apply push_at_sound
      intro c hc1
      rcases List.mem_append.1 hc1 with hc1 | hc1
      · exact hs c hc1
      · have hc2 : c = (unique.append 1 false).2 := by simpa using hc1
        subst hc2
        exact bitmap_index.create_sound _ _ hc

theorem index_data_keeps (o0 : offset) (id0 : Nat) (v0 : value)
    (idx : event_arg_index) (v : value) (id : Nat) (o : offset)
    (hr : idx.recorded o0 id0 v0) :
    (index_data idx v id o).2.1.recorded o0 id0 v0 := by
  unfold index_data
  cases hf : idx.find_arg o with
  | some h => exact push_at_keeps idx h v id o o0 id0 v0 hr
  | none =>
    cases hc : bitmap_index.create v.which with
    | none => simpa using hr
    | some unique =>
      apply push_at_keeps
      obtain ⟨h0, b0, hf0, hb0, hrec⟩ := hr
      exact ⟨h0, b0, find_arg_emplace_keep idx o o0 _ h0 _ _ hf0,
        getElem?_append_some _ _ h0 b0 hb0, hrec⟩

theorem index_data_records (idx : event_arg_index) (v : value) (id : Nat)
    (o : offset) (hs : idx.sound) (hok : (index_data idx v id o).1 = true) :
    (index_data idx v id o).2.1.recorded o id v := by
  unfold index_data at hok ⊢
  cases hf : idx.find_arg o with
  | some h =>
    simp only [hf] at hok ⊢
    exact push_at_records idx h v id o hs hf hok
  | none =>
    cases hc : bitmap_index.create v.which with
    | none => simp [hf, hc] at hok
    | some unique =>
      simp only [hf, hc] at hok ⊢
      apply push_at_records _ _ _ _ _ _ _ hok
      · intro c hc1
        rcases List.mem_append.1 hc1 with hc1 | hc1
        · exact hs c hc1
        · have hc2 : c = (unique.append 1 false).2 := by simpa using hc1
          subst hc2
          exact bitmap_index.create_sound _ _ hc
      · exact find_arg_emplace_new idx o _ _ _ hf

theorem index_value_record (inner : record) (idx : event_arg_index) (id : Nat)
    (o : offset) :
    index_value (.record inner) idx id o =
      if inner.empty then (true, idx, o)
      else if (index_loop inner idx id (o ++ [0])).1 then
        (true, (index_loop inner idx id (o ++ [0])).2.1,
          ((index_loop inner idx id (o ++ [0])).2.2).dropLast)
      else (false, (index_loop inner idx id (o ++ [0])).2.1,
        (index_loop inner idx id (o ++ [0])).2.2) := by
  rw [index_value]
  by_cases he : inner.empty = true
  · simp [he]
  · simp [he, value.to_bool, value.is_invalid, value.which, offset.push_back,
      offset.pop_back]

theorem index_value_leaf (v : value) (hv : v.is_leaf = true)
    (idx : event_arg_index) (id : Nat) (o : offset) :
    index_value v idx id o = index_data idx v id o := by
  cases v <;> first | rfl | simp [value.is_leaf] at hv

theorem index_loop_cons (v : value) (rest : record) (idx : event_arg_index)
    (id : Nat) (o : offset) :
    index_loop (.cons v rest) idx id o =
      if (index_value v idx id o).1 then
        index_loop rest (index_value v idx id o).2.1 id
          (offset.incr_back (index_value v idx id o).2.2)
      else (false, (index_value v idx id o).2.1,
        (index_value v idx id o).2.2) := by
  rw [index_loop]

end event_arg_index

namespace event_arg_index

mutual
theorem index_value_records :
    ∀ (v : value) (idx : event_arg_index) (id : Nat) (o : offset),
      idx.sound → (index_value v idx id o).1 = true →
      (index_value v idx id o).2.2 = o ∧
      (v.is_leaf = true → (index_value v idx id o).2.1.recorded o id v) ∧
      (∀ inner, v = .record inner → ∀ (j : Nat) (p : List Nat) (w : value),
        inner.at_path (j :: p) = some w → w.is_leaf = true →
        (index_value v idx id o).2.1.recorded (o ++ j :: p) id w)
  | .record inner, idx, id, o, hs, hok => by
    rw [index_value_record] at hok ⊢
    by_cases he : inner.empty = true
    · rw [if_pos he]
      refine ⟨rfl, fun h => by simp [value.is_leaf] at h, ?_⟩
      intro inner1 e j p w hw _
      cases e
      rw [record.empty_eq_true inner he, record.at_path_nil] at hw
      simp at hw
    · rw [if_neg he] at hok ⊢
      by_cases hl : (index_loop inner idx id (o ++ [0])).1 = true
      · rw [if_pos hl]
        obtain ⟨ho, hrec⟩ := index_loop_records inner idx id o 0 hs hl
        refine ⟨by rw [ho]; simp, fun h => by simp [value.is_leaf] at h, ?_⟩
        intro inner1 e j p w hw hleaf
        cases e
        simpa using hrec j p w hw hleaf
      · simp [hl] at hok
  | .invalid, idx, id, o, hs, hok =>
    ⟨rfl, fun h => by simp [value.is_leaf] at h, fun _ e => by cases e⟩
  | .table, idx, id, o, hs, hok =>
    ⟨rfl, fun h => by simp [value.is_leaf] at h, fun _ e => by cases e⟩
  | .bool b, idx, id, o, hs, hok =>
    ⟨index_data_offset idx _ id o,
      fun _ => index_data_records idx _ id o hs hok, fun _ e => by cases e⟩
  | .int z, idx, id, o, hs, hok =>
    ⟨index_data_offset idx _ id o,
      fun _ => index_data_records idx _ id o hs hok, fun _ e => by cases e⟩
  | .time_point t, idx, id, o, hs, hok =>
    ⟨index_data_offset idx _ id o,
      fun _ => index_data_records idx _ id o hs hok, fun _ e => by cases e⟩
  | .string s, idx, id, o, hs, hok =>
    ⟨index_data_offset idx _ id o,
      fun _ => index_data_records idx _ id o hs hok, fun _ e => by cases e⟩
theorem index_loop_records :
    ∀ (r : record) (idx : event_arg_index) (id : Nat) (pre : offset)
      (i : Nat), idx.sound → (index_loop r idx id (pre ++ [i])).1 = true →
      (index_loop r idx id (pre ++ [i])).2.2 = pre ++ [i + r.size] ∧
      ∀ (j : Nat) (p : List Nat) (w : value),
        r.at_path (j :: p) = some w → w.is_leaf = true →
        (index_loop r idx id (pre ++ [i])).2.1.recorded
          (pre ++ (i + j) :: p) id w
  | .nil, idx, id, pre, i, hs, hok => by
    refine ⟨rfl, ?_⟩
    intro j p w hw _
    rw [record.at_path_nil] at hw
    simp at hw
  | .cons v rest, idx, id, pre, i, hs, hok => by
    rw [index_loop_cons] at hok ⊢
    by_cases hv : (index_value v idx id (pre ++ [i])).1 = true
    · rw [if_pos hv] at hok ⊢
      obtain ⟨ho, hleaf, hrecd⟩ :=
        index_value_records v idx id (pre ++ [i]) hs hv
      rw [ho, offset_incr_back_snoc] at hok ⊢
      have hs1 : (index_value v idx id (pre ++ [i])).2.1.sound :=
        index_value_preserves sound index_data_sound v idx id _ hs
      obtain ⟨ho2, hrec2⟩ := index_loop_records rest
        (index_value v idx id (pre ++ [i])).2.1 id pre (i + 1) hs1 hok
      refine ⟨by rw [ho2]; simp [record.size]; omega, ?_⟩
      intro j p w hw hwl
      cases j with
      | zero =>
        apply index_loop_preserves (fun s => s.recorded (pre ++ (i + 0) :: p)
          id w) (index_data_keeps _ id w)
        cases p with
        | nil =>
          rw [record.at_path_zero] at hw
          cases hw
          simpa using hleaf hwl
        | cons j1 p1 =>
          obtain ⟨inner, e, hin⟩ := record.at_path_zero_cons v rest j1 p1 w hw
          simpa using hrecd inner e j1 p1 w hin hwl
      | succ j0 =>
        rw [record.at_path_succ] at hw
        have := hrec2 j0 p w hw hwl
        rw [show i + 1 + j0 = i + (j0 + 1) by omega] at this
        exact this
    · simp [hv] at hok
end

theorem index_all_sound (es : List event) :
    ∀ idx : event_arg_index, idx.sound → (index_all idx es).sound := by
  induction es with
  | nil => intro idx hs; exact hs
  | cons e es ih =>
    intro idx hs
    apply ih
    unfold index
    by_cases he : e.empty = true
    · simpa [he] using hs
    · simp only [he]
      unfold index_record
      exact index_loop_preserves sound index_data_sound _ _ _ _ hs

end event_arg_index

/-- C23: for every event `e`, indexed after any sequence of earlier events,
if `index(e)` returns true then every field value `v` of its record that is
valid, not a table and not a record, located at the positional path `p` (each
component the 0-based position of a field among all fields of its enclosing
record, skipped fields counted), has an entry `args[p]`, and the offset lookup
with `(equal, v)` at `p` returns a bitstream with bit `e.id` set. -/
theorem arg_index_offsets (assertions : Bool) (es : List event) (e : event)
    (p : List Nat) (v : value)
    (hok : ((event_arg_index.index_all {} es).index e).1 = true)
    (hp : e.fields.at_path p = some v) (hv : v.is_leaf = true) :
    ∃ h, ((event_arg_index.index_all {} es).index e).2.find_arg p = some h ∧
      ∃ r, ((event_arg_index.index_all {} es).index e).2.lookup assertions
          (.relation .equal (.offset_extractor p) (.constant v))
            = .ok (some r) ∧ r.test e.id = true := by
  apply event_arg_index.recorded_lookup
  have hs := event_arg_index.index_all_sound es {} (fun b hb => by simp at hb)
  generalize event_arg_index.index_all {} es = idx at hok hs ⊢
  cases p with
  | nil => simp [record.at_path] at hp
  | cons j p =>
    unfold event_arg_index.index at hok ⊢
    by_cases he : e.empty = true
    · rw [event.empty] at he
      rw [record.empty_eq_true _ he, record.at_path_nil] at hp
      simp at hp
    · simp only [he] at hok ⊢
      have hok1 : (event_arg_index.index_loop e.fields idx e.id ([] ++ [0])).1
          = true := by
        simpa [event_arg_index.index_record] using hok
      have := (event_arg_index.index_loop_records e.fields idx e.id [] 0 hs
        hok1).2 j p v hp hv
      simpa [event_arg_index.index_record] using this

theorem arg_index_offsets_witness :
    (∃ h, ((event_arg_index.index_all {} []).index s6_event).2.find_arg [0]
        = some h ∧
      ∃ r, ((event_arg_index.index_all {} []).index s6_event).2.lookup true
          (.relation .equal (.offset_extractor [0]) (.constant (.int 42)))
            = .ok (some r) ∧ r.test s6_event.id = true) ∧
    (∃ h, ((event_arg_index.index_all {} []).index s6_event).2.find_arg [1, 0]
        = some h ∧
      ∃ r, ((event_arg_index.index_all {} []).index s6_event).2.lookup true
          (.relation .equal (.offset_extractor [1, 0])
            (.constant (.bool true)))
            = .ok (some r) ∧ r.test s6_event.id = true) :=
  ⟨arg_index_offsets true [] s6_event [0] (.int 42) rfl rfl rfl,
    arg_index_offsets true [] s6_event [1, 0] (.bool true) rfl rfl rfl⟩

/-! ## Serialization round trips -/

theorem read_write_pairs {T : Type} (l : List (T × bitstream))
    (rest : List (token T)) :
    read_pairs l.length (write_pairs l ++ rest) = some (l, rest) := by
  induction l with
  | nil => rfl
  | cons p l ih => simp [write_pairs, read_pairs, ih]

namespace list_storage

variable {T : Type} [LinearOrder T]

theorem mem_emplace_all (l : List (T × bitstream)) :
    ∀ (m : List T) (x : T),
      x ∈ emplace_all l m ↔ x ∈ m ∨ ∃ b, (x, b) ∈ l := by
  induction l with
  | nil => intro m x; simp [emplace_all]
  | cons p l ih =>
    intro m x
    have hstep : emplace_all (p :: l) m =
        emplace_all l (if p.1 ∈ m then m else p.1 :: m) := rfl
    rw [hstep, ih]
    by_cases hp : p.1 ∈ m
    · simp only [hp, if_true, List.mem_cons]
      constructor
      · rintro (h | ⟨b, h⟩)
        · exact Or.inl h
        · exact Or.inr ⟨b, Or.inr h⟩
      · rintro (h | ⟨b, h | h⟩)
        · exact Or.inl h
        · left
          subst h
          exact hp
        · exact Or.inr ⟨b, h⟩
    · simp only [hp, if_false, List.mem_cons]
      constructor
      · rintro ((h | h) | ⟨b, h⟩)
        · exact Or.inr ⟨p.2, Or.inl (by rw [h])⟩
        · exact Or.inl h
        · exact Or.inr ⟨b, Or.inr h⟩
      · rintro (h | ⟨b, h | h⟩)
        · exact Or.inl (Or.inr h)
        · left; left
          subst h
          rfl
        · exact Or.inr ⟨b, h⟩

theorem list_round_trip (s : list_storage T) (h : s.wf) :
    storage_round_trip serialize deserialize eq (fun s => s.rows) find {} s := by
  intro rest
  refine ⟨{ rows := s.rows, list_ := s.list_,
            map_ := emplace_all s.list_ [] }, ?_, ?_, rfl, ?_⟩
  · simp [serialize, deserialize, read_write_pairs]
  · simp [eq]
  · intro k
    unfold find
    have hk : k ∈ emplace_all s.list_ [] ↔ k ∈ s.map_ := by
      rw [mem_emplace_all, h.2 k]
      simp
    by_cases hm : k ∈ s.map_
    · simp [hm, hk.2 hm]
    · have : k ∉ emplace_all s.list_ [] := fun hc => hm (hk.1 hc)
      simp [hm, this]

end list_storage

namespace unordered_storage

variable {T : Type} [DecidableEq T]

theorem unordered_wf_insert (s : unordered_storage T) (h : s.wf) (x : T)
    (b : bitstream) : (s.insert x b).2.wf := by
  unfold insert
  cases hf : s.map_.find? (fun p => decide (p.1 = x)) with
  | some p => simpa using h
  | none =>
    simp only [Option.isSome_none, Bool.false_eq_true, if_false]
    unfold wf
    rw [List.pairwise_append]
    refine ⟨h, by simp, ?_⟩
    intro p hp q hq
    have hq1 : q = (x, b) := by simpa using hq
    subst hq1
    have := (List.find?_eq_none.1 hf) p hp
    simpa using this

end unordered_storage

namespace vector_storage

end vector_storage

theorem unordered_wf_each {T : Type} (s : unordered_storage T) (h : s.wf)
    (f : T → bitstream → bitstream) (n : Nat) :
    unordered_storage.wf { s.each f with rows := n } := by
  unfold unordered_storage.wf unordered_storage.each
  simp only [List.pairwise_map]
  exact h

theorem equality_encode_wf {T : Type} [DecidableEq T]
    (s : unordered_storage T) (h : s.wf) (x : T) :
    (equality_coder.encode s x).2.wf := by
  have hr : ∀ r : Bool × unordered_storage T, r.2.wf →
      (if !r.1 then (false, r.2)
        else (true,
          { (r.2.each (fun k bs => bs.push_back (decide (x = k)))) with
            rows := (r.2.each
              (fun k bs => bs.push_back (decide (x = k)))).rows + 1 })
        : Bool × unordered_storage T).2.wf := by
    intro r hr
    cases hb : r.1 with
    | false => simpa using hr
    | true =>
      simp only [Bool.not_true, Bool.false_eq_true, if_false]
      exact unordered_wf_each _ hr _ _
  unfold equality_coder.encode
  apply hr
  by_cases hf : (s.find x).isNone = true
  · rw [if_pos hf]
    exact unordered_storage.unordered_wf_insert _ h _ _
  · rw [if_neg hf]
    exact h

theorem equality_wf_run {T : Type} [DecidableEq T] (binner : T → T)
    (ops : List (bitmap_op T)) :
    (run_ops equality_coder.policy binner (equality_bitmap T)
      ops).coder_.wf :=
  run_ops_induct_all equality_coder.policy binner (fun bm => bm.coder_.wf)
    (fun bm x h => by
      have he : (equality_coder.encode bm.coder_ (binner x)).2.wf :=
        equality_encode_wf bm.coder_ h (binner x)
      show (bitmap.push_back equality_coder.policy binner bm x).2.coder_.wf
      unfold bitmap.push_back
      by_cases hb : (equality_coder.policy.encode bm.coder_ (binner x)).1
          = true
      · simpa [hb] using he
      · simpa [hb] using he)
    (fun bm n bit h => unordered_wf_each _ h _ _)
    ops (equality_bitmap T) List.Pairwise.nil

namespace segment

theorem locate_total (cs : List (List event)) :
    locate cs (cs.map List.length).sum = (cs.length, 0) := by
  induction cs with
  | nil => rfl
  | cons c rest ih =>
    have h : ¬ (c.length + (rest.map List.length).sum < c.length) := by omega
    simp [locate, h, ih]

theorem locate_zero (cs : List (List event)) (hne : ∀ c ∈ cs, c ≠ []) :
    locate cs 0 = (0, 0) := by
  cases cs with
  | nil => rfl
  | cons c rest =>
    have : 0 < c.length :=
      List.length_pos.2 (hne c (List.mem_cons_self _ _))
    simp [locate, this]

theorem locate_spec (cs : List (List event)) (hne : ∀ c ∈ cs, c ≠ []) :
    ∀ p, p < (cs.map List.length).sum →
      ∃ chunk e, cs[(locate cs p).1]? = some chunk ∧
        chunk[(locate cs p).2]? = some e ∧ cs.flatten[p]? = some e ∧
        ((cs.take (locate cs p).1).map List.length).sum + (locate cs p).2
          = p ∧
        (if (locate cs p).2 + 1 < chunk.length then
            ((locate cs p).1, (locate cs p).2 + 1)
          else ((locate cs p).1 + 1, 0)) = locate cs (p + 1) := by
  induction cs with
  | nil => intro p hp; simp at hp
  | cons c rest ih =>
    intro p hp
    have hne1 : ∀ c1 ∈ rest, c1 ≠ [] := fun c1 h1 =>
      hne c1 (List.mem_cons_of_mem _ h1)
    by_cases hlt : p < c.length
    · have hl : locate (c :: rest) p = (0, p) := by simp [locate, hlt]
      obtain ⟨e, he⟩ : ∃ e, List.get? c p = some e :=
        ⟨c.get ⟨p, hlt⟩, List.get?_eq_get hlt⟩
      rw [List.get?_eq_getElem?] at he
      refine ⟨c, e, by simp [hl], by simp [hl, he], ?_, by simp [hl], ?_⟩
      · rw [List.flatten_cons, List.getElem?_append_left hlt]
        exact he
      · rw [hl]
        by_cases hn : p + 1 < c.length
        · simp [locate, hn]
        · have hpc : p + 1 - c.length = 0 := by omega
          simp [locate, hn, hpc, locate_zero rest hne1]
    · have hp1 : p - c.length < (rest.map List.length).sum := by
        simp only [List.map_cons, List.sum_cons] at hp
        omega
      obtain ⟨chunk, e, h1, h2, h3, h4, h5⟩ := ih hne1 (p - c.length) hp1
      have hl : locate (c :: rest) p =
          ((locate rest (p - c.length)).1 + 1,
            (locate rest (p - c.length)).2) := by
        simp [locate, hlt]
      have hl1 : locate (c :: rest) (p + 1) =
          ((locate rest (p + 1 - c.length)).1 + 1,
            (locate rest (p + 1 - c.length)).2) := by
        have : ¬ p + 1 < c.length := by omega
        simp [locate, this]
      have hsub : p + 1 - c.length = p - c.length + 1 := by omega
      refine ⟨chunk, e, ?_, ?_, ?_, ?_, ?_⟩
      · rw [hl]
        simpa using h1
      · rw [hl]
        exact h2
      · rw [List.flatten_cons, List.getElem?_append_right (by omega)]
        exact h3
      · rw [hl]
        simp only [List.take_succ_cons, List.map_cons, List.sum_cons]
        omega
      · rw [hl, hl1, hsub, ← h5]
        split <;> rfl

end segment

namespace reader

theorem read_at_position (s : segment) (hne : ∀ c ∈ s.chunks_, c ≠ [])
    (p : Nat) (e : event) (he : s.all_events[p]? = some e) :
    (at_position s p).read s =
      (some (s.numbered p e), at_position s (p + 1)) := by
  have hp : p < (s.chunks_.map List.length).sum := by
    rw [← List.length_flatten]
    exact (List.getElem?_eq_some.1 he).1
  obtain ⟨chunk, e1, h1, h2, h3, h4, h5⟩ :=
    segment.locate_spec s.chunks_ hne p hp
  have hee : e1 = e := by
    unfold segment.all_events at he
    rw [h3] at he
    exact Option.some.inj he
  subst hee
  have h1a : s.chunks_[(at_position s p).chunk_idx_]? = some chunk := h1
  have h2a : chunk[(at_position s p).offset_]? = some e1 := h2
  have h4a : (at_position s p).position s = p := h4
  unfold read
  rw [h1a]
  simp only [h2a, h4a]
  congr 1
  have h5a := h5
  by_cases hn : (segment.locate s.chunks_ p).2 + 1 < chunk.length
  · rw [if_pos hn] at h5a
    have hn1 : (at_position s p).offset_ + 1 < chunk.length := hn
    rw [if_pos hn1]
    unfold at_position
    rw [← h5a]
  · rw [if_neg hn] at h5a
    have hn1 : ¬ (at_position s p).offset_ + 1 < chunk.length := hn
    rw [if_neg hn1]
    unfold at_position
    rw [← h5a]

theorem read_at_end (s : segment) :
    (at_position s s.events).read s = (none, at_position s s.events) := by
  have hl : segment.locate s.chunks_ s.events = (s.chunks_.length, 0) :=
    segment.locate_total s.chunks_
  have h1 : s.chunks_[(at_position s s.events).chunk_idx_]? = none := by
    unfold at_position
    rw [hl]
    simp
  unfold read
  rw [h1]

theorem fresh_at_position (s : segment) (hne : ∀ c ∈ s.chunks_, c ≠ []) :
    ({} : reader) = at_position s 0 := by
  unfold at_position
  rw [segment.locate_zero s.chunks_ hne]

theorem reads_fresh (s : segment) (hne : ∀ c ∈ s.chunks_, c ≠ []) :
    ∀ k, reads s {} k = at_position s (min k s.events) := by
  intro k
  induction k with
  | zero => simpa [reads] using fresh_at_position s hne
  | succ k ih =>
    rw [reads, ih]
    by_cases hk : k < s.events
    · have hk1 : k < s.all_events.length := by
        unfold segment.all_events
        rw [List.length_flatten]
        exact hk
      rw [show min k s.events = k by omega,
        show min (k + 1) s.events = k + 1 by omega,
        read_at_position s hne k _ (List.getElem?_eq_getElem hk1)]
    · rw [show min k s.events = s.events by omega,
        show min (k + 1) s.events = s.events by omega, read_at_end]

theorem read_fresh (s : segment) (hne : ∀ c ∈ s.chunks_, c ≠ []) (k : Nat) :
    ((reads s {} k).read s).1 = (s.all_events[k]?).map (s.numbered k) := by
  rw [reads_fresh s hne]
  cases he : s.all_events[k]? with
  | some e =>
    have hk : k < s.events := by
      have := (List.getElem?_eq_some.1 he).1
      unfold segment.all_events at this
      rw [List.length_flatten] at this
      exact this
    rw [show min k s.events = k by omega, read_at_position s hne k e he]
    rfl
  | none =>
    have hk : s.events ≤ k := by
      have := List.getElem?_eq_none_iff.1 he
      unfold segment.all_events at this
      rw [List.length_flatten] at this
      exact this
    rw [show min k s.events = s.events by omega, read_at_end]
    rfl

end reader

namespace writer

theorem flush_spec (w : writer) (hne : ∀ ch ∈ w.segment_.chunks_, ch ≠ []) :
    w.flush.1 = true ∧ (∀ ch ∈ w.flush.2.segment_.chunks_, ch ≠ []) ∧
    w.flush.2.chunk_ = [] ∧
    w.flush.2.segment_.all_events = w.segment_.all_events ++ w.chunk_ ∧
    w.flush.2.segment_.base_ = w.segment_.base_ ∧
    w.flush.2.max_events_per_chunk_ = w.max_events_per_chunk_ := by
  unfold flush
  by_cases hc : w.chunk_.isEmpty = true
  · rw [if_pos hc]
    have hnil : w.chunk_ = [] := List.isEmpty_iff.1 hc
    exact ⟨rfl, hne, hnil, by rw [hnil]; simp, rfl, rfl⟩
  · rw [if_neg hc]
    have hnn : w.chunk_ ≠ [] := fun h => hc (List.isEmpty_iff.2 h)
    refine ⟨rfl, ?_, rfl, ?_, rfl, rfl⟩
    · intro ch hch
      rcases List.mem_append.1 hch with h | h
      · exact hne ch h
      · have : ch = w.chunk_ := by simpa using h
        rw [this]
        exact hnn
    · simp [segment.all_events]

theorem write_spec (w : writer) (e : event)
    (hne : ∀ ch ∈ w.segment_.chunks_, ch ≠ []) :
    (w.write e).1 = true ∧ (∀ ch ∈ (w.write e).2.segment_.chunks_, ch ≠ []) ∧
    (w.write e).2.segment_.all_events ++ (w.write e).2.chunk_ =
      w.segment_.all_events ++ w.chunk_ ++ [e] ∧
    (w.write e).2.segment_.base_ = w.segment_.base_ ∧
    (w.write e).2.max_events_per_chunk_ = w.max_events_per_chunk_ := by
  unfold write
  simp only []
  split
  · obtain ⟨h1, h2, h3, h4, h5, h6⟩ :=
      flush_spec { w with chunk_ := w.chunk_ ++ [e] } hne
    refine ⟨h1, h2, ?_, h5, h6⟩
    rw [h3, h4]
    simp
  · exact ⟨rfl, hne, by simp, rfl, rfl⟩

theorem write_all_spec (es : List event) :
    ∀ w : writer, (∀ ch ∈ w.segment_.chunks_, ch ≠ []) →
      (∀ ch ∈ (w.write_all es).segment_.chunks_, ch ≠ []) ∧
      (w.write_all es).segment_.all_events ++ (w.write_all es).chunk_ =
        w.segment_.all_events ++ w.chunk_ ++ es ∧
      (w.write_all es).segment_.base_ = w.segment_.base_ ∧
      (w.write_all es).max_events_per_chunk_ = w.max_events_per_chunk_ := by
  induction es with
  | nil => intro w hne; exact ⟨hne, by simp [write_all], rfl, rfl⟩
  | cons e es ih =>
    intro w hne
    obtain ⟨_, h2, h3, h4, h5⟩ := write_spec w e hne
    obtain ⟨i1, i2, i3, i4⟩ := ih (w.write e).2 h2
    have hstep : w.write_all (e :: es) = (w.write e).2.write_all es := rfl
    rw [hstep]
    refine ⟨i1, ?_, i3.trans h4, i4.trans h5⟩
    rw [i2, h3]
    simp

theorem written_spec (s : segment) (hne : ∀ ch ∈ s.chunks_, ch ≠ [])
    (c : Nat) (es : List event) :
    (∀ ch ∈ (written s c es).segment_.chunks_, ch ≠ []) ∧
    (written s c es).chunk_ = [] ∧
    (written s c es).segment_.all_events = s.all_events ++ es ∧
    (written s c es).segment_.base_ = s.base_ ∧
    (written s c es).max_events_per_chunk_ = c := by
  obtain ⟨h1, h2, h3, h4⟩ := write_all_spec es (make s c) hne
  obtain ⟨_, f2, f3, f4, f5, f6⟩ := flush_spec ((make s c).write_all es) h1
  refine ⟨f2, f3, ?_, f5.trans h3, f6.trans h4⟩
  rw [written, f4, h2]
  simp [make]

theorem write_all_pending (es : List event) :
    ∀ w : writer, w.chunk_.length + es.length < w.max_events_per_chunk_ →
      w.write_all es = { w with chunk_ := w.chunk_ ++ es } := by
  induction es with
  | nil => intro w _; simp [write_all]
  | cons e es ih =>
    intro w h
    have hw : (w.write e).2 = { w with chunk_ := w.chunk_ ++ [e] } := by
      unfold write
      have : ¬ (w.chunk_ ++ [e]).length ≥ w.max_events_per_chunk_ := by
        simp at h ⊢
        omega
      simp only [this, if_false]
    have hstep : w.write_all (e :: es) = (w.write e).2.write_all es := rfl
    rw [hstep, hw, ih]
    · simp
    · simp at h ⊢
      omega

end writer

theorem segment_events_length (s : segment) :
    s.events = s.all_events.length := by
  unfold segment.events segment.all_events
  rw [List.length_flatten]

/-- C28: for every chunk size `c` (in particular `c >= 1`) and every sequence
`es` of events
written through a writer to a fresh segment and flushed, the segment
reports
`events() == es.length`, and the successive `read()` calls of a fresh reader
return exactly the events of `es` in insertion order and from then on report
the end. Events written after the flush that do not fill a chunk stay pending
in the writer: the first segment is as before, and after `attach_to` a fresh
segment and `flush()` that segment holds exactly the pending events, which a
fresh reader returns in order. -/
theorem segment_write_read (c : Nat) (es : List event) :
    (writer.written {} c es).segment_.events = es.length ∧
    (∀ k, ((reader.reads (writer.written {} c es).segment_ {} k).read
      (writer.written {} c es).segment_).1 = es[k]?) ∧
    (∀ es2 : List event, es2.length < c →
      (((writer.written {} c es).write_all es2).attach_to {}).1 =
        (writer.written {} c es).segment_ ∧
      (((writer.written {} c es).write_all es2).attach_to {}).2.flush.2.segment_.events
        = es2.length ∧
      ∀ k, ((reader.reads
          (((writer.written {} c es).write_all es2).attach_to
            {}).2.flush.2.segment_ {} k).read
          (((writer.written {} c es).write_all es2).attach_to
            {}).2.flush.2.segment_).1 = es2[k]?) := by
  obtain ⟨h1, h2, h3, h4, h5⟩ :=
    writer.written_spec {} (fun ch h => by simp at h) c es
  have hall : (writer.written {} c es).segment_.all_events = es := by
    rw [h3]
    simp [segment.all_events]
  have hnum : ∀ (s : segment), s.base_ = 0 → ∀ k (o : Option event),
      o.map (s.numbered k) = o := by
    intro s hs k o
    cases o with
    | none => rfl
    | some e => simp [segment.numbered, hs]
  refine ⟨by rw [segment_events_length, hall], ?_, ?_⟩
  · intro k
    rw [reader.read_fresh _ h1, hall]
    exact hnum _ h4 k _
  · intro es2 hes2
    have hw : (writer.written {} c es).write_all es2 =
        { writer.written {} c es with chunk_ := es2 } := by
      rw [writer.write_all_pending es2 _ (by rw [h2, h5]; simpa using hes2),
        h2]
      simp
    rw [hw]
    obtain ⟨_, f2, _, f4, f5, _⟩ := writer.flush_spec
      (({ writer.written {} c es with chunk_ := es2 } : writer).attach_to
        {}).2 (fun ch h => by simp [writer.attach_to] at h)
    have hall2 : (({ writer.written {} c es with chunk_ := es2 } :
        writer).attach_to {}).2.flush.2.segment_.all_events = es2 := by
      rw [f4]
      simp [writer.attach_to, segment.all_events]
    refine ⟨rfl, by rw [segment_events_length, hall2], ?_⟩
    intro k
    rw [reader.read_fresh _ f2, hall2]
    exact hnum _ (by rw [f5]; rfl) k _

theorem segment_write_read_witness :
    (writer.written {} 256 ((List.range 1124).map value_event)).segment_.events
      = ((List.range 1124).map value_event).length ∧
    (∀ k, ((reader.reads
        (writer.written {} 256 ((List.range 1124).map value_event)).segment_
        {} k).read
        (writer.written {} 256 ((List.range 1124).map value_event)).segment_).1
      = ((List.range 1124).map value_event)[k]?) ∧
    ((((writer.written {} 256 ((List.range 1124).map value_event)).write_all
        ((List.range 50).map value_event)).attach_to
          {}).2.flush.2.segment_.events
      = ((List.range 50).map value_event).length) :=
  ⟨(segment_write_read 256 ((List.range 1124).map value_event)).1,
    (segment_write_read 256 ((List.range 1124).map value_event)).2.1,
    ((segment_write_read 256 ((List.range 1124).map value_event)).2.2
      ((List.range 50).map value_event) (by simp)).2.1⟩

/-! ## Segments: seeking and loading -/

namespace reader

theorem seek_iff (s : segment) (r : reader) (id : Nat) :
    (r.seek s id).1 = true ↔ s.base_ ≤ id ∧ id < s.base_ + s.events := by
  unfold seek
  by_cases h : id < s.base_ ∨ id ≥ s.base_ + s.events
  · rw [if_pos h]
    simp only [Bool.false_eq_true, false_iff]
    omega
  · rw [if_neg h]
    simp only [true_iff]
    omega

theorem seek_success (s : segment) (r : reader) (id : Nat)
    (h : (r.seek s id).1 = true) :
    (r.seek s id).2 = at_position s (id - s.base_) := by
  have hr := (seek_iff s r id).1 h
  unfold seek
  rw [if_neg (by omega)]
  rfl

theorem seek_failure (s : segment) (r : reader) (id : Nat)
    (h : (r.seek s id).1 = false) : (r.seek s id).2 = r := by
  unfold seek at h ⊢
  by_cases hc : id < s.base_ ∨ id ≥ s.base_ + s.events
  · rw [if_pos hc]
  · rw [if_neg hc] at h
    cases h

end reader

/-- Counterexample to C29 as stated: on a segment with base 0 that holds the
events `event{0}`, `event{1}`, `event{2}`, written with two events per chunk,
`seek(1)` succeeds and the next `read()` returns `event{1}` as it was written;
its id is 0, not the id 1 that was sought. -/
theorem segment_seek_base_zero :
    (({} : reader).seek (writer.written (segment.base {} 0) 2
      [value_event 0, value_event 1, value_event 2]).segment_ 1).1 = true ∧
    ((({} : reader).seek (writer.written (segment.base {} 0) 2
        [value_event 0, value_event 1, value_event 2]).segment_ 1).2.read
      (writer.written (segment.base {} 0) 2
        [value_event 0, value_event 1, value_event 2]).segment_).1 =
      some (value_event 1) ∧
    (value_event 1).id = 0 :=
  ⟨rfl, rfl, rfl⟩

/-- C29, amended: for a segment with base `b` that holds the events `es`,
written through a writer with any chunk size, for every cursor and every `id`:
`seek(id)` returns true exactly when `b <= id < b + n`; after a successful
seek the next `read()` returns the event written at position `id - b`, and it
carries exactly the id `id` when the base is a valid id (`b >= 1`), while on a
segment with base 0 it is returned as it was written; a failed seek leaves the
cursor unchanged. -/
theorem segment_seek (c : Nat) (es : List event) (b : Nat) (r : reader)
    (id : Nat) :
    ((r.seek (writer.written (segment.base {} b) c es).segment_ id).1 = true
      ↔ b ≤ id ∧ id < b + es.length) ∧
    ((r.seek (writer.written (segment.base {} b) c es).segment_ id).1 = true →
      ∃ e, es[id - b]? = some e ∧
        ((r.seek (writer.written (segment.base {} b) c es).segment_ id).2.read
          (writer.written (segment.base {} b) c es).segment_).1 =
          some (if 0 < b then { e with id := id } else e)) ∧
    ((r.seek (writer.written (segment.base {} b) c es).segment_ id).1 = false →
      (r.seek (writer.written (segment.base {} b) c es).segment_ id).2 = r) := by
  obtain ⟨h1, h2, h3, h4, h5⟩ :=
    writer.written_spec (segment.base {} b) (fun ch h => by
      simp [segment.base] at h) c es
  have hall : (writer.written (segment.base {} b) c es).segment_.all_events
      = es := by
    rw [h3]
    simp [segment.all_events, segment.base]
  have hbase : (writer.written (segment.base {} b) c es).segment_.base_ = b :=
    h4
  have hev : (writer.written (segment.base {} b) c es).segment_.events
      = es.length := by
    rw [segment_events_length, hall]
  generalize (writer.written (segment.base {} b) c es).segment_ = s at *
  refine ⟨?_, ?_, reader.seek_failure s r id⟩
  · rw [reader.seek_iff, hbase, hev]
  · intro hs
    have hr := (reader.seek_iff s r id).1 hs
    rw [hbase, hev] at hr
    have hlt : id - b < es.length := by omega
    refine ⟨es.get ⟨id - b, hlt⟩, List.getElem?_eq_getElem hlt, ?_⟩
    rw [reader.seek_success s r id hs, hbase,
      reader.read_at_position s h1 (id - b) (es.get ⟨id - b, hlt⟩)
        (by rw [hall]; exact List.getElem?_eq_getElem hlt)]
    simp only [segment.numbered, hbase]
    by_cases hb : 0 < b
    · simp only [hb, if_true]
      rw [show b + (id - b) = id by omega]
    · simp only [hb, if_false]

theorem segment_seek_witness :
    (({} : reader).seek (writer.written (segment.base {} 1000) 256
        seeking_events).segment_ 1042).1 = true ∧
    (({} : reader).seek (writer.written (segment.base {} 1000) 256
        seeking_events).segment_ 2023).1 = true ∧
    (({} : reader).seek (writer.written (segment.base {} 1000) 256
        seeking_events).segment_ 999).1 = false ∧
    (({} : reader).seek (writer.written (segment.base {} 1000) 256
        seeking_events).segment_ 2024).1 = false :=
  ⟨(segment_seek 256 seeking_events 1000 {} 1042).1.2
      ⟨by decide, by simp [seeking_events]⟩,
    (segment_seek 256 seeking_events 1000 {} 2023).1.2
      ⟨by decide, by simp [seeking_events]⟩,
    Bool.eq_false_iff.2 (fun h =>
      absurd ((segment_seek 256 seeking_events 1000 {} 999).1.1 h).1
        (by decide)),
    Bool.eq_false_iff.2 (fun h =>
      absurd ((segment_seek 256 seeking_events 1000 {} 2024).1.1 h).2
        (by simp [seeking_events]))⟩

/-- Counterexample to C30 as stated: for the events `event{0}`, `event{1}`,
`event{2}`, written with two events per chunk, and the base then set to 0,
`load(0 + 1)` returns `event{1}` as it was written, whose id is 0 and not
`0 + 1`. -/
theorem segment_load_base_zero :
    ((writer.written {} 2
      [value_event 0, value_event 1, value_event 2]).segment_.base 0).load
        (0 + 1) = some (value_event 1) ∧
    (value_event 1).id ≠ 0 + 1 :=
  ⟨rfl, by decide⟩

/-- C30, amended: for a segment that holds the events `es`, written in order
through a writer with any chunk size, whose base is then set to `b`: for every
position `k` of an event `e` of `es`, `load(b + k)` returns the event `e`,
with the id `b + k` when the base is a valid id (`b >= 1`) and as it was
written when the base is 0. -/
theorem segment_load (c : Nat) (es : List event) (b : Nat)
    (k : Nat) (e : event) (hk : es[k]? = some e) :
    ((writer.written {} c es).segment_.base b).load (b + k) =
      some (if 0 < b then { e with id := b + k } else e) := by
  obtain ⟨h1, h2, h3, h4, h5⟩ :=
    writer.written_spec {} (fun ch h => by simp at h) c es
  have hall : ((writer.written {} c es).segment_.base b).all_events = es := by
    have : ((writer.written {} c es).segment_.base b).all_events =
        (writer.written {} c es).segment_.all_events := rfl
    rw [this, h3]
    simp [segment.all_events]
  have hne : ∀ ch ∈ ((writer.written {} c es).segment_.base b).chunks_,
      ch ≠ [] := h1
  have hbase : ((writer.written {} c es).segment_.base b).base_ = b := rfl
  have hev : ((writer.written {} c es).segment_.base b).events = es.length := by
    rw [segment_events_length, hall]
  generalize (writer.written {} c es).segment_.base b = s at *
  have hlt : k < es.length := (List.getElem?_eq_some.1 hk).1
  have hs : (reader.seek s {} (b + k)).1 = true := by
    rw [reader.seek_iff, hbase, hev]
    omega
  unfold segment.load reader.read_id
  rw [if_pos hs, reader.seek_success s {} (b + k) hs, hbase,
    show b + k - b = k by omega,
    reader.read_at_position s hne k e (by rw [hall]; exact hk)]
  simp only [segment.numbered, hbase]

theorem segment_load_witness :
    ((List.range 256).map value_event)[42]? = some (value_event 42) ∧
    ((writer.written {} 10 ((List.range 256).map value_event)).segment_.base
        42).load (42 + 42) =
      some (if 0 < 42 then { value_event 42 with id := 42 + 42 }
        else value_event 42) :=
  ⟨by simp,
    segment_load 10 ((List.range 256).map value_event) 42 42
      (value_event 42) (by simp)⟩

/-! ## The range coder: `less` away from the smallest value -/

/-- C32: on a range-coded bitmap over the integral type `t` with the identity
binner, built by `push_back` and `append(n, false)` calls, for every `v` of
the type strictly greater than its smallest value, `lookup(less, v)` has bit
`i` set exactly when position `i` was written by a `push_back` (so it is
valid) of a value strictly less than `v`. -/
theorem range_lookup_less_sound (t : integral_type) (hw : 0 < t.width)
    (ops : List (bitmap_op Int)) (hg : gaps_false ops) (v : Int)
    (hv : t.holds v) (hne : v ≠ t.lowest) :
    ∃ r, (run_ops (range_coder.policy (some t.ops)) null_binner
          (range_bitmap Int) ops).lookup (range_coder.policy (some t.ops))
          null_binner .less v = .ok r ∧
      ∀ i, result_bit r i = true ↔
        ∃ x, (written ops)[i]? = some (some x) ∧ x < v := by
  have hinv := range_coder.inv_run (some t.ops) ops hg
  generalize run_ops (range_coder.policy (some t.ops)) null_binner
    (range_bitmap Int) ops = bm at hinv ⊢
  have hp : t.ops.pred v = v - 1 := wrap_pred t hw v hv hne
  have hl : ¬ v = t.ops.lowest := hne
  have hdec : (range_coder.policy (some t.ops)).decode bm.coder_
      (null_binner v) .less =
      .ok (range_coder.decode_less_equal bm.coder_ (v - 1)) := by
    simp [range_coder.policy, range_coder.decode, range_coder.decode_less,
      null_binner, hl, hp]
  refine lookup_sound _ null_binner bm (written ops) hinv.valid_eq .less v _
    hdec (fun x => x < v) ?_
  intro i y hy
  rw [range_coder.decode_less_equal_sound bm _ hinv (v - 1) i y hy]
  by_cases hyv : y ≤ v - 1
  · have : y < v := by omega
    simp [hyv, this]
  · have : ¬ y < v := by omega
    simp [hyv, this]

theorem range_lookup_less_sound_witness :
    0 < uint8_t.width ∧ gaps_false uint8_gap_ops ∧ uint8_t.holds 5 ∧
    (5 : Int) ≠ uint8_t.lowest ∧
    ∃ r, (run_ops (range_coder.policy (some uint8_t.ops)) null_binner
          (range_bitmap Int) uint8_gap_ops).lookup
          (range_coder.policy (some uint8_t.ops)) null_binner
          .less 5 = .ok r ∧
      ∀ i, result_bit r i = true ↔
        ∃ x, (written uint8_gap_ops)[i]? = some (some x) ∧ x < 5 :=
  ⟨by decide, by decide, by decide, by decide,
    range_lookup_less_sound uint8_t (by decide) uint8_gap_ops
      (by decide) 5 (by decide) (by decide)⟩

/-! ## The equality coder is one-hot -/

theorem equality_encode_mem {T : Type} [DecidableEq T]
    (s : unordered_storage T) (x : T) :
    ∀ q ∈ (equality_coder.encode s x).2.map_,
      ∃ p, (p ∈ s.map_ ∨ p = (x, bitstream.make s.rows false)) ∧
        q = (p.1, p.2.push_back (decide (x = p.1))) := by
  intro q hq
  by_cases hf : (s.find x).isNone = true
  · have hnone : s.map_.find? (fun p => decide (p.1 = x)) = none := by
      unfold unordered_storage.find at hf
      simpa using hf
    have he : (equality_coder.encode s x).2.map_ =
        (s.map_ ++ [(x, bitstream.make s.rows false)]).map
          (fun p => (p.1, p.2.push_back (decide (x = p.1)))) := by
      simp [equality_coder.encode, hf, unordered_storage.insert, hnone,
        unordered_storage.each]
    rw [he] at hq
    obtain ⟨p, hp, rfl⟩ := List.mem_map.1 hq
    refine ⟨p, ?_, rfl⟩
    rcases List.mem_append.1 hp with h | h
    · exact Or.inl h
    · exact Or.inr (by simpa using h)
  · have he : (equality_coder.encode s x).2.map_ =
        s.map_.map (fun p => (p.1, p.2.push_back (decide (x = p.1)))) := by
      simp [equality_coder.encode, hf, unordered_storage.each]
    rw [he] at hq
    obtain ⟨p, hp, rfl⟩ := List.mem_map.1 hq
    exact ⟨p, Or.inl hp, rfl⟩

theorem equality_gaps_run {T : Type} [DecidableEq T]
    (ops : List (bitmap_op T)) (hg : gaps_false ops) :
    equality_gaps_clear
      (run_ops equality_coder.policy null_binner (equality_bitmap T) ops)
      (written ops) := by
  have h := run_ops_induct (equality_coder.policy (T := T)) null_binner
    (fun bm w => equality_inv bm w ∧ equality_gaps_clear bm w)
    (fun bm w x hI => by
      obtain ⟨hinv, hgap⟩ := hI
      obtain ⟨s1, h1, h2⟩ :=
        equality_coder.eq_inv_encode bm.coder_ bm.valid_ w hinv x
      have e : (bm.push_back equality_coder.policy null_binner x).2 =
          { coder_ := s1, valid_ := bm.valid_.push_back true } := by
        simp [bitmap.push_back, equality_coder.policy, null_binner, h1]
      rw [e]
      refine ⟨h2, ?_⟩
      intro q hq i hi
      have hs1 : s1 = (equality_coder.encode bm.coder_ x).2 := by rw [h1]
      have hq1 : q ∈ (equality_coder.encode bm.coder_ x).2.map_ := by
        rw [← hs1]
        exact hq
      obtain ⟨p, hp, rfl⟩ := equality_encode_mem bm.coder_ x q hq1
      have hi1 : (w ++ [some x])[i]? = some none := by simpa [written] using hi
      obtain ⟨hlt, hwi⟩ : i < w.length ∧ w[i]? = some none := by
        rcases range_coder.getElem?_snoc_some w _ _ i hi1 with h | ⟨_, h⟩
        · exact h
        · cases h
      show (p.2.push_back (decide (x = p.1))).test i = false
      rcases hp with hp | hp
      · rw [bitstream.test_push_back, hinv.len p hp]
        simp only [hlt, if_true]
        exact hgap p hp i hwi
      · subst hp
        rw [bitstream.test_push_back]
        simp [bitstream.length_make, hinv.rows_eq, hlt, bitstream.test_make])
    (fun bm w n hI => by
      obtain ⟨hinv, hgap⟩ := hI
      obtain ⟨s1, h1, h2⟩ :=
        equality_coder.eq_inv_append bm.coder_ bm.valid_ w hinv n
      have e : (bm.append equality_coder.policy n false).2 =
          { coder_ := s1, valid_ := bm.valid_.append n false } := by
        simp [bitmap.append, equality_coder.policy, h1]
      rw [e]
      refine ⟨h2, ?_⟩
      intro q hq i hi
      have hs1 : s1.map_ = bm.coder_.map_.map
          (fun p => (p.1, p.2.append n false)) := by
        have : s1 = (equality_coder.append bm.coder_ n false).2 := by rw [h1]
        rw [this]
        simp [equality_coder.append, unordered_storage.each]
      have hq1 : q ∈ bm.coder_.map_.map
          (fun p => (p.1, p.2.append n false)) := by
        rw [← hs1]
        exact hq
      obtain ⟨p, hp, rfl⟩ := List.mem_map.1 hq1
      show (p.2.append n false).test i = false
      rw [bitstream.test_append, hinv.len p hp]
      by_cases hlt : i < w.length
      · simp only [hlt, if_true]
        apply hgap p hp i
        rw [List.getElem?_append_left hlt] at hi
        exact hi
      · simp [hlt])
    ops (equality_bitmap T) [] hg
    ⟨equality_coder.eq_inv_init, fun p hp => by simp [equality_bitmap] at hp⟩
  simpa using h.2


theorem equality_one_hot_null {T : Type} [DecidableEq T]
    (ops : List (bitmap_op T)) (hg : gaps_false ops) :
    (∀ (i : Nat) (y : T), (written ops)[i]? = some (some y) →
      ∃ b, (run_ops equality_coder.policy null_binner (equality_bitmap T)
          ops).coder_.find y = some b ∧ b.test i = true ∧
        ∀ p ∈ (run_ops equality_coder.policy null_binner (equality_bitmap T)
          ops).coder_.map_, p.2.test i = true → p = (y, b)) ∧
    (∀ (i : Nat), (written ops)[i]? = some none →
      ∀ p ∈ (run_ops equality_coder.policy null_binner (equality_bitmap T)
        ops).coder_.map_, p.2.test i = false) := by
  have hinv := equality_coder.eq_inv_run ops hg
  have hgap := equality_gaps_run ops hg
  generalize run_ops equality_coder.policy null_binner (equality_bitmap T)
    ops = bm at hinv hgap ⊢
  refine ⟨?_, fun i hi p hp => hgap p hp i hi⟩
  intro i y hy
  obtain ⟨b, hb⟩ := hinv.keys i y hy
  refine ⟨b, (equality_coder.eq_find_eq_some_iff _ hinv.nodup y b).2 hb, ?_, ?_⟩
  · have := hinv.bits (y, b) hb i y hy
    simpa using this
  · intro p hp ht
    have hpb := hinv.bits p hp i y hy
    rw [ht] at hpb
    have hkey : y = p.1 := of_decide_eq_true hpb.symm
    have hf1 := (equality_coder.eq_find_eq_some_iff _ hinv.nodup p.1 p.2).2 hp
    have hf2 := (equality_coder.eq_find_eq_some_iff _ hinv.nodup y b).2 hb
    rw [← hkey, hf2] at hf1
    have : b = p.2 := Option.some.inj hf1
    exact Prod.ext hkey.symm this.symm

/-- C33, amended: in every equality-coded bitmap over a value type on which
`==` is equality (every value type but `double` with NaN), with any binner,
built by `push_back` and `append(n, false)` calls, at each position written by
a `push_back` of `y` exactly one stored bitstream has its bit set, the one
keyed by the binned value of `y`, and at each gap position no stored bitstream
has its bit set. -/
theorem equality_one_hot {T : Type} [DecidableEq T] (binner : T → T)
    (ops : List (bitmap_op T)) (hg : gaps_false ops) :
    (∀ (i : Nat) (y : T), (written ops)[i]? = some (some y) →
      ∃ b, (run_ops equality_coder.policy binner (equality_bitmap T)
          ops).coder_.find (binner y) = some b ∧ b.test i = true ∧
        ∀ p ∈ (run_ops equality_coder.policy binner (equality_bitmap T)
          ops).coder_.map_, p.2.test i = true → p = (binner y, b)) ∧
    (∀ (i : Nat), (written ops)[i]? = some none →
      ∀ p ∈ (run_ops equality_coder.policy binner (equality_bitmap T)
        ops).coder_.map_, p.2.test i = false) := by
  rw [run_ops_binned]
  obtain ⟨h1, h2⟩ := equality_one_hot_null (binned binner ops)
    (gaps_false_binned binner ops hg)
  refine ⟨?_, ?_⟩
  · intro i y hy
    apply h1 i (binner y)
    rw [written_binned, List.getElem?_map, hy]
    rfl
  · intro i hi
    exact h2 i (gap_binned binner ops i hi)

theorem equality_one_hot_witness :
    gaps_false [bitmap_op.push_back (10 : Int), .append 2 false,
      .push_back 25, .push_back 17] ∧
    (∀ (i : Nat) (y : Int),
      (written [bitmap_op.push_back (10 : Int), .append 2 false,
        .push_back 25, .push_back 17])[i]? = some (some y) →
      ∃ b, (run_ops equality_coder.policy (fun x => x / 10)
          (equality_bitmap Int) [.push_back 10, .append 2 false,
            .push_back 25, .push_back 17]).coder_.find (y / 10) = some b ∧
        b.test i = true ∧
        ∀ p ∈ (run_ops equality_coder.policy (fun x => x / 10)
          (equality_bitmap Int) [.push_back 10, .append 2 false,
            .push_back 25, .push_back 17]).coder_.map_,
          p.2.test i = true → p = (y / 10, b)) :=
  ⟨by decide, (equality_one_hot (fun x => x / 10)
    [bitmap_op.push_back (10 : Int), .append 2 false, .push_back 25,
      .push_back 17] (by decide)).1⟩

/-! ## The length invariant -/

theorem range_append_uniform {T : Type} (s : list_storage T) (hu : s.uniform)
    (n : Nat) (bit : Bool) : (range_coder.append s n bit).2.uniform := by
  intro q hq
  have hq1 : q ∈ s.list_.map (fun p => (p.1, p.2.append n bit)) := hq
  obtain ⟨p, hp, rfl⟩ := List.mem_map.1 hq1
  show (p.2.append n bit).length = s.rows + n
  rw [bitstream.length_append, hu p hp]

namespace range_coder

variable {T : Type} [LinearOrder T]

theorem seed_rule_length (s : list_storage T) (h : s.wf) (hu : s.uniform)
    (x : T) : (seed_rule s x).length = s.rows := by
  unfold seed_rule
  cases h1 : (s.find_bounds x).1 with
  | none => cases h2 : (s.find_bounds x).2 <;> simp [bitstream.length_make]
  | some l =>
    obtain ⟨L, hL, _, _⟩ := list_storage.find_bounds_fst_some s h.1 x l h1
    cases h2 : (s.find_bounds x).2 with
    | none => simp [bitstream.length_make]
    | some u => exact hu (L, l) hL

theorem encode_uniform (s : list_storage T) (h : s.wf) (hu : s.uniform)
    (x : T) : (encode s x).2.uniform := by
  cases hf : s.find x with
  | some b =>
    have he : encode s x = (true,
        { s.each (fun k bs => bs.push_back (decide (x ≤ k))) with
          rows := s.rows + 1 }) := by
      simp [encode, hf, list_storage.each]
    rw [he]
    intro q hq
    have hq1 : q ∈ s.list_.map
        (fun p => (p.1, p.2.push_back (decide (x ≤ p.1)))) := hq
    obtain ⟨p, hp, rfl⟩ := List.mem_map.1 hq1
    show (p.2.push_back _).length = s.rows + 1
    rw [bitstream.length_push_back, hu p hp]
  | none =>
    obtain ⟨s1, h1, hwf, hrows, hmem⟩ :=
      list_storage.wf_insert_new s h x (seed_rule s x) hf
    have he : encode s x = (true,
        { s1.each (fun k bs => bs.push_back (decide (x ≤ k))) with
          rows := s.rows + 1 }) := by
      simp [encode, hf, insert_seeded_eq, h1, list_storage.each, hrows]
    rw [he]
    intro q hq
    have hq1 : q ∈ s1.list_.map
        (fun p => (p.1, p.2.push_back (decide (x ≤ p.1)))) := hq
    obtain ⟨p, hp, rfl⟩ := List.mem_map.1 hq1
    show (p.2.push_back _).length = s.rows + 1
    rw [bitstream.length_push_back]
    rcases (hmem p).1 hp with rfl | hold
    · rw [seed_rule_length s h hu x]
    · rw [hu p hold]

theorem uniform_run (integral : Option (integral_ops T)) (binner : T → T)
    (ops : List (bitmap_op T)) :
    (run_ops (policy integral) binner (range_bitmap T) ops).coder_.wf ∧
    (run_ops (policy integral) binner (range_bitmap T) ops).coder_.uniform ∧
    (run_ops (policy integral) binner (range_bitmap T) ops).valid_.length =
      (run_ops (policy integral) binner (range_bitmap T) ops).coder_.rows :=
  run_ops_induct_all (policy integral) binner
    (fun bm => bm.coder_.wf ∧ bm.coder_.uniform ∧
      bm.valid_.length = bm.coder_.rows)
    (fun bm x h => by
      obtain ⟨hwf, hu, hv⟩ := h
      obtain ⟨h1, h2, h3⟩ := encode_wf bm.coder_ hwf (binner x)
      have h1a : ((policy integral).encode bm.coder_ (binner x)).1 = true := h1
      have e : (bm.push_back (policy integral) binner x).2 =
          { coder_ := (encode bm.coder_ (binner x)).2,
            valid_ := bm.valid_.push_back true } := by
        simp only [bitmap.push_back, h1a, if_true]
        rfl
      rw [e]
      refine ⟨h2, encode_uniform bm.coder_ hwf hu (binner x), ?_⟩
      show (bm.valid_.push_back true).length = (encode bm.coder_ (binner x)).2.rows
      rw [bitstream.length_push_back, h3, hv])
    (fun bm n bit h => by
      obtain ⟨hwf, hu, hv⟩ := h
      refine ⟨(append_wf bm.coder_ hwf n bit).2.1,
        range_append_uniform bm.coder_ hu n bit, ?_⟩
      show (bm.valid_.append n bit).length = bm.coder_.rows + n
      rw [bitstream.length_append, hv])
    ops (range_bitmap T)
    ⟨list_storage.wf_empty, fun p hp => by simp [range_bitmap] at hp, rfl⟩

theorem decode_less_equal_rows (s : list_storage T) (h : s.wf)
    (hu : s.uniform) (v : T) (r : bitstream)
    (hr : decode_less_equal s v = some r) : r.length = s.rows := by
  unfold decode_less_equal at hr
  cases hf : s.find v with
  | some b =>
    have hb := (list_storage.find_eq_some_iff _ h.1 h.2 v b).1 hf
    simp only [hf, Option.some.injEq] at hr
    exact hr ▸ hu (v, b) hb
  | none =>
    cases hlo : (s.find_bounds v).1 with
    | some lower =>
      obtain ⟨L, hL, _, _⟩ := list_storage.find_bounds_fst_some _ h.1 v lower hlo
      simp only [hf, hlo, Option.some.injEq] at hr
      exact hr ▸ hu (L, lower) hL
    | none => simp [hf, hlo] at hr

theorem decode_equal_rows (s : list_storage T) (h : s.wf) (hu : s.uniform)
    (v : T) (r : bitstream) (hr : decode_equal s v = some r) :
    r.length = s.rows := by
  unfold decode_equal at hr
  cases hd : decode_less_equal s v with
  | none => simp [hd] at hr
  | some le =>
    have hlen := decode_less_equal_rows s h hu v le hd
    cases hlo : (s.find_bounds v).1 with
    | none =>
      simp only [hd, hlo, Option.some.injEq] at hr
      exact hr ▸ hlen
    | some first =>
      obtain ⟨L, hL, _, _⟩ := list_storage.find_bounds_fst_some _ h.1 v first hlo
      simp only [hd, hlo, Option.some.injEq] at hr
      rw [← hr, bitstream.length_and, hlen]
      rw [bitstream.length_flip, hlen, hu (L, first) hL]

theorem decode_rows (integral : Option (integral_ops T)) (s : list_storage T)
    (h : s.wf) (hu : s.uniform) (op : relational_operator) (x : T)
    (r : bitstream) (hr : decode integral s x op = .ok (some r)) :
    r.length = s.rows := by
  have hle := decode_less_equal_rows s h hu
  have heq := decode_equal_rows s h hu
  have hless : ∀ o, decode_less integral s x = .ok o →
      ∀ d, o = some d → d.length = s.rows := by
    intro o ho d hd
    subst hd
    unfold decode_less at ho
    cases integral with
    | none => simp at ho
    | some ops =>
      by_cases hx : x = ops.lowest
      · simp only [hx, if_true, Except.ok.injEq] at ho
        exact hle _ d (by rw [← hx] at ho; exact ho)
      · simp only [hx, if_false, Except.ok.injEq] at ho
        exact hle _ d ho
  cases op with
  | match_op => simp [decode] at hr
  | in_op => simp [decode] at hr
  | less => exact hless _ hr r rfl
  | less_equal =>
    simp only [decode, Except.ok.injEq] at hr
    exact hle x r hr
  | greater =>
    simp only [decode] at hr
    cases hd : decode_less_equal s x with
    | none =>
      simp only [hd, Except.ok.injEq, Option.some.injEq] at hr
      rw [← hr, bitstream.length_make]
    | some d =>
      simp only [hd, Except.ok.injEq, Option.some.injEq] at hr
      rw [← hr, bitstream.length_flip]
      exact hle x d hd
  | greater_equal =>
    simp only [decode] at hr
    cases hd : decode_less integral s x with
    | error e => simp [hd] at hr
    | ok o =>
      cases o with
      | none =>
        simp only [hd, Except.ok.injEq, Option.some.injEq] at hr
        rw [← hr, bitstream.length_make]
      | some d =>
        simp only [hd, Except.ok.injEq, Option.some.injEq] at hr
        rw [← hr, bitstream.length_flip]
        exact hless _ hd d rfl
  | equal =>
    simp only [decode, Except.ok.injEq] at hr
    exact heq x r hr
  | not_equal =>
    simp only [decode] at hr
    cases hd : decode_equal s x with
    | none =>
      simp only [hd, Except.ok.injEq, Option.some.injEq] at hr
      rw [← hr, bitstream.length_make]
    | some d =>
      simp only [hd, Except.ok.injEq, Option.some.injEq] at hr
      rw [← hr, bitstream.length_flip]
      exact heq x d hd

end range_coder
theorem equality_encode_uniform {T : Type} [DecidableEq T]
    (s : unordered_storage T) (hu : s.uniform) (x : T) :
    (equality_coder.encode s x).2.uniform ∧
      (equality_coder.encode s x).2.rows = s.rows + 1 ∧
      (equality_coder.encode s x).1 = true := by
  have hrows := (equality_encode_rows s x)
  refine ⟨?_, hrows.2, hrows.1⟩
  intro q hq
  obtain ⟨p, hp, rfl⟩ := equality_encode_mem s x q hq
  rw [hrows.2]
  show (p.2.push_back _).length = s.rows + 1
  rw [bitstream.length_push_back]
  rcases hp with hp | rfl
  · rw [hu p hp]
  · rw [bitstream.length_make]

theorem equality_append_uniform {T : Type} (s : unordered_storage T)
    (hu : s.uniform) (n : Nat) (bit : Bool) :
    (equality_coder.append s n bit).2.uniform := by
  intro q hq
  have hq1 : q ∈ s.map_.map (fun p => (p.1, p.2.append n bit)) := hq
  obtain ⟨p, hp, rfl⟩ := List.mem_map.1 hq1
  show (p.2.append n bit).length = s.rows + n
  rw [bitstream.length_append, hu p hp]

theorem equality_uniform_run {T : Type} [DecidableEq T] (binner : T → T)
    (ops : List (bitmap_op T)) :
    (run_ops equality_coder.policy binner (equality_bitmap T)
      ops).coder_.uniform ∧
    (run_ops equality_coder.policy binner (equality_bitmap T)
      ops).valid_.length =
      (run_ops equality_coder.policy binner (equality_bitmap T)
        ops).coder_.rows :=
  run_ops_induct_all equality_coder.policy binner
    (fun bm => bm.coder_.uniform ∧ bm.valid_.length = bm.coder_.rows)
    (fun bm x h => by
      obtain ⟨hu, hv⟩ := h
      obtain ⟨h1, h2, h3⟩ := equality_encode_uniform bm.coder_ hu (binner x)
      have h3a : (equality_coder.policy.encode bm.coder_ (binner x)).1 = true :=
        h3
      have e : (bm.push_back equality_coder.policy binner x).2 =
          { coder_ := (equality_coder.encode bm.coder_ (binner x)).2,
            valid_ := bm.valid_.push_back true } := by
        simp only [bitmap.push_back, h3a, if_true]
        rfl
      rw [e]
      refine ⟨h1, ?_⟩
      show (bm.valid_.push_back true).length =
        (equality_coder.encode bm.coder_ (binner x)).2.rows
      rw [bitstream.length_push_back, h2, hv])
    (fun bm n bit h => by
      obtain ⟨hu, hv⟩ := h
      refine ⟨equality_append_uniform bm.coder_ hu n bit, ?_⟩
      show (bm.valid_.append n bit).length = bm.coder_.rows + n
      rw [bitstream.length_append, hv])
    ops (equality_bitmap T)
    ⟨fun p hp => by simp [equality_bitmap] at hp, rfl⟩

theorem equality_decode_rows {T : Type} [DecidableEq T]
    (s : unordered_storage T) (hu : s.uniform)
    (hn : s.wf) (op : relational_operator) (x : T) (r : bitstream)
    (hr : equality_coder.decode s x op = .ok (some r)) :
    r.length = s.rows := by
  have hfind : ∀ d, s.find x = some d → d.length = s.rows :=
    fun d hd => hu (x, d) ((equality_coder.eq_find_eq_some_iff _ hn x d).1 hd)
  cases op <;> simp only [equality_coder.decode] at hr
  · simp at hr
  · simp at hr
  · cases hd : s.find x with
    | none => simp [hd] at hr
    | some d =>
      simp only [hd, Except.ok.injEq, Option.some.injEq] at hr
      exact hr ▸ hfind d hd
  · cases hd : s.find x with
    | none =>
      simp only [hd, Except.ok.injEq, Option.some.injEq] at hr
      rw [← hr, bitstream.length_make]
    | some d =>
      simp only [hd, Except.ok.injEq, Option.some.injEq] at hr
      rw [← hr, bitstream.length_flip]
      exact hfind d hd
  · simp at hr
  · simp at hr
  · simp at hr
  · simp at hr

theorem vector_each_uniform (s : vector_storage) (hu : s.uniform)
    (f : Nat → bitstream → bitstream) (n : Nat)
    (hf : ∀ i b, (f i b).length = b.length + n) :
    vector_storage.uniform { s.each f with rows := s.rows + n } := by
  intro b hb
  have hb1 : some b ∈ (s.each f).vector_ := hb
  obtain ⟨i, hi⟩ := List.mem_iff_getElem?.1 hb1
  rw [binary_coder.each_getElem?] at hi
  cases hs : s.vector_[i]? with
  | none => simp [hs] at hi
  | some o =>
    cases o with
    | none => simp [hs] at hi
    | some c =>
      simp only [hs, Option.map_some', Option.some.injEq] at hi
      show b.length = s.rows + n
      rw [← hi, hf, hu c (List.getElem?_mem hs)]

theorem binary_uniform_run (t : integral_type) (binner : Int → Int)
    (ops : List (bitmap_op Int)) :
    (run_ops (binary_coder.policy t) binner (binary_bitmap t)
      ops).coder_.uniform ∧
    (run_ops (binary_coder.policy t) binner (binary_bitmap t)
      ops).valid_.length =
      (run_ops (binary_coder.policy t) binner (binary_bitmap t)
        ops).coder_.rows :=
  run_ops_induct_all (binary_coder.policy t) binner
    (fun bm => bm.coder_.uniform ∧ bm.valid_.length = bm.coder_.rows)
    (fun bm x h => by
      obtain ⟨hu, hv⟩ := h
      refine ⟨vector_each_uniform bm.coder_ hu _ 1
        (fun i b => bitstream.length_push_back _ _), ?_⟩
      show (bm.valid_.push_back true).length = bm.coder_.rows + 1
      rw [bitstream.length_push_back, hv])
    (fun bm n bit h => by
      obtain ⟨hu, hv⟩ := h
      refine ⟨vector_each_uniform bm.coder_ hu _ n
        (fun i b => bitstream.length_append _ _ _), ?_⟩
      show (bm.valid_.append n bit).length = bm.coder_.rows + n
      rw [bitstream.length_append, hv])
    ops (binary_bitmap t)
    ⟨by
      intro b hb
      have h := binary_coder.init_fold t.digits
      have hb1 : some b ∈ (binary_coder.init t).vector_ := hb
      unfold binary_coder.init at hb1
      rw [h] at hb1
      have hb2 : b = [] := (Option.some.inj (List.eq_of_mem_replicate hb1))
      subst hb2
      show 0 = (binary_coder.init t).rows
      unfold binary_coder.init
      rw [h], by
      show 0 = (binary_coder.init t).rows
      unfold binary_coder.init
      rw [binary_coder.init_fold t.digits]⟩

theorem find_mem_vector (s : vector_storage) (i : Nat) (b : bitstream)
    (h : s.find i = some b) : some b ∈ s.vector_ := by
  unfold vector_storage.find at h
  by_cases hge : i ≥ s.vector_.length
  · simp [hge] at h
  · simp only [hge, if_false] at h
    cases hs : s.vector_[i]? with
    | none => simp [hs] at h
    | some o =>
      cases o with
      | none => simp [hs] at h
      | some c =>
        simp only [hs, Option.some.injEq] at h
        subst h
        exact List.getElem?_mem hs

theorem binary_fold_rows (s : vector_storage) (hu : s.uniform) (x : Int) :
    ∀ (n : Nat) (init R : bitstream), init.length = s.rows →
      (List.range n).foldlM (binary_coder.decode_step s x) init = .ok R →
      R.length = s.rows := by
  intro n
  induction n with
  | zero =>
    intro init R hi h
    simp only [List.range_zero, List.foldlM_nil] at h
    cases h
    exact hi
  | succ n ih =>
    intro init R hi h
    rw [List.range_succ, List.foldlM_append] at h
    cases h1 : (List.range n).foldlM (binary_coder.decode_step s x) init with
    | error e => simp [h1, bind, Except.bind] at h
    | ok R1 =>
      have hR1 := ih init R1 hi h1
      simp only [h1, bind, Except.bind, List.foldlM_cons, List.foldlM_nil,
        binary_coder.decode_step] at h
      cases hf : s.find n with
      | none => simp [hf, pure, Except.pure] at h
      | some b =>
        have hb := hu b (find_mem_vector s n b hf)
        simp only [hf] at h
        by_cases hbit : binary_coder.bit x n = true
        · simp only [hbit, if_true, pure, Except.pure] at h
          cases h
          rw [bitstream.length_and _ _ (by rw [hR1, hb]), hR1]
        · simp only [hbit, Bool.false_eq_true, if_false, pure,
            Except.pure] at h
          cases h
          rw [bitstream.length_and _ _
            (by rw [hR1, bitstream.length_flip, hb]), hR1]

theorem binary_decode_rows (t : integral_type) (s : vector_storage)
    (hu : s.uniform) (op : relational_operator) (x : Int) (r : bitstream)
    (hr : binary_coder.decode t s x op = .ok (some r)) :
    r.length = s.rows := by
  have heq : ∀ d, binary_coder.decode_equal t s x = .ok (some d) →
      d.length = s.rows := by
    intro d hd
    unfold binary_coder.decode_equal at hd
    cases hf : (List.range t.digits).foldlM (binary_coder.decode_step s x)
        (bitstream.make s.rows true) with
    | error e => simp [hf] at hd
    | ok R =>
      simp only [hf] at hd
      by_cases hff : R.find_first = none
      · simp [hff] at hd
      · simp only [hff, if_false, Except.ok.injEq, Option.some.injEq] at hd
        rw [← hd]
        exact binary_fold_rows s hu x t.digits _ R
          (bitstream.length_make _ _) hf
  cases op <;> simp only [binary_coder.decode] at hr
  · simp at hr
  · simp at hr
  · exact heq r hr
  · cases hd : binary_coder.decode_equal t s x with
    | error e => simp [hd] at hr
    | ok o =>
      cases o with
      | none =>
        simp only [hd, Except.ok.injEq, Option.some.injEq] at hr
        rw [← hr, bitstream.length_make]
      | some d =>
        simp only [hd, Except.ok.injEq, Option.some.injEq] at hr
        rw [← hr, bitstream.length_flip]
        exact heq d hd
  · simp at hr
  · simp at hr
  · simp at hr
  · simp at hr
/-! ## The length invariant of the coders -/

/-- C31: in every bitmap state reached from the empty bitmap by any sequence of
`push_back` and `append` calls, for the range coder, the equality coder and the
binary coder alike, every stored bitstream and the validity bitstream have
length exactly `rows`; every bitstream `decode` returns has that length too, so
the AND with the validity bitstream in `lookup` combines equal lengths, and so
do the AND of `decode` of the range coder (the bitstream for `<=` with the
complement of the lower neighbour) and every AND of the binary coder (the
running result with a stored slice or its complement). -/
theorem length_invariant {T U : Type} [LinearOrder T] [DecidableEq U]
    (integral : Option (integral_ops T)) (binner : T → T)
    (ops : List (bitmap_op T)) (ubinner : U → U) (uops : List (bitmap_op U))
    (t : integral_type) (ibinner : Int → Int) (iops : List (bitmap_op Int)) :
    ((run_ops (range_coder.policy integral) binner (range_bitmap T)
        ops).coder_.uniform ∧
      (run_ops (range_coder.policy integral) binner (range_bitmap T)
        ops).valid_.length =
        (run_ops (range_coder.policy integral) binner (range_bitmap T)
          ops).coder_.rows ∧
      (∀ op x r,
        range_coder.decode integral (run_ops (range_coder.policy integral)
          binner (range_bitmap T) ops).coder_ x op = .ok (some r) →
        r.length = (run_ops (range_coder.policy integral) binner
          (range_bitmap T) ops).valid_.length) ∧
      (∀ v le first,
        range_coder.decode_less_equal (run_ops (range_coder.policy integral)
          binner (range_bitmap T) ops).coder_ v = some le →
        ((run_ops (range_coder.policy integral) binner (range_bitmap T)
          ops).coder_.find_bounds v).1 = some first →
        le.length = first.flip.length)) ∧
    ((run_ops equality_coder.policy ubinner (equality_bitmap U)
        uops).coder_.uniform ∧
      (run_ops equality_coder.policy ubinner (equality_bitmap U)
        uops).valid_.length =
        (run_ops equality_coder.policy ubinner (equality_bitmap U)
          uops).coder_.rows ∧
      (∀ op x r,
        equality_coder.decode (run_ops equality_coder.policy ubinner
          (equality_bitmap U) uops).coder_ x op = .ok (some r) →
        r.length = (run_ops equality_coder.policy ubinner
          (equality_bitmap U) uops).valid_.length)) ∧
    ((run_ops (binary_coder.policy t) ibinner (binary_bitmap t)
        iops).coder_.uniform ∧
      (run_ops (binary_coder.policy t) ibinner (binary_bitmap t)
        iops).valid_.length =
        (run_ops (binary_coder.policy t) ibinner (binary_bitmap t)
          iops).coder_.rows ∧
      (∀ op x r,
        binary_coder.decode t (run_ops (binary_coder.policy t) ibinner
          (binary_bitmap t) iops).coder_ x op = .ok (some r) →
        r.length = (run_ops (binary_coder.policy t) ibinner
          (binary_bitmap t) iops).valid_.length) ∧
      (∀ x n R,
        (List.range n).foldlM
          (binary_coder.decode_step (run_ops (binary_coder.policy t) ibinner
            (binary_bitmap t) iops).coder_ x)
          (bitstream.make (run_ops (binary_coder.policy t) ibinner
            (binary_bitmap t) iops).coder_.rows true) = .ok R →
        R.length = (run_ops (binary_coder.policy t) ibinner
          (binary_bitmap t) iops).coder_.rows)) := by
  obtain ⟨hwf, hu, hv⟩ := range_coder.uniform_run integral binner ops
  have hewf := equality_wf_run ubinner uops
  obtain ⟨heu, hev⟩ := equality_uniform_run ubinner uops
  obtain ⟨hbu, hbv⟩ := binary_uniform_run t ibinner iops
  refine ⟨⟨hu, hv, ?_, ?_⟩, ⟨heu, hev, ?_⟩, ⟨hbu, hbv, ?_, ?_⟩⟩
  · intro op x r hr
    rw [hv]
    exact range_coder.decode_rows integral _ hwf hu op x r hr
  · intro v le first hle hfirst
    rw [range_coder.decode_less_equal_rows _ hwf hu v le hle,
      bitstream.length_flip]
    obtain ⟨L, hL, _, _⟩ := list_storage.find_bounds_fst_some _ hwf.1 v first
      hfirst
    exact (hu (L, first) hL).symm
  · intro op x r hr
    rw [hev]
    exact equality_decode_rows _ heu hewf op x r hr
  · intro op x r hr
    rw [hbv]
    exact binary_decode_rows t _ hbu op x r hr
  · intro x n R hR
    exact binary_fold_rows _ hbu x n _ R (bitstream.length_make _ _) hR

/-! ## The representation invariant of the ordered storage -/

theorem list_visits_eq {T : Type} (s : list_storage T) :
    s.visits = s.list_ := by
  unfold list_storage.visits list_storage.each_const
  have h : ∀ (l acc : List (T × bitstream)),
      l.foldl (fun a p => a ++ [(p.1, p.2)]) acc = acc ++ l := by
    intro l
    induction l with
    | nil => intro acc; simp
    | cons p l ih => intro acc; rw [List.foldl_cons, ih]; simp
  exact (h s.list_ []).trans (by simp)

namespace list_storage

variable {T : Type} [LinearOrder T]

theorem find_insert_isSome (s : list_storage T) (h : s.wf) (x : T)
    (b : bitstream) (y : T) :
    ((s.insert x b).2.find y).isSome = true ↔
      y = x ∨ (s.find y).isSome = true := by
  cases hf : s.find x with
  | none =>
    rw [(list_insert_laws_new s x b h hf).2.2.2 y]
    by_cases hy : y = x
    · simp [hy]
    · simp [hy]
  | some c =>
    rw [insert_dup s h x b (by rw [hf]; rfl)]
    constructor
    · exact fun hs => Or.inr hs
    · rintro (rfl | hs)
      · show (s.find y).isSome = true
        rw [hf]; rfl
      · exact hs

theorem find_fold_isSome (ins : List (T × bitstream)) :
    ∀ s : list_storage T, s.wf → ∀ k,
      ((ins.foldl (fun s p => (s.insert p.1 p.2).2) s).find k).isSome = true ↔
        (s.find k).isSome = true ∨ ∃ b, (k, b) ∈ ins := by
  induction ins with
  | nil => intro s _ k; simp
  | cons p ins ih =>
    intro s h k
    rw [List.foldl_cons, ih _ (wf_insert s h p.1 p.2) k,
      find_insert_isSome s h p.1 p.2 k]
    constructor
    · rintro ((rfl | hs) | ⟨b, hb⟩)
      · exact Or.inr ⟨p.2, List.mem_cons_self _ _⟩
      · exact Or.inl hs
      · exact Or.inr ⟨b, List.mem_cons_of_mem _ hb⟩
    · rintro (hs | ⟨b, hb⟩)
      · exact Or.inl (Or.inr hs)
      · rcases List.mem_cons.1 hb with rfl | hb
        · exact Or.inl (Or.inl rfl)
        · exact Or.inr ⟨b, hb⟩

end list_storage

/-- C37, amended: the representation invariant of `list_storage` over a key
type on which `<` is a strict total order and `==` is equality (every key type
but `double` with NaN). After any sequence of
`insert` calls on an empty storage the keys of the list are strictly ascending
(so no key occurs twice) and the hash table holds exactly the keys of the
list, each one standing for the list node with that key: `find(k)` returns the
bitstream of that node, it is non-null exactly for the keys that were
inserted, and `each` visits the nodes of the list, in strictly ascending order
of the keys. Deserializing what `serialize` wrote for such a storage, into a
default-constructed one, gives a storage with the same list, for which the
invariant holds again and `find` answers as before. -/
theorem list_storage_invariant {T : Type} [LinearOrder T]
    (ins : List (T × bitstream)) :
    (list_storage.build ins).list_.Pairwise (fun p q => p.1 < q.1) ∧
    (∀ k, k ∈ (list_storage.build ins).map_ ↔
      ∃ b, (k, b) ∈ (list_storage.build ins).list_) ∧
    (∀ k b, (list_storage.build ins).find k = some b ↔
      (k, b) ∈ (list_storage.build ins).list_) ∧
    (∀ k, ((list_storage.build ins).find k).isSome = true ↔
      ∃ b, (k, b) ∈ ins) ∧
    ((list_storage.build ins).visits = (list_storage.build ins).list_ ∧
      (list_storage.build ins).visits.Pairwise (fun p q => p.1 < q.1) ∧
      ∀ f, ((list_storage.build ins).each f).list_ =
        (list_storage.build ins).visits.map (fun p => (p.1, f p.1 p.2))) ∧
    (∀ rest, ∃ s1,
      list_storage.deserialize {}
        (list_storage.serialize (list_storage.build ins) ++ rest) =
        some (s1, rest) ∧
      s1.list_ = (list_storage.build ins).list_ ∧
      s1.list_.Pairwise (fun p q => p.1 < q.1) ∧
      (∀ k, k ∈ s1.map_ ↔ ∃ b, (k, b) ∈ s1.list_) ∧
      (∀ k, s1.find k = (list_storage.build ins).find k) ∧
      s1.visits = (list_storage.build ins).visits) := by
  have hwf := list_storage.wf_build ins
  have hv := list_visits_eq (list_storage.build ins)
  refine ⟨hwf.1, hwf.2, ?_, ?_, ⟨hv, ?_, ?_⟩, ?_⟩
  · intro k b
    exact list_storage.find_eq_some_iff _ hwf.1 hwf.2 k b
  · intro k
    have h := list_storage.find_fold_isSome ins {} list_storage.wf_empty k
    rw [list_storage.find_empty] at h
    simpa [list_storage.build] using h
  · rw [hv]; exact hwf.1
  · intro f
    rw [hv]; rfl
  · intro rest
    obtain ⟨s1, h1, h2, _, h4⟩ :=
      list_storage.list_round_trip (list_storage.build ins) hwf rest
    have hl : s1.list_ = (list_storage.build ins).list_ := by
      simpa [list_storage.eq] using h2
    have hmap : s1.map_ =
        list_storage.emplace_all (list_storage.build ins).list_ [] := by
      have h1a : list_storage.deserialize ({} : list_storage T)
          (list_storage.serialize (list_storage.build ins) ++ rest) =
          some ({ rows := (list_storage.build ins).rows,
                  list_ := (list_storage.build ins).list_,
                  map_ := list_storage.emplace_all
                    (list_storage.build ins).list_ [] }, rest) := by
        simp [list_storage.serialize, list_storage.deserialize,
          read_write_pairs]
      rw [h1a] at h1
      have := (Prod.mk.inj (Option.some.inj h1)).1
      rw [← this]
    refine ⟨s1, h1, hl, hl ▸ hwf.1, ?_, h4, ?_⟩
    · intro k
      rw [hmap, list_storage.mem_emplace_all, hl]
      simp
    · rw [list_visits_eq, list_visits_eq, hl]

/-! ## The bounds of the hash storage -/

theorem perm_pair_cases {α : Type} (l : List α) (a b : α)
    (h : l.Perm [a, b]) : l = [a, b] ∨ l = [b, a] := by
  have hlen := h.length_eq
  match l, hlen with
  | [r, s], _ =>
    have hr : r ∈ [a, b] := h.mem_iff.1 (List.mem_cons_self _ _)
    rcases List.mem_cons.1 hr with rfl | hr
    · have h1 : [s].Perm [b] := (List.perm_cons r).1 h
      have h2 := List.perm_singleton.1 h1
      left
      rw [List.singleton_inj.1 h2]
    · have hrb : r = b := by simpa using hr
      subst hrb
      have h1 : [r, s].Perm [r, a] := h.trans (List.Perm.swap r a [])
      have h2 := List.perm_singleton.1 ((List.perm_cons r).1 h1)
      right
      rw [List.singleton_inj.1 h2]

/-- C34: `unordered_storage::find_bounds` does not return the nearest
neighbours. The loop compares `p->first` with `u->first` where the lower
iterator is meant. After `insert(1, a)` and `insert(2, b)` the call
`find_bounds(3)` dereferences `map_.end()` in every iteration order of the hash
table, where the lower neighbour is the bitstream of 2 and the upper one is
null. After the inserts of 5, 1 and 2 the call `find_bounds(3)` returns the
bitstream of 1 as the lower bound when the table iterates in the order 5, 1, 2
and the bitstream of 2 when it iterates in the order 5, 2, 1: the result
depends on the iteration order and is not the bitstream of the greatest key
below 3 in the first one. -/
theorem unordered_find_bounds_eval (a b c : bitstream) :
    (unordered_storage.build [((1 : Nat), a), (2, b)]).find 2 = some b ∧
    (unordered_storage.build [((1 : Nat), a), (2, b)]).find_bounds 3 =
      .error end_dereference ∧
    (∀ order : List (Nat × bitstream),
      order.Perm (unordered_storage.build [((1 : Nat), a), (2, b)]).map_ →
      unordered_storage.find_bounds_in order 3 = .error end_dereference) ∧
    (unordered_storage.build [((5 : Nat), c), (1, a), (2, b)]).map_ =
      [(5, c), (1, a), (2, b)] ∧
    unordered_storage.find_bounds_in [((5 : Nat), c), (1, a), (2, b)] 3 =
      .ok (some a, some c) ∧
    unordered_storage.find_bounds_in [((5 : Nat), c), (2, b), (1, a)] 3 =
      .ok (some b, some c) := by
  refine ⟨rfl, rfl, ?_, rfl, rfl, rfl⟩
  intro order h
  have hm : (unordered_storage.build [((1 : Nat), a), (2, b)]).map_ =
      [(1, a), (2, b)] := rfl
  rw [hm] at h
  rcases perm_pair_cases order _ _ h with rfl | rfl
  · rfl
  · rfl

/-! ## The bounds of the vector storage -/

namespace vector_storage

theorem find_eq_some_iff_slot (s : vector_storage) (k : Nat) (b : bitstream) :
    s.find k = some b ↔ s.vector_[k]? = some (some b) := by
  unfold find
  by_cases hk : k ≥ s.vector_.length
  · simp only [hk, if_true]
    rw [List.getElem?_eq_none (by omega)]
    simp
  · simp only [hk, if_false]
    cases hs : s.vector_[k]? with
    | none => simp
    | some o =>
      cases o with
      | none => simp
      | some c => simp

theorem find_isSome_iff_slot (s : vector_storage) (k : Nat) :
    (s.find k).isSome = true ↔ ∃ b, s.vector_[k]? = some (some b) := by
  rw [Option.isSome_iff_exists]
  exact exists_congr (fun b => find_eq_some_iff_slot s k b)

theorem last_below_some (v : List (Option bitstream)) :
    ∀ (n : Nat) (b : bitstream), last_below v n = some b ↔
      ∃ L, L < n ∧ v[L]? = some (some b) ∧
        ∀ k c, k < n → v[k]? = some (some c) → k ≤ L := by
  intro n
  induction n with
  | zero => intro b; simp [last_below]
  | succ n ih =>
    intro b
    rcases hs : v[n]? with _ | _ | c
    · have e : last_below v (n + 1) = last_below v n := by
        simp [last_below, hs]
      rw [e, ih]
      constructor
      · rintro ⟨L, hL, hb, hmax⟩
        refine ⟨L, by omega, hb, ?_⟩
        intro k c hk hc
        rcases Nat.lt_succ_iff_lt_or_eq.1 hk with hk | rfl
        · exact hmax k c hk hc
        · rw [hs] at hc; cases hc
      · rintro ⟨L, hL, hb, hmax⟩
        rcases Nat.lt_succ_iff_lt_or_eq.1 hL with hL | rfl
        · exact ⟨L, hL, hb, fun k c hk hc => hmax k c (by omega) hc⟩
        · rw [hs] at hb; cases hb
    · have e : last_below v (n + 1) = last_below v n := by
        simp [last_below, hs]
      rw [e, ih]
      constructor
      · rintro ⟨L, hL, hb, hmax⟩
        refine ⟨L, by omega, hb, ?_⟩
        intro k c hk hc
        rcases Nat.lt_succ_iff_lt_or_eq.1 hk with hk | rfl
        · exact hmax k c hk hc
        · rw [hs] at hc; cases hc
      · rintro ⟨L, hL, hb, hmax⟩
        rcases Nat.lt_succ_iff_lt_or_eq.1 hL with hL | rfl
        · exact ⟨L, hL, hb, fun k c hk hc => hmax k c (by omega) hc⟩
        · rw [hs] at hb; cases hb
    · have e : last_below v (n + 1) = some c := by
        simp [last_below, hs]
      rw [e]
      constructor
      · intro hcb
        cases hcb
        exact ⟨n, by omega, hs, fun k c hk _ => by omega⟩
      · rintro ⟨L, hL, hb, hmax⟩
        have := hmax n c (by omega) hs
        have hLn : L = n := by omega
        subst hLn
        rw [hs] at hb
        cases hb
        rfl

theorem last_below_none (v : List (Option bitstream)) :
    ∀ n : Nat, last_below v n = none ↔
      ∀ k c, k < n → v[k]? ≠ some (some c) := by
  intro n
  induction n with
  | zero => simp [last_below]
  | succ n ih =>
    rcases hs : v[n]? with _ | _ | c
    · have e : last_below v (n + 1) = last_below v n := by
        simp [last_below, hs]
      rw [e, ih]
      constructor
      · intro h k c hk
        rcases Nat.lt_succ_iff_lt_or_eq.1 hk with hk | rfl
        · exact h k c hk
        · rw [hs]; simp
      · intro h k c hk
        exact h k c (by omega)
    · have e : last_below v (n + 1) = last_below v n := by
        simp [last_below, hs]
      rw [e, ih]
      constructor
      · intro h k c hk
        rcases Nat.lt_succ_iff_lt_or_eq.1 hk with hk | rfl
        · exact h k c hk
        · rw [hs]; simp
      · intro h k c hk
        exact h k c (by omega)
    · have e : last_below v (n + 1) = some c := by
        simp [last_below, hs]
      rw [e]
      constructor
      · intro h; cases h
      · intro h
        exact absurd hs (h n c (by omega))

theorem first_from_occupied (v : List (Option bitstream)) (j : Nat)
    (b : bitstream) (h : v[j]? = some (some b)) : first_from v j = some b := by
  unfold first_from
  have hj : j < v.length := (List.getElem?_eq_some.1 h).1
  rw [List.drop_eq_getElem_cons hj]
  have hv : v[j] = some b := (List.getElem?_eq_some.1 h).2
  simp [hv]

theorem first_from_empty (v : List (Option bitstream)) (j : Nat)
    (h : ∀ b, v[j]? ≠ some (some b)) :
    first_from v j = first_from v (j + 1) := by
  unfold first_from
  by_cases hj : j < v.length
  · rw [List.drop_eq_getElem_cons hj]
    have hv : v[j] = none := by
      cases hg : v[j] with
      | none => rfl
      | some b =>
        exact absurd (by rw [List.getElem?_eq_getElem hj, hg]) (h b)
    simp [hv]
  · rw [List.drop_of_length_le (by omega), List.drop_of_length_le (by omega)]

theorem first_from_some (v : List (Option bitstream)) :
    ∀ (d j : Nat) (b : bitstream), j + d = v.length →
      (first_from v j = some b ↔
        ∃ U, j ≤ U ∧ v[U]? = some (some b) ∧
          ∀ k c, j ≤ k → v[k]? = some (some c) → U ≤ k) := by
  intro d
  induction d with
  | zero =>
    intro j b hj
    have e : first_from v j = none := by
      unfold first_from
      rw [List.drop_of_length_le (by omega)]
      rfl
    rw [e]
    constructor
    · intro h; cases h
    · rintro ⟨U, hU, hb, _⟩
      have := (List.getElem?_eq_some.1 hb).1
      omega
  | succ d ih =>
    intro j b hj
    by_cases hocc : ∃ c, v[j]? = some (some c)
    · obtain ⟨c, hc⟩ := hocc
      rw [first_from_occupied v j c hc]
      constructor
      · intro h
        cases h
        exact ⟨j, le_refl _, hc, fun k _ hk _ => hk⟩
      · rintro ⟨U, hU, hb, hmin⟩
        have := hmin j c (le_refl _) hc
        have hUj : U = j := by omega
        subst hUj
        rw [hc] at hb
        cases hb
        rfl
    · have hemp : ∀ c, v[j]? ≠ some (some c) := fun c hc => hocc ⟨c, hc⟩
      rw [first_from_empty v j hemp, ih (j + 1) b (by omega)]
      constructor
      · rintro ⟨U, hU, hb, hmin⟩
        refine ⟨U, by omega, hb, ?_⟩
        intro k c hk hc
        rcases Nat.eq_or_lt_of_le hk with rfl | hk
        · exact absurd hc (hemp c)
        · exact hmin k c hk hc
      · rintro ⟨U, hU, hb, hmin⟩
        rcases Nat.eq_or_lt_of_le hU with rfl | hU
        · exact absurd hb (hemp b)
        · exact ⟨U, hU, hb, fun k c hk hc => hmin k c (by omega) hc⟩

theorem first_from_none (v : List (Option bitstream)) :
    ∀ (d j : Nat), j + d = v.length →
      (first_from v j = none ↔ ∀ k c, j ≤ k → v[k]? ≠ some (some c)) := by
  intro d
  induction d with
  | zero =>
    intro j hj
    have e : first_from v j = none := by
      unfold first_from
      rw [List.drop_of_length_le (by omega)]
      rfl
    rw [e]
    constructor
    · intro _ k c hk hc
      have := (List.getElem?_eq_some.1 hc).1
      omega
    · intro _; rfl
  | succ d ih =>
    intro j hj
    by_cases hocc : ∃ c, v[j]? = some (some c)
    · obtain ⟨c, hc⟩ := hocc
      rw [first_from_occupied v j c hc]
      constructor
      · intro h; cases h
      · intro h
        exact absurd hc (h j c (le_refl _))
    · have hemp : ∀ c, v[j]? ≠ some (some c) := fun c hc => hocc ⟨c, hc⟩
      rw [first_from_empty v j hemp, ih (j + 1) (by omega)]
      constructor
      · intro h k c hk
        rcases Nat.eq_or_lt_of_le hk with rfl | hk
        · exact hemp c
        · exact h k c hk
      · intro h k c hk
        exact h k c (by omega)

theorem lower_loop_spec (v : List (Option bitstream)) (x : Nat) :
    ∀ n : Nat,
      ((List.range n).foldl (lower_step v x) (none, false)).1 =
          last_below v (min n x) ∧
        (((List.range n).foldl (lower_step v x) (none, false)).2 = true →
          x < n) := by
  intro n
  induction n with
  | zero => simp [last_below]
  | succ n ih =>
    rw [List.range_succ, List.foldl_append]
    obtain ⟨h1, h2⟩ := ih
    generalize (List.range n).foldl (lower_step v x) (none, false) = st at h1 h2
    obtain ⟨lo, found⟩ := st
    simp only at h1 h2
    simp only [List.foldl_cons, List.foldl_nil]
    cases found with
    | true =>
      have hx := h2 rfl
      have e : lower_step v x (lo, true) n = (lo, true) := by
        simp [lower_step]
      rw [e]
      refine ⟨?_, fun _ => by omega⟩
      show lo = _
      rw [h1, Nat.min_eq_right (by omega), Nat.min_eq_right (by omega)]
    | false =>
      by_cases hnx : n < x
      · have hmin : min (n + 1) x = n + 1 := Nat.min_eq_left (by omega)
        have hmin0 : min n x = n := Nat.min_eq_left (by omega)
        rw [hmin]
        rw [hmin0] at h1
        rcases hs : v[n]? with _ | _ | c
        · have e : lower_step v x (lo, false) n = (lo, false) := by
            have : ¬ x ≤ n := by omega
            simp [lower_step, hs, this]
          rw [e]
          refine ⟨?_, fun h => by cases h⟩
          show lo = _
          simp [last_below, hs, h1]
        · have e : lower_step v x (lo, false) n = (lo, false) := by
            have : ¬ x ≤ n := by omega
            simp [lower_step, hs, this]
          rw [e]
          refine ⟨?_, fun h => by cases h⟩
          show lo = _
          simp [last_below, hs, h1]
        · have e : lower_step v x (lo, false) n = (some c, false) := by
            simp [lower_step, hs, hnx]
          rw [e]
          refine ⟨?_, fun h => by cases h⟩
          show some c = _
          simp [last_below, hs]
      · have hmin : min (n + 1) x = x := Nat.min_eq_right (by omega)
        have hmin0 : min n x = x := Nat.min_eq_right (by omega)
        rw [hmin]
        rw [hmin0] at h1
        have hfst : (lower_step v x (lo, false) n).1 = lo := by
          have hxn : x ≤ n := by omega
          rcases hs : v[n]? with _ | _ | c <;>
            cases lo <;> simp [lower_step, hs, hnx, hxn]
        exact ⟨hfst.trans h1, fun _ => by omega⟩

theorem upper_loop_spec (v : List (Option bitstream)) (x : Nat) :
    ∀ (n : Nat) (st : Option bitstream × Bool), n ≤ v.length →
      st.1 = first_from v (max n (x + 1)) → (st.2 = true → n ≤ x) →
      ((List.range n).reverse.foldl (upper_step v x) st).1 =
        first_from v (x + 1) := by
  intro n
  induction n with
  | zero =>
    intro st _ h1 _
    simp only [List.range_zero, List.reverse_nil, List.foldl_nil]
    rw [h1, Nat.max_eq_right (by omega)]
  | succ n ih =>
    intro st hn h1 h2
    rw [List.range_succ, List.reverse_append, List.reverse_singleton,
      List.singleton_append, List.foldl_cons]
    obtain ⟨up, found⟩ := st
    simp only at h1 h2
    apply ih _ (by omega)
    · cases found with
      | true =>
        have hx := h2 rfl
        have e : upper_step v x (up, true) n = (up, true) := by
          simp [upper_step]
        rw [e]
        show up = _
        rw [h1, Nat.max_eq_right (by omega), Nat.max_eq_right (by omega)]
      | false =>
        by_cases hnx : x < n
        · rw [Nat.max_eq_left (by omega)] at h1 ⊢
          rcases hs : v[n]? with _ | _ | c
          · have := (List.getElem?_eq_none_iff.1 hs)
            omega
          · have e : (upper_step v x (up, false) n).1 = up := by
              have : ¬ n < x := by omega
              cases up <;> simp [upper_step, hs, this]
            rw [e, h1]
            exact (first_from_empty v n (fun b hb => by
              rw [hs] at hb; cases hb)).symm
          · have e : upper_step v x (up, false) n = (some c, false) := by
              simp [upper_step, hs, hnx]
            rw [e]
            exact (first_from_occupied v n c hs).symm
        · rw [Nat.max_eq_right (by omega)] at h1 ⊢
          have e : (upper_step v x (up, false) n).1 = up := by
            rcases hs : v[n]? with _ | _ | c <;>
              cases up <;> by_cases hlt : n < x <;>
                simp [upper_step, hs, hnx, hlt]
          rw [e, h1]
    · intro hf
      cases found with
      | true => have := h2 rfl; omega
      | false =>
        by_contra hcon
        have hxn : x < n := by omega
        have hlt : ¬ n < x := by omega
        have e : (upper_step v x (up, false) n).2 = false := by
          rcases hs : v[n]? with _ | _ | c <;>
            cases up <;> simp [upper_step, hs, hxn, hlt]
        rw [e] at hf
        cases hf

theorem last_occupied_insert (s : vector_storage) (h : s.last_occupied)
    (x : Nat) (b : bitstream) : (s.insert x b).2.last_occupied := by
  unfold insert
  by_cases hx : x ≥ s.vector_.length
  · simp only [hx, if_true]
    right
    refine ⟨b, ?_⟩
    show ((s.vector_ ++ List.replicate (x + 1 - s.vector_.length) none).set x
      (some b)).getLast? = some (some b)
    rw [List.getLast?_eq_getElem?]
    have hlen : ((s.vector_ ++
        List.replicate (x + 1 - s.vector_.length) none).set x
        (some b)).length = x + 1 := by
      simp only [List.length_set, List.length_append, List.length_replicate]
      omega
    rw [hlen]
    simp only [Nat.add_sub_cancel]
    rw [List.getElem?_set_self (by
      simp only [List.length_append, List.length_replicate]; omega)]
  · simp only [hx, if_false]
    have hlt : x < s.vector_.length := by omega
    rcases hs : s.vector_[x]? with _ | _ | c
    · have := (List.getElem?_eq_none_iff.1 hs)
      omega
    · simp only
      have hne : s.vector_ ≠ [] := by
        intro hnil
        rw [hnil] at hlt
        simp at hlt
      rcases h with h | ⟨c, hc⟩
      · exact absurd h hne
      · right
        show ∃ b1, (s.vector_.set x (some b)).getLast? = some (some b1)
        rw [List.getLast?_eq_getElem?, List.length_set]
        rw [List.getLast?_eq_getElem?] at hc
        by_cases hxl : x = s.vector_.length - 1
        · refine ⟨b, ?_⟩
          rw [← hxl, List.getElem?_set_self hlt]
        · refine ⟨c, ?_⟩
          rw [List.getElem?_set_ne hxl]
          exact hc
    · exact h

theorem last_occupied_build (ins : List (Nat × bitstream)) :
    (build ins).last_occupied := by
  unfold build
  have h : ∀ (l : List (Nat × bitstream)) (s : vector_storage),
      s.last_occupied →
      (l.foldl (fun s p => (s.insert p.1 p.2).2) s).last_occupied := by
    intro l
    induction l with
    | nil => intro s hs; exact hs
    | cons p l ih =>
      intro s hs
      exact ih _ (last_occupied_insert s hs p.1 p.2)
  exact h ins {} (Or.inl rfl)

end vector_storage
namespace vector_storage

theorem first_from_length (v : List (Option bitstream)) (j : Nat)
    (h : v.length ≤ j) : first_from v j = none := by
  unfold first_from
  rw [List.drop_of_length_le h]
  rfl

theorem first_from_some_iff (v : List (Option bitstream)) (j : Nat)
    (b : bitstream) :
    first_from v j = some b ↔
      ∃ U, j ≤ U ∧ v[U]? = some (some b) ∧
        ∀ k c, j ≤ k → v[k]? = some (some c) → U ≤ k := by
  by_cases hj : j ≤ v.length
  · exact first_from_some v (v.length - j) j b (by omega)
  · rw [first_from_length v j (by omega)]
    constructor
    · intro h; cases h
    · rintro ⟨U, hU, hb, _⟩
      have := (List.getElem?_eq_some.1 hb).1
      omega

theorem first_from_none_iff (v : List (Option bitstream)) (j : Nat) :
    first_from v j = none ↔ ∀ k c, j ≤ k → v[k]? ≠ some (some c) := by
  by_cases hj : j ≤ v.length
  · exact first_from_none v (v.length - j) j (by omega)
  · rw [first_from_length v j (by omega)]
    constructor
    · intro _ k c hk hc
      have := (List.getElem?_eq_some.1 hc).1
      omega
    · intro _; rfl

theorem find_bounds_eq (s : vector_storage) (h : s.last_occupied) (x : Nat) :
    s.find_bounds x =
      .ok (last_below s.vector_ x, first_from s.vector_ (x + 1)) := by
  unfold find_bounds
  by_cases he : s.vector_ = []
  · have h1 : last_below s.vector_ x = none :=
      (last_below_none _ x).2 (fun k c _ => by rw [he]; simp)
    have h2 : first_from s.vector_ (x + 1) = none :=
      first_from_length _ _ (by rw [he]; simp)
    rw [h1, h2]
    simp [he]
  · have hemp : s.vector_.isEmpty = false := by
      cases hv : s.vector_ with
      | nil => exact absurd hv he
      | cons a l => rfl
    simp only [hemp, Bool.false_eq_true, if_false]
    have hpos : 0 < s.vector_.length := List.length_pos.2 he
    by_cases hx : x ≥ s.vector_.length
    · simp only [hx, if_true]
      rcases h with h | ⟨b, hb⟩
      · exact absurd h he
      · rw [hb]
        have hb1 := hb
        rw [List.getLast?_eq_getElem?] at hb1
        have h1 : last_below s.vector_ x = some b :=
          (last_below_some _ x b).2 ⟨s.vector_.length - 1, by omega, hb1,
            fun k c _ hc => by
              have := (List.getElem?_eq_some.1 hc).1
              omega⟩
        have h2 : first_from s.vector_ (x + 1) = none :=
          first_from_length _ _ (by omega)
        rw [h1, h2]
    · simp only [hx, if_false]
      have hl := (lower_loop_spec s.vector_ x s.vector_.length).1
      rw [Nat.min_eq_right (by omega)] at hl
      have hu := upper_loop_spec s.vector_ x s.vector_.length (none, false)
        (le_refl _)
        (by
          show none = _
          rw [first_from_length _ _ (le_max_left _ _)])
        (fun hf => by cases hf)
      rw [hl, hu]

end vector_storage

/-- C35: `vector_storage::find_bounds` is total and returns the nearest
neighbours. In every vector storage built by inserts the last slot is occupied,
so the branch for a query at or beyond the size, the only place where a slot
is dereferenced without a check, does not meet an empty slot: the call
returns. For every query `v` the lower result is the bitstream at the greatest
occupied index below `v`, null exactly when there is none, and the upper
result is the bitstream at the smallest occupied index above `v`, null exactly
when there is none; `v` may be at or beyond the size of the vector. -/
theorem vector_find_bounds_nearest (ins : List (Nat × bitstream)) (v : Nat) :
    (vector_storage.build ins).last_occupied ∧
    ∃ r, (vector_storage.build ins).find_bounds v = .ok r ∧
      (∀ b, r.1 = some b ↔
        ∃ L, (vector_storage.build ins).find L = some b ∧ L < v ∧
          ∀ k, ((vector_storage.build ins).find k).isSome = true → k < v →
            k ≤ L) ∧
      (r.1 = none ↔
        ∀ k, ((vector_storage.build ins).find k).isSome = true → ¬ k < v) ∧
      (∀ b, r.2 = some b ↔
        ∃ U, (vector_storage.build ins).find U = some b ∧ v < U ∧
          ∀ k, ((vector_storage.build ins).find k).isSome = true → v < k →
            U ≤ k) ∧
      (r.2 = none ↔
        ∀ k, ((vector_storage.build ins).find k).isSome = true → ¬ v < k) := by
  have hlast := vector_storage.last_occupied_build ins
  refine ⟨hlast, _, vector_storage.find_bounds_eq _ hlast v, ?_, ?_, ?_, ?_⟩
  · intro b
    show vector_storage.last_below _ v = some b ↔ _
    rw [vector_storage.last_below_some]
    constructor
    · rintro ⟨L, hL, hb, hmax⟩
      refine ⟨L, (vector_storage.find_eq_some_iff_slot _ L b).2 hb, hL, ?_⟩
      intro k hk hkv
      obtain ⟨c, hc⟩ := (vector_storage.find_isSome_iff_slot _ k).1 hk
      exact hmax k c hkv hc
    · rintro ⟨L, hb, hL, hmax⟩
      refine ⟨L, hL, (vector_storage.find_eq_some_iff_slot _ L b).1 hb, ?_⟩
      intro k c hkv hc
      exact hmax k ((vector_storage.find_isSome_iff_slot _ k).2 ⟨c, hc⟩) hkv
  · show vector_storage.last_below _ v = none ↔ _
    rw [vector_storage.last_below_none]
    constructor
    · intro h k hk hkv
      obtain ⟨c, hc⟩ := (vector_storage.find_isSome_iff_slot _ k).1 hk
      exact h k c hkv hc
    · intro h k c hkv hc
      exact h k ((vector_storage.find_isSome_iff_slot _ k).2 ⟨c, hc⟩) hkv
  · intro b
    show vector_storage.first_from _ (v + 1) = some b ↔ _
    rw [vector_storage.first_from_some_iff]
    constructor
    · rintro ⟨U, hU, hb, hmin⟩
      refine ⟨U, (vector_storage.find_eq_some_iff_slot _ U b).2 hb, hU, ?_⟩
      intro k hk hkv
      obtain ⟨c, hc⟩ := (vector_storage.find_isSome_iff_slot _ k).1 hk
      exact hmin k c hkv hc
    · rintro ⟨U, hb, hU, hmin⟩
      refine ⟨U, hU, (vector_storage.find_eq_some_iff_slot _ U b).1 hb, ?_⟩
      intro k c hkv hc
      exact hmin k ((vector_storage.find_isSome_iff_slot _ k).2 ⟨c, hc⟩) hkv
  · show vector_storage.first_from _ (v + 1) = none ↔ _
    rw [vector_storage.first_from_none_iff]
    constructor
    · intro h k hk hkv
      obtain ⟨c, hc⟩ := (vector_storage.find_isSome_iff_slot _ k).1 hk
      exact h k c hkv hc
    · intro h k c hkv hc
      exact h k ((vector_storage.find_isSome_iff_slot _ k).2 ⟨c, hc⟩) hkv

/-! ## The visitor of the vector storage -/

theorem vector_each_const_empty_slot {σ : Type} (s : vector_storage)
    (f : Nat → bitstream → σ → σ) (i : Nat) (hi : i < s.vector_.length)
    (hs : s.vector_[i]? = some none) (init : σ) :
    s.each_const f init = .error empty_dereference := by
  unfold vector_storage.each_const
  generalize s.vector_ = v at hi hs
  have h : ∀ (n : Nat), i < n → ∀ a : σ,
      (List.range n).foldlM (fun a i =>
        match v[i]? with
        | some (some b) => (.ok (f i b a) : Except String σ)
        | _ => .error empty_dereference) a = .error empty_dereference := by
    intro n
    induction n with
    | zero => intro h0; omega
    | succ n ih =>
      intro hn a
      rw [List.range_succ, List.foldlM_append]
      rcases Nat.lt_succ_iff_lt_or_eq.1 hn with hlt | heq
      · rw [ih hlt a]
        rfl
      · subst heq
        cases hp : (List.range i).foldlM (fun a i =>
            match v[i]? with
            | some (some b) => (.ok (f i b a) : Except String σ)
            | _ => .error empty_dereference) a with
        | error e =>
          have hall : ∀ (l : List Nat) (a : σ) (e : String),
              l.foldlM (fun a i =>
                match v[i]? with
                | some (some b) => (.ok (f i b a) : Except String σ)
                | _ => .error empty_dereference) a = .error e →
              e = empty_dereference := by
            intro l
            induction l with
            | nil => intro a e h; cases h
            | cons j l ihl =>
              intro a e h
              rw [List.foldlM_cons] at h
              rcases hj : v[j]? with _ | _ | c
              · simp only [hj, bind, Except.bind] at h
                cases h; rfl
              · simp only [hj, bind, Except.bind] at h
                cases h; rfl
              · simp only [hj, bind, Except.bind] at h
                exact ihl _ e h
          rw [hall _ a e hp]
          rfl
        | ok a1 =>
          simp [hs, bind, Except.bind]
  exact h v.length hi init

/-- C36: `vector_storage::each` does not visit only inserted values. The loop
calls `f(i, *vector_[i])` for every index below the size of the vector and
never tests whether the slot holds a value. After the single call
`insert(3, b)` on an empty storage the vector has the four slots
`empty, empty, empty, b`, and `each` dereferences the empty slot 0 before any
call of the visitor, for every visitor, where one call `f(3, b)` is
expected. -/
theorem vector_each_sparse_eval (b : bitstream) :
    (vector_storage.build [(3, b)]).vector_ = [none, none, none, some b] ∧
    (vector_storage.build [(3, b)]).find 0 = none ∧
    (vector_storage.build [(3, b)]).visits = .error empty_dereference ∧
    ∀ (f : Nat → bitstream → List (Nat × bitstream) →
        List (Nat × bitstream)) (init : List (Nat × bitstream)),
      (vector_storage.build [(3, b)]).each_const f init =
        .error empty_dereference :=
  ⟨rfl, rfl, rfl, fun _ _ => rfl⟩

/-! ## Equality of coders and decoding -/

theorem list_find_congr {T : Type} [LinearOrder T] (s1 s2 : list_storage T)
    (h1 : s1.wf) (h2 : s2.wf) (hl : s1.list_ = s2.list_) :
    (∀ x, s1.find x = s2.find x) ∧
      (∀ x, s1.find_bounds x = s2.find_bounds x) := by
  have hm : ∀ x, x ∈ s1.map_ ↔ x ∈ s2.map_ := by
    intro x
    rw [h1.2, h2.2, hl]
  constructor
  · intro x
    unfold list_storage.find
    by_cases hx : x ∈ s1.map_
    · rw [if_pos hx, if_pos ((hm x).1 hx), hl]
    · rw [if_neg hx, if_neg (fun hc => hx ((hm x).2 hc))]
  · intro x
    have hemp : s1.map_.isEmpty = s2.map_.isEmpty := by
      cases hv1 : s1.map_ with
      | nil =>
        cases hv2 : s2.map_ with
        | nil => rfl
        | cons a l =>
          have := (hm a).2 (by rw [hv2]; exact List.mem_cons_self _ _)
          rw [hv1] at this
          cases this
      | cons a l =>
        cases hv2 : s2.map_ with
        | nil =>
          have := (hm a).1 (by rw [hv1]; exact List.mem_cons_self _ _)
          rw [hv2] at this
          cases this
        | cons a2 l2 => rfl
    unfold list_storage.find_bounds
    rw [hemp, hl]

theorem range_decode_congr {T : Type} [LinearOrder T]
    (integral : Option (integral_ops T)) (s1 s2 : list_storage T)
    (h1 : s1.wf) (h2 : s2.wf) (hl : s1.list_ = s2.list_)
    (hr : s1.rows = s2.rows) (v : T) (op : relational_operator) :
    range_coder.decode integral s1 v op =
      range_coder.decode integral s2 v op := by
  obtain ⟨hf, hb⟩ := list_find_congr s1 s2 h1 h2 hl
  have hle : ∀ x, range_coder.decode_less_equal s1 x =
      range_coder.decode_less_equal s2 x := by
    intro x
    unfold range_coder.decode_less_equal
    rw [hf x, hb x]
  have heq : ∀ x, range_coder.decode_equal s1 x =
      range_coder.decode_equal s2 x := by
    intro x
    unfold range_coder.decode_equal
    rw [hle x, hb x]
  have hlt : ∀ x, range_coder.decode_less integral s1 x =
      range_coder.decode_less integral s2 x := by
    intro x
    unfold range_coder.decode_less
    cases integral with
    | none => rfl
    | some ops => simp only [hle]
  cases op <;> simp only [range_coder.decode, hle, heq, hlt, hr]

theorem unordered_find_congr {T : Type} [DecidableEq T]
    (s1 s2 : unordered_storage T) (h1 : s1.wf) (h2 : s2.wf)
    (he : s1.eq s2 = true) : ∀ k, s1.find k = s2.find k := by
  unfold unordered_storage.eq at he
  rw [Bool.and_eq_true, decide_eq_true_eq, List.all_eq_true] at he
  obtain ⟨hlen, hall⟩ := he
  have hin : ∀ p ∈ s1.map_, p ∈ s2.map_ := by
    intro p hp
    have := hall p hp
    rw [decide_eq_true_eq] at this
    exact (equality_coder.eq_find_eq_some_iff s2 h2 p.1 p.2).1 this
  have hnd1 : (s1.map_.map Prod.fst).Nodup := by
    unfold List.Nodup
    rw [List.pairwise_map]
    exact h1
  have hsub : s1.map_.map Prod.fst ⊆ s2.map_.map Prod.fst := by
    intro k hk
    obtain ⟨p, hp, rfl⟩ := List.mem_map.1 hk
    exact List.mem_map.2 ⟨p, hin p hp, rfl⟩
  have hperm : (s1.map_.map Prod.fst).Perm (s2.map_.map Prod.fst) :=
    (List.subperm_of_subset hnd1 hsub).perm_of_length_le
      (by rw [List.length_map, List.length_map, hlen])
  intro k
  rcases Option.eq_none_or_eq_some (s1.find k) with hk | ⟨b, hk⟩
  · rw [hk]
    rcases Option.eq_none_or_eq_some (s2.find k) with hk2 | ⟨c, hk2⟩
    · rw [hk2]
    · exfalso
      have hc := (equality_coder.eq_find_eq_some_iff s2 h2 k c).1 hk2
      have hk2m : k ∈ s2.map_.map Prod.fst := List.mem_map.2 ⟨(k, c), hc, rfl⟩
      obtain ⟨p, hp, hpk⟩ := List.mem_map.1 (hperm.mem_iff.2 hk2m)
      have hp1 : (k, p.2) ∈ s1.map_ := by
        have : p = (k, p.2) := by rw [← hpk]
        rw [← this]; exact hp
      rw [(equality_coder.eq_find_eq_some_iff s1 h1 k p.2).2 hp1] at hk
      cases hk
  · rw [hk]
    have hb := (equality_coder.eq_find_eq_some_iff s1 h1 k b).1 hk
    exact ((equality_coder.eq_find_eq_some_iff s2 h2 k b).2
      (hin _ hb)).symm

theorem equality_decode_congr {T : Type} [DecidableEq T]
    (s1 s2 : unordered_storage T) (hf : ∀ k, s1.find k = s2.find k)
    (hr : s1.rows = s2.rows) (v : T) (op : relational_operator) :
    equality_coder.decode s1 v op = equality_coder.decode s2 v op := by
  cases op <;> simp only [equality_coder.decode, hf, hr]

theorem vector_eq_slots : ∀ (xv yv : List (Option bitstream)),
    xv.length = yv.length →
    (List.zip xv yv).all (fun p =>
      match p.1, p.2 with
      | some a, some b => decide (a = b)
      | none, none => true
      | _, _ => false) = true → xv = yv := by
  intro xv
  induction xv with
  | nil =>
    intro yv hlen _
    cases yv with
    | nil => rfl
    | cons b l => cases hlen
  | cons a xv ih =>
    intro yv hlen hall
    cases yv with
    | nil => cases hlen
    | cons b yv =>
      rw [List.zip_cons_cons, List.all_cons, Bool.and_eq_true] at hall
      have htl := ih yv (by simpa using hlen) hall.2
      have hhd : a = b := by
        have h := hall.1
        cases a with
        | none =>
          cases b with
          | none => rfl
          | some y => simp at h
        | some x =>
          cases b with
          | none => simp at h
          | some y =>
            simp only [decide_eq_true_eq] at h
            rw [h]
      rw [hhd, htl]

theorem vector_eq_vector (x y : vector_storage) (h : x.eq y = true) :
    x.vector_ = y.vector_ := by
  unfold vector_storage.eq at h
  by_cases hc : x.cardinality_ ≠ y.cardinality_
  · simp [hc] at h
  · rw [if_neg hc] at h
    by_cases hl : x.vector_.length ≠ y.vector_.length
    · simp [hl] at h
    · rw [if_neg hl] at h
      exact vector_eq_slots _ _ (not_not.1 hl) h

theorem binary_decode_congr (t : integral_type) (s1 s2 : vector_storage)
    (hv : s1.vector_ = s2.vector_) (hr : s1.rows = s2.rows) (v : Int)
    (op : relational_operator) :
    binary_coder.decode t s1 v op = binary_coder.decode t s2 v op := by
  have hf : ∀ i, s1.find i = s2.find i := by
    intro i
    unfold vector_storage.find
    rw [hv]
  have hstep : binary_coder.decode_step s1 v = binary_coder.decode_step s2 v := by
    funext r i
    unfold binary_coder.decode_step
    rw [hf i]
  have heq : binary_coder.decode_equal t s1 v =
      binary_coder.decode_equal t s2 v := by
    unfold binary_coder.decode_equal
    rw [hstep, hr]
  cases op <;> simp only [binary_coder.decode, heq, hr]
/-- Counterexample to C38 as stated: `operator==` of a coder compares the
stores, and the stores compare their containers only, not `rows`. A fresh
equality coder and one after `append(5, false)` hold no key and compare equal,
yet their `rows` are 0 and 5 and `decode(7, not_equal)` returns the empty
bitstream on the first and five set bits on the second; the same for the range
coder with `decode(7, greater)`. -/
theorem coder_eq_ignores_rows :
    (run_ops equality_coder.policy null_binner (equality_bitmap Nat)
        []).coder_.eq
      (run_ops equality_coder.policy null_binner (equality_bitmap Nat)
        [.append 5 false]).coder_ = true ∧
    (run_ops equality_coder.policy null_binner (equality_bitmap Nat)
      []).coder_.rows = 0 ∧
    (run_ops equality_coder.policy null_binner (equality_bitmap Nat)
      [.append 5 false]).coder_.rows = 5 ∧
    equality_coder.decode
      (run_ops equality_coder.policy null_binner (equality_bitmap Nat)
        []).coder_ 7 .not_equal = .ok (some []) ∧
    equality_coder.decode
      (run_ops equality_coder.policy null_binner (equality_bitmap Nat)
        [.append 5 false]).coder_ 7 .not_equal =
      .ok (some [true, true, true, true, true]) ∧
    (run_ops (range_coder.policy none) null_binner (range_bitmap Nat)
        []).coder_.eq
      (run_ops (range_coder.policy none) null_binner (range_bitmap Nat)
        [.append 5 false]).coder_ = true ∧
    range_coder.decode none
      (run_ops (range_coder.policy none) null_binner (range_bitmap Nat)
        []).coder_ 7 .greater = .ok (some []) ∧
    range_coder.decode none
      (run_ops (range_coder.policy none) null_binner (range_bitmap Nat)
        [.append 5 false]).coder_ 7 .greater =
      .ok (some [true, true, true, true, true]) :=
  ⟨rfl, rfl, rfl, rfl, rfl, rfl, rfl, rfl⟩

/-- C38, amended: coder equality is a congruence for decoding once the `rows`
counters agree. For two range coders, two equality coders or two binary coders
reached from the empty coder by `encode` and `append` calls that compare equal
under `operator==`, and whose `rows` agree, `decode(v, op)` returns the same
result (or raises the same error) for every value `v` and every operator
`op`. The `rows` counters do agree whenever the store holds a bitstream: for
the range and the equality coder once a value has been encoded, for the binary
coder whenever the type has at least one digit. -/
theorem coder_eq_congruence {T U : Type} [LinearOrder T] [DecidableEq U]
    (integral : Option (integral_ops T)) (binner : T → T)
    (ops1 ops2 : List (bitmap_op T)) (ubinner : U → U)
    (uops1 uops2 : List (bitmap_op U)) (t : integral_type)
    (ibinner : Int → Int) (iops1 iops2 : List (bitmap_op Int)) :
    ((run_ops (range_coder.policy integral) binner (range_bitmap T)
          ops1).coder_.eq
        (run_ops (range_coder.policy integral) binner (range_bitmap T)
          ops2).coder_ = true →
      ((run_ops (range_coder.policy integral) binner (range_bitmap T)
          ops1).coder_.list_ ≠ [] →
        (run_ops (range_coder.policy integral) binner (range_bitmap T)
          ops1).coder_.rows =
        (run_ops (range_coder.policy integral) binner (range_bitmap T)
          ops2).coder_.rows) ∧
      ((run_ops (range_coder.policy integral) binner (range_bitmap T)
          ops1).coder_.rows =
        (run_ops (range_coder.policy integral) binner (range_bitmap T)
          ops2).coder_.rows →
        ∀ v op,
          range_coder.decode integral
            (run_ops (range_coder.policy integral) binner (range_bitmap T)
              ops1).coder_ v op =
          range_coder.decode integral
            (run_ops (range_coder.policy integral) binner (range_bitmap T)
              ops2).coder_ v op)) ∧
    ((run_ops equality_coder.policy ubinner (equality_bitmap U)
          uops1).coder_.eq
        (run_ops equality_coder.policy ubinner (equality_bitmap U)
          uops2).coder_ = true →
      ((run_ops equality_coder.policy ubinner (equality_bitmap U)
          uops1).coder_.map_ ≠ [] →
        (run_ops equality_coder.policy ubinner (equality_bitmap U)
          uops1).coder_.rows =
        (run_ops equality_coder.policy ubinner (equality_bitmap U)
          uops2).coder_.rows) ∧
      ((run_ops equality_coder.policy ubinner (equality_bitmap U)
          uops1).coder_.rows =
        (run_ops equality_coder.policy ubinner (equality_bitmap U)
          uops2).coder_.rows →
        ∀ v op,
          equality_coder.decode
            (run_ops equality_coder.policy ubinner (equality_bitmap U)
              uops1).coder_ v op =
          equality_coder.decode
            (run_ops equality_coder.policy ubinner (equality_bitmap U)
              uops2).coder_ v op)) ∧
    ((run_ops (binary_coder.policy t) ibinner (binary_bitmap t)
          iops1).coder_.eq
        (run_ops (binary_coder.policy t) ibinner (binary_bitmap t)
          iops2).coder_ = true →
      (0 < t.digits →
        (run_ops (binary_coder.policy t) ibinner (binary_bitmap t)
          iops1).coder_.rows =
        (run_ops (binary_coder.policy t) ibinner (binary_bitmap t)
          iops2).coder_.rows) ∧
      ((run_ops (binary_coder.policy t) ibinner (binary_bitmap t)
          iops1).coder_.rows =
        (run_ops (binary_coder.policy t) ibinner (binary_bitmap t)
          iops2).coder_.rows →
        ∀ v op,
          binary_coder.decode t
            (run_ops (binary_coder.policy t) ibinner (binary_bitmap t)
              iops1).coder_ v op =
          binary_coder.decode t
            (run_ops (binary_coder.policy t) ibinner (binary_bitmap t)
              iops2).coder_ v op)) := by
  obtain ⟨hwf1, hu1, _⟩ := range_coder.uniform_run integral binner ops1
  obtain ⟨hwf2, hu2, _⟩ := range_coder.uniform_run integral binner ops2
  have hewf1 := equality_wf_run ubinner uops1
  have hewf2 := equality_wf_run ubinner uops2
  obtain ⟨heu1, _⟩ := equality_uniform_run ubinner uops1
  obtain ⟨heu2, _⟩ := equality_uniform_run ubinner uops2
  obtain ⟨hbu1, _⟩ := binary_uniform_run t ibinner iops1
  obtain ⟨hbu2, _⟩ := binary_uniform_run t ibinner iops2
  have hfill1 := binary_coder.filled_run t ibinner iops1
  refine ⟨?_, ?_, ?_⟩
  · intro he
    have hl : (run_ops (range_coder.policy integral) binner (range_bitmap T)
        ops1).coder_.list_ =
        (run_ops (range_coder.policy integral) binner (range_bitmap T)
          ops2).coder_.list_ := by
      simpa [list_storage.eq] using he
    refine ⟨?_, fun hr v op => range_decode_congr integral _ _ hwf1 hwf2 hl hr v op⟩
    intro hne
    obtain ⟨p, hp⟩ := List.exists_mem_of_ne_nil _ hne
    rw [← hu1 p hp]
    exact hu2 p (hl ▸ hp)
  · intro he
    have hf := unordered_find_congr _ _ hewf1 hewf2 he
    refine ⟨?_, fun hr v op => equality_decode_congr _ _ hf hr v op⟩
    intro hne
    obtain ⟨p, hp⟩ := List.exists_mem_of_ne_nil _ hne
    rw [← heu1 p hp]
    have h1 := (equality_coder.eq_find_eq_some_iff _ hewf1 p.1 p.2).2 hp
    rw [hf] at h1
    exact heu2 _ ((equality_coder.eq_find_eq_some_iff _ hewf2 p.1 p.2).1 h1)
  · intro he
    have hv := vector_eq_vector _ _ he
    refine ⟨?_, fun hr v op => binary_decode_congr t _ _ hv hr v op⟩
    intro hd
    obtain ⟨b, hb⟩ := hfill1 0 hd
    rw [← hbu1 b (List.getElem?_mem hb)]
    exact hbu2 b (hv ▸ List.getElem?_mem hb)

/-! ## The consistency of `args_` and `types_` -/

namespace event_arg_index

theorem find_isSome_iff_key {K V : Type} [DecidableEq K] (l : List (K × V))
    (k : K) :
    (l.find? (fun p => decide (p.1 = k))).isSome = true ↔
      k ∈ l.map Prod.fst := by
  induction l with
  | nil => simp
  | cons q l ih =>
    by_cases hq : q.1 = k
    · simp [List.find?_cons, hq]
    · have hq2 : ¬ k = q.1 := fun h => hq h.symm
      simp only [List.find?_cons, hq, decide_False, List.map_cons,
        List.mem_cons, hq2, false_or]
      exact ih

theorem push_type_map_count (k : value_type) (bmi h : Nat) :
    ∀ types : List (value_type × List Nat), (types.map Prod.fst).Nodup →
      ((types.map (fun p => if p.1 = k then (p.1, p.2 ++ [bmi]) else p)).map
          Prod.snd).flatten.count h =
        (types.map Prod.snd).flatten.count h +
          if k ∈ types.map Prod.fst then (if h = bmi then 1 else 0) else 0 := by
  intro types
  induction types with
  | nil => intro _; simp
  | cons q types ih =>
    intro hnd
    rw [List.map_cons, List.nodup_cons] at hnd
    have ih1 := ih hnd.2
    simp only [List.map_cons, List.flatten_cons, List.count_append]
    rw [ih1]
    by_cases hq : q.1 = k
    · have hk : k ∉ types.map Prod.fst := hq ▸ hnd.1
      have hmem : k ∈ q.1 :: types.map Prod.fst := by
        rw [hq]; exact List.mem_cons_self _ _
      rw [if_pos hq, if_neg hk, if_pos hmem]
      simp only [List.count_append, List.count_singleton]
      by_cases hh : h = bmi
      · subst hh; simp; omega
      · have hh2 : ¬ bmi = h := fun e => hh e.symm
        simp [hh, hh2]
    · rw [if_neg hq]
      have hiff : (k ∈ q.1 :: types.map Prod.fst) ↔
          k ∈ types.map Prod.fst := by
        constructor
        · intro hm
          rcases List.mem_cons.1 hm with e | hm
          · exact absurd e.symm hq
          · exact hm
        · exact fun hm => List.mem_cons_of_mem _ hm
      by_cases hk : k ∈ types.map Prod.fst
      · rw [if_pos hk, if_pos (hiff.2 hk)]; omega
      · rw [if_neg hk, if_neg (fun hm => hk (hiff.1 hm))]; omega

theorem push_type_count (types : List (value_type × List Nat))
    (hnd : (types.map Prod.fst).Nodup) (k : value_type) (bmi h : Nat) :
    ((push_type types k bmi).map Prod.snd).flatten.count h =
      (types.map Prod.snd).flatten.count h + if h = bmi then 1 else 0 := by
  unfold push_type
  by_cases hf : (types.find? (fun p => decide (p.1 = k))).isSome = true
  · rw [if_pos hf, push_type_map_count k bmi h types hnd,
      if_pos ((find_isSome_iff_key types k).1 hf)]
  · rw [if_neg hf]
    simp only [List.map_append, List.flatten_append, List.count_append,
      List.map_cons, List.map_nil, List.flatten_cons, List.flatten_nil,
      List.append_nil, List.count_singleton]
    by_cases hh : h = bmi
    · subst hh; simp
    · have hh2 : ¬ bmi = h := fun e => hh e.symm
      simp [hh, hh2]

theorem push_type_keys (types : List (value_type × List Nat))
    (hnd : (types.map Prod.fst).Nodup) (k : value_type) (bmi : Nat) :
    ((push_type types k bmi).map Prod.fst).Nodup := by
  unfold push_type
  by_cases hf : (types.find? (fun p => decide (p.1 = k))).isSome = true
  · rw [if_pos hf]
    have e : (types.map (fun p => if p.1 = k then (p.1, p.2 ++ [bmi])
        else p)).map Prod.fst = types.map Prod.fst := by
      rw [List.map_map]
      apply List.map_congr_left
      intro p _
      by_cases hp : p.1 = k <;> simp [hp]
    rw [e]
    exact hnd
  · rw [if_neg hf]
    have hk : k ∉ types.map Prod.fst :=
      fun hm => hf ((find_isSome_iff_key types k).2 hm)
    rw [List.map_append, List.map_cons, List.map_nil]
    exact List.Nodup.append hnd (List.nodup_singleton _)
      (by
        intro a ha hb
        rw [List.mem_singleton] at hb
        have hb1 : a = k := hb
        exact hk (hb1 ▸ ha))

theorem consistent_enter (idx : event_arg_index) (hc : idx.consistent)
    (o : offset) (k : value_type) (b : bitmap_index)
    (ho : o ∉ idx.args_.map Prod.fst) :
    consistent
      { heap := idx.heap ++ [b],
        args_ := emplace_arg idx.args_ o idx.heap.length,
        types_ := push_type idx.types_ k idx.heap.length } := by
  obtain ⟨h1, h2, h3, h4⟩ := hc
  have hnf : ¬ (idx.args_.find? (fun p => decide (p.1 = o))).isSome = true :=
    fun hf => ho ((find_isSome_iff_key idx.args_ o).1 hf)
  have hargs : emplace_arg idx.args_ o idx.heap.length =
      idx.args_ ++ [(o, idx.heap.length)] := by
    unfold emplace_arg
    rw [if_neg hnf]
  refine ⟨?_, ?_, push_type_keys _ h3 _ _, ?_⟩
  · show ((emplace_arg idx.args_ o idx.heap.length).map Prod.fst).Nodup
    rw [hargs, List.map_append, List.map_cons, List.map_nil]
    exact List.Nodup.append h1 (List.nodup_singleton _)
      (by
        intro a ha hb
        rw [List.mem_singleton] at hb
        have hb1 : a = o := hb
        exact ho (hb1 ▸ ha))
  · show (emplace_arg idx.args_ o idx.heap.length).map Prod.snd =
      List.range (idx.heap ++ [b]).length
    rw [hargs, List.map_append, h2, List.length_append, List.length_singleton,
      List.range_succ]
    rfl
  · intro h
    show ((push_type idx.types_ k idx.heap.length).map Prod.snd).flatten.count
      h = if h < (idx.heap ++ [b]).length then 1 else 0
    rw [push_type_count _ h3, h4 h, List.length_append, List.length_singleton]
    by_cases hlt : h < idx.heap.length
    · have hne : ¬ h = idx.heap.length := by omega
      have hlt2 : h < idx.heap.length + 1 := by omega
      rw [if_pos hlt, if_neg hne, if_pos hlt2]
    · by_cases heq : h = idx.heap.length
      · have hlt2 : h < idx.heap.length + 1 := by omega
        rw [if_neg hlt, if_pos heq, if_pos hlt2]
      · have hlt2 : ¬ h < idx.heap.length + 1 := by omega
        rw [if_neg hlt, if_neg heq, if_neg hlt2]

theorem consistent_push_at (idx : event_arg_index) (hc : idx.consistent)
    (h : Nat) (v : value) (id : Nat) (o : offset) :
    (push_at idx h v id o).2.1.consistent := by
  unfold push_at
  cases hb : idx.heap[h]? with
  | none => exact hc
  | some b =>
    obtain ⟨h1, h2, h3, h4⟩ := hc
    refine ⟨h1, ?_, h3, ?_⟩
    · show idx.args_.map Prod.snd =
        List.range (idx.heap.set h (b.push_back v id).2).length
      rw [List.length_set]
      exact h2
    · intro j
      show (idx.types_.map Prod.snd).flatten.count j =
        if j < (idx.heap.set h (b.push_back v id).2).length then 1 else 0
      rw [List.length_set]
      exact h4 j

theorem consistent_index_data (idx : event_arg_index) (v : value) (id : Nat)
    (o : offset) (hc : idx.consistent) :
    (index_data idx v id o).2.1.consistent := by
  unfold index_data
  cases hf : idx.find_arg o with
  | some h => exact consistent_push_at idx hc h v id o
  | none =>
    cases hcr : bitmap_index.create v.which with
    | none => exact hc
    | some unique =>
      have ho : o ∉ idx.args_.map Prod.fst := by
        intro hm
        have := (find_isSome_iff_key idx.args_ o).2 hm
        unfold find_arg at hf
        rw [Option.map_eq_none'] at hf
        rw [hf] at this
        cases this
      exact consistent_push_at _
        (consistent_enter idx hc o v.which _ ho) _ v id o

theorem consistent_index (idx : event_arg_index) (e : event)
    (hc : idx.consistent) : (idx.index e).2.consistent := by
  unfold index
  by_cases he : e.empty = true
  · rw [if_pos he]; exact hc
  · rw [if_neg he]
    show (index_record idx e.fields e.id [0]).2.1.consistent
    unfold index_record
    have hne : (([0] : offset)).isEmpty = false := rfl
    rw [hne]
    exact index_loop_preserves consistent
      (fun idx v id o h => consistent_index_data idx v id o h)
      e.fields idx e.id [0] hc

theorem consistent_index_all (es : List event) :
    ∀ idx : event_arg_index, idx.consistent → (idx.index_all es).consistent := by
  induction es with
  | nil => intro idx h; exact h
  | cons e es ih =>
    intro idx h
    exact ih _ (consistent_index idx e h)

theorem consistent_empty : ({} : event_arg_index).consistent :=
  ⟨List.nodup_nil, rfl, List.nodup_nil, fun h => by simp⟩

theorem consistent_load
    (files : List (offset × value_type × bitmap_index)) :
    ∀ idx : event_arg_index, idx.consistent →
      (files.map Prod.fst).Nodup →
      (∀ f ∈ files, f.1 ∉ idx.args_.map Prod.fst) →
      (idx.load files).consistent := by
  induction files with
  | nil => intro idx h _ _; exact h
  | cons f files ih =>
    intro idx h hnd hfresh
    rw [List.map_cons, List.nodup_cons] at hnd
    have ho : f.1 ∉ idx.args_.map Prod.fst :=
      hfresh f (List.mem_cons_self _ _)
    have hargs : emplace_arg idx.args_ f.1 idx.heap.length =
        idx.args_ ++ [(f.1, idx.heap.length)] := by
      unfold emplace_arg
      rw [if_neg (fun hf => ho ((find_isSome_iff_key idx.args_ f.1).1 hf))]
    apply ih _ (consistent_enter idx h f.1 f.2.1 f.2.2 ho) hnd.2
    intro g hg
    show g.1 ∉ (emplace_arg idx.args_ f.1 idx.heap.length).map Prod.fst
    rw [hargs, List.map_append, List.mem_append]
    rintro (hm | hm)
    · exact hfresh g (List.mem_cons_of_mem _ hg) hm
    · have : g.1 = f.1 := by simpa using hm
      exact hnd.1 (this ▸ List.mem_map_of_mem Prod.fst hg)

end event_arg_index
namespace event_arg_index

theorem inverse_inner_keys (k : value_type) :
    ∀ (l : List Nat) (inv : List (Nat × value_type)) (h : Nat),
      h ∈ (l.foldl (fun inv bmi =>
          if (inv.find? (fun q => decide (q.1 = bmi))).isSome then inv
          else inv ++ [(bmi, k)]) inv).map Prod.fst ↔
        h ∈ inv.map Prod.fst ∨ h ∈ l := by
  intro l
  induction l with
  | nil => intro inv h; simp
  | cons b l ih =>
    intro inv h
    rw [List.foldl_cons, ih]
    by_cases hf : (inv.find? (fun q => decide (q.1 = b))).isSome = true
    · rw [if_pos hf]
      have hb := (find_isSome_iff_key inv b).1 hf
      constructor
      · rintro (h1 | h1)
        · exact Or.inl h1
        · exact Or.inr (List.mem_cons_of_mem _ h1)
      · rintro (h1 | h1)
        · exact Or.inl h1
        · rcases List.mem_cons.1 h1 with rfl | h1
          · exact Or.inl hb
          · exact Or.inr h1
    · rw [if_neg hf]
      simp only [List.map_append, List.map_cons, List.map_nil, List.mem_append,
        List.mem_singleton, List.mem_cons, List.not_mem_nil, or_false]
      constructor
      · rintro ((h1 | h1) | h1)
        · exact Or.inl h1
        · exact Or.inr (Or.inl h1)
        · exact Or.inr (Or.inr h1)
      · rintro (h1 | h1 | h1)
        · exact Or.inl (Or.inl h1)
        · exact Or.inl (Or.inr h1)
        · exact Or.inr h1

theorem inverse_outer_keys :
    ∀ (types : List (value_type × List Nat)) (inv : List (Nat × value_type))
      (h : Nat),
      h ∈ (types.foldl (fun inv p =>
          p.2.foldl (fun inv bmi =>
            if (inv.find? (fun q => decide (q.1 = bmi))).isSome then inv
            else inv ++ [(bmi, p.1)]) inv) inv).map Prod.fst ↔
        h ∈ inv.map Prod.fst ∨ h ∈ (types.map Prod.snd).flatten := by
  intro types
  induction types with
  | nil => intro inv h; simp
  | cons p types ih =>
    intro inv h
    rw [List.foldl_cons, ih, inverse_inner_keys]
    simp only [List.map_cons, List.flatten_cons, List.mem_append]
    constructor
    · rintro ((h1 | h1) | h1)
      · exact Or.inl h1
      · exact Or.inr (Or.inl h1)
      · exact Or.inr (Or.inr h1)
    · rintro (h1 | h1 | h1)
      · exact Or.inl (Or.inl h1)
      · exact Or.inl (Or.inr h1)
      · exact Or.inr h1

theorem inverse_keys (types : List (value_type × List Nat)) (h : Nat) :
    h ∈ (inverse types).map Prod.fst ↔ h ∈ (types.map Prod.snd).flatten := by
  unfold inverse
  rw [inverse_outer_keys]
  simp

theorem store_loop_ok (assertions : Bool) (empty : bitmap_index → Bool)
    (heap : List bitmap_index) (inv : List (Nat × value_type)) :
    ∀ args : List (offset × Nat),
      (∀ p ∈ args, p.2 < heap.length) →
      (∀ p ∈ args, p.2 ∈ inv.map Prod.fst) →
      ∃ files, store_loop assertions empty heap inv args = .ok files ∧
        (files.map Prod.fst).Sublist (args.map Prod.fst) := by
  intro args
  induction args with
  | nil => intro _ _; exact ⟨[], rfl, List.Sublist.refl _⟩
  | cons p args ih =>
    intro hheap hinv
    obtain ⟨files, hfiles, hsub⟩ := ih
      (fun q hq => hheap q (List.mem_cons_of_mem _ hq))
      (fun q hq => hinv q (List.mem_cons_of_mem _ hq))
    have hp := hheap p (List.mem_cons_self _ _)
    have hfound := (find_isSome_iff_key inv p.2).2
      (hinv p (List.mem_cons_self _ _))
    have hassert : assert assertions
        (inv.find? (fun q => decide (q.1 = p.2))).isSome = .ok () := by
      unfold assert
      rw [hfound]
      simp
    unfold store_loop
    rw [List.getElem?_eq_getElem hp]
    by_cases he : empty heap[p.2] = true
    · simp only [he, if_true]
      exact ⟨files, hfiles, hsub.trans (List.sublist_cons_self _ _)⟩
    · simp only [he, Bool.false_eq_true, if_false, hassert, hfiles]
      exact ⟨_, rfl, by
        rw [List.map_cons, List.map_cons]
        exact hsub.cons₂ _⟩

theorem consistent_tables_agree (idx : event_arg_index)
    (hc : idx.consistent) : idx.tables_agree := by
  obtain ⟨_, h2, _, h4⟩ := hc
  constructor
  · intro p hp
    have hm : p.2 ∈ idx.args_.map Prod.snd := List.mem_map_of_mem Prod.snd hp
    rw [h2, List.mem_range] at hm
    rw [h4, if_pos hm]
  · intro t ht h hh
    have hfl : h ∈ (idx.types_.map Prod.snd).flatten :=
      List.mem_flatten.2 ⟨t.2, List.mem_map_of_mem Prod.snd ht, hh⟩
    have hpos := List.count_pos_iff.2 hfl
    rw [h4] at hpos
    have hlt : h < idx.heap.length := by
      by_contra hcon
      rw [if_neg hcon] at hpos
      omega
    have hm : h ∈ idx.args_.map Prod.snd := by
      rw [h2]; exact List.mem_range.2 hlt
    obtain ⟨p, hp, hph⟩ := List.mem_map.1 hm
    exact ⟨p.1, by rw [← hph]; exact hp⟩

theorem consistent_store (assertions : Bool) (empty : bitmap_index → Bool)
    (idx : event_arg_index) (hc : idx.consistent) :
    ∃ files, idx.store assertions empty = .ok files ∧
      (files.map Prod.fst).Nodup := by
  obtain ⟨h1, h2, _, h4⟩ := hc
  have hlt : ∀ p ∈ idx.args_, p.2 < idx.heap.length := by
    intro p hp
    have hm : p.2 ∈ idx.args_.map Prod.snd := List.mem_map_of_mem Prod.snd hp
    rw [h2, List.mem_range] at hm
    exact hm
  obtain ⟨files, hf, hsub⟩ := store_loop_ok assertions empty idx.heap
    (inverse idx.types_) idx.args_ hlt
    (by
      intro p hp
      rw [inverse_keys]
      apply List.count_pos_iff.1
      rw [h4, if_pos (hlt p hp)]
      exact Nat.one_pos)
  exact ⟨files, hf, hsub.nodup h1⟩

end event_arg_index

theorem consistent_run_calls (calls : List arg_call) :
    ∀ idx : event_arg_index, idx.consistent → idx.loads_fresh calls →
      (idx.run_calls calls).consistent := by
  induction calls with
  | nil => intro idx h _; exact h
  | cons c calls ih =>
    intro idx h hf
    cases c with
    | index e =>
      exact ih _ (event_arg_index.consistent_index idx e h) hf
    | load files =>
      obtain ⟨h1, h2, h3⟩ := hf
      exact ih _ (event_arg_index.consistent_load files idx h h1 h2) h3

/-- Counterexample to C39 as stated: `load` enters the index of a file into
`types_` even when `args_.emplace` finds the offset present and leaves `args_`
as it is. After `index` of an event of id 1 with the single field 42 and a
`load` on a directory with the file `@0.idx`, `args_` holds the one entry for
the offset `[0]`, and the list of `types_` for `int_type` holds the two
pointers 0 and 1: the second one is not stored in `args_`. -/
theorem load_after_index_breaks :
    ((event_arg_index.index {} int_column_event).2.load
      one_file_directory).args_ = [([0], 0)] ∧
    ((event_arg_index.index {} int_column_event).2.load
      one_file_directory).types_ = [(.int_type, [0, 1])] ∧
    ¬ ((event_arg_index.index {} int_column_event).2.load
      one_file_directory).tables_agree := by
  have ha : ((event_arg_index.index {} int_column_event).2.load
      one_file_directory).args_ = [([0], 0)] := rfl
  have ht : ((event_arg_index.index {} int_column_event).2.load
      one_file_directory).types_ = [(.int_type, [0, 1])] := rfl
  refine ⟨ha, ht, ?_⟩
  intro h
  obtain ⟨o, ho⟩ := h.2 (.int_type, [0, 1]) (by rw [ht]; simp) 1 (by simp)
  rw [ha] at ho
  simp at ho

/-- C39, amended: the tables `args_` and `types_` of the argument index agree
in every state reached from the empty index by `index(event)` calls and by
`load` calls that read files with distinct names, none of them an offset that
`args_` already holds (a `load` on a fresh index, in particular). Every bitmap
index stored in `args_` occurs exactly once in the lists of `types_`, hence in
exactly one list, and every element of a list of `types_` is stored in
`args_`. So `store` finds every index of `args_` in its table `inverse`: with
assertions enabled it returns, and the files it writes have distinct names. -/
theorem args_types_consistent (assertions : Bool)
    (empty : bitmap_index → Bool) (calls : List arg_call)
    (hfresh : event_arg_index.loads_fresh {} calls) :
    (event_arg_index.run_calls {} calls).tables_agree ∧
    ∃ written,
      (event_arg_index.run_calls {} calls).store assertions empty =
        .ok written ∧
      (written.map Prod.fst).Nodup := by
  have hc : (event_arg_index.run_calls {} calls).consistent :=
    consistent_run_calls calls {} event_arg_index.consistent_empty hfresh
  exact ⟨event_arg_index.consistent_tables_agree _ hc,
    event_arg_index.consistent_store assertions empty _ hc⟩

theorem args_types_consistent_witness :
    event_arg_index.loads_fresh {}
      [.load one_file_directory, .index two_column_event,
        .index one_column_event] ∧
    (event_arg_index.run_calls {}
      [.load one_file_directory, .index two_column_event,
        .index one_column_event]).tables_agree ∧
    ∃ written,
      (event_arg_index.run_calls {}
        [.load one_file_directory, .index two_column_event,
          .index one_column_event]).store true
          (fun b => decide (b.size = 0)) = .ok written ∧
      (written.map Prod.fst).Nodup :=
  ⟨⟨by decide, (fun f _ hm => nomatch hm), trivial⟩,
    args_types_consistent true (fun b => decide (b.size = 0))
      [.load one_file_directory, .index two_column_event,
        .index one_column_event]
      ⟨by decide, (fun f _ hm => nomatch hm), trivial⟩⟩

/-! ## The sizes of the indexes of one kind -/

theorem list_insert_rows {T : Type} [LinearOrder T] (s : list_storage T)
    (x : T) (b : bitstream) : (s.insert x b).2.rows = s.rows := by
  unfold list_storage.insert
  dsimp only
  split
  · split <;> rfl
  · split
    · split <;> rfl
    · rfl

theorem range_encode_rows_of_true {T : Type} [LinearOrder T]
    (s : list_storage T) (x : T) (h : (range_coder.encode s x).1 = true) :
    (range_coder.encode s x).2.rows = s.rows + 1 := by
  unfold range_coder.encode at h ⊢
  by_cases hf : (s.find x).isNone = true
  · simp only [hf, if_true] at h ⊢
    by_cases hr : (range_coder.insert_seeded s x).1 = true
    · simp only [hr, Bool.not_true, Bool.false_eq_true, if_false]
      show (range_coder.insert_seeded s x).2.rows + 1 = s.rows + 1
      have : (range_coder.insert_seeded s x).2.rows = s.rows := by
        unfold range_coder.insert_seeded
        split <;> exact list_insert_rows _ _ _
      rw [this]
    · simp [hr] at h
  · simp only [hf, Bool.false_eq_true, if_false, Bool.not_true]
    rfl

namespace bitmap_index

theorem append_size (b : bitmap_index) (n : Nat) (bit : Bool) :
    (b.append n bit).2.size = b.size + n := by
  cases b with
  | boolean bm =>
    simp [append, size, bool_bitmap.append, bool_bitmap.size, bitstream.size,
      bitstream.append]
  | arithmetic k bn bm => rfl
  | string bm => rfl

theorem push_back_impl_size (b : bitmap_index) (v : value)
    (h : (b.push_back_impl v).1 = true) :
    (b.push_back_impl v).2.size = b.size + 1 := by
  rcases push_back_impl_cases b v with e | ⟨bm, x, rfl, rfl, e⟩ |
      ⟨k, bn, bm, z, rfl, _, _, e⟩ | ⟨bm, s, rfl, rfl, e⟩
  · rw [e] at h
    cases h
  · rw [e]
    simp [size, bool_bitmap.push_back, bool_bitmap.size, bitstream.size,
      bitstream.push_back]
  · rw [e] at h ⊢
    have h1 : (range_coder.encode bm.coder_ (bin bn z)).1 = true := by
      by_contra hc
      have : (bm.push_back range_policy (bin bn) z).1 = false := by
        unfold bitmap.push_back
        have hc1 : (range_policy.encode bm.coder_ (bin bn z)).1 = false := by
          simpa using hc
        simp [hc1]
      rw [this] at h
      cases h
    have h2 : (range_policy.encode bm.coder_ (bin bn z)).1 = true := h1
    show ((bm.push_back range_policy (bin bn) z).2).size range_policy =
      bm.size range_policy + 1
    unfold bitmap.push_back bitmap.size
    simp only [h2, if_true]
    exact range_encode_rows_of_true bm.coder_ (bin bn z) h1
  · rw [e]
    show ((bm.push_back equality_coder.policy null_binner s).2).size
      equality_coder.policy = bm.size equality_coder.policy + 1
    have h1 := equality_encode_rows bm.coder_ (null_binner s)
    have h2 : (equality_coder.policy.encode bm.coder_ (null_binner s)).1 =
        true := h1.1
    unfold bitmap.push_back bitmap.size
    simp only [h2, if_true]
    exact h1.2

theorem push_back_size (b : bitmap_index) (v : value) (id : Nat)
    (h : (b.push_back v id).1 = true) : (b.push_back v id).2.size = id + 1 := by
  unfold push_back at h ⊢
  by_cases hid : id < b.size
  · simp [hid] at h
  · simp only [hid, if_false] at h ⊢
    by_cases hg : (b.append (id - b.size) false).1 = true
    · simp only [hg, if_true] at h ⊢
      rw [push_back_impl_size _ v h, append_size]
      omega
    · simp [hg] at h

theorem push_back_size_keeps (b : bitmap_index) (v : value) (id : Nat)
    (h : b.size = id + 1) : (b.push_back v id).2.size = id + 1 := by
  rw [push_back_lt b v id (by omega)]
  exact h

end bitmap_index

namespace event_arg_index

theorem push_at_sized_keeps (idx : event_arg_index) (h : Nat) (v : value)
    (id : Nat) (o o0 : offset) (hr : idx.sized o0 (id + 1)) :
    (push_at idx h v id o).2.1.sized o0 (id + 1) := by
  obtain ⟨h0, b0, hf, hb0, hsz⟩ := hr
  have hfa := push_at_find_arg idx h v id o o0
  unfold push_at at hfa ⊢
  cases hb : idx.heap[h]? with
  | none => exact ⟨h0, b0, hf, hb0, hsz⟩
  | some b =>
    simp only [hb] at hfa ⊢
    by_cases hh : h = h0
    · subst hh
      have e : b0 = b := by
        rw [hb] at hb0
        exact (Option.some.inj hb0).symm
      subst e
      refine ⟨h, (b0.push_back v id).2, hfa.trans hf, ?_,
        bitmap_index.push_back_size_keeps b0 v id hsz⟩
      rw [List.getElem?_set]
      simp [(List.getElem?_eq_some.1 hb).1]
    · refine ⟨h0, b0, hfa.trans hf, ?_, hsz⟩
      rw [List.getElem?_set_ne hh]
      exact hb0

theorem push_at_sized (idx : event_arg_index) (h : Nat) (v : value)
    (id : Nat) (o : offset) (hf : idx.find_arg o = some h)
    (hok : (push_at idx h v id o).1 = true) :
    (push_at idx h v id o).2.1.sized o (id + 1) := by
  have hfa := push_at_find_arg idx h v id o o
  unfold push_at at hfa hok ⊢
  cases hb : idx.heap[h]? with
  | none => simp [hb] at hok
  | some b =>
    simp only [hb] at hfa hok ⊢
    refine ⟨h, (b.push_back v id).2, hfa.trans hf, ?_,
      bitmap_index.push_back_size b v id hok⟩
    rw [List.getElem?_set]
    simp [(List.getElem?_eq_some.1 hb).1]

theorem index_data_sized_keeps (o0 : offset) (id : Nat)
    (idx : event_arg_index) (v : value) (o : offset)
    (hr : idx.sized o0 (id + 1)) :
    (index_data idx v id o).2.1.sized o0 (id + 1) := by
  unfold index_data
  cases hf : idx.find_arg o with
  | some h => exact push_at_sized_keeps idx h v id o o0 hr
  | none =>
    cases hc : bitmap_index.create v.which with
    | none => simpa using hr
    | some unique =>
      apply push_at_sized_keeps
      obtain ⟨h0, b0, hf0, hb0, hsz⟩ := hr
      exact ⟨h0, b0, find_arg_emplace_keep idx o o0 _ h0 _ _ hf0,
        getElem?_append_some _ _ h0 b0 hb0, hsz⟩

theorem index_data_sized (idx : event_arg_index) (v : value) (id : Nat)
    (o : offset) (hok : (index_data idx v id o).1 = true) :
    (index_data idx v id o).2.1.sized o (id + 1) := by
  unfold index_data at hok ⊢
  cases hf : idx.find_arg o with
  | some h =>
    simp only [hf] at hok ⊢
    exact push_at_sized idx h v id o hf hok
  | none =>
    cases hc : bitmap_index.create v.which with
    | none => simp [hf, hc] at hok
    | some unique =>
      simp only [hf, hc] at hok ⊢
      exact push_at_sized _ _ _ _ _ (find_arg_emplace_new idx o _ _ _ hf) hok

mutual
theorem index_value_preserves_at (P : event_arg_index → Prop) (id : Nat)
    (hdata : ∀ idx v o, P idx → P (index_data idx v id o).2.1) :
    ∀ (v : value) (idx : event_arg_index) (o : offset),
      P idx → P (index_value v idx id o).2.1
  | .record inner, idx, o, h => by
    have ih := index_loop_preserves_at P id hdata inner idx (o.push_back 0) h
    unfold index_value
    by_cases he : inner.empty = true
    · simp [he, h]
    · have hne : (offset.push_back o 0).isEmpty = false := by
        simp [offset.push_back]
      simp only [he, hne]
      by_cases hr : (index_loop inner idx id (offset.push_back o 0)).1 = true
      · simpa [value.to_bool, value.is_invalid, value.which, hr] using ih
      · simpa [value.to_bool, value.is_invalid, value.which, hr] using ih
  | .invalid, idx, o, h => by simpa [index_value] using h
  | .table, idx, o, h => by simpa [index_value] using h
  | .bool b, idx, o, h => by simpa [index_value] using hdata idx _ o h
  | .int z, idx, o, h => by simpa [index_value] using hdata idx _ o h
  | .time_point t, idx, o, h => by
    simpa [index_value] using hdata idx _ o h
  | .string s, idx, o, h => by simpa [index_value] using hdata idx _ o h
theorem index_loop_preserves_at (P : event_arg_index → Prop) (id : Nat)
    (hdata : ∀ idx v o, P idx → P (index_data idx v id o).2.1) :
    ∀ (r : record) (idx : event_arg_index) (o : offset),
      P idx → P (index_loop r idx id o).2.1
  | .nil, idx, o, h => by simpa [index_loop] using h
  | .cons v rest, idx, o, h => by
    have h1 := index_value_preserves_at P id hdata v idx o h
    unfold index_loop
    by_cases hr : (index_value v idx id o).1 = true
    · simp only [hr, if_true]
      exact index_loop_preserves_at P id hdata rest _ _ h1
    · simpa [hr] using h1
end

mutual
theorem index_value_sized :
    ∀ (v : value) (idx : event_arg_index) (id : Nat) (o : offset),
      (index_value v idx id o).1 = true →
      (index_value v idx id o).2.2 = o ∧
      (v.is_leaf = true → (index_value v idx id o).2.1.sized o (id + 1)) ∧
      (∀ inner, v = .record inner → ∀ (j : Nat) (p : List Nat) (w : value),
        inner.at_path (j :: p) = some w → w.is_leaf = true →
        (index_value v idx id o).2.1.sized (o ++ j :: p) (id + 1))
  | .record inner, idx, id, o, hok => by
    rw [index_value_record] at hok ⊢
    by_cases he : inner.empty = true
    · rw [if_pos he]
      refine ⟨rfl, fun h => by simp [value.is_leaf] at h, ?_⟩
      intro inner1 e j p w hw _
      cases e
      rw [record.empty_eq_true inner he, record.at_path_nil] at hw
      simp at hw
    · rw [if_neg he] at hok ⊢
      by_cases hl : (index_loop inner idx id (o ++ [0])).1 = true
      · rw [if_pos hl]
        obtain ⟨ho, hrec⟩ := index_loop_sized inner idx id o 0 hl
        refine ⟨by rw [ho]; simp, fun h => by simp [value.is_leaf] at h, ?_⟩
        intro inner1 e j p w hw hleaf
        cases e
        simpa using hrec j p w hw hleaf
      · simp [hl] at hok
  | .invalid, idx, id, o, hok =>
    ⟨rfl, fun h => by simp [value.is_leaf] at h, fun _ e => by cases e⟩
  | .table, idx, id, o, hok =>
    ⟨rfl, fun h => by simp [value.is_leaf] at h, fun _ e => by cases e⟩
  | .bool b, idx, id, o, hok =>
    ⟨index_data_offset idx _ id o,
      fun _ => index_data_sized idx _ id o hok, fun _ e => by cases e⟩
  | .int z, idx, id, o, hok =>
    ⟨index_data_offset idx _ id o,
      fun _ => index_data_sized idx _ id o hok, fun _ e => by cases e⟩
  | .time_point t, idx, id, o, hok =>
    ⟨index_data_offset idx _ id o,
      fun _ => index_data_sized idx _ id o hok, fun _ e => by cases e⟩
  | .string s, idx, id, o, hok =>
    ⟨index_data_offset idx _ id o,
      fun _ => index_data_sized idx _ id o hok, fun _ e => by cases e⟩
theorem index_loop_sized :
    ∀ (r : record) (idx : event_arg_index) (id : Nat) (pre : offset)
      (i : Nat), (index_loop r idx id (pre ++ [i])).1 = true →
      (index_loop r idx id (pre ++ [i])).2.2 = pre ++ [i + r.size] ∧
      ∀ (j : Nat) (p : List Nat) (w : value),
        r.at_path (j :: p) = some w → w.is_leaf = true →
        (index_loop r idx id (pre ++ [i])).2.1.sized
          (pre ++ (i + j) :: p) (id + 1)
  | .nil, idx, id, pre, i, hok => by
    refine ⟨rfl, ?_⟩
    intro j p w hw _
    rw [record.at_path_nil] at hw
    simp at hw
  | .cons v rest, idx, id, pre, i, hok => by
    rw [index_loop_cons] at hok ⊢
    by_cases hv : (index_value v idx id (pre ++ [i])).1 = true
    · rw [if_pos hv] at hok ⊢
      obtain ⟨ho, hleaf, hrecd⟩ :=
        index_value_sized v idx id (pre ++ [i]) hv
      rw [ho, offset_incr_back_snoc] at hok ⊢
      obtain ⟨ho2, hrec2⟩ := index_loop_sized rest
        (index_value v idx id (pre ++ [i])).2.1 id pre (i + 1) hok
      refine ⟨by rw [ho2]; simp [record.size]; omega, ?_⟩
      intro j p w hw hwl
      cases j with
      | zero =>
        apply index_loop_preserves_at (fun s => s.sized (pre ++ (i + 0) :: p)
          (id + 1)) id (fun idx v o h => index_data_sized_keeps _ id idx v o h)
        cases p with
        | nil =>
          rw [record.at_path_zero] at hw
          cases hw
          simpa using hleaf hwl
        | cons j1 p1 =>
          obtain ⟨inner, e, hin⟩ :=
            record.at_path_zero_cons v rest j1 p1 w hw
          simpa using hrecd inner e j1 p1 w hin hwl
      | succ j0 =>
        rw [record.at_path_succ] at hw
        have := hrec2 j0 p w hw hwl
        rw [show i + 1 + j0 = i + (j0 + 1) by omega] at this
        exact this
    · simp [hv] at hok
end

end event_arg_index

namespace list_storage

variable {T : Type} [LinearOrder T]

theorem lower_bound_by_of_order (l : List (T × bitstream)) (x : T) :
    lower_bound_by (key_ops.of_order T) l x = lower_bound l x := rfl

theorem upper_bound_by_of_order (l : List (T × bitstream)) (x : T) :
    upper_bound_by (key_ops.of_order T) l x = upper_bound l x := rfl

theorem find_by_of_order (s : list_storage T) (x : T) :
    s.find_by (key_ops.of_order T) x = s.find x := by
  unfold find_by find
  have hany : (s.map_.any (fun k => (key_ops.of_order T).eq k x)) = true ↔
      x ∈ s.map_ := by
    simp [key_ops.of_order]
  by_cases hx : x ∈ s.map_
  · rw [if_pos (hany.2 hx), if_pos hx]
    rfl
  · rw [if_neg (fun h => hx (hany.1 h)), if_neg hx]

theorem find_bounds_by_of_order (s : list_storage T) (x : T) :
    s.find_bounds_by (key_ops.of_order T) x = s.find_bounds x := by
  unfold find_bounds_by find_bounds
  rw [lower_bound_by_of_order, upper_bound_by_of_order]
  by_cases he : s.map_.isEmpty = true
  · rw [if_pos he, if_pos he]
  · rw [if_neg he, if_neg he]
    by_cases h0 : lower_bound s.list_ x ≠ 0
    · simp only [h0, if_true]
      cases hg : s.list_[lower_bound s.list_ x - 1]? with
      | none => rfl
      | some p =>
        by_cases hp : p.1 < x
        · simp [key_ops.of_order, hp]
        · simp [key_ops.of_order, hp]
    · simp only [h0, if_false]

theorem insert_by_of_order (s : list_storage T) (x : T) (b : bitstream) :
    s.insert_by (key_ops.of_order T) x b = s.insert x b := by
  unfold insert_by insert
  rw [lower_bound_by_of_order]
  have hany : (s.map_.any (fun k => (key_ops.of_order T).eq k x)) = true ↔
      x ∈ s.map_ := by
    simp [key_ops.of_order]
  cases hg : s.list_[lower_bound s.list_ x]? with
  | none =>
    by_cases hx : x ∈ s.map_
    · simp only [hg, hany.2 hx, hx, if_true]
    · have hn : ¬ (s.map_.any (fun k => (key_ops.of_order T).eq k x)) = true :=
        fun h => hx (hany.1 h)
      simp only [hg, hn, hx, if_false, Bool.false_eq_true]
  | some p =>
    by_cases hp : x < p.1
    · have hp1 : (key_ops.of_order T).lt x p.1 = true := by
        simp [key_ops.of_order, hp]
      by_cases hx : x ∈ s.map_
      · simp only [hg, hany.2 hx, hx, hp, hp1, if_true]
      · have hn : ¬ (s.map_.any (fun k => (key_ops.of_order T).eq k x)) =
            true := fun h => hx (hany.1 h)
        simp only [hg, hn, hx, hp, hp1, if_true, if_false, Bool.false_eq_true]
    · have hp1 : ¬ (key_ops.of_order T).lt x p.1 = true := by
        simp [key_ops.of_order, hp]
      simp only [hg, hp, hp1, if_false, Bool.false_eq_true]

end list_storage

namespace range_coder

variable {T : Type} [LinearOrder T]

theorem encode_by_of_order (s : list_storage T) (x : T) :
    encode_by (key_ops.of_order T) s x = encode s x := by
  unfold encode_by encode insert_seeded_by insert_seeded
  simp only [list_storage.find_by_of_order,
    list_storage.find_bounds_by_of_order, list_storage.insert_by_of_order]
  rfl

theorem decode_by_of_order (integral : Option (integral_ops T))
    (s : list_storage T) (x : T) (op : relational_operator) :
    decode_by (key_ops.of_order T) integral s x op = decode integral s x op := by
  have hle : ∀ y, decode_less_equal_by (key_ops.of_order T) s y =
      decode_less_equal s y := by
    intro y
    unfold decode_less_equal_by decode_less_equal
    rw [list_storage.find_by_of_order, list_storage.find_bounds_by_of_order]
  have heq : ∀ y, decode_equal_by (key_ops.of_order T) s y =
      decode_equal s y := by
    intro y
    unfold decode_equal_by decode_equal
    rw [hle, list_storage.find_bounds_by_of_order]
  have hlt : ∀ y, decode_less_by (key_ops.of_order T) integral s y =
      decode_less integral s y := by
    intro y
    unfold decode_less_by decode_less
    cases integral with
    | none => rfl
    | some iops =>
      simp only [hle]
      by_cases hy : y = iops.lowest
      · simp [key_ops.of_order, hy]
      · simp [key_ops.of_order, hy]
  cases op <;> simp only [decode_by, decode, hle, heq, hlt]

theorem policy_by_of_order (integral : Option (integral_ops T)) :
    policy_by (key_ops.of_order T) integral = policy integral := by
  unfold policy_by policy
  congr
  · funext s x
    exact encode_by_of_order s x
  · funext s x op
    exact decode_by_of_order integral s x op

end range_coder

namespace unordered_storage

variable {T : Type} [DecidableEq T]

theorem unordered_find_by_eq (s : unordered_storage T) (x : T) :
    s.find_by (fun a b => decide (a = b)) x = s.find x := rfl

theorem unordered_insert_by_eq (s : unordered_storage T) (x : T)
    (b : bitstream) :
    s.insert_by (fun a b => decide (a = b)) x b = s.insert x b := rfl

end unordered_storage

namespace equality_coder

variable {T : Type} [DecidableEq T]

theorem equality_encode_by_eq (s : unordered_storage T) (x : T) :
    encode_by (fun a b => decide (a = b)) s x = encode s x := rfl

theorem equality_decode_by_eq (s : unordered_storage T) (x : T)
    (op : relational_operator) :
    decode_by (fun a b => decide (a = b)) s x op = decode s x op := by
  cases op <;> rfl

theorem equality_policy_by_eq :
    policy_by (fun a b : T => decide (a = b)) = policy := by
  unfold policy_by policy
  congr

end equality_coder

/-! ## Keys of type `double`: NaN -/

/-- Counterexample to C13 as stated: on the range-coded bitmap over `double`
that holds 1.0, `push_back(NaN)` returns false and adds no row. `find(NaN)` is
null, `lower_bound` returns the first node, and `insert` returns false because
`NaN < 1.0` is false; so `encode` fails although every bitstream append
succeeds. The next `push_back(2.0)` returns true again. -/
theorem range_push_back_nan :
    double_one_bitmap.size (range_coder.policy_by double.ops none) = 1 ∧
    (double_one_bitmap.push_back (range_coder.policy_by double.ops none)
      null_binner .nan).1 = false ∧
    (double_one_bitmap.push_back (range_coder.policy_by double.ops none)
      null_binner .nan).2.size (range_coder.policy_by double.ops none) = 1 ∧
    (double_one_bitmap.push_back (range_coder.policy_by double.ops none)
      null_binner .nan).2.valid_ = double_one_bitmap.valid_ ∧
    ((double_one_bitmap.push_back (range_coder.policy_by double.ops none)
      null_binner .nan).2.push_back (range_coder.policy_by double.ops none)
      null_binner (.num 2)).1 = true :=
  ⟨rfl, rfl, rfl, rfl, rfl⟩

/-- Counterexample to C15 as stated: on the ordered storage over `double` that
holds the key 1.0, the key NaN is not stored (`find(NaN)` is null and the list
holds the node of 1.0 only), yet `insert(NaN, {0})` returns false: `lower_bound`
returns the node of 1.0 and `NaN < 1.0` is false. -/
theorem list_insert_nan :
    (double_one_store [true]).list_ = [(.num 1, [true])] ∧
    (double_one_store [true]).find_by double.ops .nan = none ∧
    ((double_one_store [true]).insert_by double.ops .nan [false]).1 = false ∧
    ((double_one_store [true]).insert_by double.ops .nan
      [false]).2.cardinality = 1 :=
  ⟨rfl, rfl, rfl, rfl⟩

/-- Counterexample to C16 as stated: on the range coder over `double` that
holds the key 1.0 in one row, NaN is not yet a key, yet `encode(NaN)` returns
false, adds no key and leaves `rows` at 1: the insert of the seeded bitstream
fails, because `NaN < 1.0` is false. -/
theorem range_encode_nan :
    double_one_bitmap.coder_.find_by double.ops .nan = none ∧
    double_one_bitmap.coder_.rows = 1 ∧
    (range_coder.encode_by double.ops double_one_bitmap.coder_ .nan).1 =
      false ∧
    (range_coder.encode_by double.ops double_one_bitmap.coder_ .nan).2.rows =
      1 ∧
    (range_coder.encode_by double.ops double_one_bitmap.coder_ .nan).2.list_ =
      double_one_bitmap.coder_.list_ ∧
    (range_coder.encode_by double.ops double_one_bitmap.coder_
      .nan).2.find_by double.ops .nan = none :=
  ⟨rfl, rfl, rfl, rfl, rfl, rfl⟩

/-- Counterexample to C33 as stated: on the empty equality-coded bitmap over
`double`, `push_back(NaN)` returns true and writes position 0; the hash table
then holds one bitstream, keyed by NaN, and its bit 0 is not set, because
`encode` pushes `x == k` and `NaN == NaN` is false. No stored bitstream has
its bit set at the position written by the `push_back`. -/
theorem equality_push_back_nan :
    ((equality_bitmap double).push_back
      (equality_coder.policy_by double.ops.eq) null_binner .nan).1 = true ∧
    ((equality_bitmap double).push_back
      (equality_coder.policy_by double.ops.eq) null_binner .nan).2.valid_ =
      [true] ∧
    ((equality_bitmap double).push_back
      (equality_coder.policy_by double.ops.eq) null_binner .nan).2.coder_.map_ =
      [(.nan, [false])] ∧
    ∀ p ∈ ((equality_bitmap double).push_back
      (equality_coder.policy_by double.ops.eq) null_binner .nan).2.coder_.map_,
      p.2.test 0 = false := by
  refine ⟨rfl, rfl, rfl, ?_⟩
  intro p hp
  have hm : ((equality_bitmap double).push_back
      (equality_coder.policy_by double.ops.eq) null_binner .nan).2.coder_.map_ =
      [(.nan, [false])] := rfl
  rw [hm, List.mem_singleton] at hp
  rw [hp]
  rfl

/-- Counterexample to C37 as stated: on the empty ordered storage over
`double`, `insert(NaN, {1})` returns true and the list holds the node of NaN, yet
`find(NaN)` is null, because the hash table compares keys with `==`; and the
later `insert(2.0, {0})` returns false, because `lower_bound` returns the node of
NaN and `2.0 < NaN` is false: 2.0 is not stored. -/
theorem list_insert_nan_not_found :
    (list_storage.insert_by double.ops {} .nan [true]).1 = true ∧
    (list_storage.insert_by double.ops {} .nan [true]).2.list_ =
      [(.nan, [true])] ∧
    (list_storage.insert_by double.ops {} .nan [true]).2.find_by double.ops
      .nan = none ∧
    ((list_storage.insert_by double.ops {} .nan [true]).2.insert_by double.ops
      (.num 2) [false]).1 = false ∧
    ((list_storage.insert_by double.ops {} .nan [true]).2.insert_by double.ops
      (.num 2) [false]).2.find_by double.ops (.num 2) = none :=
  ⟨rfl, rfl, rfl, rfl, rfl⟩

end vast
